import Mathlib

/-!
# Network file server: shallow embedding of the filesystem engine

The development embeds the handlers of `src/network.cpp` (startup scan, path
resolver, directory scans, read/write/create/delete) as pure functions on an
explicit state: the disk (a map from block numbers to blocks) and the
in-memory free set (`std::set<uint32_t> free_disk_blocks`).

Conventions of the embedding.
* `uint32_t` values are natural numbers; a C++ `int` that carries either a
  block number or the failure value `-1` is an `Option Nat` (`none` is `-1`),
  built with `blockToInt`, which sends `2^32 - 1` to `-1` as the cast does.
* `static_cast<int>(inode.size)` is `castInt`.
* `char[...]` arrays are `List Char`; `std::string(arr)` is `cstr arr`.
* A disk block is typed (inode, directory page or data); the views
  `read_inode_block` and `read_dir_block` of a block of another kind give an
  empty record.
* Locks are not modelled: every handler runs alone on the state.
-/

namespace NFS

/-! ## Constants and on-disk records (declared in fs_param.h / fs_server.h) -/

/-- Compile-time constants of the block-I/O collaborator, taken as parameters. -/
structure Params where
  /-- FS_BLOCKSIZE -/
  BS : Nat
  /-- FS_MAXFILEBLOCKS -/
  MFB : Nat
  /-- FS_MAXUSERNAME -/
  MUN : Nat
  /-- FS_MAXFILENAME -/
  MFN : Nat
  /-- FS_MAXPATHNAME -/
  MPN : Nat
  /-- FS_DIRENTRIES -/
  DEP : Nat
  /-- FS_DISKSIZE -/
  N : Nat

/-- The terminating null character. -/
def NUL : Char := Char.ofNat 0

/-- The contents `std::string(arr)` reads out of a char array: everything before the first NUL. -/
def cstr (raw : List Char) : List Char := raw.takeWhile (fun c => c != NUL)

/-- The array of `n + 1` chars left by `strncpy(dst, src.c_str(), n); dst[n] = 0`:
at most `n` chars of the source, NUL padding up to `n`, and the final NUL. -/
def strncpy_term (src : List Char) (n : Nat) : List Char :=
  (cstr src).take n ++ List.replicate (n - ((cstr src).take n).length) NUL ++ [NUL]

/-- Record `fs_direntry`: `char name[FS_MAXFILENAME + 1]; uint32_t inode_block`. -/
structure fs_direntry where
  name : List Char
  inode_block : Nat

/-- Record `fs_inode`: `char type; char owner[FS_MAXUSERNAME + 1]; uint32_t size;
uint32_t blocks[FS_MAXFILEBLOCKS]`. -/
structure fs_inode where
  type : Char
  owner : List Char
  size : Nat
  blocks : Nat → Nat

/-- A disk block, by the kind of record last written to it. -/
inductive Block where
  | inode (i : fs_inode)
  | dir (entries : Nat → fs_direntry)
  | data (bytes : List Char)

/-- The disk: block number to block content. -/
abbrev Disk := Nat → Block

/-- Call `disk_writeblock(b, blk)`. -/
def disk_writeblock (d : Disk) (b : Nat) (blk : Block) : Disk := Function.update d b blk

/-- Function `Network::read_inode_block`: the block seen as an inode. -/
def read_inode_block (d : Disk) (b : Nat) : fs_inode :=
  match d b with
  | Block.inode i => i
  | _ => ⟨NUL, [], 0, fun _ => 0⟩

/-- Call `disk_readblock(b, entries)` into an `fs_direntry[FS_DIRENTRIES]`: the block seen
as a directory page. -/
def read_dir_block (d : Disk) (b : Nat) : Nat → fs_direntry :=
  match d b with
  | Block.dir es => es
  | _ => fun _ => ⟨[], 0⟩

/-- The cast `static_cast<int>(x)` of a `uint32_t`. -/
def castInt (x : Nat) : Int :=
  if x % 4294967296 < 2147483648 then (x % 4294967296 : Nat) else (x % 4294967296 : Nat) - 4294967296

/-- A `uint32_t` block number returned through an `int` whose value `-1` means failure:
`2^32 - 1` is read as the failure value, every other number comes back unchanged. -/
def blockToInt (b : Nat) : Option Nat := if b = 4294967295 then none else some b

/-! ## Requests and outcomes -/

/-- Enum `request_t`. -/
inductive request_t where
  | FS_READBLOCK
  | FS_WRITEBLOCK
  | FS_CREATE
  | FS_DELETE
  deriving DecidableEq

/-- Struct `request` of request.hpp. -/
structure request where
  type : request_t
  block : Int
  username : List Char
  pathname : List Char
  header : List Char
  create_type : Char
  path : List (List Char)
  buf : List Char

/-- The server state a handler works on. -/
structure State where
  disk : Disk
  free : Finset Nat

/-- What a handler sends: `send_all(header.data(), header.size() + 1)` and, for a read,
`send_all(data, FS_BLOCKSIZE)`. -/
structure Reply where
  header : List Char
  data : Option Block

/-- Result of running a handler: the state it leaves, the reply (if any) and the
sequence of `disk_writeblock` calls it made, in order. -/
structure Outcome where
  st : State
  reply : Option Reply
  writes : List (Nat × Block)

/-- A handler that returns before touching anything. -/
def reject (s : State) : Outcome := ⟨s, none, []⟩

/-! ## Free-block allocator -/

/-- Function `Network::get_new_block`: the returned `int` and the free set left. -/
def get_new_block (free : Finset Nat) : Option Nat × Finset Nat :=
  if h : free.Nonempty then
    (blockToInt (free.min' h), free.erase (free.min' h))
  else (none, free)

/-! ## Directory scans -/

/-- Inner loop of `Network::find_child` over the slots of one page: the `inode_block`
at which the loop executes `return`, if it does. -/
def find_in_page (entries : Nat → fs_direntry) (name : List Char) : List Nat → Option Nat
  | [] => none
  | j :: js =>
    if (entries j).inode_block = 0 then find_in_page entries name js
    else if cstr (entries j).name = name then some (entries j).inode_block
    else find_in_page entries name js

/-- Outer loop of `Network::find_child` over the page indices. -/
def find_in_pages (P : Params) (d : Disk) (dir_node : fs_inode) (name : List Char) :
    List Nat → Option Nat
  | [] => none
  | i :: is =>
    match find_in_page (read_dir_block d (dir_node.blocks i)) name (List.range P.DEP) with
    | some b => some b
    | none => find_in_pages P d dir_node name is

/-- Function `Network::find_child`; `none` is the return value `-1`. -/
def find_child (P : Params) (d : Disk) (dir_node : fs_inode) (name : List Char) : Option Nat :=
  (find_in_pages P d dir_node name (List.range dir_node.size)).bind blockToInt

/-- Struct `create_scan_info`. The index fields are read only once `has_open_entry` is set,
and hold naturals then. -/
structure create_scan_info where
  exists_ : Bool
  has_open_entry : Bool
  open_parent_blocks_idx : Nat
  open_dir_offset : Nat
  open_dir_page : Nat → fs_direntry

/-- Inner loop of `Network::scan_directory_for_create` on page `i`; the loop returns
from the function exactly when it sets `exists_`. -/
def scan_create_page (entries : Nat → fs_direntry) (name : List Char) (i : Nat) :
    List Nat → create_scan_info → create_scan_info
  | [], res => res
  | j :: js, res =>
    if (entries j).inode_block = 0 then
      scan_create_page entries name i js
        (if res.has_open_entry then res
         else { res with has_open_entry := true, open_parent_blocks_idx := i,
                         open_dir_offset := j, open_dir_page := entries })
    else if cstr (entries j).name = name then { res with exists_ := true }
    else scan_create_page entries name i js res

/-- Outer loop of `Network::scan_directory_for_create`. -/
def scan_create_pages (P : Params) (d : Disk) (parent_inode : fs_inode) (name : List Char) :
    List Nat → create_scan_info → create_scan_info
  | [], res => res
  | i :: is, res =>
    let res1 := scan_create_page (read_dir_block d (parent_inode.blocks i)) name i
      (List.range P.DEP) res
    if res1.exists_ then res1 else scan_create_pages P d parent_inode name is res1

/-- Function `Network::scan_directory_for_create`. -/
def scan_directory_for_create (P : Params) (d : Disk) (parent_inode : fs_inode)
    (name : List Char) : create_scan_info :=
  scan_create_pages P d parent_inode name (List.range parent_inode.size)
    ⟨false, false, 0, 0, fun _ => ⟨[], 0⟩⟩

/-- Struct `delete_scan_info`. The block and index fields are read only once `found` is
set, and hold naturals then. -/
structure delete_scan_info where
  found : Bool
  inode_block : Nat
  parent_blocks_idx : Nat
  dir_block : Nat
  dir_offset : Nat
  dir_page : Nat → fs_direntry
  only_entry : Bool

/-- Inner loop of `Network::scan_directory_for_delete` on page `i` (block `block`): the
accumulator is the result record, `count` and `target_block` (`none` for `-1`). -/
def scan_delete_page (entries : Nat → fs_direntry) (name : List Char) (i block : Nat) :
    List Nat → delete_scan_info × Nat × Option Nat → delete_scan_info × Nat × Option Nat
  | [], acc => acc
  | j :: js, (res, count, target_block) =>
    if (entries j).inode_block = 0 then
      scan_delete_page entries name i block js (res, count, target_block)
    else if !res.found && decide (cstr (entries j).name = name) then
      scan_delete_page entries name i block js
        ({ res with found := true, inode_block := (entries j).inode_block,
                    parent_blocks_idx := i, dir_block := block, dir_page := entries,
                    dir_offset := j }, count + 1, some j)
    else scan_delete_page entries name i block js (res, count + 1, target_block)

/-- Outer loop of `Network::scan_directory_for_delete`. -/
def scan_delete_pages (P : Params) (d : Disk) (parent_inode : fs_inode) (name : List Char) :
    List Nat → delete_scan_info → delete_scan_info
  | [], res => res
  | i :: is, res =>
    let acc := scan_delete_page (read_dir_block d (parent_inode.blocks i)) name i
      (parent_inode.blocks i) (List.range P.DEP) (res, 0, none)
    if acc.1.found && acc.2.2.isSome then { acc.1 with only_entry := decide (acc.2.1 = 1) }
    else scan_delete_pages P d parent_inode name is acc.1

/-- Function `Network::scan_directory_for_delete`. -/
def scan_directory_for_delete (P : Params) (d : Disk) (parent_inode : fs_inode)
    (name : List Char) : delete_scan_info :=
  scan_delete_pages P d parent_inode name (List.range parent_inode.size)
    ⟨false, 0, 0, 0, 0, fun _ => ⟨[], 0⟩, false⟩

/-! ## Path resolver -/

/-- The `while (!path.empty())` loop of `Network::path_find_impl`, from `curr_block`. -/
def path_find_loop (P : Params) (d : Disk) (user : List Char) :
    List (List Char) → Nat → Option Nat
  | [], curr_block => blockToInt curr_block
  | target :: rest, curr_block =>
    if (read_inode_block d curr_block).type ≠ 'd' ∨
        (cstr (read_inode_block d curr_block).owner ≠ user ∧
         cstr (read_inode_block d curr_block).owner ≠ []) then none
    else
      match find_child P d (read_inode_block d curr_block) target with
      | none => none
      | some child_block => path_find_loop P d user rest child_block

/-- Function `Network::path_find_impl` (both `path_find` and `path_find_upgrade`). -/
def path_find (P : Params) (d : Disk) (path : List (List Char)) (user : List Char) :
    Option Nat :=
  if path = [] then some 0 else path_find_loop P d user path 0

/-! ## Handlers -/

/-- The bytes of the first `send_all`: the request header and its terminating NUL. -/
def header_bytes (req : request) : List Char := req.header ++ [NUL]

/-- Function `Network::read_block`. -/
def read_block (P : Params) (s : State) (req : request) : Outcome :=
  match path_find P s.disk req.path req.username with
  | none => reject s
  | some target_inode_block =>
    let target_inode := read_inode_block s.disk target_inode_block
    if target_inode.type ≠ 'f' ∨ cstr target_inode.owner ≠ req.username then reject s
    else if req.block ≥ castInt target_inode.size ∨
        target_inode.blocks req.block.toNat = 0 then reject s
    else
      ⟨s, some ⟨header_bytes req, some (s.disk (target_inode.blocks req.block.toNat))⟩, []⟩

/-- Function `Network::write_block`. -/
def write_block (P : Params) (s : State) (req : request) : Outcome :=
  match path_find P s.disk req.path req.username with
  | none => reject s
  | some target_inode_block =>
    let target_inode := read_inode_block s.disk target_inode_block
    if req.block > castInt target_inode.size then reject s
    else if target_inode.type ≠ 'f' ∨ cstr target_inode.owner ≠ req.username then reject s
    else if req.block ≠ castInt target_inode.size then
      -- overwrite
      let b := target_inode.blocks req.block.toNat
      ⟨⟨disk_writeblock s.disk b (Block.data req.buf), s.free⟩,
        some ⟨header_bytes req, none⟩, [(b, Block.data req.buf)]⟩
    else if target_inode.size ≥ P.MFB then reject s
    else
      match get_new_block s.free with
      | (none, free1) => ⟨⟨s.disk, free1⟩, none, []⟩
      | (some next_block, free1) =>
        let target_inode1 : fs_inode :=
          { target_inode with
            blocks := Function.update target_inode.blocks target_inode.size next_block,
            size := target_inode.size + 1 }
        -- data first
        let d1 := disk_writeblock s.disk next_block (Block.data req.buf)
        -- then inode
        let d2 := disk_writeblock d1 target_inode_block (Block.inode target_inode1)
        ⟨⟨d2, free1⟩, some ⟨header_bytes req, none⟩,
          [(next_block, Block.data req.buf), (target_inode_block, Block.inode target_inode1)]⟩

/-- The inode `fs_inode new_inode{}` after `sys_create` has filled in type and owner. -/
def new_inode (P : Params) (req : request) : fs_inode :=
  ⟨req.create_type, strncpy_term req.username P.MUN, 0, fun _ => 0⟩

/-- The direntry written at the chosen slot by `sys_create`. -/
def new_direntry (P : Params) (new_name : List Char) (new_inode_block : Nat) : fs_direntry :=
  ⟨strncpy_term new_name P.MFN, new_inode_block⟩

/-- The page buffer after `std::memset(dbuf, 0, FS_BLOCKSIZE)`. -/
def zero_page (P : Params) : Nat → fs_direntry :=
  fun _ => ⟨List.replicate (P.MFN + 1) NUL, 0⟩

/-- Function `Network::sys_create`. -/
def sys_create (P : Params) (s : State) (req : request) : Outcome :=
  let new_name := req.path.getLastD []
  match path_find P s.disk req.path.dropLast req.username with
  | none => reject s
  | some parent_inode_block =>
    let parent_inode := read_inode_block s.disk parent_inode_block
    if parent_inode.type ≠ 'd' ∨
        (cstr parent_inode.owner ≠ req.username ∧ cstr parent_inode.owner ≠ []) then reject s
    else
      let scan := scan_directory_for_create P s.disk parent_inode new_name
      if scan.exists_ then reject s
      else if scan.has_open_entry then
        let slot_block := scan.open_parent_blocks_idx
        let slot_offset := scan.open_dir_offset
        let dir_data_block := parent_inode.blocks slot_block
        match get_new_block s.free with
        | (none, free1) => ⟨⟨s.disk, free1⟩, none, []⟩
        | (some new_inode_block, free1) =>
          let d1 := disk_writeblock s.disk new_inode_block (Block.inode (new_inode P req))
          let entries := Function.update scan.open_dir_page slot_offset
            (new_direntry P new_name new_inode_block)
          let d2 := disk_writeblock d1 dir_data_block (Block.dir entries)
          ⟨⟨d2, free1⟩, some ⟨header_bytes req, none⟩,
            [(new_inode_block, Block.inode (new_inode P req)),
             (dir_data_block, Block.dir entries)]⟩
      else if parent_inode.size ≥ P.MFB then reject s
      else
        match get_new_block s.free with
        | (none, free1) => ⟨⟨s.disk, free1⟩, none, []⟩
        | (some new_dir_block, free1) =>
          match get_new_block free1 with
          | (none, free2) => ⟨⟨s.disk, insert new_dir_block free2⟩, none, []⟩
          | (some new_inode_block, free2) =>
            let d1 := disk_writeblock s.disk new_inode_block (Block.inode (new_inode P req))
            let entries := Function.update (zero_page P) 0
              (new_direntry P new_name new_inode_block)
            let parent_inode1 : fs_inode :=
              { parent_inode with
                blocks := Function.update parent_inode.blocks parent_inode.size new_dir_block,
                size := parent_inode.size + 1 }
            let d2 := disk_writeblock d1 new_dir_block (Block.dir entries)
            let d3 := disk_writeblock d2 parent_inode_block (Block.inode parent_inode1)
            ⟨⟨d3, free2⟩, some ⟨header_bytes req, none⟩,
              [(new_inode_block, Block.inode (new_inode P req)),
               (new_dir_block, Block.dir entries),
               (parent_inode_block, Block.inode parent_inode1)]⟩

/-- The "delete compression" loop of `sys_delete`:
`for (i = idx; i + 1 < size; ++i) blocks[i] = blocks[i + 1]`, run for `fuel` rounds. -/
def shift_left (size : Nat) : Nat → Nat → (Nat → Nat) → (Nat → Nat)
  | 0, _, blocks => blocks
  | fuel + 1, i, blocks =>
    if i + 1 < size then shift_left size fuel (i + 1) (Function.update blocks i (blocks (i + 1)))
    else blocks

/-- The loop of `sys_delete` returning the target's `blocks[0..size)` to the free set. -/
def free_blocks (target_inode : fs_inode) : List Nat → Finset Nat → Finset Nat
  | [], free => free
  | i :: is, free =>
    if target_inode.blocks i ≠ 0 then free_blocks target_inode is (insert (target_inode.blocks i) free)
    else free_blocks target_inode is free

/-- The direntry left in the page by `inode_block = 0; name[0] = 0`. -/
def cleared_direntry (e : fs_direntry) : fs_direntry := ⟨e.name.set 0 NUL, 0⟩

/-- Function `Network::sys_delete`. -/
def sys_delete (P : Params) (s : State) (req : request) : Outcome :=
  let target_file := req.path.getLastD []
  match path_find P s.disk req.path.dropLast req.username with
  | none => reject s
  | some parent_inode_block =>
    let parent_inode := read_inode_block s.disk parent_inode_block
    if parent_inode.type ≠ 'd' ∨
        (cstr parent_inode.owner ≠ req.username ∧ cstr parent_inode.owner ≠ []) then reject s
    else
      let scan := scan_directory_for_delete P s.disk parent_inode target_file
      if !scan.found then reject s
      else
        let target_inode_block := scan.inode_block
        let target_inode := read_inode_block s.disk target_inode_block
        if cstr target_inode.owner ≠ req.username then reject s
        else if target_inode.type = 'd' ∧ target_inode.size > 0 then reject s
        else if !scan.only_entry then
          let page := Function.update scan.dir_page scan.dir_offset
            (cleared_direntry (scan.dir_page scan.dir_offset))
          let d1 := disk_writeblock s.disk scan.dir_block (Block.dir page)
          let free1 := free_blocks target_inode (List.range target_inode.size) s.free
          ⟨⟨d1, insert target_inode_block free1⟩, some ⟨header_bytes req, none⟩,
            [(scan.dir_block, Block.dir page)]⟩
        else
          let parent_inode1 : fs_inode :=
            { parent_inode with
              blocks := shift_left parent_inode.size parent_inode.size scan.parent_blocks_idx
                parent_inode.blocks,
              size := parent_inode.size - 1 }
          let d1 := disk_writeblock s.disk parent_inode_block (Block.inode parent_inode1)
          let free1 := insert scan.dir_block s.free
          let free2 := free_blocks target_inode (List.range target_inode.size) free1
          ⟨⟨d1, insert target_inode_block free2⟩, some ⟨header_bytes req, none⟩,
            [(parent_inode_block, Block.inode parent_inode1)]⟩

/-! ## Startup scan -/

/-- The inner `for j` loop of `sys_init` on one directory page: pushes the non-zero
`inode_block`s on the deque (the list head is the back of the deque). -/
def push_children (entries : Nat → fs_direntry) : List Nat → List Nat → List Nat
  | [], stack => stack
  | j :: js, stack =>
    if (entries j).inode_block = 0 then push_children entries js stack
    else push_children entries js ((entries j).inode_block :: stack)

/-- The `for i` loop of `sys_init` over the pages of a directory inode. -/
def scan_dir_pages (P : Params) (d : Disk) (curr_inode : fs_inode) :
    List Nat → Finset Nat × List Nat → Finset Nat × List Nat
  | [], acc => acc
  | i :: is, (free, stack) =>
    if curr_inode.blocks i = 0 then scan_dir_pages P d curr_inode is (free, stack)
    else
      scan_dir_pages P d curr_inode is
        (free.erase (curr_inode.blocks i),
         push_children (read_dir_block d (curr_inode.blocks i)) (List.range P.DEP) stack)

/-- The `for i` loop of `sys_init` over the data blocks of a file inode. -/
def erase_file_blocks (curr_inode : fs_inode) : List Nat → Finset Nat → Finset Nat
  | [], free => free
  | i :: is, free => erase_file_blocks curr_inode is (free.erase (curr_inode.blocks i))

/-- The `while (!d.empty())` loop of `sys_init`, for at most `fuel` iterations; the result
is the free set left and the blocks popped, in order. `none`: the loop is still
running after `fuel` iterations. -/
def sys_init_loop (P : Params) (d : Disk) :
    Nat → List Nat → Finset Nat → List Nat → Option (Finset Nat × List Nat)
  | _, [], free, popped => some (free, popped)
  | 0, _ :: _, _, _ => none
  | fuel + 1, curr_block :: rest, free, popped =>
    let curr_inode := read_inode_block d curr_block
    let free1 := free.erase curr_block
    if curr_inode.type = 'd' then
      let acc := scan_dir_pages P d curr_inode (List.range curr_inode.size) (free1, rest)
      sys_init_loop P d fuel acc.2 acc.1 (popped ++ [curr_block])
    else if curr_inode.type = 'f' then
      sys_init_loop P d fuel rest
        (erase_file_blocks curr_inode (List.range curr_inode.size) free1)
        (popped ++ [curr_block])
    else sys_init_loop P d fuel rest free1 (popped ++ [curr_block])

/-- Function `Network::sys_init` run for at most `fuel` iterations of its loop. -/
def sys_init (P : Params) (d : Disk) (fuel : Nat) : Option (Finset Nat × List Nat) :=
  sys_init_loop P d fuel [0] (Finset.range P.N) []

/-! ## The block graph of a disk image -/

/-- The blocks an inode uses: `blocks[0..size)`, directory pages or file data blocks. -/
def used_blocks (ino : fs_inode) : List Nat := (List.range ino.size).map ino.blocks

/-- The `inode_block`s of the non-empty direntries of the page in block `pg`, in slot order. -/
def page_children (P : Params) (d : Disk) (pg : Nat) : List Nat :=
  ((List.range P.DEP).map (fun j => (read_dir_block d pg j).inode_block)).filter (fun c => c ≠ 0)

/-- The child inode blocks a directory inode refers to, in page order then slot order. -/
def children (P : Params) (d : Disk) (ino : fs_inode) : List Nat :=
  (used_blocks ino).flatMap (page_children P d)

/-- All block references held by the inode stored in block `b`: pages and children for a
directory, data blocks for a file. -/
def refs (P : Params) (d : Disk) (b : Nat) : List Nat :=
  if (read_inode_block d b).type = 'd' then
    used_blocks (read_inode_block d b) ++ children P d (read_inode_block d b)
  else if (read_inode_block d b).type = 'f' then used_blocks (read_inode_block d b)
  else []

/-- Inode blocks reachable from the root inode (block 0) through directory entries. -/
inductive InodeReach (P : Params) (d : Disk) : Nat → Prop where
  | root : InodeReach P d 0
  | child (p c : Nat) : InodeReach P d p → (read_inode_block d p).type = 'd' →
      c ∈ children P d (read_inode_block d p) → InodeReach P d c

/-- Blocks reachable from root: inode blocks, directory pages and file data blocks. -/
def Reachable (P : Params) (d : Disk) (b : Nat) : Prop :=
  InodeReach P d b ∨ ∃ p, InodeReach P d p ∧ b ∈ refs P d p

/-- The directory structure reachable from block 0 is a tree of valid inodes in which no
block is referenced twice (block 0 counts as referenced, being the root). -/
structure TreeShaped (P : Params) (d : Disk) : Prop where
  type_ok : ∀ p, InodeReach P d p →
    (read_inode_block d p).type = 'd' ∨ (read_inode_block d p).type = 'f'
  size_ok : ∀ p, InodeReach P d p → (read_inode_block d p).size ≤ P.MFB
  refs_nodup : ∀ p, InodeReach P d p → (refs P d p).Nodup
  refs_ne_zero : ∀ p, InodeReach P d p → 0 ∉ refs P d p
  refs_disjoint : ∀ p q, InodeReach P d p → InodeReach P d q → p ≠ q →
    ∀ b, b ∈ refs P d p → b ∉ refs P d q

/-- Every referenced block number is a block of the disk. -/
def Bounded (P : Params) (d : Disk) : Prop :=
  0 < P.N ∧ ∀ p, InodeReach P d p → ∀ b ∈ refs P d p, b < P.N

/-- Invariant I1: the free set is exactly the set of blocks in `[0, N)` not reachable from
root. -/
def FreeExact (P : Params) (s : State) : Prop :=
  ∀ b, b ∈ s.free ↔ b < P.N ∧ ¬ Reachable P s.disk b

/-- The free set holds no reachable block. -/
def FreeDisjoint (P : Params) (s : State) : Prop :=
  ∀ b, b ∈ s.free → ¬ Reachable P s.disk b

/-- A well-formed disk image: tree-shaped, all referenced block numbers below `N`. -/
def WellFormedDisk (P : Params) (d : Disk) : Prop := TreeShaped P d ∧ Bounded P d

/-- A well-formed server state: a well-formed disk and the exact free set. -/
def WellFormed (P : Params) (s : State) : Prop :=
  TreeShaped P s.disk ∧ Bounded P s.disk ∧ FreeExact P s

/-- Constraints on the constants that the code relies on: a page has a slot, the inode
capacity fits an `int`, and every block number of the disk is a `uint32_t` other than
the one read as `-1`. -/
def Params.ok (P : Params) : Prop :=
  0 < P.DEP ∧ P.MFB < 2147483648 ∧ P.N ≤ 4294967295

/-- What `parse_request` guarantees about the user name and the path of a request it
accepts (and the framing in `receive_data`, which stops at the first NUL). -/
def ValidNames (P : Params) (req : request) : Prop :=
  req.username ≠ [] ∧ req.username.length ≤ P.MUN ∧ NUL ∉ req.username ∧
  req.path ≠ [] ∧ ∀ c ∈ req.path, c ≠ [] ∧ c.length ≤ P.MFN ∧ NUL ∉ c

/-- What `fill_block` guarantees about the block index of a read or write request. -/
def ValidBlock (P : Params) (req : request) : Prop := 0 ≤ req.block ∧ req.block < P.MFB

/-- What `create_re` guarantees about the kind of a create request. -/
def ValidKind (req : request) : Prop := req.create_type = 'f' ∨ req.create_type = 'd'

/-- The disk after the first `k` writes of a sequence of `disk_writeblock` calls. -/
def apply_writes (d : Disk) : List (Nat × Block) → Disk
  | [] => d
  | w :: ws => apply_writes (disk_writeblock d w.1 w.2) ws

/-! ## Local changes of a disk image -/

/-- Disk `d1` agrees with `d` on the inode block `p` and on every block it uses. -/
def Agree (d d1 : Disk) (p : Nat) : Prop :=
  d1 p = d p ∧ ∀ pg ∈ used_blocks (read_inode_block d p), d1 pg = d pg

/-- A change of the disk from `d` to `d1` that adds the fresh blocks `A` to the references
of the reachable inode `P0`, the blocks `I` among them being new childless inodes, and
leaves every other reachable inode and the blocks it uses alone. -/
structure AddStep (P : Params) (d d1 : Disk) (P0 : Nat) (A I : List Nat) : Prop where
  tree : TreeShaped P d
  reach0 : InodeReach P d P0
  other : ∀ p, InodeReach P d p → p ≠ P0 → Agree d d1 p
  type0 : (read_inode_block d1 P0).type = (read_inode_block d P0).type
  size0 : (read_inode_block d1 P0).size ≤ P.MFB
  refs0 : List.Perm (refs P d1 P0) (A ++ refs P d P0)
  child0 : (read_inode_block d P0).type = 'd' →
    ∀ c, c ∈ children P d1 (read_inode_block d1 P0) ↔
      c ∈ children P d (read_inode_block d P0) ∨ c ∈ I
  newdir : ∀ n ∈ I, (read_inode_block d P0).type = 'd'
  sub : ∀ n ∈ I, n ∈ A
  new_type : ∀ n ∈ I, (read_inode_block d1 n).type = 'd' ∨ (read_inode_block d1 n).type = 'f'
  new_size : ∀ n ∈ I, (read_inode_block d1 n).size ≤ P.MFB
  new_refs : ∀ n ∈ I, refs P d1 n = []
  nodup : A.Nodup
  fresh : ∀ a ∈ A, ¬ Reachable P d a

/-- A change of the disk from `d` to `d1` that removes the references `R` from the
reachable directory inode `P0`, among them its childless child `T`, and leaves every
other reachable inode and the blocks it uses alone. -/
structure DelStep (P : Params) (d d1 : Disk) (P0 T : Nat) (R : List Nat) : Prop where
  tree : TreeShaped P d
  reach0 : InodeReach P d P0
  type0d : (read_inode_block d P0).type = 'd'
  target : T ∈ children P d (read_inode_block d P0)
  leaf : (read_inode_block d T).type = 'd' → (read_inode_block d T).size = 0
  other : ∀ p, InodeReach P d p → p ≠ P0 → Agree d d1 p
  type0 : (read_inode_block d1 P0).type = 'd'
  size0 : (read_inode_block d1 P0).size ≤ P.MFB
  refs0 : List.Perm (refs P d P0) (R ++ refs P d1 P0)
  child0 : ∀ c, c ∈ children P d1 (read_inode_block d1 P0) ↔
    c ∈ children P d (read_inode_block d P0) ∧ c ≠ T
  targetR : T ∈ R

/-! ## Invariants of the directory scans -/

/-- The open slot a create scan has recorded, if any, is an empty slot of a used page, and
the recorded page is the content of that page. -/
def OpenOK (P : Params) (d : Disk) (ino : fs_inode) (res : create_scan_info) : Prop :=
  res.has_open_entry = true →
    res.open_parent_blocks_idx < ino.size ∧ res.open_dir_offset < P.DEP ∧
    res.open_dir_page = read_dir_block d (ino.blocks res.open_parent_blocks_idx) ∧
    (res.open_dir_page res.open_dir_offset).inode_block = 0

/-- What a delete scan has recorded is a direntry of a used page that carries the name. -/
def FoundOK (P : Params) (d : Disk) (ino : fs_inode) (name : List Char)
    (res : delete_scan_info) : Prop :=
  res.parent_blocks_idx < ino.size ∧ res.dir_offset < P.DEP ∧
  res.dir_block = ino.blocks res.parent_blocks_idx ∧
  res.dir_page = read_dir_block d res.dir_block ∧
  (res.dir_page res.dir_offset).inode_block = res.inode_block ∧
  res.inode_block ≠ 0 ∧ cstr (res.dir_page res.dir_offset).name = name

/-- Invariant of the inner loop of the delete scan on page `i`: a target offset is set
only together with a record for this page. -/
def DelOK (P : Params) (d : Disk) (ino : fs_inode) (name : List Char) (i : Nat)
    (acc : delete_scan_info × Nat × Option Nat) : Prop :=
  (acc.2.2.isSome = true → acc.1.found = true ∧ acc.1.parent_blocks_idx = i) ∧
  (acc.2.2.isSome = true → FoundOK P d ino name acc.1)

/-! ## Invariant of the startup scan -/

/-- Invariant of the loop of `sys_init` on a tree-shaped disk: the deque and the popped
blocks are distinct reachable inodes, each of them but the root is a child of a popped
directory, the children of popped directories are on the deque or popped, and the free
set has lost exactly the popped inodes and the blocks they use. -/
structure DfsInv (P : Params) (d : Disk) (stack : List Nat) (free : Finset Nat)
    (popped : List Nat) : Prop where
  stack_nodup : stack.Nodup
  popped_nodup : popped.Nodup
  disjoint : ∀ x ∈ stack, x ∉ popped
  stack_reach : ∀ x ∈ stack, InodeReach P d x
  popped_reach : ∀ x ∈ popped, InodeReach P d x
  parent : ∀ x, x ∈ stack ∨ x ∈ popped → x = 0 ∨ ∃ p ∈ popped,
    (read_inode_block d p).type = 'd' ∧ x ∈ children P d (read_inode_block d p)
  closed : ∀ p ∈ popped, (read_inode_block d p).type = 'd' →
    ∀ c ∈ children P d (read_inode_block d p), c ∈ stack ∨ c ∈ popped
  root : 0 ∈ stack ∨ 0 ∈ popped
  free_ok : ∀ b, b ∈ free ↔
    b < P.N ∧ b ∉ popped ∧ ∀ p ∈ popped, b ∉ used_blocks (read_inode_block d p)

/-! ## Example states (constants of the seed scenarios of the specification) -/

/-- The constants of the seed scenarios. -/
def exP : Params := ⟨1024, 16, 6, 10, 128, 32, 64⟩

/-- A zero-padded char array holding `s`. -/
def padded (s : List Char) (n : Nat) : List Char := s ++ List.replicate (n + 1 - s.length) NUL

/-- The user name "alice". -/
def alice : List Char := ['a', 'l', 'i', 'c', 'e']

/-- The root inode of a fresh file system. -/
def fresh_root : fs_inode := ⟨'d', padded [] 6, 0, fun _ => 0⟩

/-- A fresh file system: only the root inode. -/
def fresh_disk : Disk := fun b => if b = 0 then Block.inode fresh_root else Block.data []

/-- The server state after `sys_init` on the fresh file system. -/
def fresh_state : State := ⟨fresh_disk, Finset.Ico 1 64⟩

/-- The root inode with one directory page, block 1. -/
def ex_root : fs_inode := ⟨'d', padded [] 6, 1, fun i => if i = 0 then 1 else 0⟩

/-- The directory page of root: slot 0 names file "a" at block 2. -/
def ex_page : Nat → fs_direntry :=
  fun j => if j = 0 then ⟨padded ['a'] 10, 2⟩ else ⟨padded [] 10, 0⟩

/-- The inode of file "a": owned by alice, one data block, block 3. -/
def ex_file : fs_inode := ⟨'f', padded alice 6, 1, fun i => if i = 0 then 3 else 0⟩

/-- A disk holding the file `/a` of alice with one data block. -/
def ex_disk : Disk := fun b =>
  if b = 0 then Block.inode ex_root
  else if b = 1 then Block.dir ex_page
  else if b = 2 then Block.inode ex_file
  else if b = 3 then Block.data (List.replicate 1024 'A')
  else Block.data []

/-- The server state for `ex_disk`. -/
def ex_state : State := ⟨ex_disk, Finset.Ico 4 64⟩

/-- A request record with the given fields (the `pathname` is not used by the handlers). -/
def mk_request (t : request_t) (user : List Char) (path : List (List Char)) (block : Int)
    (kind : Char) (buf : List Char) : request :=
  ⟨t, block, user, [], [], kind, path, buf⟩

/-- Request: alice writes block 1 of `/a` (an extension). -/
def ex_write_extend : request :=
  mk_request request_t.FS_WRITEBLOCK alice [['a']] 1 'f' (List.replicate 1024 'B')

/-- Request: alice writes block 0 of `/a` (an overwrite). -/
def ex_write_over : request :=
  mk_request request_t.FS_WRITEBLOCK alice [['a']] 0 'f' (List.replicate 1024 'C')

/-- Request: alice reads block 0 of `/a`. -/
def ex_read : request := mk_request request_t.FS_READBLOCK alice [['a']] 0 'f' []

/-- Request: alice creates the file `/b`. -/
def ex_create : request := mk_request request_t.FS_CREATE alice [['b']] 0 'f' []

/-- A directory page with two names for the same inode block 2. -/
def dag_page : Nat → fs_direntry :=
  fun j => if j = 0 then ⟨padded ['a'] 10, 2⟩ else if j = 1 then ⟨padded ['b'] 10, 2⟩
    else ⟨padded [] 10, 0⟩

/-- A disk image in which two direntries of root refer to the same file inode. -/
def dag_disk : Disk := fun b =>
  if b = 0 then Block.inode ex_root
  else if b = 1 then Block.dir dag_page
  else if b = 2 then Block.inode ex_file
  else Block.data []

/-- A directory inode owned by alice with one page, block 3. -/
def cyc_dir : fs_inode := ⟨'d', padded alice 6, 1, fun i => if i = 0 then 3 else 0⟩

/-- A directory page whose slot 0 refers back to the directory at block 2. -/
def cyc_page : Nat → fs_direntry :=
  fun j => if j = 0 then ⟨padded ['a'] 10, 2⟩ else ⟨padded [] 10, 0⟩

/-- A disk image with a cycle: directory `/a` (block 2) contains an entry for itself. -/
def cyc_disk : Disk := fun b =>
  if b = 0 then Block.inode ex_root
  else if b = 1 then Block.dir ex_page
  else if b = 2 then Block.inode cyc_dir
  else if b = 3 then Block.dir cyc_page
  else Block.data []

/-- Request: alice deletes `/a`. -/
def ex_delete : request := mk_request request_t.FS_DELETE alice [['a']] 0 'f' []

/-! ## Directory contents by name -/

/-- The non-empty direntries of the page in block `pg`, in slot order, each as the pair of
its name (as `std::string(name)` reads it) and its `inode_block`. -/
def page_entries (P : Params) (d : Disk) (pg : Nat) : List (List Char × Nat) :=
  (((List.range P.DEP).map (read_dir_block d pg)).filter (fun e => e.inode_block ≠ 0)).map
    (fun e => (cstr e.name, e.inode_block))

/-- The non-empty direntries of a directory inode, in page order then slot order. -/
def dir_entries (P : Params) (d : Disk) (ino : fs_inode) : List (List Char × Nat) :=
  (used_blocks ino).flatMap (page_entries P d)

/-- The `inode_block` of the first entry of a list that carries the name. -/
def lookup_name (name : List Char) (l : List (List Char × Nat)) : Option Nat :=
  (l.find? (fun x => decide (x.1 = name))).map Prod.snd

/-- Invariant I3: within any reachable directory, no two non-empty direntries share a
name. -/
def NamesUnique (P : Params) (d : Disk) : Prop :=
  ∀ p, InodeReach P d p → (read_inode_block d p).type = 'd' →
    ((dir_entries P d (read_inode_block d p)).map Prod.fst).Nodup

/-- Directory tightness: every used page `blocks[0..size)` of every reachable directory
holds at least one non-empty direntry. -/
def Tight (P : Params) (d : Disk) : Prop :=
  ∀ p, InodeReach P d p → (read_inode_block d p).type = 'd' →
    ∀ pg ∈ used_blocks (read_inode_block d p), page_children P d pg ≠ []

/-- No dangling reference: every inode block reachable from root (the root and every block
a reachable non-empty direntry refers to) holds a written inode of a valid type, and every
page referenced by a reachable directory inode holds a written directory page. -/
def NoDangling (P : Params) (d : Disk) : Prop :=
  ∀ p, InodeReach P d p →
    (∃ ino, d p = Block.inode ino ∧ (ino.type = 'd' ∨ ino.type = 'f')) ∧
    ((read_inode_block d p).type = 'd' →
      ∀ pg ∈ used_blocks (read_inode_block d p), ∃ es, d pg = Block.dir es)

/-- Inode `b` lies strictly below inode `a`: it is reached from `a` by one or more
direntries of directories. -/
inductive Below (P : Params) (d : Disk) : Nat → Nat → Prop where
  | step (a b : Nat) : (read_inode_block d a).type = 'd' →
      b ∈ children P d (read_inode_block d a) → Below P d a b
  | trans (a m b : Nat) : Below P d a m → (read_inode_block d m).type = 'd' →
      b ∈ children P d (read_inode_block d m) → Below P d a b

/-! ## Changes of one directory, entry by entry -/

/-- The change from `d` to `d1` adds to the directory inode `p` exactly one direntry, named
`nm` and referring to `nib`, in its page `pg` (an old page, which gains one entry, or a new
page, which then holds one entry); the other pages of `p` keep their entries and no block
other than `p`, `pg` and `nib` is written. -/
structure AddEntry (P : Params) (d d1 : Disk) (p pg nib : Nat) (nm : List Char) : Prop where
  type0 : (read_inode_block d1 p).type = (read_inode_block d p).type
  owner0 : (read_inode_block d1 p).owner = (read_inode_block d p).owner
  page_mem : pg ∈ used_blocks (read_inode_block d1 p)
  old_pages : ∀ pg1 ∈ used_blocks (read_inode_block d1 p), pg1 ≠ pg →
    pg1 ∈ used_blocks (read_inode_block d p) ∧ page_entries P d1 pg1 = page_entries P d pg1
  entry : (nm, nib) ∈ page_entries P d1 pg
  len_old : pg ∈ used_blocks (read_inode_block d p) →
    (page_children P d1 pg).length = (page_children P d pg).length + 1
  len_new : pg ∉ used_blocks (read_inode_block d p) → (page_children P d1 pg).length = 1
  entries : List.Perm (dir_entries P d1 (read_inode_block d1 p))
    ((nm, nib) :: dir_entries P d (read_inode_block d p))
  frame : ∀ x, x ≠ p → x ≠ pg → x ≠ nib → d1 x = d x

/-- The change from `d` to `d1` removes from the directory inode `p` exactly one direntry,
named `nm` and referring to `T`, of its page `pg`; the page stays in the directory only
with an entry left, the other pages keep their entries and no block other than `p` and `pg`
is written. -/
structure DelEntry (P : Params) (d d1 : Disk) (p pg T : Nat) (nm : List Char) : Prop where
  type0 : (read_inode_block d1 p).type = (read_inode_block d p).type
  owner0 : (read_inode_block d1 p).owner = (read_inode_block d p).owner
  page_mem : pg ∈ used_blocks (read_inode_block d p)
  entry : (nm, T) ∈ page_entries P d pg
  pages : ∀ pg1 ∈ used_blocks (read_inode_block d1 p),
    pg1 ∈ used_blocks (read_inode_block d p) ∧
    (pg1 ≠ pg → page_entries P d1 pg1 = page_entries P d pg1)
  page_left : pg ∈ used_blocks (read_inode_block d1 p) → page_children P d1 pg ≠ []
  entries : List.Perm (dir_entries P d (read_inode_block d p))
    ((nm, T) :: dir_entries P d1 (read_inode_block d1 p))
  frame : ∀ x, x ≠ p → x ≠ pg → d1 x = d x

/-! ## More example states and requests -/

/-- Request `FS_CREATE alice /a f` with its header. -/
def ex_create_a : request :=
  ⟨request_t.FS_CREATE, 0, alice, ['/', 'a'],
    ['F', 'S', '_', 'C', 'R', 'E', 'A', 'T', 'E', ' ', 'a', 'l', 'i', 'c', 'e', ' ', '/', 'a',
     ' ', 'f'], 'f', [['a']], []⟩

/-- The fresh file system with a single free block, block 1. -/
def one_free_state : State := ⟨fresh_disk, {1}⟩

/-- Request: alice deletes `/b`. -/
def ex_delete_b : request := mk_request request_t.FS_DELETE alice [['b']] 0 'f' []

/-! ## The path resolver as the specification words it -/

/-- The resolver in the words of the specification, from inode block `b`: with no
component left the block is returned without a look at its inode; otherwise the inode at
`b` has to be a directory whose owner is the user or the empty string, the next block is
the `inode_block` of the first non-empty direntry (page order, then slot order) whose name
is the component, and any failure on the way gives `none` (the value `-1`). -/
def resolve_from (P : Params) (d : Disk) (user : List Char) : List (List Char) → Nat → Option Nat
  | [], b => some b
  | c :: rest, b =>
    if (read_inode_block d b).type = 'd' ∧
        (cstr (read_inode_block d b).owner = user ∨ cstr (read_inode_block d b).owner = []) then
      match lookup_name c (dir_entries P d (read_inode_block d b)) with
      | none => none
      | some child => resolve_from P d user rest child
    else none

/-- The resolver of the specification from the root, block 0. -/
def resolve_spec (P : Params) (d : Disk) (path : List (List Char)) (user : List Char) :
    Option Nat :=
  resolve_from P d user path 0

/-! ## The request dispatch -/

/-- The `switch (request.type)` of `Network::handle_request`, for a request the parser
accepted (for a write, with the block of data already received into `buf`). -/
def dispatch (P : Params) (s : State) (req : request) : Outcome :=
  match req.type with
  | request_t.FS_READBLOCK => read_block P s req
  | request_t.FS_WRITEBLOCK => write_block P s req
  | request_t.FS_CREATE => sys_create P s req
  | request_t.FS_DELETE => sys_delete P s req

/-- Block `x` belongs to a reachable inode owned by `u` or by the empty owner: it is the
block of such an inode or one of its `blocks[0..size)`. -/
def Owns (P : Params) (d : Disk) (u : List Char) (x : Nat) : Prop :=
  ∃ q, InodeReach P d q ∧
    (cstr (read_inode_block d q).owner = u ∨ cstr (read_inode_block d q).owner = []) ∧
    (x = q ∨ x ∈ used_blocks (read_inode_block d q))

/-- The user name "bob". -/
def bob : List Char := ['b', 'o', 'b']

/-- Request: bob creates the file `/c`. -/
def ex_create_bob : request := mk_request request_t.FS_CREATE bob [['c']] 0 'f' []

/-- Request: bob writes block 0 of `/a`, the file of alice. -/
def ex_write_bob : request :=
  mk_request request_t.FS_WRITEBLOCK bob [['a']] 0 'f' (List.replicate 1024 'X')

/-! ## Request parser (request.cpp) -/

/-- Function `std::isspace` in the "C" locale: space, `\t`, `\n`, `\v`, `\f`, `\r`. -/
def isspace (c : Char) : Bool :=
  decide (c.toNat = 32 ∨ c.toNat = 9 ∨ c.toNat = 10 ∨ c.toNat = 11 ∨ c.toNat = 12 ∨
    c.toNat = 13)

/-- Function `has_space`. -/
def has_space (s : List Char) : Bool := s.any isspace

/-- The pieces of a char sequence between the occurrences of `sep` (one more than there
are occurrences). -/
def split_on (sep : Char) : List Char → List (List Char)
  | [] => [[]]
  | c :: cs =>
    if c = sep then [] :: split_on sep cs
    else (c :: (split_on sep cs).headD []) :: (split_on sep cs).tail

/-- The captures `m[2]`, `m[3]`, `m[4]` of a `boost::smatch` (`m[4]` is empty for
`delete_re`, which has three groups). -/
structure smatch where
  m2 : List Char
  m3 : List Char
  m4 : List Char

/-- A decimal digit, `[0-9]`. -/
def is_digit (c : Char) : Bool := decide (48 ≤ c.toNat ∧ c.toNat ≤ 57)

/-- The group `([1-9][0-9]*|0)`. -/
def block_field (x : List Char) : Bool :=
  match x with
  | [] => false
  | c :: r => (decide (49 ≤ c.toNat ∧ c.toNat ≤ 57) && r.all is_digit) ||
      (decide (c.toNat = 48) && r.isEmpty)

/-- The group `([fd])`. -/
def kind_field (x : List Char) : Bool := decide (x = ['f'] ∨ x = ['d'])

/-- The group `(/[^ ]+)`, on a piece that holds no space. -/
def path_field (p : List Char) : Bool := decide (p.head? = some '/' ∧ 2 ≤ p.length)

/-- The call `boost::regex_match(header, m, re)` for a pattern
`^(CMD) ([^ ]+) (/[^ ]+) (LAST)$`: no group can hold a space, so the whole header matches
exactly when cutting it at its spaces gives four pieces of these shapes; the result is the
captures. -/
def regex_match4 (cmd : List Char) (last : List Char → Bool) (header : List Char) :
    Option smatch :=
  match split_on ' ' header with
  | [c, u, p, x] =>
    if c = cmd ∧ u ≠ [] ∧ path_field p = true ∧ last x = true then some ⟨u, p, x⟩ else none
  | _ => none

/-- The call `boost::regex_match(header, m, re)` for the pattern
`^(CMD) ([^ ]+) (/[^ ]+)$`. -/
def regex_match3 (cmd : List Char) (header : List Char) : Option smatch :=
  match split_on ' ' header with
  | [c, u, p] => if c = cmd ∧ u ≠ [] ∧ path_field p = true then some ⟨u, p, []⟩ else none
  | _ => none

/-- The word `FS_READBLOCK`. -/
def kw_read : List Char := ['F', 'S', '_', 'R', 'E', 'A', 'D', 'B', 'L', 'O', 'C', 'K']

/-- The word `FS_WRITEBLOCK`. -/
def kw_write : List Char := ['F', 'S', '_', 'W', 'R', 'I', 'T', 'E', 'B', 'L', 'O', 'C', 'K']

/-- The word `FS_CREATE`. -/
def kw_create : List Char := ['F', 'S', '_', 'C', 'R', 'E', 'A', 'T', 'E']

/-- The word `FS_DELETE`. -/
def kw_delete : List Char := ['F', 'S', '_', 'D', 'E', 'L', 'E', 'T', 'E']

/-- Pattern `read_re`: `^(FS_READBLOCK) ([^ ]+) (/[^ ]+) ([1-9][0-9]*|0)$`. -/
def read_re (header : List Char) : Option smatch := regex_match4 kw_read block_field header

/-- Pattern `write_re`: `^(FS_WRITEBLOCK) ([^ ]+) (/[^ ]+) ([1-9][0-9]*|0)$`. -/
def write_re (header : List Char) : Option smatch := regex_match4 kw_write block_field header

/-- Pattern `create_re`: `^(FS_CREATE) ([^ ]+) (/[^ ]+) ([fd])$`. -/
def create_re (header : List Char) : Option smatch := regex_match4 kw_create kind_field header

/-- Pattern `delete_re`: `^(FS_DELETE) ([^ ]+) (/[^ ]+)$`. -/
def delete_re (header : List Char) : Option smatch := regex_match3 kw_delete header

/-- The `while (std::getline(ss, step, '/'))` loop of `split_path_ss`, char by char: the
stream left, the chars of `step` read so far, and the deque `d`. At a `/` the step is
complete; at the end of the stream a step with chars is complete and an empty one means
`getline` fails and the loop ends. A complete step that is empty or longer than
`FS_MAXFILENAME` makes the function return the empty deque. -/
def split_loop (MFN : Nat) : List Char → List Char → List (List Char) → List (List Char)
  | [], step, d =>
    if step = [] then d
    else if step.length > MFN then [] else d ++ [step]
  | c :: cs, step, d =>
    if c = '/' then
      if step = [] ∨ step.length > MFN then [] else split_loop MFN cs [] (d ++ [step])
    else split_loop MFN cs (step ++ [c]) d

/-- The steps that successive `std::getline(ss, step, '/')` calls complete on the stream
`cs` when `step` already holds chars: the pieces between the `/`, without the last piece
when it is empty (at the end of the stream `getline` fails instead of giving it). -/
def getline_steps (step cs : List Char) : List (List Char) :=
  if ((step ++ (split_on '/' cs).headD []) :: (split_on '/' cs).tail).getLast? = some [] then
    ((step ++ (split_on '/' cs).headD []) :: (split_on '/' cs).tail).dropLast
  else (step ++ (split_on '/' cs).headD []) :: (split_on '/' cs).tail

/-- Function `split_path_ss`; `none` when `path.substr(1)` throws (the empty path). -/
def split_path_ss (P : Params) (path : List Char) : Option (List (List Char)) :=
  if path = [] then none
  else if path.head? ≠ some '/' then some []
  else if path.length > 1 ∧ path.getLast? = some '/' then some []
  else if path.length > P.MPN then some []
  else some (split_loop P.MFN path.tail [] [])

/-- The value of a sequence of decimal digits. -/
def decimal (x : List Char) : Nat := x.foldl (fun acc c => acc * 10 + (c.toNat - 48)) 0

/-- Call `std::stoll` on a sequence of digits; `none` when it throws `std::out_of_range`
(the value does not fit a `long long`). -/
def stoll (x : List Char) : Option Nat :=
  if decimal x ≤ 9223372036854775807 then some (decimal x) else none

/-- Function `fill_block`; `none` when it returns false or `stoll` throws. The assignment
`out.block = std::stoll(m[4])` narrows the `long long` to `int`. -/
def fill_block (P : Params) (m : smatch) (out : request) : Option request :=
  match stoll m.m4 with
  | none => none
  | some v =>
    let block := castInt v
    if block < 0 ∨ (block % 4294967296).toNat ≥ P.MFB then none
    else some { out with block := block }

/-- Function `fill_user_and_path`; `none` when it returns false or `split_path_ss`
throws. -/
def fill_user_and_path (P : Params) (m : smatch) (out : request) : Option request :=
  if m.m2 = [] ∨ m.m2.length > P.MUN ∨ has_space m.m2 = true then none
  else if has_space m.m3 = true then none
  else
    match split_path_ss P m.m3 with
    | none => none
    | some path =>
      if path = [] then none
      else some { out with username := m.m2, pathname := m.m3, path := path }

/-- The request object `request request;` before `parse_request` fills it in (the fields
the parser leaves alone are read by no handler). -/
def blank_request : request := ⟨request_t.FS_READBLOCK, 0, [], [], [], NUL, [], []⟩

/-- Function `parse_request`; `none` when it returns false or throws. -/
def parse_request (P : Params) (header : List Char) : Option request :=
  match read_re header with
  | some m =>
    match fill_user_and_path P m { blank_request with type := request_t.FS_READBLOCK } with
    | none => none
    | some out1 =>
      match fill_block P m out1 with
      | none => none
      | some out2 => some { out2 with header := header }
  | none =>
    match write_re header with
    | some m =>
      match fill_user_and_path P m { blank_request with type := request_t.FS_WRITEBLOCK } with
      | none => none
      | some out1 =>
        match fill_block P m out1 with
        | none => none
        | some out2 => some { out2 with header := header }
    | none =>
      match create_re header with
      | some m =>
        match fill_user_and_path P m { blank_request with type := request_t.FS_CREATE } with
        | none => none
        | some out1 => some { out1 with create_type := m.m4.headD NUL, header := header }
      | none =>
        match delete_re header with
        | some m =>
          match fill_user_and_path P m { blank_request with type := request_t.FS_DELETE } with
          | none => none
          | some out1 => some { out1 with header := header }
        | none => none

/-! ## Headers field by field, and what the specification asks of the fields -/

/-- The header `CMD user path last`. -/
def header4 (cmd u p x : List Char) : List Char := cmd ++ ' ' :: (u ++ ' ' :: (p ++ ' ' :: x))

/-- The header `CMD user path`. -/
def header3 (cmd u p : List Char) : List Char := cmd ++ ' ' :: (u ++ ' ' :: p)

/-- A valid user field: not empty, at most `MUN` chars, no whitespace. -/
def UserOK (P : Params) (u : List Char) : Prop :=
  u ≠ [] ∧ u.length ≤ P.MUN ∧ has_space u = false

/-- A valid block field: a decimal integer without leading zeros with value in
`[0, MFB)`. -/
def BlockOK (P : Params) (x : List Char) : Prop := block_field x = true ∧ decimal x < P.MFB

/-- The conditions of the specification on the path field: it begins with `/`, has length
between 2 and `MPN`, does not end with `/`, holds no whitespace, and none of its components
(the pieces between the `/` after the first) is empty or longer than `MFN`. -/
def PathOK (P : Params) (p : List Char) : Prop :=
  p.head? = some '/' ∧ 2 ≤ p.length ∧ p.length ≤ P.MPN ∧ p.getLast? ≠ some '/' ∧
  has_space p = false ∧ ∀ c ∈ split_on '/' p.tail, c ≠ [] ∧ c.length ≤ P.MFN

/-- Header `FS_READBLOCK alice /a 4294967296`. -/
def hdr_wrap : List Char :=
  header4 kw_read alice ['/', 'a'] ['4', '2', '9', '4', '9', '6', '7', '2', '9', '6']

/-- Header `FS_READBLOCK alice /a 0`. -/
def hdr_read0 : List Char := header4 kw_read alice ['/', 'a'] ['0']

/-- Header `FS_READBLOCK alice /a 16`. -/
def hdr_read16 : List Char := header4 kw_read alice ['/', 'a'] ['1', '6']

/-! ## Strings, casts and the allocator -/

theorem cstr_append_nul (s t : List Char) (h : NUL ∉ s) : cstr (s ++ NUL :: t) = s := by
  induction s with
  | nil => simp [cstr, List.takeWhile]
  | cons c cs ih =>
    have hc : c ≠ NUL := fun e => h (by simp [e])
    have hcs : NUL ∉ cs := fun e => h (by simp [e])
    have := ih hcs
    have hb : (c != NUL) = true := by simpa using hc
    simp only [cstr] at this ⊢
    simp only [List.cons_append, List.takeWhile_cons, hb, if_true, this]

theorem cstr_of_not_mem (s : List Char) (h : NUL ∉ s) : cstr s = s := by
  induction s with
  | nil => simp [cstr]
  | cons c cs ih =>
    have hc : c ≠ NUL := fun e => h (by simp [e])
    have hcs : NUL ∉ cs := fun e => h (by simp [e])
    have := ih hcs
    have hb : (c != NUL) = true := by simpa using hc
    simp only [cstr] at this ⊢
    simp only [List.takeWhile_cons, hb, if_true, this]

theorem cstr_strncpy_term (s : List Char) (n : Nat) (h : NUL ∉ s) (hn : s.length ≤ n) :
    cstr (strncpy_term s n) = s := by
  unfold strncpy_term
  rw [cstr_of_not_mem s h, List.take_of_length_le hn]
  cases k : n - s.length with
  | zero => simpa using cstr_append_nul s [] h
  | succ m =>
    rw [List.replicate_succ, List.append_assoc]
    exact cstr_append_nul s _ h

theorem castInt_of_lt (x : Nat) (h : x < 2147483648) : castInt x = x := by
  unfold castInt
  have : x % 4294967296 = x := Nat.mod_eq_of_lt (by omega)
  rw [this, if_pos h]

theorem blockToInt_eq_some {b c : Nat} (h : blockToInt b = some c) : c = b ∧ b ≠ 4294967295 := by
  unfold blockToInt at h
  split at h
  · cases h
  · exact ⟨(Option.some.inj h).symm, by assumption⟩

theorem blockToInt_of_ne {b : Nat} (h : b ≠ 4294967295) : blockToInt b = some b := by
  simp [blockToInt, h]

theorem get_new_block_some {free free1 : Finset Nat} {b : Nat}
    (h : get_new_block free = (some b, free1)) :
    b ∈ free ∧ free1 = free.erase b ∧ (∀ x ∈ free, b ≤ x) ∧ b ≠ 4294967295 := by
  unfold get_new_block at h
  split at h
  · rename_i hne
    simp only [Prod.mk.injEq] at h
    obtain ⟨h1, h2⟩ := h
    obtain ⟨e, hb⟩ := blockToInt_eq_some h1
    subst e
    exact ⟨Finset.min'_mem _ _, h2.symm, fun x hx => Finset.min'_le _ x hx, hb⟩
  · simp at h

theorem get_new_block_none {free free1 : Finset Nat}
    (h : get_new_block free = (none, free1)) :
    (free = ∅ ∧ free1 = ∅) ∨ (4294967295 ∈ free ∧ free1 = free.erase 4294967295) := by
  unfold get_new_block at h
  split at h
  · rename_i hne
    simp only [Prod.mk.injEq] at h
    obtain ⟨h1, h2⟩ := h
    right
    unfold blockToInt at h1
    split at h1
    · rename_i e
      rw [e] at h2
      exact ⟨e ▸ Finset.min'_mem _ _, h2.symm⟩
    · cases h1
  · rename_i hne
    simp only [Prod.mk.injEq, true_and] at h
    left
    rw [Finset.not_nonempty_iff_eq_empty] at hne
    exact ⟨hne, by rw [← h, hne]⟩

/-! ## Disk reads after a write -/

theorem read_inode_write_same (d : Disk) (b : Nat) (i : fs_inode) :
    read_inode_block (disk_writeblock d b (Block.inode i)) b = i := by
  simp [read_inode_block, disk_writeblock]

theorem read_inode_write_ne (d : Disk) (b c : Nat) (blk : Block) (h : c ≠ b) :
    read_inode_block (disk_writeblock d b blk) c = read_inode_block d c := by
  simp [read_inode_block, disk_writeblock, Function.update_noteq h]

theorem read_dir_write_same (d : Disk) (b : Nat) (es : Nat → fs_direntry) :
    read_dir_block (disk_writeblock d b (Block.dir es)) b = es := by
  simp [read_dir_block, disk_writeblock]

theorem read_dir_write_ne (d : Disk) (b c : Nat) (blk : Block) (h : c ≠ b) :
    read_dir_block (disk_writeblock d b blk) c = read_dir_block d c := by
  simp [read_dir_block, disk_writeblock, Function.update_noteq h]

theorem read_inode_congr {d d1 : Disk} {b : Nat} (h : d1 b = d b) :
    read_inode_block d1 b = read_inode_block d b := by
  simp [read_inode_block, h]

theorem read_dir_congr {d d1 : Disk} {b : Nat} (h : d1 b = d b) :
    read_dir_block d1 b = read_dir_block d b := by
  simp [read_dir_block, h]

/-! ## Children and references -/

theorem mem_used_blocks {ino : fs_inode} {b : Nat} :
    b ∈ used_blocks ino ↔ ∃ i, i < ino.size ∧ ino.blocks i = b := by
  simp [used_blocks]

theorem mem_page_children {P : Params} {d : Disk} {pg c : Nat} :
    c ∈ page_children P d pg ↔ c ≠ 0 ∧ ∃ j, j < P.DEP ∧ (read_dir_block d pg j).inode_block = c := by
  simp [page_children]
  tauto

theorem mem_children {P : Params} {d : Disk} {ino : fs_inode} {c : Nat} :
    c ∈ children P d ino ↔ ∃ pg ∈ used_blocks ino, c ∈ page_children P d pg := by
  simp [children, List.mem_flatMap]

theorem children_sub_refs {P : Params} {d : Disk} {p c : Nat}
    (ht : (read_inode_block d p).type = 'd') (hc : c ∈ children P d (read_inode_block d p)) :
    c ∈ refs P d p := by
  simp [refs, ht, hc]

theorem used_sub_refs {P : Params} {d : Disk} {p b : Nat}
    (ht : (read_inode_block d p).type = 'd' ∨ (read_inode_block d p).type = 'f')
    (hb : b ∈ used_blocks (read_inode_block d p)) : b ∈ refs P d p := by
  unfold refs
  rcases ht with ht | ht
  · simp [ht, hb]
  · have : (read_inode_block d p).type ≠ 'd' := by rw [ht]; decide
    simp [ht, hb]

theorem page_children_congr {P : Params} {d d1 : Disk} {pg : Nat} (h : d1 pg = d pg) :
    page_children P d1 pg = page_children P d pg := by
  simp [page_children, read_dir_congr h]

theorem flatMap_page_children_congr {P : Params} {d d1 : Disk} (l : List Nat)
    (h : ∀ pg ∈ l, d1 pg = d pg) :
    l.flatMap (page_children P d1) = l.flatMap (page_children P d) := by
  induction l with
  | nil => rfl
  | cons a l ih =>
    simp only [List.flatMap_cons]
    rw [page_children_congr (h a (by simp)), ih (fun pg hpg => h pg (by simp [hpg]))]

theorem children_congr {P : Params} {d d1 : Disk} {ino : fs_inode}
    (h : ∀ pg ∈ used_blocks ino, d1 pg = d pg) :
    children P d1 ino = children P d ino :=
  flatMap_page_children_congr _ h

theorem refs_congr {P : Params} {d d1 : Disk} {p : Nat} (hp : d1 p = d p)
    (h : ∀ pg ∈ used_blocks (read_inode_block d p), d1 pg = d pg) :
    refs P d1 p = refs P d p := by
  unfold refs
  rw [read_inode_congr hp, children_congr h]

theorem zero_not_mem_children {P : Params} {d : Disk} {ino : fs_inode} :
    0 ∉ children P d ino := by
  intro h
  obtain ⟨pg, _, h2⟩ := mem_children.1 h
  exact (mem_page_children.1 h2).1 rfl

/-! ## The scans of `find_child` and the path resolver -/

theorem find_in_page_some {es : Nat → fs_direntry} {name : List Char} {js : List Nat} {b : Nat}
    (h : find_in_page es name js = some b) :
    ∃ j ∈ js, (es j).inode_block = b ∧ b ≠ 0 ∧ cstr (es j).name = name := by
  induction js with
  | nil => simp [find_in_page] at h
  | cons j js ih =>
    simp only [find_in_page] at h
    split at h
    · obtain ⟨j1, hj1, r⟩ := ih h
      exact ⟨j1, by simp [hj1], r⟩
    · rename_i hne
      split at h
      · rename_i hname
        have e := Option.some.inj h
        exact ⟨j, by simp, e, e ▸ hne, hname⟩
      · obtain ⟨j1, hj1, r⟩ := ih h
        exact ⟨j1, by simp [hj1], r⟩

theorem find_in_pages_some {P : Params} {d : Disk} {ino : fs_inode} {name : List Char}
    {is : List Nat} {b : Nat} (h : find_in_pages P d ino name is = some b) :
    ∃ i ∈ is, find_in_page (read_dir_block d (ino.blocks i)) name (List.range P.DEP) = some b := by
  induction is with
  | nil => simp [find_in_pages] at h
  | cons i is ih =>
    simp only [find_in_pages] at h
    split at h
    · rename_i b1 hb1
      exact ⟨i, by simp, by rw [hb1, h]⟩
    · obtain ⟨i1, hi1, r⟩ := ih h
      exact ⟨i1, by simp [hi1], r⟩

theorem find_child_some {P : Params} {d : Disk} {ino : fs_inode} {name : List Char} {c : Nat}
    (h : find_child P d ino name = some c) :
    ∃ i j, i < ino.size ∧ j < P.DEP ∧
      (read_dir_block d (ino.blocks i) j).inode_block = c ∧ c ≠ 0 ∧
      cstr (read_dir_block d (ino.blocks i) j).name = name := by
  unfold find_child at h
  rw [Option.bind_eq_some] at h
  obtain ⟨b, hb, hbc⟩ := h
  obtain ⟨e, _⟩ := blockToInt_eq_some hbc
  subst e
  obtain ⟨i, hi, hpage⟩ := find_in_pages_some hb
  obtain ⟨j, hj, r⟩ := find_in_page_some hpage
  exact ⟨i, j, by simpa using hi, by simpa using hj, r⟩

theorem find_child_mem_children {P : Params} {d : Disk} {ino : fs_inode} {name : List Char}
    {c : Nat} (h : find_child P d ino name = some c) : c ∈ children P d ino := by
  obtain ⟨i, j, hi, hj, he, hne, _⟩ := find_child_some h
  exact mem_children.2 ⟨ino.blocks i, mem_used_blocks.2 ⟨i, hi, rfl⟩,
    mem_page_children.2 ⟨hne, j, hj, he⟩⟩

theorem path_find_loop_reach {P : Params} {d : Disk} {user : List Char}
    {path : List (List Char)} {curr t : Nat} (hc : InodeReach P d curr)
    (h : path_find_loop P d user path curr = some t) : InodeReach P d t := by
  induction path generalizing curr with
  | nil =>
    simp only [path_find_loop] at h
    rw [(blockToInt_eq_some h).1]; exact hc
  | cons x rest ih =>
    simp only [path_find_loop] at h
    split at h
    · cases h
    · rename_i hcond
      push_neg at hcond
      split at h
      · cases h
      · rename_i child hchild
        exact ih (InodeReach.child curr child hc hcond.1 (find_child_mem_children hchild)) h

theorem path_find_reach {P : Params} {d : Disk} {user : List Char}
    {path : List (List Char)} {t : Nat} (h : path_find P d path user = some t) :
    InodeReach P d t := by
  unfold path_find at h
  split at h
  · cases h; exact InodeReach.root
  · exact path_find_loop_reach InodeReach.root h

/-! ## Consequences of tree shape -/

theorem InodeReach.cases_parent {P : Params} {d : Disk} {c : Nat} (h : InodeReach P d c) :
    c = 0 ∨ ∃ p, InodeReach P d p ∧ (read_inode_block d p).type = 'd' ∧
      c ∈ children P d (read_inode_block d p) := by
  cases h with
  | root => exact Or.inl rfl
  | child p c hp ht hc => exact Or.inr ⟨p, hp, ht, hc⟩

theorem reachable_zero (P : Params) (d : Disk) : Reachable P d 0 := Or.inl InodeReach.root

theorem reachable_of_ref {P : Params} {d : Disk} {p b : Nat} (hp : InodeReach P d p)
    (hb : b ∈ refs P d p) : Reachable P d b := Or.inr ⟨p, hp, hb⟩

theorem reachable_iff {P : Params} {d : Disk} {b : Nat} :
    Reachable P d b ↔ b = 0 ∨ ∃ p, InodeReach P d p ∧ b ∈ refs P d p := by
  constructor
  · rintro (h | h)
    · rcases h.cases_parent with h0 | ⟨p, hp, ht, hc⟩
      · exact Or.inl h0
      · exact Or.inr ⟨p, hp, children_sub_refs ht hc⟩
    · exact Or.inr h
  · rintro (h | h)
    · subst h; exact reachable_zero P d
    · exact Or.inr h

theorem TreeShaped.used_refs {P : Params} {d : Disk} (hT : TreeShaped P d) {p b : Nat}
    (hp : InodeReach P d p) (hb : b ∈ used_blocks (read_inode_block d p)) : b ∈ refs P d p :=
  NFS.used_sub_refs (hT.type_ok p hp) hb

/-- A block used by a reachable inode (page or data block) is not a reachable inode. -/
theorem TreeShaped.used_not_inode {P : Params} {d : Disk} (hT : TreeShaped P d) {p b : Nat}
    (hp : InodeReach P d p) (hb : b ∈ used_blocks (read_inode_block d p)) :
    ¬ InodeReach P d b := by
  intro hreach
  have hbr := hT.used_refs hp hb
  rcases hreach.cases_parent with h0 | ⟨q, hq, hqt, hqc⟩
  · subst h0; exact hT.refs_ne_zero p hp hbr
  · by_cases hpq : q = p
    · subst hpq
      have hnd := hT.refs_nodup q hq
      unfold refs at hnd
      rw [if_pos hqt] at hnd
      exact (List.nodup_append.1 hnd).2.2 hb hqc
    · exact hT.refs_disjoint q p hq hp hpq b (children_sub_refs hqt hqc) hbr

/-- Blocks used by two different reachable inodes are different. -/
theorem TreeShaped.used_disjoint {P : Params} {d : Disk} (hT : TreeShaped P d) {p q b : Nat}
    (hp : InodeReach P d p) (hq : InodeReach P d q) (hpq : p ≠ q)
    (hb : b ∈ used_blocks (read_inode_block d p)) :
    b ∉ used_blocks (read_inode_block d q) :=
  fun hb2 => hT.refs_disjoint p q hp hq hpq b (hT.used_refs hp hb) (hT.used_refs hq hb2)

/-- No reachable inode refers to itself. -/
theorem TreeShaped.not_self_ref {P : Params} {d : Disk} (hT : TreeShaped P d) {p : Nat}
    (hp : InodeReach P d p) : p ∉ refs P d p := by
  induction hp with
  | root => exact hT.refs_ne_zero 0 InodeReach.root
  | child p c hp ht hc ih =>
    intro hcc
    have hcr : InodeReach P d c := InodeReach.child p c hp ht hc
    by_cases hpc : p = c
    · subst hpc; exact ih hcc
    · exact hT.refs_disjoint p c hp hcr hpc c (children_sub_refs ht hc) hcc

/-- The parent of a reachable child is unique. -/
theorem TreeShaped.parent_unique {P : Params} {d : Disk} (hT : TreeShaped P d) {p q c : Nat}
    (hp : InodeReach P d p) (hq : InodeReach P d q) (hcp : c ∈ refs P d p)
    (hcq : c ∈ refs P d q) : p = q := by
  by_contra hne
  exact hT.refs_disjoint p q hp hq hne c hcp hcq

theorem Agree.inode {d d1 : Disk} {p : Nat} (h : Agree d d1 p) :
    read_inode_block d1 p = read_inode_block d p := read_inode_congr h.1

theorem Agree.children {P : Params} {d d1 : Disk} {p : Nat} (h : Agree d d1 p) :
    children P d1 (read_inode_block d1 p) = children P d (read_inode_block d p) := by
  rw [h.inode]; exact children_congr h.2

theorem Agree.refs {P : Params} {d d1 : Disk} {p : Nat} (h : Agree d d1 p) :
    refs P d1 p = refs P d p := refs_congr h.1 h.2

/-- Agreement outside a set of modified blocks. -/
theorem agree_of_not_mem {d d1 : Disk} (M : List Nat)
    (hM : ∀ x, x ∉ M → d1 x = d x) {p : Nat} (hpM : p ∉ M)
    (hrefs : ∀ x ∈ M, x ∉ used_blocks (read_inode_block d p)) : Agree d d1 p :=
  ⟨hM p hpM, fun pg hpg => hM pg (fun hin => hrefs pg hin hpg)⟩

/-! ## Adding fresh blocks below a reachable inode -/

theorem AddStep.add_reach_old {P : Params} {d d1 : Disk} {P0 : Nat} {A I : List Nat}
    (h : AddStep P d d1 P0 A I) {x : Nat} (hx : InodeReach P d x) : InodeReach P d1 x := by
  induction hx with
  | root => exact InodeReach.root
  | child p c hp ht hc ih =>
    by_cases hp0 : p = P0
    · subst hp0
      exact InodeReach.child p c ih (by rw [h.type0, ht]) ((h.child0 ht c).2 (Or.inl hc))
    · have ha := h.other p hp hp0
      exact InodeReach.child p c ih (by rw [ha.inode, ht]) (by rw [ha.children]; exact hc)

theorem AddStep.add_reach_new {P : Params} {d d1 : Disk} {P0 : Nat} {A I : List Nat}
    (h : AddStep P d d1 P0 A I) {x : Nat} (hx : x ∈ I) : InodeReach P d1 x :=
  InodeReach.child P0 x (h.add_reach_old h.reach0) (by rw [h.type0, h.newdir x hx])
    ((h.child0 (h.newdir x hx) x).2 (Or.inr hx))

theorem AddStep.add_reach_inv {P : Params} {d d1 : Disk} {P0 : Nat} {A I : List Nat}
    (h : AddStep P d d1 P0 A I) {x : Nat} (hx : InodeReach P d1 x) :
    InodeReach P d x ∨ x ∈ I := by
  induction hx with
  | root => exact Or.inl InodeReach.root
  | child p c _ ht hc ih =>
    rcases ih with hp | hp
    · by_cases hp0 : p = P0
      · subst hp0
        rw [h.type0] at ht
        rcases (h.child0 ht c).1 hc with hc1 | hc1
        · exact Or.inl (InodeReach.child p c hp ht hc1)
        · exact Or.inr hc1
      · have ha := h.other p hp hp0
        rw [ha.inode] at ht
        rw [ha.children] at hc
        exact Or.inl (InodeReach.child p c hp ht hc)
    · have := children_sub_refs ht hc
      rw [h.new_refs p hp] at this
      simp at this

theorem AddStep.add_inode_reach_iff {P : Params} {d d1 : Disk} {P0 : Nat} {A I : List Nat}
    (h : AddStep P d d1 P0 A I) (x : Nat) :
    InodeReach P d1 x ↔ InodeReach P d x ∨ x ∈ I :=
  ⟨h.add_reach_inv, fun hx => hx.elim h.add_reach_old h.add_reach_new⟩

theorem AddStep.add_not_reach_new {P : Params} {d d1 : Disk} {P0 : Nat} {A I : List Nat}
    (h : AddStep P d d1 P0 A I) {x : Nat} (hx : x ∈ I) : ¬ InodeReach P d x :=
  fun hr => h.fresh x (h.sub x hx) (Or.inl hr)

/-- The references of an inode reachable after the step: nothing for a new inode, the old
ones and `A` for `P0`, the old ones for every other inode. -/
theorem AddStep.add_refs_cases {P : Params} {d d1 : Disk} {P0 : Nat} {A I : List Nat}
    (h : AddStep P d d1 P0 A I) {p : Nat} (hp : InodeReach P d1 p) :
    (p ∈ I ∧ refs P d1 p = []) ∨
    (p = P0 ∧ InodeReach P d p ∧ ∀ b, b ∈ refs P d1 p ↔ b ∈ A ∨ b ∈ refs P d p) ∨
    (p ≠ P0 ∧ InodeReach P d p ∧ Agree d d1 p) := by
  by_cases hI : p ∈ I
  · exact Or.inl ⟨hI, h.new_refs p hI⟩
  · have hr : InodeReach P d p := (h.add_reach_inv hp).resolve_right hI
    by_cases hp0 : p = P0
    · subst hp0
      refine Or.inr (Or.inl ⟨rfl, hr, fun b => ?_⟩)
      rw [h.refs0.mem_iff, List.mem_append]
    · exact Or.inr (Or.inr ⟨hp0, hr, h.other p hr hp0⟩)

theorem AddStep.add_refs_sub {P : Params} {d d1 : Disk} {P0 : Nat} {A I : List Nat}
    (h : AddStep P d d1 P0 A I) {p b : Nat} (hp : InodeReach P d1 p) (hb : b ∈ refs P d1 p) :
    b ∈ A ∨ (InodeReach P d p ∧ b ∈ refs P d p) := by
  rcases h.add_refs_cases hp with ⟨_, h1⟩ | ⟨_, hr, h1⟩ | ⟨_, hr, h1⟩
  · rw [h1] at hb; simp at hb
  · rcases (h1 b).1 hb with hA | hB
    · exact Or.inl hA
    · exact Or.inr ⟨hr, hB⟩
  · rw [h1.refs] at hb; exact Or.inr ⟨hr, hb⟩

theorem AddStep.add_tree_after {P : Params} {d d1 : Disk} {P0 : Nat} {A I : List Nat}
    (h : AddStep P d d1 P0 A I) : TreeShaped P d1 := by
  have hT := h.tree
  refine ⟨?_, ?_, ?_, ?_, ?_⟩
  · intro p hp
    rcases h.add_refs_cases hp with ⟨hI, _⟩ | ⟨e, hr, _⟩ | ⟨_, hr, ha⟩
    · exact h.new_type p hI
    · subst e; rw [h.type0]; exact hT.type_ok p hr
    · rw [ha.inode]; exact hT.type_ok p hr
  · intro p hp
    rcases h.add_refs_cases hp with ⟨hI, _⟩ | ⟨e, hr, _⟩ | ⟨_, hr, ha⟩
    · exact h.new_size p hI
    · subst e; exact h.size0
    · rw [ha.inode]; exact hT.size_ok p hr
  · intro p hp
    rcases h.add_refs_cases hp with ⟨hI, h1⟩ | ⟨e, hr, _⟩ | ⟨_, hr, ha⟩
    · rw [h1]; exact List.nodup_nil
    · subst e
      rw [h.refs0.nodup_iff, List.nodup_append]
      refine ⟨h.nodup, hT.refs_nodup p hr, ?_⟩
      intro a ha1 ha2
      exact h.fresh a ha1 (reachable_of_ref hr ha2)
    · rw [ha.refs]; exact hT.refs_nodup p hr
  · intro p hp h0
    rcases h.add_refs_sub hp h0 with hA | ⟨hr, hB⟩
    · exact h.fresh 0 hA (reachable_zero P d)
    · exact hT.refs_ne_zero p hr hB
  · intro p q hp hq hpq b hbp hbq
    rcases h.add_refs_sub hp hbp with hA | ⟨hrp, hBp⟩
    · rcases h.add_refs_sub hq hbq with hA2 | ⟨hrq, hBq⟩
      · -- both through `A`: both are `P0`
        rcases h.add_refs_cases hp with ⟨_, h1⟩ | ⟨e1, _, _⟩ | ⟨_, hr1, ha1⟩
        · rw [h1] at hbp; simp at hbp
        · rcases h.add_refs_cases hq with ⟨_, h2⟩ | ⟨e2, _, _⟩ | ⟨_, hr2, ha2⟩
          · rw [h2] at hbq; simp at hbq
          · exact hpq (e1.trans e2.symm)
          · rw [ha2.refs] at hbq
            exact h.fresh b hA (reachable_of_ref hr2 hbq)
        · rw [ha1.refs] at hbp
          exact h.fresh b hA (reachable_of_ref hr1 hbp)
      · exact h.fresh b hA (reachable_of_ref hrq hBq)
    · rcases h.add_refs_sub hq hbq with hA2 | ⟨hrq, hBq⟩
      · exact h.fresh b hA2 (reachable_of_ref hrp hBp)
      · exact hT.refs_disjoint p q hrp hrq hpq b hBp hBq

theorem AddStep.add_reachable_iff {P : Params} {d d1 : Disk} {P0 : Nat} {A I : List Nat}
    (h : AddStep P d d1 P0 A I) (b : Nat) :
    Reachable P d1 b ↔ Reachable P d b ∨ b ∈ A := by
  constructor
  · rintro (hb | ⟨p, hp, hb⟩)
    · rcases h.add_reach_inv hb with h1 | h1
      · exact Or.inl (Or.inl h1)
      · exact Or.inr (h.sub b h1)
    · rcases h.add_refs_sub hp hb with hA | ⟨hr, hB⟩
      · exact Or.inr hA
      · exact Or.inl (reachable_of_ref hr hB)
  · rintro (hb | hb)
    · rcases hb with hb | ⟨p, hp, hb⟩
      · exact Or.inl (h.add_reach_old hb)
      · by_cases hp0 : p = P0
        · subst hp0
          exact reachable_of_ref (h.add_reach_old hp)
            (h.refs0.mem_iff.2 (List.mem_append.2 (Or.inr hb)))
        · refine reachable_of_ref (h.add_reach_old hp) ?_
          rw [(h.other p hp hp0).refs]; exact hb
    · exact reachable_of_ref (h.add_reach_old h.reach0)
        (h.refs0.mem_iff.2 (List.mem_append.2 (Or.inl hb)))

theorem AddStep.add_bounded_after {P : Params} {d d1 : Disk} {P0 : Nat} {A I : List Nat}
    (h : AddStep P d d1 P0 A I) (hB : Bounded P d) (hA : ∀ a ∈ A, a < P.N) :
    Bounded P d1 := by
  refine ⟨hB.1, fun p hp b hb => ?_⟩
  rcases h.add_refs_sub hp hb with h1 | ⟨hr, h2⟩
  · exact hA b h1
  · exact hB.2 p hr b h2

/-! ## Removing a childless child of a reachable directory -/

theorem DelStep.del_target_reach {P : Params} {d d1 : Disk} {P0 T : Nat} {R : List Nat}
    (h : DelStep P d d1 P0 T R) : InodeReach P d T :=
  InodeReach.child P0 T h.reach0 h.type0d h.target

theorem DelStep.del_target_ref {P : Params} {d d1 : Disk} {P0 T : Nat} {R : List Nat}
    (h : DelStep P d d1 P0 T R) : T ∈ refs P d P0 := children_sub_refs h.type0d h.target

theorem DelStep.del_target_ne {P : Params} {d d1 : Disk} {P0 T : Nat} {R : List Nat}
    (h : DelStep P d d1 P0 T R) : T ≠ P0 := by
  intro e
  have := h.del_target_ref
  rw [e] at this
  exact h.tree.not_self_ref h.reach0 this

theorem DelStep.del_target_children {P : Params} {d d1 : Disk} {P0 T : Nat} {R : List Nat}
    (h : DelStep P d d1 P0 T R) (ht : (read_inode_block d T).type = 'd') :
    children P d (read_inode_block d T) = [] := by
  simp [children, used_blocks, h.leaf ht]

theorem DelStep.del_target_refs {P : Params} {d d1 : Disk} {P0 T : Nat} {R : List Nat}
    (h : DelStep P d d1 P0 T R) : refs P d T = 
      if (read_inode_block d T).type = 'f' then used_blocks (read_inode_block d T) else [] := by
  unfold refs
  by_cases ht : (read_inode_block d T).type = 'd'
  · have : (read_inode_block d T).type ≠ 'f' := by rw [ht]; decide
    simp [ht, children, used_blocks, h.leaf ht]
  · simp [ht]

theorem DelStep.del_reach_old {P : Params} {d d1 : Disk} {P0 T : Nat} {R : List Nat}
    (h : DelStep P d d1 P0 T R) {x : Nat} (hx : InodeReach P d x) (hxT : x ≠ T) :
    InodeReach P d1 x := by
  induction hx with
  | root => exact InodeReach.root
  | child p c hp ht hc ih =>
    have hpT : p ≠ T := by
      intro e
      subst e
      rw [h.del_target_children ht] at hc
      simp at hc
    by_cases hp0 : p = P0
    · subst hp0
      exact InodeReach.child p c (ih hpT) h.type0 ((h.child0 c).2 ⟨hc, hxT⟩)
    · have ha := h.other p hp hp0
      exact InodeReach.child p c (ih hpT) (by rw [ha.inode, ht]) (by rw [ha.children]; exact hc)

theorem DelStep.del_reach_inv {P : Params} {d d1 : Disk} {P0 T : Nat} {R : List Nat}
    (h : DelStep P d d1 P0 T R) {x : Nat} (hx : InodeReach P d1 x) :
    InodeReach P d x ∧ x ≠ T := by
  induction hx with
  | root =>
    refine ⟨InodeReach.root, fun e => ?_⟩
    have := h.target
    rw [← e] at this
    exact zero_not_mem_children this
  | child p c _ ht hc ih =>
    obtain ⟨hp, hpT⟩ := ih
    by_cases hp0 : p = P0
    · subst hp0
      obtain ⟨hc1, hc2⟩ := (h.child0 c).1 hc
      exact ⟨InodeReach.child p c hp h.type0d hc1, hc2⟩
    · have ha := h.other p hp hp0
      rw [ha.inode] at ht
      rw [ha.children] at hc
      refine ⟨InodeReach.child p c hp ht hc, fun e => ?_⟩
      subst e
      exact hp0 (h.tree.parent_unique hp h.reach0 (children_sub_refs ht hc) h.del_target_ref)

theorem DelStep.del_inode_reach_iff {P : Params} {d d1 : Disk} {P0 T : Nat} {R : List Nat}
    (h : DelStep P d d1 P0 T R) (x : Nat) :
    InodeReach P d1 x ↔ InodeReach P d x ∧ x ≠ T :=
  ⟨h.del_reach_inv, fun hx => h.del_reach_old hx.1 hx.2⟩

theorem DelStep.del_refs_sub {P : Params} {d d1 : Disk} {P0 T : Nat} {R : List Nat}
    (h : DelStep P d d1 P0 T R) {p b : Nat} (hp : InodeReach P d1 p) (hb : b ∈ refs P d1 p) :
    InodeReach P d p ∧ p ≠ T ∧ b ∈ refs P d p ∧ b ∉ R := by
  obtain ⟨hr, hpT⟩ := h.del_reach_inv hp
  have hnd : (R ++ refs P d1 P0).Nodup := h.refs0.nodup_iff.1 (h.tree.refs_nodup P0 h.reach0)
  have hR : ∀ x ∈ R, x ∈ refs P d P0 := fun x hx =>
    h.refs0.mem_iff.2 (List.mem_append.2 (Or.inl hx))
  by_cases hp0 : p = P0
  · subst hp0
    refine ⟨hr, hpT, h.refs0.mem_iff.2 (List.mem_append.2 (Or.inr hb)), fun hbR => ?_⟩
    exact (List.nodup_append.1 hnd).2.2 hbR hb
  · have ha := h.other p hr hp0
    rw [ha.refs] at hb
    refine ⟨hr, hpT, hb, fun hbR => ?_⟩
    exact hp0 (h.tree.parent_unique hr h.reach0 hb (hR b hbR))

theorem DelStep.del_tree_after {P : Params} {d d1 : Disk} {P0 T : Nat} {R : List Nat}
    (h : DelStep P d d1 P0 T R) : TreeShaped P d1 := by
  have hT := h.tree
  have hnd : (R ++ refs P d1 P0).Nodup := h.refs0.nodup_iff.1 (hT.refs_nodup P0 h.reach0)
  refine ⟨?_, ?_, ?_, ?_, ?_⟩
  · intro p hp
    obtain ⟨hr, _⟩ := h.del_reach_inv hp
    by_cases hp0 : p = P0
    · subst hp0; exact Or.inl h.type0
    · rw [(h.other p hr hp0).inode]; exact hT.type_ok p hr
  · intro p hp
    obtain ⟨hr, _⟩ := h.del_reach_inv hp
    by_cases hp0 : p = P0
    · subst hp0; exact h.size0
    · rw [(h.other p hr hp0).inode]; exact hT.size_ok p hr
  · intro p hp
    obtain ⟨hr, _⟩ := h.del_reach_inv hp
    by_cases hp0 : p = P0
    · subst hp0; exact (List.nodup_append.1 hnd).2.1
    · rw [(h.other p hr hp0).refs]; exact hT.refs_nodup p hr
  · intro p hp h0
    obtain ⟨hr, _, h1, _⟩ := h.del_refs_sub hp h0
    exact hT.refs_ne_zero p hr h1
  · intro p q hp hq hpq b hbp hbq
    obtain ⟨hrp, _, h1, _⟩ := h.del_refs_sub hp hbp
    obtain ⟨hrq, _, h2, _⟩ := h.del_refs_sub hq hbq
    exact hT.refs_disjoint p q hrp hrq hpq b h1 h2

theorem DelStep.del_reachable_iff {P : Params} {d d1 : Disk} {P0 T : Nat} {R : List Nat}
    (h : DelStep P d d1 P0 T R) (b : Nat) :
    Reachable P d1 b ↔ Reachable P d b ∧ b ∉ R ∧ b ∉ refs P d T := by
  have hT := h.tree
  have hTr := h.del_target_reach
  constructor
  · intro hb
    rcases NFS.reachable_iff.1 hb with h0 | ⟨p, hp, hbp⟩
    · subst h0
      refine ⟨reachable_zero P d, fun hR => ?_, fun hR => hT.refs_ne_zero T hTr hR⟩
      exact hT.refs_ne_zero P0 h.reach0 (h.refs0.mem_iff.2 (List.mem_append.2 (Or.inl hR)))
    · obtain ⟨hr, hpT, h1, h2⟩ := h.del_refs_sub hp hbp
      exact ⟨reachable_of_ref hr h1, h2, fun h3 => hpT (hT.parent_unique hr hTr h1 h3)⟩
  · rintro ⟨hb, hbR, hbT⟩
    rcases NFS.reachable_iff.1 hb with h0 | ⟨p, hp, hbp⟩
    · subst h0; exact reachable_zero P d1
    · have hpT : p ≠ T := fun e => hbT (e ▸ hbp)
      refine reachable_of_ref (h.del_reach_old hp hpT) ?_
      by_cases hp0 : p = P0
      · subst hp0
        rcases List.mem_append.1 (h.refs0.mem_iff.1 hbp) with h1 | h1
        · exact absurd h1 hbR
        · exact h1
      · rw [(h.other p hp hp0).refs]; exact hbp

theorem DelStep.del_bounded_after {P : Params} {d d1 : Disk} {P0 T : Nat} {R : List Nat}
    (h : DelStep P d d1 P0 T R) (hB : Bounded P d) : Bounded P d1 := by
  refine ⟨hB.1, fun p hp b hb => ?_⟩
  obtain ⟨hr, _, h1, _⟩ := h.del_refs_sub hp hb
  exact hB.2 p hr b h1

/-! ## What the create scan reports -/

theorem scan_create_page_open (P : Params) (d : Disk) (ino : fs_inode) (name : List Char)
    {i : Nat} (hi : i < ino.size) (js : List Nat) (hjs : ∀ j ∈ js, j < P.DEP)
    (res : create_scan_info) (hres : OpenOK P d ino res) :
    OpenOK P d ino (scan_create_page (read_dir_block d (ino.blocks i)) name i js res) := by
  induction js generalizing res with
  | nil => simpa [scan_create_page] using hres
  | cons j js ih =>
    have hjs1 : ∀ j ∈ js, j < P.DEP := fun x hx => hjs x (by simp [hx])
    simp only [scan_create_page]
    split
    · rename_i hz
      apply ih hjs1
      split
      · exact hres
      · intro _
        exact ⟨hi, hjs j (by simp), rfl, hz⟩
    · split
      · exact hres
      · exact ih hjs1 res hres

theorem scan_create_pages_open {P : Params} {d : Disk} {ino : fs_inode} {name : List Char}
    (is : List Nat) (his : ∀ i ∈ is, i < ino.size) (res : create_scan_info)
    (hres : OpenOK P d ino res) :
    OpenOK P d ino (scan_create_pages P d ino name is res) := by
  induction is generalizing res with
  | nil => simpa [scan_create_pages] using hres
  | cons i is ih =>
    have h1 := scan_create_page_open P d ino name (his i (by simp)) (List.range P.DEP)
      (fun j hj => List.mem_range.1 hj) res hres
    simp only [scan_create_pages]
    split
    · exact h1
    · exact ih (fun x hx => his x (by simp [hx])) _ h1

theorem scan_create_open {P : Params} {d : Disk} {ino : fs_inode} {name : List Char} :
    OpenOK P d ino (scan_directory_for_create P d ino name) := by
  unfold scan_directory_for_create
  apply scan_create_pages_open _ (fun i hi => List.mem_range.1 hi)
  intro h
  simp at h

theorem scan_create_page_nomatch {es : Nat → fs_direntry} {name : List Char} {i : Nat}
    (js : List Nat) (res : create_scan_info)
    (h : (scan_create_page es name i js res).exists_ = false) :
    ∀ j ∈ js, (es j).inode_block ≠ 0 → cstr (es j).name ≠ name := by
  induction js generalizing res with
  | nil => simp
  | cons j js ih =>
    simp only [scan_create_page] at h
    intro j1 hj1
    rcases List.mem_cons.1 hj1 with e | hj2
    · subst e
      intro hnz
      rw [if_neg hnz] at h
      split at h
      · simp at h
      · assumption
    · split at h
      · exact ih _ h j1 hj2
      · split at h
        · simp at h
        · exact ih _ h j1 hj2

theorem scan_create_pages_nomatch {P : Params} {d : Disk} {ino : fs_inode} {name : List Char}
    (is : List Nat) (res : create_scan_info)
    (h : (scan_create_pages P d ino name is res).exists_ = false) :
    ∀ i ∈ is, ∀ j, j < P.DEP → (read_dir_block d (ino.blocks i) j).inode_block ≠ 0 →
      cstr (read_dir_block d (ino.blocks i) j).name ≠ name := by
  induction is generalizing res with
  | nil => simp
  | cons i is ih =>
    simp only [scan_create_pages] at h
    intro i1 hi1
    split at h
    · rename_i hex
      rw [hex] at h; cases h
    · rename_i hex
      rcases List.mem_cons.1 hi1 with e | hi2
      · subst e
        intro j hj
        exact scan_create_page_nomatch _ _ (by simpa using hex) j (List.mem_range.2 hj)
      · exact ih _ h i1 hi2

theorem scan_create_nomatch {P : Params} {d : Disk} {ino : fs_inode} {name : List Char}
    (h : (scan_directory_for_create P d ino name).exists_ = false) :
    ∀ i, i < ino.size → ∀ j, j < P.DEP →
      (read_dir_block d (ino.blocks i) j).inode_block ≠ 0 →
      cstr (read_dir_block d (ino.blocks i) j).name ≠ name :=
  fun i hi => scan_create_pages_nomatch _ _ h i (List.mem_range.2 hi)

/-! ## What the delete scan reports -/

theorem scan_delete_page_inv (P : Params) (d : Disk) (ino : fs_inode) (name : List Char)
    {i : Nat} (hi : i < ino.size) (js : List Nat) (hjs : ∀ j ∈ js, j < P.DEP)
    (acc : delete_scan_info × Nat × Option Nat) (hacc : DelOK P d ino name i acc) :
    DelOK P d ino name i
      (scan_delete_page (read_dir_block d (ino.blocks i)) name i (ino.blocks i) js acc) := by
  induction js generalizing acc with
  | nil => simpa [scan_delete_page] using hacc
  | cons j js ih =>
    have hjs1 : ∀ j ∈ js, j < P.DEP := fun x hx => hjs x (by simp [hx])
    obtain ⟨res, count, tb⟩ := acc
    simp only [scan_delete_page]
    split
    · exact ih hjs1 _ hacc
    · rename_i hnz
      split
      · rename_i hm
        simp only [Bool.and_eq_true, Bool.not_eq_true', decide_eq_true_eq] at hm
        apply ih hjs1
        refine ⟨fun _ => ⟨rfl, rfl⟩, fun _ => ⟨hi, hjs j (by simp), rfl, rfl, rfl, hnz, hm.2⟩⟩
      · apply ih hjs1
        exact ⟨hacc.1, hacc.2⟩

theorem scan_delete_page_count (es : Nat → fs_direntry) (name : List Char) (i block : Nat)
    (js : List Nat) (acc : delete_scan_info × Nat × Option Nat) :
    (scan_delete_page es name i block js acc).2.1 =
      acc.2.1 + ((js.map (fun j => (es j).inode_block)).filter (fun c => c ≠ 0)).length := by
  induction js generalizing acc with
  | nil => simp [scan_delete_page]
  | cons j js ih =>
    obtain ⟨res, count, tb⟩ := acc
    simp only [scan_delete_page]
    split
    · rename_i hz
      rw [ih]
      simp [hz]
    · rename_i hnz
      split
      · rw [ih]; simp [hnz]; omega
      · rw [ih]; simp [hnz]; omega

theorem scan_delete_page_some (es : Nat → fs_direntry) (name : List Char) (i block : Nat)
    (js : List Nat) (acc : delete_scan_info × Nat × Option Nat)
    (h : acc.2.2.isSome = true) :
    (scan_delete_page es name i block js acc).2.2.isSome = true := by
  induction js generalizing acc with
  | nil => simpa [scan_delete_page] using h
  | cons j js ih =>
    obtain ⟨res, count, tb⟩ := acc
    simp only [scan_delete_page]
    split
    · exact ih _ h
    · split
      · exact ih _ rfl
      · exact ih _ h

theorem scan_delete_page_found (es : Nat → fs_direntry) (name : List Char) (i block : Nat)
    (js : List Nat) (acc : delete_scan_info × Nat × Option Nat)
    (h : (scan_delete_page es name i block js acc).1.found = true) :
    acc.1.found = true ∨ (scan_delete_page es name i block js acc).2.2.isSome = true := by
  induction js generalizing acc with
  | nil => left; simpa [scan_delete_page] using h
  | cons j js ih =>
    obtain ⟨res, count, tb⟩ := acc
    simp only [scan_delete_page] at h ⊢
    split
    · rename_i hz
      rw [if_pos hz] at h
      exact ih _ h
    · rename_i hnz
      rw [if_neg hnz] at h
      split
      · rename_i hm
        rw [if_pos hm] at h
        right
        exact scan_delete_page_some _ _ _ _ js _ rfl
      · rename_i hm
        rw [if_neg hm] at h
        exact ih _ h

theorem scan_delete_pages_found {P : Params} {d : Disk} {ino : fs_inode} {name : List Char}
    (is : List Nat) (his : ∀ i ∈ is, i < ino.size) (res : delete_scan_info)
    (hres : res.found = false)
    (h : (scan_delete_pages P d ino name is res).found = true) :
    FoundOK P d ino name (scan_delete_pages P d ino name is res) ∧
    (scan_delete_pages P d ino name is res).only_entry =
      decide ((page_children P d (scan_delete_pages P d ino name is res).dir_block).length = 1) := by
  induction is generalizing res with
  | nil => simp [scan_delete_pages, hres] at h
  | cons i is ih =>
    have hi := his i (by simp)
    have hinv := scan_delete_page_inv P d ino name hi (List.range P.DEP)
      (fun j hj => List.mem_range.1 hj) (res, 0, none) ⟨by simp, by simp⟩
    have hcount := scan_delete_page_count (read_dir_block d (ino.blocks i))
      name i (ino.blocks i) (List.range P.DEP) (res, 0, none)
    have hfound := scan_delete_page_found (read_dir_block d (ino.blocks i))
      name i (ino.blocks i) (List.range P.DEP) (res, 0, none)
    simp only [scan_delete_pages] at h ⊢
    split
    · rename_i hret
      simp only [Bool.and_eq_true] at hret
      have hok := hinv.2 hret.2
      have hidx := (hinv.1 hret.2).2
      refine ⟨hok, ?_⟩
      simp only
      rw [hcount]
      have hdb : (scan_delete_page (read_dir_block d (ino.blocks i)) name i (ino.blocks i)
          (List.range P.DEP) (res, 0, none)).1.dir_block = ino.blocks i := by
        rw [hok.2.2.1, hidx]
      rw [hdb]
      simp [page_children]
    · rename_i hret
      rw [if_neg hret] at h
      refine ih (fun x hx => his x (by simp [hx])) _ ?_ h
      by_contra hf
      simp only [Bool.not_eq_false] at hf
      rcases hfound hf with h1 | h1
      · simp [hres] at h1
      · exact hret (by simp [hf, h1])

theorem scan_delete_found {P : Params} {d : Disk} {ino : fs_inode} {name : List Char}
    (h : (scan_directory_for_delete P d ino name).found = true) :
    FoundOK P d ino name (scan_directory_for_delete P d ino name) ∧
    (scan_directory_for_delete P d ino name).only_entry =
      decide ((page_children P d (scan_directory_for_delete P d ino name).dir_block).length = 1) :=
  scan_delete_pages_found _ (fun _ hi => List.mem_range.1 hi) _ rfl h

/-! ## List lemmas for the changes of a directory -/

theorem filter_map_update_perm (f : Nat → Nat) (n j v : Nat) (hj : j < n) (hf : f j = 0)
    (hv : v ≠ 0) :
    List.Perm (((List.range n).map (Function.update f j v)).filter (fun c => c ≠ 0))
      (v :: ((List.range n).map f).filter (fun c => c ≠ 0)) := by
  induction n with
  | zero => omega
  | succ n ih =>
    rw [List.range_succ, List.map_append, List.map_append, List.filter_append,
      List.filter_append]
    by_cases hjn : j = n
    · subst hjn
      have hsame : (List.range j).map (Function.update f j v) = (List.range j).map f := by
        apply List.map_congr_left
        intro a ha
        have : a ≠ j := by have := List.mem_range.1 ha; omega
        simp [Function.update_noteq this]
      rw [hsame]
      simp only [List.map_cons, List.map_nil, Function.update_same]
      have h1 : List.filter (fun c => decide (c ≠ 0)) [v] = [v] := by simp [hv]
      have h2 : List.filter (fun c => decide (c ≠ 0)) [f j] = [] := by simp [hf]
      rw [h1, h2, List.append_nil]
      exact List.perm_append_singleton v _
    · have hlt : j < n := by omega
      have hlast : Function.update f j v n = f n := Function.update_noteq (Ne.symm hjn) _ _
      simp only [List.map_cons, List.map_nil, hlast]
      exact (ih hlt).append_right _

theorem inode_block_update (es : Nat → fs_direntry) (j : Nat) (e : fs_direntry) :
    (fun k => (Function.update es j e k).inode_block) =
      Function.update (fun k => (es k).inode_block) j e.inode_block := by
  funext k
  by_cases hk : k = j
  · subst hk; simp
  · simp [Function.update_noteq hk]

theorem page_children_insert {P : Params} {d d1 : Disk} {q j : Nat} {e : fs_direntry}
    (hq : read_dir_block d1 q = Function.update (read_dir_block d q) j e) (hj : j < P.DEP)
    (h0 : (read_dir_block d q j).inode_block = 0) (hv : e.inode_block ≠ 0) :
    List.Perm (page_children P d1 q) (e.inode_block :: page_children P d q) := by
  unfold page_children
  rw [hq, inode_block_update]
  exact filter_map_update_perm _ _ j _ hj h0 hv

theorem page_children_clear {P : Params} {d d1 : Disk} {q j : Nat} {e : fs_direntry}
    (hq : read_dir_block d1 q = Function.update (read_dir_block d q) j e) (hj : j < P.DEP)
    (h0 : (read_dir_block d q j).inode_block ≠ 0) (hv : e.inode_block = 0) :
    List.Perm (page_children P d q) ((read_dir_block d q j).inode_block :: page_children P d1 q) := by
  have hback : read_dir_block d q = Function.update (read_dir_block d1 q) j (read_dir_block d q j) := by
    rw [hq]; simp
  have h1 : (read_dir_block d1 q j).inode_block = 0 := by rw [hq]; simpa using hv
  unfold page_children
  conv_lhs => rw [hback, inode_block_update]
  exact filter_map_update_perm _ _ j _ hj h1 h0

theorem flatMap_perm_cons (g g1 : Nat → List Nat) (q : Nat) (xs : List Nat) (l : List Nat)
    (hnd : l.Nodup) (hq : q ∈ l) (hg : List.Perm (g1 q) (xs ++ g q))
    (hother : ∀ a ∈ l, a ≠ q → g1 a = g a) :
    List.Perm (l.flatMap g1) (xs ++ l.flatMap g) := by
  induction l with
  | nil => simp at hq
  | cons a l ih =>
    simp only [List.flatMap_cons]
    have hnd1 := (List.nodup_cons.1 hnd)
    by_cases ha : a = q
    · subst ha
      have hrest : l.flatMap g1 = l.flatMap g := by
        apply List.flatMap_congr
        intro b hb
        exact hother b (by simp [hb]) (fun e => hnd1.1 (e ▸ hb))
      rw [hrest, ← List.append_assoc]
      exact hg.append_right _
    · have hq1 : q ∈ l := by
        rcases List.mem_cons.1 hq with e | e
        · exact absurd e.symm ha
        · exact e
      rw [hother a (by simp) ha]
      have := ih hnd1.2 hq1 (fun b hb => hother b (by simp [hb]))
      refine (this.append_left (g a)).trans ?_
      rw [← List.append_assoc, ← List.append_assoc]
      exact List.perm_append_comm.append_right _

theorem used_blocks_extend (ino : fs_inode) (b : Nat) :
    used_blocks { ino with blocks := Function.update ino.blocks ino.size b,
                           size := ino.size + 1 } = used_blocks ino ++ [b] := by
  simp only [used_blocks, List.range_succ, List.map_append, List.map_cons, List.map_nil,
    Function.update_same]
  congr 1
  apply List.map_congr_left
  intro a ha
  have : a ≠ ino.size := by have := List.mem_range.1 ha; omega
  simp [Function.update_noteq this]

theorem shift_left_eq (size : Nat) (fuel i : Nat) (blocks : Nat → Nat)
    (hf : size ≤ fuel + i + 1) :
    shift_left size fuel i blocks =
      fun k => if i ≤ k ∧ k + 1 < size then blocks (k + 1) else blocks k := by
  induction fuel generalizing i blocks with
  | zero =>
    funext k
    simp only [shift_left]
    rw [if_neg]; omega
  | succ fuel ih =>
    simp only [shift_left]
    split
    · rename_i hlt
      rw [ih (i + 1) _ (by omega)]
      funext k
      by_cases hk : i + 1 ≤ k ∧ k + 1 < size
      · have h1 : i ≤ k ∧ k + 1 < size := ⟨by omega, hk.2⟩
        have h2 : k + 1 ≠ i := by omega
        rw [if_pos hk, if_pos h1, Function.update_noteq h2]
      · rw [if_neg hk]
        by_cases hki : k = i
        · subst hki
          rw [Function.update_same, if_pos ⟨le_refl _, hlt⟩]
        · have h1 : ¬ (i ≤ k ∧ k + 1 < size) := by omega
          rw [Function.update_noteq hki, if_neg h1]
    · rename_i hge
      funext k
      rw [if_neg]; omega

theorem used_blocks_shift (ino : fs_inode) (idx : Nat) (hidx : idx < ino.size) :
    List.Perm (used_blocks ino)
      (ino.blocks idx ::
        used_blocks { ino with blocks := shift_left ino.size ino.size idx ino.blocks,
                               size := ino.size - 1 }) := by
  rw [shift_left_eq _ _ _ _ (by omega)]
  simp only [used_blocks]
  have hsplit : List.range ino.size =
      List.range idx ++ idx :: List.range' (idx + 1) (ino.size - 1 - idx) := by
    rw [List.range_eq_range', List.range_eq_range']
    have h1 := List.range'_append_1 0 idx (ino.size - idx)
    have h2 := List.range'_succ idx (ino.size - 1 - idx) 1
    have e1 : ino.size - idx + idx = ino.size := by omega
    have e2 : ino.size - 1 - idx + 1 = ino.size - idx := by omega
    rw [e1, Nat.zero_add] at h1
    rw [e2] at h2
    rw [← h1, h2]
  have hsplit2 : List.range (ino.size - 1) =
      List.range idx ++ List.range' idx (ino.size - 1 - idx) := by
    rw [List.range_eq_range', List.range_eq_range']
    have h1 := List.range'_append_1 0 idx (ino.size - 1 - idx)
    have e1 : ino.size - 1 - idx + idx = ino.size - 1 := by omega
    rw [e1, Nat.zero_add] at h1
    rw [← h1]
  rw [hsplit, hsplit2, List.map_append, List.map_append, List.map_cons]
  have h1 : (List.range idx).map (fun k => if idx ≤ k ∧ k + 1 < ino.size then ino.blocks (k + 1)
      else ino.blocks k) = (List.range idx).map ino.blocks := by
    apply List.map_congr_left
    intro a ha
    have := List.mem_range.1 ha
    rw [if_neg]; omega
  have h2 : (List.range' idx (ino.size - 1 - idx)).map
      (fun k => if idx ≤ k ∧ k + 1 < ino.size then ino.blocks (k + 1) else ino.blocks k) =
      (List.range' (idx + 1) (ino.size - 1 - idx)).map ino.blocks := by
    have hmap := List.map_add_range' 1 idx (ino.size - 1 - idx) 1
    rw [Nat.add_comm 1 idx] at hmap
    rw [← hmap, List.map_map]
    apply List.map_congr_left
    intro a ha
    have := List.mem_range'_1.1 ha
    simp only [Function.comp]
    rw [if_pos (by omega), Nat.add_comm 1 a]
  rw [h1, h2]
  exact List.perm_middle

/-! ## The outcomes of `write_block` -/

theorem write_block_cases (P : Params) (s : State) (req : request) :
    ((write_block P s req).reply = none ∧ (write_block P s req).st.disk = s.disk ∧
      (write_block P s req).writes = [] ∧
      ((write_block P s req).st.free = s.free ∨
       (write_block P s req).st.free = s.free.erase 4294967295)) ∨
    (∃ t, path_find P s.disk req.path req.username = some t ∧
      (read_inode_block s.disk t).type = 'f' ∧
      cstr (read_inode_block s.disk t).owner = req.username ∧
      req.block < castInt (read_inode_block s.disk t).size ∧
      write_block P s req =
        ⟨⟨disk_writeblock s.disk ((read_inode_block s.disk t).blocks req.block.toNat)
            (Block.data req.buf), s.free⟩,
          some ⟨header_bytes req, none⟩,
          [((read_inode_block s.disk t).blocks req.block.toNat, Block.data req.buf)]⟩) ∨
    (∃ t b free1, path_find P s.disk req.path req.username = some t ∧
      (read_inode_block s.disk t).type = 'f' ∧
      cstr (read_inode_block s.disk t).owner = req.username ∧
      req.block = castInt (read_inode_block s.disk t).size ∧
      (read_inode_block s.disk t).size < P.MFB ∧
      get_new_block s.free = (some b, free1) ∧
      write_block P s req =
        ⟨⟨disk_writeblock (disk_writeblock s.disk b (Block.data req.buf)) t
            (Block.inode { read_inode_block s.disk t with
              blocks := Function.update (read_inode_block s.disk t).blocks
                (read_inode_block s.disk t).size b,
              size := (read_inode_block s.disk t).size + 1 }), free1⟩,
          some ⟨header_bytes req, none⟩,
          [(b, Block.data req.buf),
           (t, Block.inode { read_inode_block s.disk t with
              blocks := Function.update (read_inode_block s.disk t).blocks
                (read_inode_block s.disk t).size b,
              size := (read_inode_block s.disk t).size + 1 })]⟩) := by
  unfold write_block
  split
  · left; simp [reject]
  · rename_i t hpath
    simp only
    split
    · left; simp [reject]
    · rename_i hle
      split
      · left; simp [reject]
      · rename_i hto
        push_neg at hto
        split
        · rename_i hne
          right; left
          exact ⟨t, hpath, hto.1, hto.2, by omega, rfl⟩
        · rename_i heq
          push_neg at heq
          split
          · left; simp [reject]
          · rename_i hsz
            split
            · rename_i free1 hg
              left
              refine ⟨rfl, rfl, rfl, ?_⟩
              rcases get_new_block_none hg with ⟨h1, h2⟩ | ⟨_, h2⟩
              · left; simp [h1, h2]
              · right; exact h2
            · rename_i b free1 hg
              right; right
              exact ⟨t, b, free1, hpath, hto.1, hto.2, heq, by omega, hg, rfl⟩

theorem not_dir_of_file {c : Char} (h : c = 'f') : c ≠ 'd' := by rw [h]; decide

theorem refs_file {P : Params} {d : Disk} {t : Nat} (h : (read_inode_block d t).type = 'f') :
    refs P d t = used_blocks (read_inode_block d t) := by
  unfold refs
  rw [if_neg (not_dir_of_file h), if_pos h]

theorem refs_dir {P : Params} {d : Disk} {t : Nat} (h : (read_inode_block d t).type = 'd') :
    refs P d t = used_blocks (read_inode_block d t) ++ children P d (read_inode_block d t) := by
  unfold refs
  rw [if_pos h]

theorem overwrite_step {P : Params} {d : Disk} (hT : TreeShaped P d) {t k : Nat}
    (ht : InodeReach P d t) (htype : (read_inode_block d t).type = 'f')
    (hk : k < (read_inode_block d t).size) (blk : Block) :
    AddStep P d (disk_writeblock d ((read_inode_block d t).blocks k) blk) t [] [] := by
  have hq : (read_inode_block d t).blocks k ∈ used_blocks (read_inode_block d t) :=
    mem_used_blocks.2 ⟨k, hk, rfl⟩
  have hM : ∀ x, x ∉ [(read_inode_block d t).blocks k] →
      disk_writeblock d ((read_inode_block d t).blocks k) blk x = d x := by
    intro x hx
    simp only [List.mem_singleton] at hx
    simp [disk_writeblock, Function.update_noteq hx]
  have hne : t ≠ (read_inode_block d t).blocks k := fun e =>
    hT.used_not_inode ht hq (e ▸ ht)
  have hino : read_inode_block (disk_writeblock d ((read_inode_block d t).blocks k) blk) t =
      read_inode_block d t := read_inode_write_ne _ _ _ _ hne
  refine
    { tree := hT, reach0 := ht, other := ?_, type0 := by rw [hino], size0 := ?_, refs0 := ?_,
      child0 := ?_, newdir := by simp, sub := by simp, new_type := by simp,
      new_size := by simp, new_refs := by simp, nodup := List.nodup_nil, fresh := by simp }
  · intro p hp hpt
    apply agree_of_not_mem _ hM
    · simp only [List.mem_singleton]
      intro e
      exact hT.used_not_inode ht hq (e ▸ hp)
    · intro x hx
      simp only [List.mem_singleton] at hx
      subst hx
      exact hT.used_disjoint ht hp (Ne.symm hpt) hq
  · rw [hino]; exact hT.size_ok t ht
  · rw [List.nil_append, refs_file htype, refs_file (by rw [hino]; exact htype), hino]
  · intro hd
    exact absurd hd (not_dir_of_file htype)

theorem extend_step {P : Params} {d : Disk} (hT : TreeShaped P d) {t b : Nat}
    (ht : InodeReach P d t) (htype : (read_inode_block d t).type = 'f')
    (hsz : (read_inode_block d t).size < P.MFB) (hb : ¬ Reachable P d b) (blk : Block) :
    AddStep P d
      (disk_writeblock (disk_writeblock d b blk) t
        (Block.inode { read_inode_block d t with
          blocks := Function.update (read_inode_block d t).blocks (read_inode_block d t).size b,
          size := (read_inode_block d t).size + 1 })) t [b] [] := by
  have hM : ∀ x, x ∉ [b, t] →
      disk_writeblock (disk_writeblock d b blk) t
        (Block.inode { read_inode_block d t with
          blocks := Function.update (read_inode_block d t).blocks (read_inode_block d t).size b,
          size := (read_inode_block d t).size + 1 }) x = d x := by
    intro x hx
    simp only [List.mem_cons, List.mem_singleton, not_or, List.not_mem_nil, or_false] at hx
    simp [disk_writeblock, Function.update_noteq hx.1, Function.update_noteq hx.2]
  refine
    { tree := hT, reach0 := ht, other := ?_, type0 := ?_, size0 := ?_, refs0 := ?_,
      child0 := ?_, newdir := by simp, sub := by simp, new_type := by simp,
      new_size := by simp, new_refs := by simp, nodup := by simp, fresh := by simpa using hb }
  · intro p hp hpt
    apply agree_of_not_mem _ hM
    · simp only [List.mem_cons, List.mem_singleton, List.not_mem_nil, or_false, not_or]
      exact ⟨fun e => hb (e ▸ Or.inl hp), hpt⟩
    · intro x hx hxu
      simp only [List.mem_cons, List.mem_singleton, List.not_mem_nil, or_false] at hx
      rcases hx with e | e
      · subst e; exact hb (reachable_of_ref hp (hT.used_refs hp hxu))
      · subst e; exact hT.used_not_inode hp hxu ht
  · rw [read_inode_write_same]
  · rw [read_inode_write_same]; exact hsz
  · rw [refs_file htype, refs_file (by rw [read_inode_write_same]; exact htype),
      read_inode_write_same, used_blocks_extend]
    exact List.perm_append_comm
  · intro hd
    exact absurd hd (not_dir_of_file htype)

/-- Summary of a `write_block` call on a tree-shaped state whose free blocks are
unreachable: either nothing changes (no reply), or the disk takes an `AddStep` whose
fresh blocks leave the free set. -/
theorem write_block_step (P : Params) (s : State) (req : request) (hP : P.ok)
    (hT : TreeShaped P s.disk) (hF : FreeDisjoint P s) (hB : ValidBlock P req) :
    ((write_block P s req).reply = none ∧ (write_block P s req).st.disk = s.disk ∧
      ((write_block P s req).st.free = s.free ∨
       (write_block P s req).st.free = s.free.erase 4294967295)) ∨
    (∃ t A, AddStep P s.disk (write_block P s req).st.disk t A [] ∧
      (∀ a ∈ A, a ∈ s.free) ∧
      (∀ x, x ∈ (write_block P s req).st.free ↔ x ∈ s.free ∧ x ∉ A)) := by
  rcases write_block_cases P s req with ⟨h1, h2, _, h4⟩ | ⟨t, hpath, hty, _, hlt, heq⟩ |
      ⟨t, b, free1, hpath, hty, _, _, hsz, hg, heq⟩
  · exact Or.inl ⟨h1, h2, h4⟩
  · right
    have ht := path_find_reach hpath
    have hsize := hT.size_ok t ht
    rw [castInt_of_lt _ (by have := hP.2.1; omega)] at hlt
    have hk : req.block.toNat < (read_inode_block s.disk t).size := by
      have := hB.1; omega
    refine ⟨t, [], ?_, by simp, ?_⟩
    · rw [heq]; exact overwrite_step hT ht hty hk _
    · rw [heq]; simp
  · right
    have ht := path_find_reach hpath
    obtain ⟨hbf, hf1, _, _⟩ := get_new_block_some hg
    refine ⟨t, [b], ?_, by simpa using hbf, ?_⟩
    · rw [heq]; exact extend_step hT ht hty hsz (hF b hbf) _
    · rw [heq]; intro x; simp [hf1, Finset.mem_erase]; tauto

/-! ## The outcomes of `sys_create` -/

/-- The three ways `sys_create` ends: without a reply and without a write, with the new
direntry in an open slot, or with the new direntry in a new page. -/
theorem sys_create_cases (P : Params) (s : State) (req : request) :
    ((sys_create P s req).reply = none ∧ (sys_create P s req).st.disk = s.disk ∧
      (sys_create P s req).writes = [] ∧
      ((sys_create P s req).st.free = s.free ∨
       (sys_create P s req).st.free = s.free.erase 4294967295)) ∨
    (∃ p nib free1, path_find P s.disk req.path.dropLast req.username = some p ∧
      (read_inode_block s.disk p).type = 'd' ∧
      (cstr (read_inode_block s.disk p).owner = req.username ∨
        cstr (read_inode_block s.disk p).owner = []) ∧
      (scan_directory_for_create P s.disk (read_inode_block s.disk p)
        (req.path.getLastD [])).exists_ = false ∧
      (scan_directory_for_create P s.disk (read_inode_block s.disk p)
        (req.path.getLastD [])).has_open_entry = true ∧
      get_new_block s.free = (some nib, free1) ∧
      sys_create P s req =
        ⟨⟨disk_writeblock (disk_writeblock s.disk nib (Block.inode (new_inode P req)))
            ((read_inode_block s.disk p).blocks
              (scan_directory_for_create P s.disk (read_inode_block s.disk p)
                (req.path.getLastD [])).open_parent_blocks_idx)
            (Block.dir (Function.update
              (scan_directory_for_create P s.disk (read_inode_block s.disk p)
                (req.path.getLastD [])).open_dir_page
              (scan_directory_for_create P s.disk (read_inode_block s.disk p)
                (req.path.getLastD [])).open_dir_offset
              (new_direntry P (req.path.getLastD []) nib))), free1⟩,
          some ⟨header_bytes req, none⟩,
          [(nib, Block.inode (new_inode P req)),
           ((read_inode_block s.disk p).blocks
              (scan_directory_for_create P s.disk (read_inode_block s.disk p)
                (req.path.getLastD [])).open_parent_blocks_idx,
            Block.dir (Function.update
              (scan_directory_for_create P s.disk (read_inode_block s.disk p)
                (req.path.getLastD [])).open_dir_page
              (scan_directory_for_create P s.disk (read_inode_block s.disk p)
                (req.path.getLastD [])).open_dir_offset
              (new_direntry P (req.path.getLastD []) nib)))]⟩) ∨
    (∃ p ndp nib free1 free2, path_find P s.disk req.path.dropLast req.username = some p ∧
      (read_inode_block s.disk p).type = 'd' ∧
      (cstr (read_inode_block s.disk p).owner = req.username ∨
        cstr (read_inode_block s.disk p).owner = []) ∧
      (scan_directory_for_create P s.disk (read_inode_block s.disk p)
        (req.path.getLastD [])).exists_ = false ∧
      (scan_directory_for_create P s.disk (read_inode_block s.disk p)
        (req.path.getLastD [])).has_open_entry = false ∧
      (read_inode_block s.disk p).size < P.MFB ∧
      get_new_block s.free = (some ndp, free1) ∧
      get_new_block free1 = (some nib, free2) ∧
      sys_create P s req =
        ⟨⟨disk_writeblock
            (disk_writeblock (disk_writeblock s.disk nib (Block.inode (new_inode P req))) ndp
              (Block.dir (Function.update (zero_page P) 0
                (new_direntry P (req.path.getLastD []) nib))))
            p (Block.inode { read_inode_block s.disk p with
                blocks := Function.update (read_inode_block s.disk p).blocks
                  (read_inode_block s.disk p).size ndp,
                size := (read_inode_block s.disk p).size + 1 }), free2⟩,
          some ⟨header_bytes req, none⟩,
          [(nib, Block.inode (new_inode P req)),
           (ndp, Block.dir (Function.update (zero_page P) 0
                (new_direntry P (req.path.getLastD []) nib))),
           (p, Block.inode { read_inode_block s.disk p with
                blocks := Function.update (read_inode_block s.disk p).blocks
                  (read_inode_block s.disk p).size ndp,
                size := (read_inode_block s.disk p).size + 1 })]⟩) := by
  unfold sys_create
  simp only
  split
  · left; simp [reject]
  · rename_i p hpath
    split
    · left; simp [reject]
    · rename_i hperm
      have hty : (read_inode_block s.disk p).type = 'd' := by
        by_contra hc; exact hperm (Or.inl hc)
      have hown : cstr (read_inode_block s.disk p).owner = req.username ∨
          cstr (read_inode_block s.disk p).owner = [] := by
        by_contra hc
        push_neg at hc
        exact hperm (Or.inr hc)
      split
      · left; simp [reject]
      · rename_i hex
        split
        · rename_i hopen
          split
          · rename_i free1 hg
            left
            refine ⟨rfl, rfl, rfl, ?_⟩
            rcases get_new_block_none hg with ⟨h1, h2⟩ | ⟨_, h2⟩
            · left; simp [h1, h2]
            · right; exact h2
          · rename_i nib free1 hg
            right; left
            exact ⟨p, nib, free1, hpath, hty, hown, by simpa using hex, hopen, hg, rfl⟩
        · rename_i hopen
          split
          · left; simp [reject]
          · rename_i hsz
            split
            · rename_i free1 hg
              left
              refine ⟨rfl, rfl, rfl, ?_⟩
              rcases get_new_block_none hg with ⟨h1, h2⟩ | ⟨_, h2⟩
              · left; simp [h1, h2]
              · right; exact h2
            · rename_i ndp free1 hg
              obtain ⟨hmem, hf1, _, hne⟩ := get_new_block_some hg
              split
              · rename_i free2 hg2
                left
                refine ⟨rfl, rfl, rfl, ?_⟩
                rcases get_new_block_none hg2 with ⟨h1, h2⟩ | ⟨_, h2⟩
                · left
                  simp only [h2]
                  rw [hf1] at h1
                  ext x
                  simp only [Finset.mem_insert, Finset.not_mem_empty, or_false]
                  constructor
                  · intro e; rw [e]; exact hmem
                  · intro hx
                    by_contra hxn
                    have : x ∈ s.free.erase ndp := Finset.mem_erase.2 ⟨hxn, hx⟩
                    rw [h1] at this
                    simp at this
                · right
                  simp only [h2, hf1]
                  ext x
                  simp only [Finset.mem_insert, Finset.mem_erase]
                  constructor
                  · rintro (e | ⟨h3, _, h5⟩)
                    · subst e; exact ⟨hne, hmem⟩
                    · exact ⟨h3, h5⟩
                  · rintro ⟨h3, h5⟩
                    by_cases e : x = ndp
                    · exact Or.inl e
                    · exact Or.inr ⟨h3, e, h5⟩
              · rename_i nib free2 hg2
                right; right
                exact ⟨p, ndp, nib, free1, free2, hpath, hty, hown, by simpa using hex,
                  by simpa using hopen, by omega, hg, hg2, rfl⟩

theorem new_inode_refs {P : Params} {d : Disk} {n : Nat} {ni : fs_inode}
    (hn : read_inode_block d n = ni) (hs : ni.size = 0) : refs P d n = [] := by
  unfold refs
  rw [hn]
  simp [used_blocks, children, hs]

theorem create_open_step {P : Params} {d : Disk} (hT : TreeShaped P d) {p i j nib : Nat}
    (hp : InodeReach P d p) (hty : (read_inode_block d p).type = 'd')
    (hi : i < (read_inode_block d p).size) (hj : j < P.DEP)
    (h0 : (read_dir_block d ((read_inode_block d p).blocks i) j).inode_block = 0)
    (hnib : ¬ Reachable P d nib) (ni : fs_inode) (hnt : ni.type = 'd' ∨ ni.type = 'f')
    (hns : ni.size = 0) (e : fs_direntry) (he : e.inode_block = nib) :
    AddStep P d
      (disk_writeblock (disk_writeblock d nib (Block.inode ni))
        ((read_inode_block d p).blocks i)
        (Block.dir (Function.update (read_dir_block d ((read_inode_block d p).blocks i)) j e)))
      p [nib] [nib] := by
  set q := (read_inode_block d p).blocks i with hqdef
  set d1 := disk_writeblock (disk_writeblock d nib (Block.inode ni)) q
        (Block.dir (Function.update (read_dir_block d q) j e)) with hd1
  have hq : q ∈ used_blocks (read_inode_block d p) := mem_used_blocks.2 ⟨i, hi, rfl⟩
  have hqr : Reachable P d q := reachable_of_ref hp (hT.used_refs hp hq)
  have hnq : nib ≠ q := fun e1 => hnib (e1 ▸ hqr)
  have hn0 : nib ≠ 0 := fun e1 => hnib (e1 ▸ reachable_zero P d)
  have hM : ∀ x, x ∉ [nib, q] → d1 x = d x := by
    intro x hx
    simp only [List.mem_cons, List.mem_singleton, not_or, List.not_mem_nil, or_false] at hx
    simp [hd1, disk_writeblock, Function.update_noteq hx.1, Function.update_noteq hx.2]
  have hpq : p ≠ q := fun e1 => hT.used_not_inode hp hq (e1 ▸ hp)
  have hpn : p ≠ nib := fun e1 => hnib (e1 ▸ Or.inl hp)
  have hino : read_inode_block d1 p = read_inode_block d p :=
    read_inode_congr (hM p (by simp [hpq, hpn]))
  have hdirq : read_dir_block d1 q = Function.update (read_dir_block d q) j e :=
    read_dir_write_same _ _ _
  have hnd := hT.refs_nodup p hp
  rw [refs_dir hty] at hnd
  have hch : List.Perm (children P d1 (read_inode_block d1 p))
      ([nib] ++ children P d (read_inode_block d p)) := by
    rw [hino]
    unfold children
    apply flatMap_perm_cons _ _ q [nib] _ (List.nodup_append.1 hnd).1 hq
    · have := page_children_insert (P := P) hdirq hj h0 (by rw [he]; exact hn0)
      rw [he] at this
      exact this
    · intro a ha haq
      apply page_children_congr
      apply hM
      simp only [List.mem_cons, List.mem_singleton, not_or, List.not_mem_nil, or_false]
      exact ⟨fun e1 => hnib (e1 ▸ reachable_of_ref hp (hT.used_refs hp ha)), haq⟩
  have hnino : read_inode_block d1 nib = ni := by
    rw [hd1, read_inode_write_ne _ _ _ _ hnq, read_inode_write_same]
  refine
    { tree := hT, reach0 := hp, other := ?_, type0 := by rw [hino], size0 := ?_, refs0 := ?_,
      child0 := ?_, newdir := fun _ _ => hty, sub := fun _ h => h, new_type := ?_,
      new_size := ?_, new_refs := ?_, nodup := by simp, fresh := by simpa using hnib }
  · intro x hx hxp
    apply agree_of_not_mem _ hM
    · simp only [List.mem_cons, List.mem_singleton, not_or, List.not_mem_nil, or_false]
      exact ⟨fun e1 => hnib (e1 ▸ Or.inl hx), fun e1 => hT.used_not_inode hp hq (e1 ▸ hx)⟩
    · intro y hy hyu
      simp only [List.mem_cons, List.mem_singleton, List.not_mem_nil, or_false] at hy
      rcases hy with e1 | e1
      · subst e1; exact hnib (reachable_of_ref hx (hT.used_refs hx hyu))
      · subst e1; exact hT.used_disjoint hp hx (Ne.symm hxp) hq hyu
  · rw [hino]; exact hT.size_ok p hp
  · rw [refs_dir hty, refs_dir (by rw [hino]; exact hty)]
    conv_lhs => rw [hino]
    rw [← hino]
    refine (hch.append_left _).trans ?_
    rw [hino, ← List.append_assoc, ← List.append_assoc]
    exact List.perm_append_comm.append_right _
  · intro _ c
    rw [hch.mem_iff, List.mem_append]
    tauto
  · intro n hn
    simp only [List.mem_singleton] at hn
    subst hn
    rw [hnino]; exact hnt
  · intro n hn
    simp only [List.mem_singleton] at hn
    subst hn
    rw [hnino, hns]; exact Nat.zero_le _
  · intro n hn
    simp only [List.mem_singleton] at hn
    subst hn
    exact new_inode_refs hnino hns

theorem page_children_new_page {P : Params} {d : Disk} {q : Nat} {e : fs_direntry}
    (hP : 0 < P.DEP) (hq : read_dir_block d q = Function.update (zero_page P) 0 e)
    (he : e.inode_block ≠ 0) : page_children P d q = [e.inode_block] := by
  unfold page_children
  rw [hq, inode_block_update]
  have h := filter_map_update_perm (fun k => (zero_page P k).inode_block) P.DEP 0
    e.inode_block hP rfl he
  have hz : List.filter (fun c => decide (c ≠ 0))
      (List.map (fun k => (zero_page P k).inode_block) (List.range P.DEP)) = [] := by
    simp [zero_page]
  rw [hz] at h
  exact List.perm_singleton.1 h

theorem create_newpage_step {P : Params} {d : Disk} (hP : P.ok) (hT : TreeShaped P d)
    {p ndp nib : Nat} (hp : InodeReach P d p) (hty : (read_inode_block d p).type = 'd')
    (hsz : (read_inode_block d p).size < P.MFB)
    (hndp : ¬ Reachable P d ndp) (hnib : ¬ Reachable P d nib) (hne : ndp ≠ nib)
    (ni : fs_inode) (hnt : ni.type = 'd' ∨ ni.type = 'f') (hns : ni.size = 0)
    (e : fs_direntry) (he : e.inode_block = nib) :
    AddStep P d
      (disk_writeblock
        (disk_writeblock (disk_writeblock d nib (Block.inode ni)) ndp
          (Block.dir (Function.update (zero_page P) 0 e)))
        p (Block.inode { read_inode_block d p with
            blocks := Function.update (read_inode_block d p).blocks
              (read_inode_block d p).size ndp,
            size := (read_inode_block d p).size + 1 }))
      p [ndp, nib] [nib] := by
  set ino1 : fs_inode := { read_inode_block d p with
            blocks := Function.update (read_inode_block d p).blocks
              (read_inode_block d p).size ndp,
            size := (read_inode_block d p).size + 1 } with hino1
  set d1 := disk_writeblock
        (disk_writeblock (disk_writeblock d nib (Block.inode ni)) ndp
          (Block.dir (Function.update (zero_page P) 0 e))) p (Block.inode ino1) with hd1
  have hn0 : nib ≠ 0 := fun e1 => hnib (e1 ▸ reachable_zero P d)
  have hpn : p ≠ nib := fun e1 => hnib (e1 ▸ Or.inl hp)
  have hpd : p ≠ ndp := fun e1 => hndp (e1 ▸ Or.inl hp)
  have hM : ∀ x, x ∉ [nib, ndp, p] → d1 x = d x := by
    intro x hx
    simp only [List.mem_cons, List.mem_singleton, not_or, List.not_mem_nil, or_false] at hx
    simp [hd1, disk_writeblock, Function.update_noteq hx.1, Function.update_noteq hx.2.1,
      Function.update_noteq hx.2.2]
  have hino : read_inode_block d1 p = ino1 := read_inode_write_same _ _ _
  have hdirq : read_dir_block d1 ndp = Function.update (zero_page P) 0 e := by
    rw [hd1, read_dir_write_ne _ _ _ _ (Ne.symm hpd), read_dir_write_same]
  have hnino : read_inode_block d1 nib = ni := by
    rw [hd1, read_inode_write_ne _ _ _ _ (Ne.symm hpn),
      read_inode_write_ne _ _ _ _ (Ne.symm hne), read_inode_write_same]
  have hused : used_blocks ino1 = used_blocks (read_inode_block d p) ++ [ndp] :=
    used_blocks_extend _ _
  have hold : ∀ a ∈ used_blocks (read_inode_block d p), d1 a = d a := by
    intro a ha
    apply hM
    simp only [List.mem_cons, List.mem_singleton, not_or, List.not_mem_nil, or_false]
    have har := reachable_of_ref hp (hT.used_refs hp ha)
    exact ⟨fun e1 => hnib (e1 ▸ har), fun e1 => hndp (e1 ▸ har),
      fun e1 => hT.used_not_inode hp ha (e1 ▸ hp)⟩
  have hch : children P d1 ino1 = children P d (read_inode_block d p) ++ [nib] := by
    unfold children
    rw [hused, List.flatMap_append, flatMap_page_children_congr _ hold]
    simp only [List.flatMap_cons, List.flatMap_nil, List.append_nil]
    rw [page_children_new_page hP.1 hdirq (by rw [he]; exact hn0), he]
  have hty1 : (read_inode_block d1 p).type = 'd' := by rw [hino]; exact hty
  refine
    { tree := hT, reach0 := hp, other := ?_, type0 := by rw [hino], size0 := ?_, refs0 := ?_,
      child0 := ?_, newdir := fun _ _ => hty, sub := ?_, new_type := ?_,
      new_size := ?_, new_refs := ?_, nodup := by simp [hne], fresh := ?_ }
  · intro x hx hxp
    apply agree_of_not_mem _ hM
    · simp only [List.mem_cons, List.mem_singleton, not_or, List.not_mem_nil, or_false]
      exact ⟨fun e1 => hnib (e1 ▸ Or.inl hx), fun e1 => hndp (e1 ▸ Or.inl hx), hxp⟩
    · intro y hy hyu
      simp only [List.mem_cons, List.mem_singleton, List.not_mem_nil, or_false] at hy
      have hyr := reachable_of_ref hx (hT.used_refs hx hyu)
      rcases hy with e1 | e1 | e1
      · subst e1; exact hnib hyr
      · subst e1; exact hndp hyr
      · subst e1; exact hT.used_not_inode hx hyu hp
  · rw [hino]; exact hsz
  · rw [refs_dir hty, refs_dir hty1, hino, hused, hch]
    have : [ndp, nib] = [ndp] ++ [nib] := rfl
    rw [this]
    generalize used_blocks (read_inode_block d p) = u
    generalize children P d (read_inode_block d p) = c
    have h1 : List.Perm (u ++ [ndp] ++ (c ++ [nib])) ([ndp] ++ (u ++ (c ++ [nib]))) := by
      have h := (@List.perm_append_comm _ u [ndp]).append_right (c ++ [nib])
      rwa [List.append_assoc [ndp] u] at h
    have h2 : List.Perm (u ++ (c ++ [nib])) ([nib] ++ (u ++ c)) := by
      rw [← List.append_assoc]
      exact List.perm_append_comm
    refine h1.trans ?_
    rw [List.append_assoc [ndp] [nib]]
    exact h2.append_left _
  · intro _ c
    rw [hino, hch, List.mem_append]
  · intro n hn
    simp only [List.mem_singleton] at hn
    subst hn
    simp
  · intro n hn
    simp only [List.mem_singleton] at hn
    subst hn
    rw [hnino]; exact hnt
  · intro n hn
    simp only [List.mem_singleton] at hn
    subst hn
    rw [hnino, hns]; exact Nat.zero_le _
  · intro n hn
    simp only [List.mem_singleton] at hn
    subst hn
    exact new_inode_refs hnino hns
  · intro a ha
    simp only [List.mem_cons, List.mem_singleton, List.not_mem_nil, or_false] at ha
    rcases ha with e1 | e1
    · subst e1; exact hndp
    · subst e1; exact hnib

/-- Summary of a `sys_create` call on a tree-shaped state whose free blocks are
unreachable. -/
theorem sys_create_step (P : Params) (s : State) (req : request) (hP : P.ok)
    (hT : TreeShaped P s.disk) (hF : FreeDisjoint P s) (hK : ValidKind req) :
    ((sys_create P s req).reply = none ∧ (sys_create P s req).st.disk = s.disk ∧
      ((sys_create P s req).st.free = s.free ∨
       (sys_create P s req).st.free = s.free.erase 4294967295)) ∨
    (∃ p A I, AddStep P s.disk (sys_create P s req).st.disk p A I ∧
      (∀ a ∈ A, a ∈ s.free) ∧
      (∀ x, x ∈ (sys_create P s req).st.free ↔ x ∈ s.free ∧ x ∉ A)) := by
  have hnt : (new_inode P req).type = 'd' ∨ (new_inode P req).type = 'f' := by
    rcases hK with h | h
    · exact Or.inr h
    · exact Or.inl h
  rcases sys_create_cases P s req with ⟨h1, h2, _, h4⟩ |
      ⟨p, nib, free1, hpath, hty, _, _, hopen, hg, heq⟩ |
      ⟨p, ndp, nib, free1, free2, hpath, hty, _, _, _, hsz, hg, hg2, heq⟩
  · exact Or.inl ⟨h1, h2, h4⟩
  · right
    have hp := path_find_reach hpath
    obtain ⟨hi, hj, hpage, h0⟩ := scan_create_open hopen
    obtain ⟨hbf, hf1, _, _⟩ := get_new_block_some hg
    refine ⟨p, [nib], [nib], ?_, by simpa using hbf, ?_⟩
    · rw [heq, hpage]
      rw [hpage] at h0
      exact create_open_step hT hp hty hi hj h0 (hF nib hbf) _ hnt rfl _ rfl
    · rw [heq]; intro x; simp [hf1, Finset.mem_erase]; tauto
  · right
    have hp := path_find_reach hpath
    obtain ⟨hbf, hf1, _, _⟩ := get_new_block_some hg
    obtain ⟨hbf2, hf2, _, _⟩ := get_new_block_some hg2
    rw [hf1] at hbf2
    have hne : ndp ≠ nib := fun e => (Finset.mem_erase.1 hbf2).1 e.symm
    have hnf : nib ∈ s.free := (Finset.mem_erase.1 hbf2).2
    refine ⟨p, [ndp, nib], [nib], ?_, ?_, ?_⟩
    · rw [heq]
      exact create_newpage_step hP hT hp hty hsz (hF ndp hbf) (hF nib hnf) hne _ hnt rfl _ rfl
    · intro a ha
      simp only [List.mem_cons, List.mem_singleton, List.not_mem_nil, or_false] at ha
      rcases ha with e | e
      · subst e; exact hbf
      · subst e; exact hnf
    · rw [heq]; intro x; simp [hf2, hf1, Finset.mem_erase]; tauto

/-! ## The outcomes of `sys_delete` -/

theorem mem_free_blocks (ino : fs_inode) (is : List Nat) (free : Finset Nat) (x : Nat) :
    x ∈ free_blocks ino is free ↔ x ∈ free ∨ ∃ i ∈ is, ino.blocks i = x ∧ x ≠ 0 := by
  induction is generalizing free with
  | nil => simp [free_blocks]
  | cons i is ih =>
    simp only [free_blocks]
    split
    · rename_i hnz
      rw [ih, Finset.mem_insert]
      constructor
      · rintro ((e | h) | ⟨k, hk, h⟩)
        · exact Or.inr ⟨i, by simp, e.symm, e ▸ hnz⟩
        · exact Or.inl h
        · exact Or.inr ⟨k, by simp [hk], h⟩
      · rintro (h | ⟨k, hk, h⟩)
        · exact Or.inl (Or.inr h)
        · rcases List.mem_cons.1 hk with e | hk1
          · subst e; exact Or.inl (Or.inl h.1.symm)
          · exact Or.inr ⟨k, hk1, h⟩
    · rename_i hz
      push_neg at hz
      rw [ih]
      constructor
      · rintro (h | ⟨k, hk, h⟩)
        · exact Or.inl h
        · exact Or.inr ⟨k, by simp [hk], h⟩
      · rintro (h | ⟨k, hk, h⟩)
        · exact Or.inl h
        · rcases List.mem_cons.1 hk with e | hk1
          · subst e; exact absurd hz (h.1 ▸ h.2)
          · exact Or.inr ⟨k, hk1, h⟩

/-- The three ways `sys_delete` ends: without a reply and without any change, with the
direntry cleared in its page, or with the page removed from the parent. -/
theorem sys_delete_cases (P : Params) (s : State) (req : request) :
    ((sys_delete P s req).reply = none ∧ (sys_delete P s req).st = s ∧
      (sys_delete P s req).writes = []) ∨
    (∃ p, path_find P s.disk req.path.dropLast req.username = some p ∧
      (read_inode_block s.disk p).type = 'd' ∧
      (cstr (read_inode_block s.disk p).owner = req.username ∨
        cstr (read_inode_block s.disk p).owner = []) ∧
      (scan_directory_for_delete P s.disk (read_inode_block s.disk p)
        (req.path.getLastD [])).found = true ∧
      cstr (read_inode_block s.disk (scan_directory_for_delete P s.disk
        (read_inode_block s.disk p) (req.path.getLastD [])).inode_block).owner = req.username ∧
      ((read_inode_block s.disk (scan_directory_for_delete P s.disk
        (read_inode_block s.disk p) (req.path.getLastD [])).inode_block).type = 'd' →
       (read_inode_block s.disk (scan_directory_for_delete P s.disk
        (read_inode_block s.disk p) (req.path.getLastD [])).inode_block).size = 0) ∧
      (((scan_directory_for_delete P s.disk (read_inode_block s.disk p)
          (req.path.getLastD [])).only_entry = false ∧
        sys_delete P s req =
          ⟨⟨disk_writeblock s.disk
              (scan_directory_for_delete P s.disk (read_inode_block s.disk p)
                (req.path.getLastD [])).dir_block
              (Block.dir (Function.update
                (scan_directory_for_delete P s.disk (read_inode_block s.disk p)
                  (req.path.getLastD [])).dir_page
                (scan_directory_for_delete P s.disk (read_inode_block s.disk p)
                  (req.path.getLastD [])).dir_offset
                (cleared_direntry ((scan_directory_for_delete P s.disk
                  (read_inode_block s.disk p) (req.path.getLastD [])).dir_page
                  (scan_directory_for_delete P s.disk (read_inode_block s.disk p)
                    (req.path.getLastD [])).dir_offset)))),
            insert (scan_directory_for_delete P s.disk (read_inode_block s.disk p)
                (req.path.getLastD [])).inode_block
              (free_blocks (read_inode_block s.disk (scan_directory_for_delete P s.disk
                  (read_inode_block s.disk p) (req.path.getLastD [])).inode_block)
                (List.range (read_inode_block s.disk (scan_directory_for_delete P s.disk
                  (read_inode_block s.disk p) (req.path.getLastD [])).inode_block).size)
                s.free)⟩,
            some ⟨header_bytes req, none⟩,
            [((scan_directory_for_delete P s.disk (read_inode_block s.disk p)
                (req.path.getLastD [])).dir_block,
              Block.dir (Function.update
                (scan_directory_for_delete P s.disk (read_inode_block s.disk p)
                  (req.path.getLastD [])).dir_page
                (scan_directory_for_delete P s.disk (read_inode_block s.disk p)
                  (req.path.getLastD [])).dir_offset
                (cleared_direntry ((scan_directory_for_delete P s.disk
                  (read_inode_block s.disk p) (req.path.getLastD [])).dir_page
                  (scan_directory_for_delete P s.disk (read_inode_block s.disk p)
                    (req.path.getLastD [])).dir_offset))))]⟩) ∨
       ((scan_directory_for_delete P s.disk (read_inode_block s.disk p)
          (req.path.getLastD [])).only_entry = true ∧
        sys_delete P s req =
          ⟨⟨disk_writeblock s.disk p
              (Block.inode { read_inode_block s.disk p with
                blocks := shift_left (read_inode_block s.disk p).size
                  (read_inode_block s.disk p).size
                  (scan_directory_for_delete P s.disk (read_inode_block s.disk p)
                    (req.path.getLastD [])).parent_blocks_idx
                  (read_inode_block s.disk p).blocks,
                size := (read_inode_block s.disk p).size - 1 }),
            insert (scan_directory_for_delete P s.disk (read_inode_block s.disk p)
                (req.path.getLastD [])).inode_block
              (free_blocks (read_inode_block s.disk (scan_directory_for_delete P s.disk
                  (read_inode_block s.disk p) (req.path.getLastD [])).inode_block)
                (List.range (read_inode_block s.disk (scan_directory_for_delete P s.disk
                  (read_inode_block s.disk p) (req.path.getLastD [])).inode_block).size)
                (insert (scan_directory_for_delete P s.disk (read_inode_block s.disk p)
                  (req.path.getLastD [])).dir_block s.free))⟩,
            some ⟨header_bytes req, none⟩,
            [(p, Block.inode { read_inode_block s.disk p with
                blocks := shift_left (read_inode_block s.disk p).size
                  (read_inode_block s.disk p).size
                  (scan_directory_for_delete P s.disk (read_inode_block s.disk p)
                    (req.path.getLastD [])).parent_blocks_idx
                  (read_inode_block s.disk p).blocks,
                size := (read_inode_block s.disk p).size - 1 })]⟩))) := by
  unfold sys_delete
  simp only
  split
  · left; simp [reject]
  · rename_i p hpath
    split
    · left; simp [reject]
    · rename_i hperm
      have hty : (read_inode_block s.disk p).type = 'd' := by
        by_contra hc; exact hperm (Or.inl hc)
      have hown : cstr (read_inode_block s.disk p).owner = req.username ∨
          cstr (read_inode_block s.disk p).owner = [] := by
        by_contra hc
        push_neg at hc
        exact hperm (Or.inr hc)
      split
      · left; simp [reject]
      · rename_i hfound
        split
        · left; simp [reject]
        · rename_i hto
          push_neg at hto
          split
          · left; simp [reject]
          · rename_i hleaf
            have hleaf1 : (read_inode_block s.disk (scan_directory_for_delete P s.disk
                (read_inode_block s.disk p) (req.path.getLastD [])).inode_block).type = 'd' →
                (read_inode_block s.disk (scan_directory_for_delete P s.disk
                (read_inode_block s.disk p) (req.path.getLastD [])).inode_block).size = 0 := by
              intro h
              by_contra hc
              exact hleaf ⟨h, Nat.pos_of_ne_zero hc⟩
            right
            refine ⟨p, hpath, hty, hown, by simpa using hfound, hto, hleaf1, ?_⟩
            split
            · rename_i honly
              left
              exact ⟨by simpa using honly, rfl⟩
            · rename_i honly
              right
              exact ⟨by simpa using honly, rfl⟩

theorem mem_children_of_entry {P : Params} {d : Disk} {ino : fs_inode} {i j T : Nat}
    (hi : i < ino.size) (hj : j < P.DEP)
    (hT : (read_dir_block d (ino.blocks i) j).inode_block = T) (hne : T ≠ 0) :
    T ∈ children P d ino :=
  mem_children.2 ⟨ino.blocks i, mem_used_blocks.2 ⟨i, hi, rfl⟩,
    mem_page_children.2 ⟨hne, j, hj, hT⟩⟩

theorem child_iff_of_perm {c1 c : List Nat} {T : Nat} (hnd : c.Nodup)
    (h : List.Perm c ([T] ++ c1)) (x : Nat) : x ∈ c1 ↔ x ∈ c ∧ x ≠ T := by
  have hnd1 : ([T] ++ c1).Nodup := h.nodup_iff.1 hnd
  have hT : T ∉ c1 := by
    intro hin
    exact (List.nodup_append.1 hnd1).2.2 (by simp) hin
  rw [h.mem_iff]
  simp only [List.singleton_append, List.mem_cons]
  constructor
  · intro hx
    exact ⟨Or.inr hx, fun e => hT (e ▸ hx)⟩
  · rintro ⟨h1 | h1, h2⟩
    · exact absurd h1 h2
    · exact h1

theorem delete_clear_step {P : Params} {d : Disk} (hT : TreeShaped P d) {p i j T : Nat}
    (hp : InodeReach P d p) (hty : (read_inode_block d p).type = 'd')
    (hi : i < (read_inode_block d p).size) (hj : j < P.DEP)
    (hent : (read_dir_block d ((read_inode_block d p).blocks i) j).inode_block = T)
    (hT0 : T ≠ 0)
    (hleaf : (read_inode_block d T).type = 'd' → (read_inode_block d T).size = 0)
    (e : fs_direntry) (he : e.inode_block = 0) :
    DelStep P d
      (disk_writeblock d ((read_inode_block d p).blocks i)
        (Block.dir (Function.update (read_dir_block d ((read_inode_block d p).blocks i)) j e)))
      p T [T] := by
  set q := (read_inode_block d p).blocks i with hqdef
  set d1 := disk_writeblock d q (Block.dir (Function.update (read_dir_block d q) j e))
    with hd1
  have hq : q ∈ used_blocks (read_inode_block d p) := mem_used_blocks.2 ⟨i, hi, rfl⟩
  have hM : ∀ x, x ∉ [q] → d1 x = d x := by
    intro x hx
    simp only [List.mem_singleton] at hx
    simp [hd1, disk_writeblock, Function.update_noteq hx]
  have hpq : p ≠ q := fun e1 => hT.used_not_inode hp hq (e1 ▸ hp)
  have hino : read_inode_block d1 p = read_inode_block d p :=
    read_inode_congr (hM p (by simp [hpq]))
  have hdirq : read_dir_block d1 q = Function.update (read_dir_block d q) j e :=
    read_dir_write_same _ _ _
  have hnd := hT.refs_nodup p hp
  rw [refs_dir hty] at hnd
  have hch : List.Perm (children P d (read_inode_block d p))
      ([T] ++ children P d1 (read_inode_block d p)) := by
    unfold children
    apply flatMap_perm_cons _ _ q [T] _ (List.nodup_append.1 hnd).1 hq
    · have := page_children_clear (P := P) hdirq hj (by rw [hent]; exact hT0) he
      rw [hent] at this
      exact this
    · intro a _ haq
      exact (page_children_congr (hM a (by simp [haq]))).symm
  have hty1 : (read_inode_block d1 p).type = 'd' := by rw [hino]; exact hty
  refine
    { tree := hT, reach0 := hp, type0d := hty,
      target := mem_children_of_entry hi hj hent hT0, leaf := hleaf, other := ?_,
      type0 := hty1, size0 := by rw [hino]; exact hT.size_ok p hp,
      refs0 := ?_,
      child0 := by rw [hino]; exact child_iff_of_perm (List.nodup_append.1 hnd).2.1 hch,
      targetR := by simp }
  · intro x hx hxp
    apply agree_of_not_mem _ hM
    · simp only [List.mem_singleton]
      exact fun e1 => hT.used_not_inode hp hq (e1 ▸ hx)
    · intro y hy hyu
      simp only [List.mem_singleton] at hy
      subst hy
      exact hT.used_disjoint hp hx (Ne.symm hxp) hq hyu
  · rw [refs_dir hty, refs_dir hty1, hino]
    refine (hch.append_left _).trans ?_
    rw [← List.append_assoc, ← List.append_assoc]
    exact List.perm_append_comm.append_right _

theorem delete_compact_step {P : Params} {d : Disk} (hT : TreeShaped P d) {p i j T : Nat}
    (hp : InodeReach P d p) (hty : (read_inode_block d p).type = 'd')
    (hi : i < (read_inode_block d p).size) (hj : j < P.DEP)
    (hent : (read_dir_block d ((read_inode_block d p).blocks i) j).inode_block = T)
    (hT0 : T ≠ 0)
    (hleaf : (read_inode_block d T).type = 'd' → (read_inode_block d T).size = 0)
    (honly : (page_children P d ((read_inode_block d p).blocks i)).length = 1) :
    DelStep P d
      (disk_writeblock d p
        (Block.inode { read_inode_block d p with
          blocks := shift_left (read_inode_block d p).size (read_inode_block d p).size i
            (read_inode_block d p).blocks,
          size := (read_inode_block d p).size - 1 }))
      p T [(read_inode_block d p).blocks i, T] := by
  set q := (read_inode_block d p).blocks i with hqdef
  set ino1 : fs_inode := { read_inode_block d p with
          blocks := shift_left (read_inode_block d p).size (read_inode_block d p).size i
            (read_inode_block d p).blocks,
          size := (read_inode_block d p).size - 1 } with hino1
  set d1 := disk_writeblock d p (Block.inode ino1) with hd1
  have hq : q ∈ used_blocks (read_inode_block d p) := mem_used_blocks.2 ⟨i, hi, rfl⟩
  have hM : ∀ x, x ∉ [p] → d1 x = d x := by
    intro x hx
    simp only [List.mem_singleton] at hx
    simp [hd1, disk_writeblock, Function.update_noteq hx]
  have hino : read_inode_block d1 p = ino1 := read_inode_write_same _ _ _
  have hpc : page_children P d q = [T] := by
    obtain ⟨a, ha⟩ := List.length_eq_one.1 honly
    have hmem : T ∈ page_children P d q := mem_page_children.2 ⟨hT0, j, hj, hent⟩
    rw [ha] at hmem ⊢
    simp only [List.mem_singleton] at hmem
    rw [hmem]
  have hused : List.Perm (used_blocks (read_inode_block d p)) (q :: used_blocks ino1) :=
    used_blocks_shift _ i hi
  have hnd := hT.refs_nodup p hp
  rw [refs_dir hty] at hnd
  have hold : ∀ a ∈ used_blocks ino1, d1 a = d a := by
    intro a ha
    apply hM
    simp only [List.mem_singleton]
    have ha1 : a ∈ used_blocks (read_inode_block d p) := hused.mem_iff.2 (by simp [ha])
    exact fun e1 => hT.used_not_inode hp ha1 (e1 ▸ hp)
  have hch : List.Perm (children P d (read_inode_block d p))
      ([T] ++ children P d1 ino1) := by
    unfold children
    rw [flatMap_page_children_congr _ hold]
    have := hused.flatMap_right (page_children P d)
    rw [List.flatMap_cons, hpc] at this
    exact this
  refine
    { tree := hT, reach0 := hp, type0d := hty,
      target := mem_children_of_entry hi hj hent hT0, leaf := hleaf, other := ?_,
      type0 := by rw [hino]; exact hty,
      size0 := by rw [hino]; exact le_trans (Nat.sub_le _ _) (hT.size_ok p hp),
      refs0 := ?_,
      child0 := by rw [hino]; exact child_iff_of_perm (List.nodup_append.1 hnd).2.1 hch,
      targetR := by simp }
  · intro x hx hxp
    apply agree_of_not_mem _ hM
    · simpa using hxp
    · intro y hy hyu
      simp only [List.mem_singleton] at hy
      subst hy
      exact hT.used_not_inode hx hyu hp
  · rw [refs_dir hty, refs_dir (by rw [hino]; exact hty), hino]
    have h1 := hused.append hch
    refine h1.trans ?_
    generalize used_blocks ino1 = u
    generalize children P d1 ino1 = c
    have : [q, T] ++ (u ++ c) = q :: ([T] ++ (u ++ c)) := rfl
    rw [this, List.cons_append]
    apply List.Perm.cons
    rw [← List.append_assoc, ← List.append_assoc]
    exact List.perm_append_comm.append_right _

/-- Summary of a `sys_delete` call on a tree-shaped state. -/
theorem sys_delete_step (P : Params) (s : State) (req : request)
    (hT : TreeShaped P s.disk) :
    ((sys_delete P s req).reply = none ∧ (sys_delete P s req).st = s) ∨
    (∃ p T R, DelStep P s.disk (sys_delete P s req).st.disk p T R ∧
      (∀ x, x ∈ (sys_delete P s req).st.free ↔
        x ∈ s.free ∨ x ∈ R ∨ x ∈ refs P s.disk T)) := by
  rcases sys_delete_cases P s req with ⟨h1, h2, _⟩ |
      ⟨p, hpath, hty, _, hfound, _, hleaf, hcase⟩
  · exact Or.inl ⟨h1, h2⟩
  · right
    have hp := path_find_reach hpath
    obtain ⟨⟨hi, hj, hdb, hpage, hent, hT0, _⟩, honly⟩ := scan_delete_found hfound
    set sc := scan_directory_for_delete P s.disk (read_inode_block s.disk p)
      (req.path.getLastD []) with hsc
    have hTr : InodeReach P s.disk sc.inode_block :=
      InodeReach.child p _ hp hty (by
        rw [hpage, hdb] at hent
        exact mem_children_of_entry hi hj hent hT0)
    have hfree : ∀ (f0 : Finset Nat) (x : Nat),
        x ∈ insert sc.inode_block
          (free_blocks (read_inode_block s.disk sc.inode_block)
            (List.range (read_inode_block s.disk sc.inode_block).size) f0) ↔
        x ∈ f0 ∨ x = sc.inode_block ∨ x ∈ refs P s.disk sc.inode_block := by
      intro f0 x
      rw [Finset.mem_insert, mem_free_blocks]
      have hrefs : (∃ k ∈ List.range (read_inode_block s.disk sc.inode_block).size,
          (read_inode_block s.disk sc.inode_block).blocks k = x ∧ x ≠ 0) ↔
          x ∈ refs P s.disk sc.inode_block := by
        rcases hT.type_ok _ hTr with htd | htf
        · have hs0 := hleaf htd
          rw [refs_dir htd]
          simp [used_blocks, children, hs0]
        · rw [refs_file htf]
          constructor
          · rintro ⟨k, hk, h1, _⟩
            exact mem_used_blocks.2 ⟨k, List.mem_range.1 hk, h1⟩
          · intro hx
            obtain ⟨k, hk, h1⟩ := mem_used_blocks.1 hx
            refine ⟨k, List.mem_range.2 hk, h1, fun e0 => ?_⟩
            subst e0
            exact hT.refs_ne_zero _ hTr (by rw [refs_file htf]; exact hx)
      rw [hrefs]
      constructor
      · rintro (h | h | h)
        · exact Or.inr (Or.inl h)
        · exact Or.inl h
        · exact Or.inr (Or.inr h)
      · rintro (h | h | h)
        · exact Or.inr (Or.inl h)
        · exact Or.inl h
        · exact Or.inr (Or.inr h)
    rcases hcase with ⟨hno, heq⟩ | ⟨hyes, heq⟩
    · refine ⟨p, sc.inode_block, [sc.inode_block], ?_, ?_⟩
      · rw [heq]
        simp only
        rw [hpage, hdb]
        rw [hpage, hdb] at hent
        exact delete_clear_step hT hp hty hi hj hent hT0 hleaf _ rfl
      · rw [heq]
        intro x
        simp only
        rw [hfree]
        simp
    · refine ⟨p, sc.inode_block, [sc.dir_block, sc.inode_block], ?_, ?_⟩
      · rw [heq]
        simp only
        rw [hdb]
        rw [hpage, hdb] at hent
        rw [honly, hdb] at hyes
        exact delete_compact_step hT hp hty hi hj hent hT0 hleaf (by simpa using hyes)
      · rw [heq]
        intro x
        simp only
        rw [hfree]
        simp only [Finset.mem_insert, List.mem_cons, List.mem_singleton, List.not_mem_nil,
          or_false]
        tauto

/-! ## The invariants across a step -/

theorem FreeExact.disjoint {P : Params} {s : State} (h : FreeExact P s) : FreeDisjoint P s :=
  fun b hb => ((h b).1 hb).2

theorem FreeExact.erase_last {P : Params} {s : State} (hP : P.ok) (h : FreeExact P s) :
    s.free.erase 4294967295 = s.free := by
  apply Finset.erase_eq_of_not_mem
  intro hm
  have := ((h _).1 hm).1
  have := hP.2.2
  omega

theorem AddStep.add_free_exact {P : Params} {s s1 : State} {p : Nat} {A I : List Nat}
    (h : AddStep P s.disk s1.disk p A I) (hF : FreeExact P s)
    (hfree : ∀ x, x ∈ s1.free ↔ x ∈ s.free ∧ x ∉ A) : FreeExact P s1 := by
  intro b
  rw [hfree, hF b, h.add_reachable_iff]
  tauto

theorem AddStep.add_free_disjoint {P : Params} {s s1 : State} {p : Nat} {A I : List Nat}
    (h : AddStep P s.disk s1.disk p A I) (hF : FreeDisjoint P s)
    (hfree : ∀ x, x ∈ s1.free ↔ x ∈ s.free ∧ x ∉ A) : FreeDisjoint P s1 := by
  intro b hb
  rw [hfree] at hb
  rw [h.add_reachable_iff]
  rintro (h1 | h1)
  · exact hF b hb.1 h1
  · exact hb.2 h1

theorem DelStep.del_free_exact {P : Params} {s s1 : State} {p T : Nat} {R : List Nat}
    (h : DelStep P s.disk s1.disk p T R) (hB : Bounded P s.disk) (hF : FreeExact P s)
    (hfree : ∀ x, x ∈ s1.free ↔ x ∈ s.free ∨ x ∈ R ∨ x ∈ refs P s.disk T) :
    FreeExact P s1 := by
  intro b
  rw [hfree, hF b, h.del_reachable_iff]
  have hR : b ∈ R → b < P.N ∧ Reachable P s.disk b := fun hb =>
    have hmem : b ∈ refs P s.disk p := h.refs0.mem_iff.2 (List.mem_append.2 (Or.inl hb))
    ⟨hB.2 p h.reach0 b hmem, reachable_of_ref h.reach0 hmem⟩
  have hT : b ∈ refs P s.disk T → b < P.N ∧ Reachable P s.disk b := fun hb =>
    ⟨hB.2 T h.del_target_reach b hb, reachable_of_ref h.del_target_reach hb⟩
  constructor
  · rintro (⟨h1, h2⟩ | h1 | h1)
    · exact ⟨h1, fun h3 => h2 h3.1⟩
    · exact ⟨(hR h1).1, fun h3 => h3.2.1 h1⟩
    · exact ⟨(hT h1).1, fun h3 => h3.2.2 h1⟩
  · rintro ⟨h1, h2⟩
    by_cases hr : Reachable P s.disk b
    · by_cases h3 : b ∈ R
      · exact Or.inr (Or.inl h3)
      · by_cases h4 : b ∈ refs P s.disk T
        · exact Or.inr (Or.inr h4)
        · exact absurd ⟨hr, h3, h4⟩ h2
    · exact Or.inl ⟨h1, hr⟩

theorem DelStep.del_free_disjoint {P : Params} {s s1 : State} {p T : Nat} {R : List Nat}
    (h : DelStep P s.disk s1.disk p T R) (hF : FreeDisjoint P s)
    (hfree : ∀ x, x ∈ s1.free ↔ x ∈ s.free ∨ x ∈ R ∨ x ∈ refs P s.disk T) :
    FreeDisjoint P s1 := by
  intro b hb
  rw [hfree] at hb
  rw [h.del_reachable_iff]
  rintro ⟨h1, h2, h3⟩
  rcases hb with hb | hb | hb
  · exact hF b hb h1
  · exact h2 hb
  · exact h3 hb

theorem FreeDisjoint.of_subset {P : Params} {s s1 : State} (hF : FreeDisjoint P s)
    (hd : s1.disk = s.disk) (hf : s1.free = s.free ∨ s1.free = s.free.erase 4294967295) :
    FreeDisjoint P s1 := by
  intro b hb
  rw [hd]
  rcases hf with hf | hf
  · rw [hf] at hb; exact hF b hb
  · rw [hf] at hb; exact hF b (Finset.mem_of_mem_erase hb)

theorem FreeExact.of_same {P : Params} {s s1 : State} (hP : P.ok) (hF : FreeExact P s)
    (hd : s1.disk = s.disk) (hf : s1.free = s.free ∨ s1.free = s.free.erase 4294967295) :
    FreeExact P s1 := by
  have hf1 : s1.free = s.free := by
    rcases hf with hf | hf
    · exact hf
    · rw [hf, hF.erase_last hP]
  intro b
  rw [hd, hf1]
  exact hF b

/-- Every handler keeps a well-formed state well-formed. -/
theorem write_block_wf (P : Params) (s : State) (req : request) (hP : P.ok)
    (hB : ValidBlock P req) (h : WellFormed P s) : WellFormed P (write_block P s req).st := by
  obtain ⟨hT, hBd, hF⟩ := h
  rcases write_block_step P s req hP hT hF.disjoint hB with ⟨_, h2, h3⟩ | ⟨t, A, hs, hA, hfree⟩
  · exact ⟨h2 ▸ hT, h2 ▸ hBd, hF.of_same hP h2 h3⟩
  · exact ⟨hs.add_tree_after, hs.add_bounded_after hBd (fun a ha => ((hF a).1 (hA a ha)).1),
      hs.add_free_exact hF hfree⟩

theorem sys_create_wf (P : Params) (s : State) (req : request) (hP : P.ok)
    (hK : ValidKind req) (h : WellFormed P s) : WellFormed P (sys_create P s req).st := by
  obtain ⟨hT, hBd, hF⟩ := h
  rcases sys_create_step P s req hP hT hF.disjoint hK with ⟨_, h2, h3⟩ | ⟨t, A, I, hs, hA, hfree⟩
  · exact ⟨h2 ▸ hT, h2 ▸ hBd, hF.of_same hP h2 h3⟩
  · exact ⟨hs.add_tree_after, hs.add_bounded_after hBd (fun a ha => ((hF a).1 (hA a ha)).1),
      hs.add_free_exact hF hfree⟩

theorem sys_delete_wf (P : Params) (s : State) (req : request)
    (h : WellFormed P s) : WellFormed P (sys_delete P s req).st := by
  obtain ⟨hT, hBd, hF⟩ := h
  rcases sys_delete_step P s req hT with ⟨_, h2⟩ | ⟨p, T, R, hs, hfree⟩
  · rw [h2]; exact ⟨hT, hBd, hF⟩
  · exact ⟨hs.del_tree_after, hs.del_bounded_after hBd, hs.del_free_exact hBd hF hfree⟩

theorem read_block_st (P : Params) (s : State) (req : request) :
    (read_block P s req).st = s := by
  unfold read_block
  split
  · rfl
  · simp only
    split
    · rfl
    · split <;> rfl

/-! ## The example states are well-formed -/

theorem exP_ok : exP.ok := by
  unfold Params.ok exP
  decide

set_option maxRecDepth 100000 in
theorem ex_refs_root : refs exP ex_disk 0 = [1, 2] := by decide

set_option maxRecDepth 100000 in
theorem ex_refs_file : refs exP ex_disk 2 = [3] := by decide

set_option maxRecDepth 100000 in
theorem ex_children_root : children exP ex_disk (read_inode_block ex_disk 0) = [2] := by decide

theorem ex_inode_reach {x : Nat} (h : InodeReach exP ex_disk x) : x = 0 ∨ x = 2 := by
  induction h with
  | root => exact Or.inl rfl
  | child p c _ ht hc ih =>
    rcases ih with e | e
    · subst e
      rw [ex_children_root] at hc
      exact Or.inr (by simpa using hc)
    · subst e
      exact absurd ht (by decide)

theorem ex_reach_file : InodeReach exP ex_disk 2 :=
  InodeReach.child 0 2 InodeReach.root (by decide) (by rw [ex_children_root]; simp)

theorem ex_reachable_iff (b : Nat) : Reachable exP ex_disk b ↔ b < 4 := by
  rw [reachable_iff]
  constructor
  · rintro (e | ⟨p, hp, hb⟩)
    · omega
    · rcases ex_inode_reach hp with e | e
      · subst e; rw [ex_refs_root] at hb; simp at hb; omega
      · subst e; rw [ex_refs_file] at hb; simp at hb; omega
  · intro hb
    by_cases h0 : b = 0
    · exact Or.inl h0
    · right
      by_cases h3 : b = 3
      · exact ⟨2, ex_reach_file, by rw [ex_refs_file, h3]; simp⟩
      · exact ⟨0, InodeReach.root, by rw [ex_refs_root]; simp; omega⟩

set_option maxRecDepth 100000 in
theorem ex_tree : TreeShaped exP ex_disk := by
  refine ⟨?_, ?_, ?_, ?_, ?_⟩
  · intro p hp
    rcases ex_inode_reach hp with e | e <;> subst e <;> decide
  · intro p hp
    rcases ex_inode_reach hp with e | e <;> subst e <;> decide
  · intro p hp
    rcases ex_inode_reach hp with e | e <;> subst e
    · rw [ex_refs_root]; decide
    · rw [ex_refs_file]; decide
  · intro p hp
    rcases ex_inode_reach hp with e | e <;> subst e
    · rw [ex_refs_root]; decide
    · rw [ex_refs_file]; decide
  · intro p q hp hq hpq b hbp hbq
    rcases ex_inode_reach hp with e | e <;> rcases ex_inode_reach hq with e1 | e1 <;>
      subst e <;> subst e1
    · exact hpq rfl
    · rw [ex_refs_root] at hbp; rw [ex_refs_file] at hbq
      simp at hbp hbq; omega
    · rw [ex_refs_root] at hbq; rw [ex_refs_file] at hbp
      simp at hbp hbq; omega
    · exact hpq rfl

theorem ex_bounded : Bounded exP ex_disk := by
  refine ⟨by decide, fun p hp b hb => ?_⟩
  have : b < 4 := (ex_reachable_iff b).1 (reachable_of_ref hp hb)
  show b < 64
  omega

theorem ex_free_exact : FreeExact exP ex_state := by
  intro b
  show b ∈ Finset.Ico 4 64 ↔ b < 64 ∧ ¬ Reachable exP ex_disk b
  rw [ex_reachable_iff, Finset.mem_Ico]
  omega

theorem ex_wf : WellFormed exP ex_state := ⟨ex_tree, ex_bounded, ex_free_exact⟩

set_option maxRecDepth 100000 in
theorem fresh_refs_root : refs exP fresh_disk 0 = [] := by decide

theorem fresh_inode_reach {x : Nat} (h : InodeReach exP fresh_disk x) : x = 0 := by
  induction h with
  | root => rfl
  | child p c _ ht hc ih =>
    subst ih
    have := children_sub_refs ht hc
    rw [fresh_refs_root] at this
    simp at this

theorem fresh_reachable_iff (b : Nat) : Reachable exP fresh_disk b ↔ b = 0 := by
  rw [reachable_iff]
  constructor
  · rintro (e | ⟨p, hp, hb⟩)
    · exact e
    · have := fresh_inode_reach hp
      subst this
      rw [fresh_refs_root] at hb
      simp at hb
  · intro hb
    exact Or.inl hb

set_option maxRecDepth 100000 in
theorem fresh_tree : TreeShaped exP fresh_disk := by
  refine ⟨?_, ?_, ?_, ?_, ?_⟩
  · intro p hp
    have := fresh_inode_reach hp; subst this; decide
  · intro p hp
    have := fresh_inode_reach hp; subst this; decide
  · intro p hp
    have := fresh_inode_reach hp; subst this
    rw [fresh_refs_root]; exact List.nodup_nil
  · intro p hp
    have := fresh_inode_reach hp; subst this
    rw [fresh_refs_root]; simp
  · intro p q hp hq hpq
    have h1 := fresh_inode_reach hp
    have h2 := fresh_inode_reach hq
    exact absurd (h1.trans h2.symm) hpq

theorem fresh_wf : WellFormed exP fresh_state := by
  refine ⟨fresh_tree, ⟨by decide, fun p hp b hb => ?_⟩, fun b => ?_⟩
  · have := fresh_inode_reach hp; subst this
    have hb1 : b ∈ refs exP fresh_disk 0 := hb
    rw [fresh_refs_root] at hb1
    simp at hb1
  · show b ∈ Finset.Ico 1 64 ↔ b < 64 ∧ ¬ Reachable exP fresh_disk b
    rw [fresh_reachable_iff, Finset.mem_Ico]
    omega

/-! ## The startup scan -/

theorem push_children_eq (es : Nat → fs_direntry) (js : List Nat) (stack : List Nat) :
    push_children es js stack =
      ((js.map (fun j => (es j).inode_block)).filter (fun c => c ≠ 0)).reverse ++ stack := by
  induction js generalizing stack with
  | nil => simp [push_children]
  | cons j js ih =>
    simp only [push_children]
    split
    · rename_i hz
      rw [ih]; simp [hz]
    · rename_i hnz
      rw [ih]; simp [hnz]

theorem scan_dir_pages_stack (P : Params) (d : Disk) (ino : fs_inode) (is : List Nat)
    (hnz : ∀ i ∈ is, ino.blocks i ≠ 0) (free : Finset Nat) (stack : List Nat) :
    (scan_dir_pages P d ino is (free, stack)).2 =
      ((is.map ino.blocks).flatMap (page_children P d)).reverse ++ stack := by
  induction is generalizing free stack with
  | nil => simp [scan_dir_pages]
  | cons i is ih =>
    simp only [scan_dir_pages]
    rw [if_neg (hnz i (by simp))]
    rw [ih (fun x hx => hnz x (by simp [hx])), push_children_eq]
    simp [page_children]

theorem scan_dir_pages_free (P : Params) (d : Disk) (ino : fs_inode) (is : List Nat)
    (hnz : ∀ i ∈ is, ino.blocks i ≠ 0) (free : Finset Nat) (stack : List Nat) (x : Nat) :
    x ∈ (scan_dir_pages P d ino is (free, stack)).1 ↔ x ∈ free ∧ x ∉ is.map ino.blocks := by
  induction is generalizing free stack with
  | nil => simp [scan_dir_pages]
  | cons i is ih =>
    simp only [scan_dir_pages]
    rw [if_neg (hnz i (by simp))]
    rw [ih (fun x hx => hnz x (by simp [hx])), Finset.mem_erase]
    simp only [List.map_cons, List.mem_cons, not_or]
    tauto

theorem erase_file_blocks_mem (ino : fs_inode) (is : List Nat) (free : Finset Nat) (x : Nat) :
    x ∈ erase_file_blocks ino is free ↔ x ∈ free ∧ x ∉ is.map ino.blocks := by
  induction is generalizing free with
  | nil => simp [erase_file_blocks]
  | cons i is ih =>
    simp only [erase_file_blocks]
    rw [ih, Finset.mem_erase]
    simp only [List.map_cons, List.mem_cons, not_or]
    tauto

theorem DfsInv.popped_length {P : Params} {d : Disk} (hB : Bounded P d)
    {stack : List Nat} {free : Finset Nat} {popped : List Nat} {curr : Nat}
    (h : DfsInv P d (curr :: stack) free popped) : popped.length < P.N := by
  have hnd : (curr :: popped).Nodup :=
    List.nodup_cons.2 ⟨h.disjoint curr (by simp), h.popped_nodup⟩
  have hlt : ∀ x ∈ curr :: popped, x < P.N := by
    intro x hx
    have hr : InodeReach P d x := by
      rcases List.mem_cons.1 hx with e | e
      · subst e; exact h.stack_reach x (by simp)
      · exact h.popped_reach x e
    rcases hr.cases_parent with e | ⟨p, hp, ht, hc⟩
    · subst e; exact hB.1
    · exact hB.2 p hp x (children_sub_refs ht hc)
  have hsub : (curr :: popped).toFinset ⊆ Finset.range P.N := by
    intro x hx
    rw [List.mem_toFinset] at hx
    exact Finset.mem_range.2 (hlt x hx)
  have hcard := Finset.card_le_card hsub
  rw [List.toFinset_card_of_nodup hnd, Finset.card_range] at hcard
  simpa using hcard

/-- One iteration of the loop of `sys_init` keeps the invariant: `cs` are the children
pushed (none for a file) and `free1` is the free set after the erasures. -/
theorem DfsInv.step {P : Params} {d : Disk} (hT : TreeShaped P d)
    {rest : List Nat} {free free1 : Finset Nat} {popped : List Nat} {curr : Nat}
    (h : DfsInv P d (curr :: rest) free popped) (cs : List Nat)
    (hcs : ∀ c, c ∈ cs ↔ (read_inode_block d curr).type = 'd' ∧
      c ∈ children P d (read_inode_block d curr))
    (hnd : cs.Nodup)
    (hfree : ∀ x, x ∈ free1 ↔ x ∈ free ∧ x ≠ curr ∧
      x ∉ used_blocks (read_inode_block d curr)) :
    DfsInv P d (cs.reverse ++ rest) free1 (popped ++ [curr]) := by
  have hcurr : InodeReach P d curr := h.stack_reach curr (by simp)
  have hcp : curr ∉ popped := h.disjoint curr (by simp)
  have hsn := List.nodup_cons.1 h.stack_nodup
  -- a child of `curr` has not been seen before
  have hnew : ∀ c ∈ cs, c ∉ rest ∧ c ∉ popped ∧ c ≠ curr := by
    intro c hc
    obtain ⟨hty, hcc⟩ := (hcs c).1 hc
    have hc0 : c ≠ 0 := fun e => zero_not_mem_children (e ▸ hcc)
    have hold : c ∈ curr :: rest ∨ c ∈ popped → False := by
      intro hin
      rcases h.parent c hin with e | ⟨p, hp, hpt, hpc⟩
      · exact hc0 e
      · have := hT.parent_unique (h.popped_reach p hp) hcurr (children_sub_refs hpt hpc)
          (children_sub_refs hty hcc)
        exact hcp (this ▸ hp)
    refine ⟨fun hr => hold (Or.inl (by simp [hr])), fun hp => hold (Or.inr hp), fun e => ?_⟩
    exact hold (Or.inl (by simp [e]))
  refine
    { stack_nodup := ?_, popped_nodup := ?_, disjoint := ?_, stack_reach := ?_,
      popped_reach := ?_, parent := ?_, closed := ?_, root := ?_, free_ok := ?_ }
  · rw [List.nodup_append]
    refine ⟨List.nodup_reverse.2 hnd, hsn.2, ?_⟩
    intro a ha hb
    exact (hnew a (List.mem_reverse.1 ha)).1 hb
  · rw [List.nodup_append]
    refine ⟨h.popped_nodup, by simp, ?_⟩
    intro a ha hb
    simp only [List.mem_singleton] at hb
    exact hcp (hb ▸ ha)
  · intro x hx hxp
    rcases List.mem_append.1 hx with hx1 | hx1
    · have := hnew x (List.mem_reverse.1 hx1)
      rcases List.mem_append.1 hxp with h1 | h1
      · exact this.2.1 h1
      · exact this.2.2 (by simpa using h1)
    · rcases List.mem_append.1 hxp with h1 | h1
      · exact h.disjoint x (by simp [hx1]) h1
      · simp only [List.mem_singleton] at h1
        exact hsn.1 (h1 ▸ hx1)
  · intro x hx
    rcases List.mem_append.1 hx with hx1 | hx1
    · obtain ⟨hty, hcc⟩ := (hcs x).1 (List.mem_reverse.1 hx1)
      exact InodeReach.child curr x hcurr hty hcc
    · exact h.stack_reach x (by simp [hx1])
  · intro x hx
    rcases List.mem_append.1 hx with hx1 | hx1
    · exact h.popped_reach x hx1
    · simp only [List.mem_singleton] at hx1
      exact hx1 ▸ hcurr
  · intro x hx
    have hcases : x ∈ cs ∨ (x ∈ curr :: rest ∨ x ∈ popped) := by
      rcases hx with hx | hx
      · rcases List.mem_append.1 hx with hx1 | hx1
        · exact Or.inl (List.mem_reverse.1 hx1)
        · exact Or.inr (Or.inl (by simp [hx1]))
      · rcases List.mem_append.1 hx with hx1 | hx1
        · exact Or.inr (Or.inr hx1)
        · exact Or.inr (Or.inl (by simp only [List.mem_singleton] at hx1; simp [hx1]))
    rcases hcases with hx1 | hx1
    · obtain ⟨hty, hcc⟩ := (hcs x).1 hx1
      exact Or.inr ⟨curr, by simp, hty, hcc⟩
    · rcases h.parent x hx1 with e | ⟨p, hp, hpt, hpc⟩
      · exact Or.inl e
      · exact Or.inr ⟨p, by simp [hp], hpt, hpc⟩
  · intro p hp hpt c hc
    rcases List.mem_append.1 hp with hp1 | hp1
    · rcases h.closed p hp1 hpt c hc with h1 | h1
      · rcases List.mem_cons.1 h1 with e | e
        · exact Or.inr (by simp [e])
        · exact Or.inl (by simp [e])
      · exact Or.inr (by simp [h1])
    · simp only [List.mem_singleton] at hp1
      subst hp1
      exact Or.inl (by simp [(hcs c).2 ⟨hpt, hc⟩])
  · rcases h.root with h1 | h1
    · rcases List.mem_cons.1 h1 with e | e
      · exact Or.inr (by simp [e])
      · exact Or.inl (by simp [e])
    · exact Or.inr (by simp [h1])
  · intro b
    rw [hfree, h.free_ok b]
    simp only [List.mem_append, List.mem_singleton, not_or]
    constructor
    · rintro ⟨⟨h1, h2, h3⟩, h4, h5⟩
      refine ⟨h1, ⟨h2, h4⟩, ?_⟩
      rintro p (hp | hp)
      · exact h3 p hp
      · rw [hp]; exact h5
    · rintro ⟨h1, ⟨h2, h4⟩, h3⟩
      exact ⟨⟨h1, h2, fun p hp => h3 p (Or.inl hp)⟩, h4, h3 curr (Or.inr rfl)⟩

theorem TreeShaped.children_nodup {P : Params} {d : Disk} (hT : TreeShaped P d) {p : Nat}
    (hp : InodeReach P d p) (hty : (read_inode_block d p).type = 'd') :
    (children P d (read_inode_block d p)).Nodup := by
  have := hT.refs_nodup p hp
  rw [refs_dir hty] at this
  exact (List.nodup_append.1 this).2.1

theorem TreeShaped.used_ne_zero {P : Params} {d : Disk} (hT : TreeShaped P d) {p : Nat}
    (hp : InodeReach P d p) :
    ∀ i ∈ List.range (read_inode_block d p).size, (read_inode_block d p).blocks i ≠ 0 := by
  intro i hi e
  apply hT.refs_ne_zero p hp
  apply hT.used_refs hp
  exact mem_used_blocks.2 ⟨i, List.mem_range.1 hi, e⟩

/-- On a well-formed disk the loop of `sys_init` ends within the fuel left, keeping the
invariant. -/
theorem sys_init_loop_spec {P : Params} {d : Disk} (hT : TreeShaped P d) (hB : Bounded P d)
    (fuel : Nat) (stack : List Nat) (free : Finset Nat) (popped : List Nat)
    (h : DfsInv P d stack free popped) (hfuel : P.N ≤ fuel + popped.length) :
    ∃ free1 popped1, sys_init_loop P d fuel stack free popped = some (free1, popped1) ∧
      DfsInv P d [] free1 popped1 := by
  induction fuel generalizing stack free popped with
  | zero =>
    cases stack with
    | nil => exact ⟨free, popped, by simp [sys_init_loop], h⟩
    | cons curr rest =>
      have := h.popped_length hB
      omega
  | succ fuel ih =>
    cases stack with
    | nil => exact ⟨free, popped, by simp [sys_init_loop], h⟩
    | cons curr rest =>
      have hlen := h.popped_length hB
      have hcurr : InodeReach P d curr := h.stack_reach curr (by simp)
      have hfuel1 : P.N ≤ fuel + (popped ++ [curr]).length := by
        simp only [List.length_append, List.length_singleton]; omega
      simp only [sys_init_loop]
      split
      · rename_i hty
        apply ih
        · rw [scan_dir_pages_stack P d _ _ (hT.used_ne_zero hcurr)]
          apply h.step hT (children P d (read_inode_block d curr))
          · intro c; simp [hty]
          · exact hT.children_nodup hcurr hty
          · intro x
            rw [scan_dir_pages_free P d _ _ (hT.used_ne_zero hcurr), Finset.mem_erase]
            simp only [used_blocks]
            tauto
        · exact hfuel1
      · rename_i hty
        have htf : (read_inode_block d curr).type = 'f' := by
          rcases hT.type_ok curr hcurr with e | e
          · exact absurd e hty
          · exact e
        rw [if_pos htf]
        apply ih
        · have hstep : DfsInv P d (([] : List Nat).reverse ++ rest)
              (erase_file_blocks (read_inode_block d curr)
                (List.range (read_inode_block d curr).size) (free.erase curr))
              (popped ++ [curr]) :=
            h.step hT [] (by intro c; simp [hty]) List.nodup_nil
              (by
                intro x
                rw [erase_file_blocks_mem, Finset.mem_erase]
                simp only [used_blocks]
                tauto)
          simpa using hstep
        · exact hfuel1

theorem DfsInv.init (P : Params) (d : Disk) : DfsInv P d [0] (Finset.range P.N) [] where
  stack_nodup := by simp
  popped_nodup := by simp
  disjoint := by simp
  stack_reach := by
    intro x hx
    simp only [List.mem_singleton] at hx
    exact hx ▸ InodeReach.root
  popped_reach := by simp
  parent := by
    intro x hx
    left
    simpa using hx
  closed := by simp
  root := by simp
  free_ok := by simp

theorem DfsInv.final_popped {P : Params} {d : Disk} {free : Finset Nat} {popped : List Nat}
    (h : DfsInv P d [] free popped) (x : Nat) : x ∈ popped ↔ InodeReach P d x := by
  constructor
  · exact h.popped_reach x
  · intro hx
    induction hx with
    | root => simpa using h.root
    | child p c _ ht hc ih => simpa using h.closed p ih ht c hc

theorem DfsInv.final_free {P : Params} {d : Disk} (hT : TreeShaped P d)
    {free : Finset Nat} {popped : List Nat}
    (h : DfsInv P d [] free popped) (b : Nat) : b ∈ free ↔ b < P.N ∧ ¬ Reachable P d b := by
  rw [h.free_ok b]
  constructor
  · rintro ⟨h1, h2, h3⟩
    refine ⟨h1, ?_⟩
    rintro (hr | ⟨p, hp, hb⟩)
    · exact h2 ((h.final_popped b).2 hr)
    · have hpp := (h.final_popped p).2 hp
      rcases hT.type_ok p hp with ht | ht
      · rw [refs_dir ht] at hb
        rcases List.mem_append.1 hb with hb1 | hb1
        · exact h3 p hpp hb1
        · exact h2 ((h.final_popped b).2 (InodeReach.child p b hp ht hb1))
      · rw [refs_file ht] at hb
        exact h3 p hpp hb
  · rintro ⟨h1, h2⟩
    refine ⟨h1, fun hb => h2 (Or.inl ((h.final_popped b).1 hb)), fun p hp hb => ?_⟩
    have hpr := (h.final_popped p).1 hp
    exact h2 (reachable_of_ref hpr (hT.used_refs hpr hb))

/-- Startup scan on a well-formed disk: with `N` iterations (or more) the loop has ended;
the free set it leaves is the set of unreachable blocks below `N`, and the blocks popped
are the reachable inodes, each popped once. -/
theorem sys_init_spec {P : Params} {d : Disk} (h : WellFormedDisk P d) (fuel : Nat)
    (hfuel : P.N ≤ fuel) :
    ∃ free popped, sys_init P d fuel = some (free, popped) ∧
      (∀ b, b ∈ free ↔ b < P.N ∧ ¬ Reachable P d b) ∧
      popped.Nodup ∧ ∀ x, x ∈ popped ↔ InodeReach P d x := by
  obtain ⟨free, popped, h1, h2⟩ :=
    sys_init_loop_spec h.1 h.2 fuel [0] (Finset.range P.N) [] (DfsInv.init P d)
      (by simpa using hfuel)
  exact ⟨free, popped, h1, h2.final_free h.1, h2.popped_nodup, h2.final_popped⟩

/-! ## Writing an unreachable block -/

theorem castInt_le (x : Nat) : castInt x ≤ (x : Int) := by
  unfold castInt
  have h := Nat.mod_le x 4294967296
  split <;> omega

theorem get_new_block_min {free free1 : Finset Nat} {b : Nat}
    (h : get_new_block free = (some b, free1)) :
    ∃ hne : free.Nonempty, b = free.min' hne ∧ free1 = free.erase (free.min' hne) := by
  unfold get_new_block at h
  split at h
  · rename_i hne
    simp only [Prod.mk.injEq] at h
    exact ⟨hne, (blockToInt_eq_some h.1).1, h.2.symm⟩
  · simp at h

theorem write_unreachable_local {P : Params} {d : Disk} {b : Nat} (blk : Block)
    (hb : ¬ Reachable P d b) {p : Nat} (hp : InodeReach P d p) :
    read_inode_block (disk_writeblock d b blk) p = read_inode_block d p ∧
    refs P (disk_writeblock d b blk) p = refs P d p ∧
    ((read_inode_block d p).type = 'd' →
      children P (disk_writeblock d b blk) (read_inode_block d p) =
        children P d (read_inode_block d p)) := by
  have hpb : p ≠ b := fun e => hb (e ▸ Or.inl hp)
  have hino := read_inode_write_ne d b p blk hpb
  have hch : (read_inode_block d p).type = 'd' →
      children P (disk_writeblock d b blk) (read_inode_block d p) =
        children P d (read_inode_block d p) := by
    intro ht
    apply children_congr
    intro pg hpg
    have : pg ≠ b := fun e =>
      hb (e ▸ reachable_of_ref hp (used_sub_refs (Or.inl ht) hpg))
    simp [disk_writeblock, Function.update_noteq this]
  refine ⟨hino, ?_, hch⟩
  unfold refs
  rw [hino]
  by_cases ht : (read_inode_block d p).type = 'd'
  · rw [if_pos ht, if_pos ht, hch ht]
  · rw [if_neg ht, if_neg ht]

theorem write_unreachable_inode {P : Params} {d : Disk} {b : Nat} (blk : Block)
    (hb : ¬ Reachable P d b) (x : Nat) :
    InodeReach P (disk_writeblock d b blk) x ↔ InodeReach P d x := by
  constructor
  · intro hx
    induction hx with
    | root => exact InodeReach.root
    | child p c _ ht hc ih =>
      obtain ⟨h1, _, h3⟩ := write_unreachable_local blk hb ih
      rw [h1] at ht hc
      rw [h3 ht] at hc
      exact InodeReach.child p c ih ht hc
  · intro hx
    induction hx with
    | root => exact InodeReach.root
    | child p c hp ht hc ih =>
      obtain ⟨h1, _, h3⟩ := write_unreachable_local blk hb hp
      exact InodeReach.child p c ih (by rw [h1]; exact ht) (by rw [h1, h3 ht]; exact hc)

theorem write_unreachable_reachable {P : Params} {d : Disk} {b : Nat} (blk : Block)
    (hb : ¬ Reachable P d b) (x : Nat) :
    Reachable P (disk_writeblock d b blk) x ↔ Reachable P d x := by
  unfold Reachable
  rw [write_unreachable_inode blk hb]
  constructor
  · rintro (h | ⟨p, hp, hx⟩)
    · exact Or.inl h
    · rw [write_unreachable_inode blk hb] at hp
      rw [(write_unreachable_local blk hb hp).2.1] at hx
      exact Or.inr ⟨p, hp, hx⟩
  · rintro (h | ⟨p, hp, hx⟩)
    · exact Or.inl h
    · refine Or.inr ⟨p, (write_unreachable_inode blk hb p).2 hp, ?_⟩
      rw [(write_unreachable_local blk hb hp).2.1]
      exact hx

/-- A successful `write_block` at `block == size` is an extension: the allocator gave the
smallest free block and the outcome is the one of the extend branch. -/
theorem write_block_extend {P : Params} {s : State} {req : request} {t : Nat}
    (hpath : path_find P s.disk req.path req.username = some t)
    (hsize : req.block = ((read_inode_block s.disk t).size : Int))
    (hreply : (write_block P s req).reply.isSome = true) :
    ∃ hne : s.free.Nonempty,
      (read_inode_block s.disk t).type = 'f' ∧
      cstr (read_inode_block s.disk t).owner = req.username ∧
      (read_inode_block s.disk t).size < P.MFB ∧
      s.free.min' hne ≠ 4294967295 ∧
      write_block P s req =
        ⟨⟨disk_writeblock (disk_writeblock s.disk (s.free.min' hne) (Block.data req.buf)) t
            (Block.inode { read_inode_block s.disk t with
              blocks := Function.update (read_inode_block s.disk t).blocks
                (read_inode_block s.disk t).size (s.free.min' hne),
              size := (read_inode_block s.disk t).size + 1 }),
            s.free.erase (s.free.min' hne)⟩,
          some ⟨header_bytes req, none⟩,
          [(s.free.min' hne, Block.data req.buf),
           (t, Block.inode { read_inode_block s.disk t with
              blocks := Function.update (read_inode_block s.disk t).blocks
                (read_inode_block s.disk t).size (s.free.min' hne),
              size := (read_inode_block s.disk t).size + 1 })]⟩ := by
  rcases write_block_cases P s req with ⟨h1, _⟩ | ⟨t1, hp1, _, _, hlt, _⟩ |
      ⟨t1, b, free1, hp1, hty, hown, _, hsz, hg, heq⟩
  · rw [h1] at hreply; simp at hreply
  · rw [hpath] at hp1
    cases hp1
    have := castInt_le (read_inode_block s.disk t).size
    omega
  · rw [hpath] at hp1
    cases hp1
    obtain ⟨hne, hb, hf⟩ := get_new_block_min hg
    have hb2 := (get_new_block_some hg).2.2.2
    subst hb
    subst hf
    exact ⟨hne, hty, hown, hsz, hb2, heq⟩

/-! ## Name lookup after a local change -/

theorem find_in_pages_congr {P : Params} {d d1 : Disk} {ino ino1 : fs_inode}
    (name : List Char) (is : List Nat)
    (h : ∀ i ∈ is, read_dir_block d1 (ino1.blocks i) = read_dir_block d (ino.blocks i)) :
    find_in_pages P d1 ino1 name is = find_in_pages P d ino name is := by
  induction is with
  | nil => rfl
  | cons i is ih =>
    simp only [find_in_pages]
    rw [h i (by simp), ih (fun x hx => h x (by simp [hx]))]

theorem find_child_congr {P : Params} {d d1 : Disk} {ino : fs_inode} (name : List Char)
    (h : ∀ pg ∈ used_blocks ino, d1 pg = d pg) :
    find_child P d1 ino name = find_child P d ino name := by
  unfold find_child
  rw [find_in_pages_congr name _ (fun i hi =>
    read_dir_congr (h _ (mem_used_blocks.2 ⟨i, List.mem_range.1 hi, rfl⟩)))]

theorem path_find_loop_congr {P : Params} {d d1 : Disk} (user : List Char)
    (hty : ∀ p, InodeReach P d p →
      (read_inode_block d1 p).type = (read_inode_block d p).type)
    (hdir : ∀ p, InodeReach P d p → (read_inode_block d p).type = 'd' → Agree d d1 p)
    (path : List (List Char)) (curr : Nat) (hc : InodeReach P d curr) :
    path_find_loop P d1 user path curr = path_find_loop P d user path curr := by
  induction path generalizing curr with
  | nil => rfl
  | cons x rest ih =>
    simp only [path_find_loop]
    by_cases ht : (read_inode_block d curr).type = 'd'
    · have ha := hdir curr hc ht
      rw [ha.inode, find_child_congr x ha.2]
      split
      · rfl
      · split
        · rfl
        · rename_i child hchild
          exact ih child (InodeReach.child curr child hc ht (find_child_mem_children hchild))
    · have ht1 : (read_inode_block d1 curr).type ≠ 'd' := by rw [hty curr hc]; exact ht
      rw [if_pos (Or.inl ht1), if_pos (Or.inl ht)]

theorem path_find_congr {P : Params} {d d1 : Disk} (user : List Char)
    (hty : ∀ p, InodeReach P d p →
      (read_inode_block d1 p).type = (read_inode_block d p).type)
    (hdir : ∀ p, InodeReach P d p → (read_inode_block d p).type = 'd' → Agree d d1 p)
    (path : List (List Char)) :
    path_find P d1 path user = path_find P d path user := by
  unfold path_find
  split
  · rfl
  · exact path_find_loop_congr user hty hdir path 0 InodeReach.root

/-- A step that changes a file inode leaves every path resolution as it was. -/
theorem AddStep.add_path_find {P : Params} {d d1 : Disk} {P0 : Nat} {A I : List Nat}
    (h : AddStep P d d1 P0 A I) (hf : (read_inode_block d P0).type ≠ 'd')
    (user : List Char) (path : List (List Char)) :
    path_find P d1 path user = path_find P d path user := by
  apply path_find_congr
  · intro p hp
    by_cases e : p = P0
    · subst e; exact h.type0
    · rw [(h.other p hp e).inode]
  · intro p hp ht
    by_cases e : p = P0
    · subst e; exact absurd ht hf
    · exact h.other p hp e

theorem find_in_page_none {es : Nat → fs_direntry} {name : List Char} (js : List Nat)
    (h : ∀ j ∈ js, (es j).inode_block ≠ 0 → cstr (es j).name ≠ name) :
    find_in_page es name js = none := by
  induction js with
  | nil => rfl
  | cons j js ih =>
    simp only [find_in_page]
    split
    · exact ih (fun x hx => h x (by simp [hx]))
    · rename_i hnz
      rw [if_neg (h j (by simp) hnz)]
      exact ih (fun x hx => h x (by simp [hx]))

theorem find_in_page_update_other {es : Nat → fs_direntry} {name : List Char} {j : Nat}
    {e : fs_direntry} (h0 : (es j).inode_block = 0) (hne : cstr e.name ≠ name)
    (js : List Nat) :
    find_in_page (Function.update es j e) name js = find_in_page es name js := by
  induction js with
  | nil => rfl
  | cons k js ih =>
    simp only [find_in_page]
    by_cases hk : k = j
    · subst hk
      rw [Function.update_same, if_pos h0, if_neg hne, ih]
      split <;> rfl
    · rw [Function.update_noteq hk, ih]

theorem find_in_page_update_new {es : Nat → fs_direntry} {name : List Char} {j : Nat}
    {e : fs_direntry} (hnz : e.inode_block ≠ 0) (hname : cstr e.name = name)
    (js : List Nat) (hj : j ∈ js)
    (h : ∀ k ∈ js, (es k).inode_block ≠ 0 → cstr (es k).name ≠ name) :
    find_in_page (Function.update es j e) name js = some e.inode_block := by
  induction js with
  | nil => simp at hj
  | cons k js ih =>
    simp only [find_in_page]
    by_cases hk : k = j
    · subst hk
      rw [Function.update_same, if_neg hnz, if_pos hname]
    · rw [Function.update_noteq hk]
      have hj1 : j ∈ js := by
        rcases List.mem_cons.1 hj with e1 | e1
        · exact absurd e1.symm hk
        · exact e1
      have ih1 := ih hj1 (fun x hx => h x (by simp [hx]))
      split
      · exact ih1
      · rename_i hknz
        rw [if_neg (h k (by simp) hknz)]
        exact ih1

theorem find_in_pages_append {P : Params} {d : Disk} {ino : fs_inode} (name : List Char)
    (is js : List Nat) :
    find_in_pages P d ino name (is ++ js) =
      match find_in_pages P d ino name is with
      | some b => some b
      | none => find_in_pages P d ino name js := by
  induction is with
  | nil => rfl
  | cons i is ih =>
    simp only [List.cons_append, find_in_pages]
    split
    · rfl
    · exact ih

theorem find_in_pages_none {P : Params} {d : Disk} {ino : fs_inode} {name : List Char}
    (is : List Nat)
    (h : ∀ i ∈ is, ∀ j, j < P.DEP → (read_dir_block d (ino.blocks i) j).inode_block ≠ 0 →
      cstr (read_dir_block d (ino.blocks i) j).name ≠ name) :
    find_in_pages P d ino name is = none := by
  induction is with
  | nil => rfl
  | cons i is ih =>
    simp only [find_in_pages]
    rw [find_in_page_none _ (fun j hj => h i (by simp) j (List.mem_range.1 hj))]
    exact ih (fun x hx => h x (by simp [hx]))

/-! ## Name lookup in the parent after `sys_create` -/

theorem find_in_pages_slot_other {P : Params} {d d1 : Disk} {ino : fs_inode} {q j : Nat}
    {e : fs_direntry} {name : List Char}
    (h0 : (read_dir_block d q j).inode_block = 0) (hne : cstr e.name ≠ name)
    (is : List Nat)
    (hpg : ∀ k ∈ is, read_dir_block d1 (ino.blocks k) =
      if ino.blocks k = q then Function.update (read_dir_block d q) j e
      else read_dir_block d (ino.blocks k)) :
    find_in_pages P d1 ino name is = find_in_pages P d ino name is := by
  induction is with
  | nil => rfl
  | cons k is ih =>
    simp only [find_in_pages]
    rw [hpg k (by simp), ih (fun x hx => hpg x (by simp [hx]))]
    by_cases hk : ino.blocks k = q
    · rw [if_pos hk, find_in_page_update_other h0 hne, hk]
    · rw [if_neg hk]

theorem find_in_pages_slot_new {P : Params} {d d1 : Disk} {ino : fs_inode} {q j : Nat}
    {e : fs_direntry} {name : List Char}
    (hnz : e.inode_block ≠ 0) (hname : cstr e.name = name) (hj : j < P.DEP)
    (is : List Nat)
    (hpg : ∀ k ∈ is, read_dir_block d1 (ino.blocks k) =
      if ino.blocks k = q then Function.update (read_dir_block d q) j e
      else read_dir_block d (ino.blocks k))
    (hq : ∃ k ∈ is, ino.blocks k = q)
    (hno : ∀ k ∈ is, ∀ m, m < P.DEP → (read_dir_block d (ino.blocks k) m).inode_block ≠ 0 →
      cstr (read_dir_block d (ino.blocks k) m).name ≠ name) :
    find_in_pages P d1 ino name is = some e.inode_block := by
  induction is with
  | nil => simp at hq
  | cons k is ih =>
    simp only [find_in_pages]
    rw [hpg k (by simp)]
    by_cases hk : ino.blocks k = q
    · rw [if_pos hk]
      rw [find_in_page_update_new hnz hname (List.range P.DEP) (List.mem_range.2 hj)
        (fun m hm => by rw [← hk]; exact hno k (by simp) m (List.mem_range.1 hm))]
    · rw [if_neg hk]
      rw [find_in_page_none _ (fun m hm => hno k (by simp) m (List.mem_range.1 hm))]
      apply ih (fun x hx => hpg x (by simp [hx]))
      · obtain ⟨k1, hk1, hk2⟩ := hq
        rcases List.mem_cons.1 hk1 with e1 | e1
        · subst e1; exact absurd hk2 hk
        · exact ⟨k1, e1, hk2⟩
      · exact fun x hx => hno x (by simp [hx])

theorem create_open_lookup {P : Params} {d : Disk} (hT : TreeShaped P d) {p i j nib : Nat}
    (hp : InodeReach P d p)
    (hi : i < (read_inode_block d p).size) (hj : j < P.DEP)
    (h0 : (read_dir_block d ((read_inode_block d p).blocks i) j).inode_block = 0)
    (hnib : ¬ Reachable P d nib) (hnib2 : nib ≠ 4294967295)
    (ni : fs_inode) (e : fs_direntry) (he : e.inode_block = nib)
    (nm : List Char) (hname : cstr e.name = nm)
    (hno : ∀ k, k < (read_inode_block d p).size → ∀ m, m < P.DEP →
      (read_dir_block d ((read_inode_block d p).blocks k) m).inode_block ≠ 0 →
      cstr (read_dir_block d ((read_inode_block d p).blocks k) m).name ≠ nm)
    (d1 : Disk)
    (hd1 : d1 = disk_writeblock (disk_writeblock d nib (Block.inode ni))
        ((read_inode_block d p).blocks i)
        (Block.dir (Function.update (read_dir_block d ((read_inode_block d p).blocks i)) j e))) :
    d1 nib = Block.inode ni ∧
    find_child P d1 (read_inode_block d1 p) nm = some nib ∧
    ∀ name, name ≠ nm →
      find_child P d1 (read_inode_block d1 p) name =
        find_child P d (read_inode_block d p) name := by
  set q := (read_inode_block d p).blocks i with hqdef
  have hq : q ∈ used_blocks (read_inode_block d p) := mem_used_blocks.2 ⟨i, hi, rfl⟩
  have hqr : Reachable P d q := reachable_of_ref hp (hT.used_refs hp hq)
  have hnq : nib ≠ q := fun e1 => hnib (e1 ▸ hqr)
  have hn0 : nib ≠ 0 := fun e1 => hnib (e1 ▸ reachable_zero P d)
  have hpq : p ≠ q := fun e1 => hT.used_not_inode hp hq (e1 ▸ hp)
  have hpn : p ≠ nib := fun e1 => hnib (e1 ▸ Or.inl hp)
  have hino : read_inode_block d1 p = read_inode_block d p := by
    rw [hd1, read_inode_write_ne _ _ _ _ hpq, read_inode_write_ne _ _ _ _ hpn]
  have hpg : ∀ k ∈ List.range (read_inode_block d p).size,
      read_dir_block d1 ((read_inode_block d p).blocks k) =
      if (read_inode_block d p).blocks k = q then Function.update (read_dir_block d q) j e
      else read_dir_block d ((read_inode_block d p).blocks k) := by
    intro k hk
    by_cases hkq : (read_inode_block d p).blocks k = q
    · rw [if_pos hkq, hkq, hd1, read_dir_write_same]
    · rw [if_neg hkq, hd1, read_dir_write_ne _ _ _ _ hkq]
      apply read_dir_write_ne
      intro e1
      apply hnib
      rw [← e1]
      exact reachable_of_ref hp
        (hT.used_refs hp (mem_used_blocks.2 ⟨k, List.mem_range.1 hk, rfl⟩))
  refine ⟨?_, ?_, ?_⟩
  · rw [hd1]
    simp [disk_writeblock, Function.update_noteq hnq]
  · rw [hino]
    unfold find_child
    rw [find_in_pages_slot_new (by rw [he]; exact hn0) hname hj _ hpg
      ⟨i, List.mem_range.2 hi, rfl⟩ (fun k hk => hno k (List.mem_range.1 hk)), he]
    exact blockToInt_of_ne hnib2
  · intro name hne
    rw [hino]
    unfold find_child
    rw [find_in_pages_slot_other h0 (by rw [hname]; exact Ne.symm hne) _ hpg]

theorem create_newpage_lookup {P : Params} {d : Disk} (hP : P.ok) (hT : TreeShaped P d)
    {p ndp nib : Nat} (hp : InodeReach P d p)
    (hndp : ¬ Reachable P d ndp) (hnib : ¬ Reachable P d nib) (hne : ndp ≠ nib)
    (hnib2 : nib ≠ 4294967295)
    (ni : fs_inode) (e : fs_direntry) (he : e.inode_block = nib)
    (nm : List Char) (hname : cstr e.name = nm)
    (hno : ∀ k, k < (read_inode_block d p).size → ∀ m, m < P.DEP →
      (read_dir_block d ((read_inode_block d p).blocks k) m).inode_block ≠ 0 →
      cstr (read_dir_block d ((read_inode_block d p).blocks k) m).name ≠ nm)
    (d1 : Disk)
    (hd1 : d1 = disk_writeblock
        (disk_writeblock (disk_writeblock d nib (Block.inode ni)) ndp
          (Block.dir (Function.update (zero_page P) 0 e)))
        p (Block.inode { read_inode_block d p with
            blocks := Function.update (read_inode_block d p).blocks
              (read_inode_block d p).size ndp,
            size := (read_inode_block d p).size + 1 })) :
    d1 nib = Block.inode ni ∧
    find_child P d1 (read_inode_block d1 p) nm = some nib ∧
    ∀ name, name ≠ nm →
      find_child P d1 (read_inode_block d1 p) name =
        find_child P d (read_inode_block d p) name := by
  set ino1 : fs_inode := { read_inode_block d p with
            blocks := Function.update (read_inode_block d p).blocks
              (read_inode_block d p).size ndp,
            size := (read_inode_block d p).size + 1 } with hino1
  have hn0 : nib ≠ 0 := fun e1 => hnib (e1 ▸ reachable_zero P d)
  have hpn : p ≠ nib := fun e1 => hnib (e1 ▸ Or.inl hp)
  have hpd : p ≠ ndp := fun e1 => hndp (e1 ▸ Or.inl hp)
  have hino : read_inode_block d1 p = ino1 := by rw [hd1]; exact read_inode_write_same _ _ _
  have hdirq : read_dir_block d1 ndp = Function.update (zero_page P) 0 e := by
    rw [hd1, read_dir_write_ne _ _ _ _ (Ne.symm hpd), read_dir_write_same]
  have hold : ∀ k ∈ List.range (read_inode_block d p).size,
      read_dir_block d1 (ino1.blocks k) =
        read_dir_block d ((read_inode_block d p).blocks k) := by
    intro k hk
    have hk1 := List.mem_range.1 hk
    have hkne : k ≠ (read_inode_block d p).size := by omega
    have hb : ino1.blocks k = (read_inode_block d p).blocks k := by
      simp [hino1, Function.update_noteq hkne]
    have hmem : (read_inode_block d p).blocks k ∈ used_blocks (read_inode_block d p) :=
      mem_used_blocks.2 ⟨k, hk1, rfl⟩
    have hr := reachable_of_ref hp (hT.used_refs hp hmem)
    rw [hb, hd1]
    rw [read_dir_write_ne _ _ _ _ (fun e1 => hT.used_not_inode hp hmem (by rw [e1]; exact hp)),
      read_dir_write_ne _ _ _ _ (fun e1 => hndp (by rw [← e1]; exact hr)),
      read_dir_write_ne _ _ _ _ (fun e1 => hnib (by rw [← e1]; exact hr))]
  have hlast : ino1.blocks (read_inode_block d p).size = ndp := by simp [hino1]
  have hfind : ∀ name, find_in_pages P d1 ino1 name (List.range ino1.size) =
      match find_in_pages P d (read_inode_block d p) name
        (List.range (read_inode_block d p).size) with
      | some b => some b
      | none => find_in_pages P d1 ino1 name [(read_inode_block d p).size] := by
    intro name
    have hsz : ino1.size = (read_inode_block d p).size + 1 := rfl
    rw [hsz, List.range_succ, find_in_pages_append, find_in_pages_congr name _ hold]
    first
      | done
      | rfl
  have hlastpage : ∀ name, find_in_pages P d1 ino1 name [(read_inode_block d p).size] =
      find_in_page (Function.update (zero_page P) 0 e) name (List.range P.DEP) := by
    intro name
    rw [find_in_pages, find_in_pages, hlast, hdirq]
    cases find_in_page (Function.update (zero_page P) 0 e) name (List.range P.DEP) <;> rfl
  refine ⟨?_, ?_, ?_⟩
  · rw [hd1]
    simp [disk_writeblock, Function.update_noteq (Ne.symm hpn), Function.update_noteq (Ne.symm hne)]
  · rw [hino]
    unfold find_child
    rw [hfind, find_in_pages_none _ (fun k hk => hno k (List.mem_range.1 hk))]
    simp only
    rw [hlastpage, find_in_page_update_new (by rw [he]; exact hn0) hname _
      (List.mem_range.2 hP.1) (fun k _ hk => absurd rfl hk), he]
    exact blockToInt_of_ne hnib2
  · intro name hnm
    rw [hino]
    unfold find_child
    rw [hfind]
    cases hres : find_in_pages P d (read_inode_block d p) name
        (List.range (read_inode_block d p).size) with
    | some b => rfl
    | none =>
      simp only
      rw [hlastpage, find_in_page_update_other rfl (by rw [hname]; exact Ne.symm hnm),
        find_in_page_none _ (fun k _ hk => absurd rfl hk)]

/-! ## Claims C1 and C2: the invariants are preserved -/

/-- C1: invariant I1 is preserved by every operation. For every well-formed state (a tree
of valid inodes with no block referenced twice, every referenced block below `N`, and the
free set exactly the blocks of `[0, N)` not reachable from root) and every request the
parser accepts, the state after `read_block`, `write_block`, `sys_create` or `sys_delete`,
whether it replies or not, again has its free set equal to exactly the blocks of `[0, N)`
that are not reachable from root. -/
theorem C1_free_set_exact_preserved (P : Params) (s : State) (req : request) (hP : P.ok)
    (hwf : WellFormed P s) (hB : ValidBlock P req) (hK : ValidKind req) :
    FreeExact P (read_block P s req).st ∧ FreeExact P (write_block P s req).st ∧
    FreeExact P (sys_create P s req).st ∧ FreeExact P (sys_delete P s req).st :=
  ⟨by rw [read_block_st]; exact hwf.2.2, (write_block_wf P s req hP hB hwf).2.2,
    (sys_create_wf P s req hP hK hwf).2.2, (sys_delete_wf P s req hwf).2.2⟩

set_option maxRecDepth 100000 in
/-- C1 at the example state: after alice extends `/a` (a request that is answered) the
free set is again exact, and likewise after the other three handlers. -/
theorem C1_free_set_exact_preserved_witness :
    (write_block exP ex_state ex_write_extend).reply.isSome = true ∧
    FreeExact exP (read_block exP ex_state ex_write_extend).st ∧
    FreeExact exP (write_block exP ex_state ex_write_extend).st ∧
    FreeExact exP (sys_create exP ex_state ex_write_extend).st ∧
    FreeExact exP (sys_delete exP ex_state ex_write_extend).st :=
  ⟨by decide,
    C1_free_set_exact_preserved exP ex_state ex_write_extend exP_ok ex_wf
      (by unfold ValidBlock; decide) (by unfold ValidKind; decide)⟩

/-- C2: invariant I2 (no double allocation) is preserved by every mutating operation. If the
reachable structure is a tree of valid inodes in which no block is referenced by two inodes
or twice by one inode (counting child inode blocks, directory pages and file data blocks)
and no free block is reachable, the same holds after `write_block`, `sys_create` and
`sys_delete`. -/
theorem C2_no_double_allocation_preserved (P : Params) (s : State) (req : request)
    (hP : P.ok) (hT : TreeShaped P s.disk) (hF : FreeDisjoint P s)
    (hB : ValidBlock P req) (hK : ValidKind req) :
    (TreeShaped P (write_block P s req).st.disk ∧ FreeDisjoint P (write_block P s req).st) ∧
    (TreeShaped P (sys_create P s req).st.disk ∧ FreeDisjoint P (sys_create P s req).st) ∧
    (TreeShaped P (sys_delete P s req).st.disk ∧ FreeDisjoint P (sys_delete P s req).st) := by
  refine ⟨?_, ?_, ?_⟩
  · rcases write_block_step P s req hP hT hF hB with ⟨_, h2, h3⟩ | ⟨t, A, hs, _, hfree⟩
    · exact ⟨h2 ▸ hT, hF.of_subset h2 h3⟩
    · exact ⟨hs.add_tree_after, hs.add_free_disjoint hF hfree⟩
  · rcases sys_create_step P s req hP hT hF hK with ⟨_, h2, h3⟩ | ⟨t, A, I, hs, _, hfree⟩
    · exact ⟨h2 ▸ hT, hF.of_subset h2 h3⟩
    · exact ⟨hs.add_tree_after, hs.add_free_disjoint hF hfree⟩
  · rcases sys_delete_step P s req hT with ⟨_, h2⟩ | ⟨p, T, R, hs, hfree⟩
    · rw [h2]; exact ⟨hT, hF⟩
    · exact ⟨hs.del_tree_after, hs.del_free_disjoint hF hfree⟩

set_option maxRecDepth 100000 in
/-- C2 at the example state, for the request of alice to create `/b` (answered). -/
theorem C2_no_double_allocation_preserved_witness :
    (sys_create exP ex_state ex_create).reply.isSome = true ∧
    (TreeShaped exP (write_block exP ex_state ex_create).st.disk ∧
      FreeDisjoint exP (write_block exP ex_state ex_create).st) ∧
    (TreeShaped exP (sys_create exP ex_state ex_create).st.disk ∧
      FreeDisjoint exP (sys_create exP ex_state ex_create).st) ∧
    (TreeShaped exP (sys_delete exP ex_state ex_create).st.disk ∧
      FreeDisjoint exP (sys_delete exP ex_state ex_create).st) :=
  ⟨by decide,
    C2_no_double_allocation_preserved exP ex_state ex_create exP_ok ex_tree
      ex_free_exact.disjoint (by unfold ValidBlock; decide) (by unfold ValidKind; decide)⟩

/-! ## Claims C3 and C4: the startup scan -/

/-- C3: startup scan correctness. For every well-formed disk image of `N` blocks
(tree-shaped, all referenced block numbers below `N`) `sys_init` ends within `N`
iterations of its loop and the free set it computes is exactly the blocks of `[0, N)` not
reachable from block 0; consequently, run on the disk left by any of the four handlers
from a well-formed state, `sys_init` reconstructs the free set the server holds in
memory. -/
theorem C3_sys_init_free_set (P : Params) (hP : P.ok) :
    (∀ d, WellFormedDisk P d → ∀ fuel, P.N ≤ fuel →
      ∃ r, sys_init P d fuel = some r ∧ ∀ b, b ∈ r.1 ↔ b < P.N ∧ ¬ Reachable P d b) ∧
    (∀ s req, WellFormed P s → ValidBlock P req → ValidKind req →
      ∀ out, out = read_block P s req ∨ out = write_block P s req ∨
          out = sys_create P s req ∨ out = sys_delete P s req →
        ∃ r, sys_init P out.st.disk P.N = some r ∧ r.1 = out.st.free) := by
  constructor
  · intro d hd fuel hfuel
    obtain ⟨free, popped, h1, h2, _⟩ := sys_init_spec hd fuel hfuel
    exact ⟨(free, popped), h1, h2⟩
  · intro s req hwf hB hK out hout
    have hwf1 : WellFormed P out.st := by
      rcases hout with e | e | e | e
      · rw [e, read_block_st]; exact hwf
      · rw [e]; exact write_block_wf P s req hP hB hwf
      · rw [e]; exact sys_create_wf P s req hP hK hwf
      · rw [e]; exact sys_delete_wf P s req hwf
    obtain ⟨free, popped, h1, h2, _⟩ :=
      sys_init_spec (d := out.st.disk) ⟨hwf1.1, hwf1.2.1⟩ P.N (le_refl _)
    refine ⟨(free, popped), h1, ?_⟩
    ext b
    rw [h2 b, hwf1.2.2 b]

set_option maxRecDepth 100000 in
/-- C3 at the example state: the scan of the example disk ends and gives the exact free
set, and after alice creates `/b` the scan of the new disk gives the new free set. -/
theorem C3_sys_init_free_set_witness :
    WellFormedDisk exP ex_disk ∧
    (∃ r, sys_init exP ex_disk 64 = some r ∧
      ∀ b, b ∈ r.1 ↔ b < exP.N ∧ ¬ Reachable exP ex_disk b) ∧
    (∃ r, sys_init exP (sys_create exP ex_state ex_create).st.disk exP.N = some r ∧
      r.1 = (sys_create exP ex_state ex_create).st.free) :=
  ⟨⟨ex_tree, ex_bounded⟩,
    (C3_sys_init_free_set exP exP_ok).1 ex_disk ⟨ex_tree, ex_bounded⟩ 64 (by decide),
    (C3_sys_init_free_set exP exP_ok).2 ex_state ex_create ex_wf
      (by unfold ValidBlock; decide) (by unfold ValidKind; decide) _
      (Or.inr (Or.inr (Or.inl rfl)))⟩

theorem cyc_loop (fuel : Nat) (free : Finset Nat) (popped : List Nat) :
    sys_init_loop exP cyc_disk fuel [2] free popped = none := by
  induction fuel generalizing free popped with
  | zero => rfl
  | succ fuel ih =>
    simp only [sys_init_loop]
    have hty : (read_inode_block cyc_disk 2).type = 'd' := by decide
    rw [if_pos hty]
    have hstack : (scan_dir_pages exP cyc_disk (read_inode_block cyc_disk 2)
        (List.range (read_inode_block cyc_disk 2).size) (free.erase 2, [])).2 = [2] := by
      rw [scan_dir_pages_stack exP cyc_disk _ _ (by decide)]
      decide
    rw [hstack]
    exact ih _ _

set_option maxRecDepth 100000 in
/-- C4 fails as stated: on a disk image where two direntries name the same inode, block 2
is popped twice; on a disk image with a cycle the loop of `sys_init` never ends. -/
theorem C4_counterexample :
    (sys_init exP dag_disk 10).map (fun r => r.2) = some [0, 2, 2] ∧
    ∀ fuel, sys_init exP cyc_disk fuel = none := by
  refine ⟨by decide, fun fuel => ?_⟩
  cases fuel with
  | zero => rfl
  | succ fuel =>
    unfold sys_init
    simp only [sys_init_loop]
    have hty : (read_inode_block cyc_disk 0).type = 'd' := by decide
    rw [if_pos hty]
    have hstack : (scan_dir_pages exP cyc_disk (read_inode_block cyc_disk 0)
        (List.range (read_inode_block cyc_disk 0).size)
        ((Finset.range exP.N).erase 0, [])).2 = [2] := by
      rw [scan_dir_pages_stack exP cyc_disk _ _ (by decide)]
      decide
    rw [hstack]
    exact cyc_loop _ _ _

/-- C4, amended: on every well-formed disk image (tree-shaped, all referenced block
numbers below `N`) the traversal of `sys_init` ends within `N` iterations, no block number
is popped more than once, and the blocks popped are exactly the reachable inode blocks. -/
theorem C4_sys_init_terminates (P : Params) (d : Disk) (h : WellFormedDisk P d) :
    ∃ r, sys_init P d P.N = some r ∧ r.2.Nodup ∧ ∀ x, x ∈ r.2 ↔ InodeReach P d x := by
  obtain ⟨free, popped, h1, _, h3, h4⟩ := sys_init_spec h P.N (le_refl _)
  exact ⟨(free, popped), h1, h3, h4⟩

/-- C4 (amended) at the example disk. -/
theorem C4_sys_init_terminates_witness :
    ∃ r, sys_init exP ex_disk exP.N = some r ∧ r.2.Nodup ∧
      ∀ x, x ∈ r.2 ↔ InodeReach exP ex_disk x :=
  C4_sys_init_terminates exP ex_disk ⟨ex_tree, ex_bounded⟩

/-! ## Claims C6 and C7: which reads and writes are answered -/

theorem read_block_none (P : Params) (s : State) (req : request)
    (h : path_find P s.disk req.path req.username = none) :
    read_block P s req = reject s := by
  unfold read_block
  rw [h]

theorem read_block_some (P : Params) (s : State) (req : request) (t : Nat)
    (h : path_find P s.disk req.path req.username = some t) :
    ((read_inode_block s.disk t).type = 'f' ∧
      cstr (read_inode_block s.disk t).owner = req.username ∧
      req.block < castInt (read_inode_block s.disk t).size ∧
      (read_inode_block s.disk t).blocks req.block.toNat ≠ 0 →
      read_block P s req =
        ⟨s, some ⟨header_bytes req,
          some (s.disk ((read_inode_block s.disk t).blocks req.block.toNat))⟩, []⟩) ∧
    (¬ ((read_inode_block s.disk t).type = 'f' ∧
      cstr (read_inode_block s.disk t).owner = req.username ∧
      req.block < castInt (read_inode_block s.disk t).size ∧
      (read_inode_block s.disk t).blocks req.block.toNat ≠ 0) →
      read_block P s req = reject s) := by
  unfold read_block
  rw [h]
  simp only
  constructor
  · rintro ⟨h1, h2, h3, h4⟩
    rw [if_neg (by simp [h1, h2]), if_neg (by push_neg; exact ⟨h3, h4⟩)]
  · intro hn
    by_cases h1 : (read_inode_block s.disk t).type ≠ 'f' ∨
        cstr (read_inode_block s.disk t).owner ≠ req.username
    · rw [if_pos h1]
    · rw [if_neg h1]
      push_neg at h1
      rw [if_pos]
      by_contra hc
      push_neg at hc
      exact hn ⟨h1.1, h1.2, hc.1, hc.2⟩

/-- C6: `read_block` contract. For a request with a parser-valid block index, on a target
inode whose size fits an `int` (as every count of at most `MFB` blocks does),
`read_block` sends a reply if and only if the path resolves, the target inode has type
'f', its owner equals the user name, `block < size` and `blocks[block] != 0`; the reply is
then exactly the request header, one NUL byte, and the content of disk block
`blocks[block]`; in every other case nothing is sent, by a non-owner in particular; and
`read_block` never changes the state. -/
theorem C6_read_block_contract (P : Params) (s : State) (req : request)
    (_hB : ValidBlock P req)
    (hvalid : ∀ t, path_find P s.disk req.path req.username = some t →
      (read_inode_block s.disk t).size < 2147483648) :
    ((read_block P s req).reply.isSome = true ↔
      ∃ t, path_find P s.disk req.path req.username = some t ∧
        (read_inode_block s.disk t).type = 'f' ∧
        cstr (read_inode_block s.disk t).owner = req.username ∧
        req.block < ((read_inode_block s.disk t).size : Int) ∧
        (read_inode_block s.disk t).blocks req.block.toNat ≠ 0) ∧
    (∀ t, path_find P s.disk req.path req.username = some t →
      (read_block P s req).reply.isSome = true →
      (read_block P s req).reply =
        some ⟨req.header ++ [NUL],
          some (s.disk ((read_inode_block s.disk t).blocks req.block.toNat))⟩) ∧
    (∀ t, path_find P s.disk req.path req.username = some t →
      cstr (read_inode_block s.disk t).owner ≠ req.username →
      (read_block P s req).reply = none) ∧
    (read_block P s req).st = s ∧ (read_block P s req).writes = [] := by
  have hcast : ∀ t, path_find P s.disk req.path req.username = some t →
      castInt (read_inode_block s.disk t).size = ((read_inode_block s.disk t).size : Int) :=
    fun t ht => castInt_of_lt _ (hvalid t ht)
  cases hpath : path_find P s.disk req.path req.username with
  | none =>
    rw [read_block_none P s req hpath]
    simp [reject]
  | some t =>
    obtain ⟨hyes, hno⟩ := read_block_some P s req t hpath
    rw [hcast t hpath] at hyes hno
    by_cases hc : (read_inode_block s.disk t).type = 'f' ∧
        cstr (read_inode_block s.disk t).owner = req.username ∧
        req.block < ((read_inode_block s.disk t).size : Int) ∧
        (read_inode_block s.disk t).blocks req.block.toNat ≠ 0
    · rw [hyes hc]
      refine ⟨⟨fun _ => ⟨t, rfl, hc⟩, fun _ => rfl⟩, ?_, ?_, rfl, rfl⟩
      · intro t1 ht1 _
        cases ht1
        rfl
      · intro t1 ht1 hown
        cases ht1
        exact absurd hc.2.1 hown
    · rw [hno hc]
      refine ⟨⟨fun h => ?_, ?_⟩, ?_, ?_, rfl, rfl⟩
      · simp [reject] at h
      · rintro ⟨t1, ht1, h1⟩
        cases ht1
        exact absurd h1 hc
      · intro t1 _ h
        simp [reject] at h
      · intro _ _ _
        rfl

set_option maxRecDepth 100000 in
/-- C6 at the example state: alice reads block 0 of `/a` and is answered with the content
of block 3. -/
theorem C6_read_block_contract_witness :
    (read_block exP ex_state ex_read).reply.isSome = true ∧
    (read_block exP ex_state ex_read).reply =
      some ⟨ex_read.header ++ [NUL], some (ex_disk 3)⟩ :=
  have h := C6_read_block_contract exP ex_state ex_read
    (by unfold ValidBlock; decide)
    (by
      intro t ht
      have e : t = 2 := by
        have h2 : path_find exP ex_state.disk ex_read.path ex_read.username = some 2 := by
          decide
        rw [h2] at ht
        exact (Option.some.inj ht).symm
      subst e
      decide)
  ⟨by decide, h.2.1 2 (by decide) (by decide)⟩

theorem get_new_block_isSome {free : Finset Nat}
    (hfree : 4294967295 ∉ free) (hne : free.Nonempty) :
    get_new_block free = (some (free.min' hne), free.erase (free.min' hne)) := by
  unfold get_new_block
  rw [dif_pos hne]
  rw [blockToInt_of_ne (fun e => hfree (e ▸ Finset.min'_mem free hne))]

theorem get_new_block_empty {free : Finset Nat} (hne : ¬ free.Nonempty) :
    get_new_block free = (none, free) := by
  unfold get_new_block
  rw [dif_neg hne]

/-- C7: `write_block` acceptance. For a request with a parser-valid block index, on a
target inode whose size fits an `int` (as every count of at most `MFB` blocks does) and a
free set without the number `2^32 - 1` (which is no block of a disk: the allocator's
`int` result would read it as `-1`), `write_block` replies if and only if the path
resolves, the target has type 'f', its owner equals the user name, `block <= size` and,
when `block == size`, `size < MFB` and the free set is non-empty; the reply is exactly the
request header and a NUL byte; a write with `block > size` is rejected with no reply and
no change. -/
theorem C7_write_block_acceptance (P : Params) (s : State) (req : request)
    (_hB : ValidBlock P req)
    (hvalid : ∀ t, path_find P s.disk req.path req.username = some t →
      (read_inode_block s.disk t).size < 2147483648)
    (hfree : 4294967295 ∉ s.free) :
    ((write_block P s req).reply.isSome = true ↔
      ∃ t, path_find P s.disk req.path req.username = some t ∧
        (read_inode_block s.disk t).type = 'f' ∧
        cstr (read_inode_block s.disk t).owner = req.username ∧
        req.block ≤ ((read_inode_block s.disk t).size : Int) ∧
        (req.block = ((read_inode_block s.disk t).size : Int) →
          (read_inode_block s.disk t).size < P.MFB ∧ s.free.Nonempty)) ∧
    ((write_block P s req).reply.isSome = true →
      (write_block P s req).reply = some ⟨req.header ++ [NUL], none⟩) ∧
    (∀ t, path_find P s.disk req.path req.username = some t →
      ((read_inode_block s.disk t).size : Int) < req.block →
      (write_block P s req).reply = none ∧ (write_block P s req).st = s ∧
      (write_block P s req).writes = []) := by
  have hcast : ∀ t, path_find P s.disk req.path req.username = some t →
      castInt (read_inode_block s.disk t).size = ((read_inode_block s.disk t).size : Int) :=
    fun t ht => castInt_of_lt _ (hvalid t ht)
  unfold write_block
  cases hpath : path_find P s.disk req.path req.username with
  | none => simp [reject]
  | some t =>
    have hc := hcast t hpath
    simp only [hc]
    by_cases h1 : req.block > ((read_inode_block s.disk t).size : Int)
    · rw [if_pos h1]
      refine ⟨⟨fun h => by simp [reject] at h, ?_⟩, fun h => by simp [reject] at h, ?_⟩
      · rintro ⟨t1, ht1, _, _, h4, _⟩
        cases ht1
        omega
      · intro t1 ht1 _
        cases ht1
        exact ⟨rfl, rfl, rfl⟩
    · rw [if_neg h1]
      have hgt : ∀ t1, some t = some t1 →
          ((read_inode_block s.disk t1).size : Int) < req.block → False := by
        intro t1 ht1 hlt
        cases ht1
        exact h1 hlt
      by_cases h2 : (read_inode_block s.disk t).type ≠ 'f' ∨
          cstr (read_inode_block s.disk t).owner ≠ req.username
      · rw [if_pos h2]
        refine ⟨⟨fun h => by simp [reject] at h, ?_⟩, fun h => by simp [reject] at h,
          fun t1 ht1 hlt => (hgt t1 ht1 hlt).elim⟩
        rintro ⟨t1, ht1, h3, h4, _⟩
        cases ht1
        rcases h2 with h2 | h2
        · exact (h2 h3).elim
        · exact (h2 h4).elim
      · rw [if_neg h2]
        push_neg at h2
        by_cases h3 : req.block ≠ ((read_inode_block s.disk t).size : Int)
        · rw [if_pos h3]
          refine ⟨⟨fun _ => ⟨t, rfl, h2.1, h2.2, by omega, fun e => absurd e h3⟩,
            fun _ => rfl⟩, fun _ => rfl, fun t1 ht1 hlt => (hgt t1 ht1 hlt).elim⟩
        · rw [if_neg h3]
          push_neg at h3
          by_cases h4 : (read_inode_block s.disk t).size ≥ P.MFB
          · rw [if_pos h4]
            refine ⟨⟨fun h => by simp [reject] at h, ?_⟩, fun h => by simp [reject] at h,
              fun t1 ht1 hlt => (hgt t1 ht1 hlt).elim⟩
            rintro ⟨t1, ht1, _, _, _, h5⟩
            cases ht1
            have := (h5 h3).1
            omega
          · rw [if_neg h4]
            by_cases h5 : s.free.Nonempty
            · rw [get_new_block_isSome hfree h5]
              refine ⟨⟨fun _ => ⟨t, rfl, h2.1, h2.2, by omega, fun _ => ⟨by omega, h5⟩⟩,
                fun _ => rfl⟩, fun _ => rfl, fun t1 ht1 hlt => (hgt t1 ht1 hlt).elim⟩
            · rw [get_new_block_empty h5]
              refine ⟨⟨fun h => by simp at h, ?_⟩, fun h => by simp at h,
                fun t1 ht1 hlt => (hgt t1 ht1 hlt).elim⟩
              rintro ⟨t1, ht1, _, _, _, h6⟩
              cases ht1
              exact (h5 (h6 h3).2).elim

set_option maxRecDepth 100000 in
/-- C7 at the example state: alice extends `/a` and is answered with the header. -/
theorem C7_write_block_acceptance_witness :
    (write_block exP ex_state ex_write_extend).reply.isSome = true ∧
    (write_block exP ex_state ex_write_extend).reply =
      some ⟨ex_write_extend.header ++ [NUL], none⟩ :=
  have h := C7_write_block_acceptance exP ex_state ex_write_extend
    (by unfold ValidBlock; decide)
    (by
      intro t ht
      have e : t = 2 := by
        have h2 : path_find exP ex_state.disk ex_write_extend.path
            ex_write_extend.username = some 2 := by decide
        rw [h2] at ht
        exact (Option.some.inj ht).symm
      subst e
      decide)
    (by decide)
  ⟨by decide, h.2.1 (by decide)⟩

/-! ## Claims C8 and C9: the extending write -/

/-- C8: extending write postcondition. In a state whose free blocks are unreachable, when
`write_block` succeeds with `block == size` on the inode `I` stored at block `t`, then
with `b` the smallest element of the free set before the call: disk block `b` holds the
payload, the inode at `t` is `I` with `blocks[size] = b` and `size` incremented by one
(type, owner and `blocks[0..size)` unchanged), the free set is the old free set minus
`b`, and every disk block other than `b` and `t` is unchanged. -/
theorem C8_extending_write (P : Params) (s : State) (req : request) (t : Nat)
    (hF : FreeDisjoint P s)
    (hpath : path_find P s.disk req.path req.username = some t)
    (hsize : req.block = ((read_inode_block s.disk t).size : Int))
    (hreply : (write_block P s req).reply.isSome = true) :
    ∃ hne : s.free.Nonempty,
      (read_inode_block s.disk t).type = 'f' ∧
      (write_block P s req).st.disk (s.free.min' hne) = Block.data req.buf ∧
      (write_block P s req).st.disk t =
        Block.inode { read_inode_block s.disk t with
          blocks := Function.update (read_inode_block s.disk t).blocks
            (read_inode_block s.disk t).size (s.free.min' hne),
          size := (read_inode_block s.disk t).size + 1 } ∧
      (read_inode_block (write_block P s req).st.disk t).type =
        (read_inode_block s.disk t).type ∧
      (read_inode_block (write_block P s req).st.disk t).owner =
        (read_inode_block s.disk t).owner ∧
      (read_inode_block (write_block P s req).st.disk t).size =
        (read_inode_block s.disk t).size + 1 ∧
      (read_inode_block (write_block P s req).st.disk t).blocks
        (read_inode_block s.disk t).size = s.free.min' hne ∧
      (∀ k, k < (read_inode_block s.disk t).size →
        (read_inode_block (write_block P s req).st.disk t).blocks k =
          (read_inode_block s.disk t).blocks k) ∧
      (write_block P s req).st.free = s.free.erase (s.free.min' hne) ∧
      ∀ x, x ≠ s.free.min' hne → x ≠ t → (write_block P s req).st.disk x = s.disk x := by
  obtain ⟨hne, hty, _, _, _, heq⟩ := write_block_extend hpath hsize hreply
  have hbt : s.free.min' hne ≠ t := by
    intro e
    exact hF _ (Finset.min'_mem s.free hne) (e ▸ Or.inl (path_find_reach hpath))
  refine ⟨hne, hty, ?_⟩
  rw [heq]
  refine ⟨?_, ?_, ?_, ?_, ?_, ?_, ?_, rfl, ?_⟩
  · simp [disk_writeblock, Function.update_noteq hbt]
  · simp [disk_writeblock]
  · rw [read_inode_write_same]
  · rw [read_inode_write_same]
  · rw [read_inode_write_same]
  · rw [read_inode_write_same]
    simp
  · intro k hk
    have : k ≠ (read_inode_block s.disk t).size := by omega
    rw [read_inode_write_same]
    simp [Function.update_noteq this]
  · intro x hx1 hx2
    simp [disk_writeblock, Function.update_noteq hx1, Function.update_noteq hx2]

set_option maxRecDepth 100000 in
/-- C8 at the example state: alice extends `/a`; block 4, the smallest free block, gets the
payload and becomes `blocks[1]` of the inode at block 2. -/
theorem C8_extending_write_witness :
    ∃ hne : ex_state.free.Nonempty,
      ex_state.free.min' hne = 4 ∧
      (write_block exP ex_state ex_write_extend).st.disk (ex_state.free.min' hne) =
        Block.data ex_write_extend.buf ∧
      (read_inode_block (write_block exP ex_state ex_write_extend).st.disk 2).size = 2 ∧
      (write_block exP ex_state ex_write_extend).st.free =
        ex_state.free.erase (ex_state.free.min' hne) := by
  obtain ⟨hne, _, h2, _, _, _, h6, _, _, h9, _⟩ :=
    C8_extending_write exP ex_state ex_write_extend 2 ex_free_exact.disjoint
      (by decide) (by decide) (by decide)
  have hmin : ex_state.free.min' hne = 4 := by
    apply le_antisymm
    · exact Finset.min'_le _ 4 (by decide)
    · apply Finset.le_min'
      intro x hx
      exact (Finset.mem_Ico.1 hx).1
  exact ⟨hne, hmin, h2, h6, h9⟩

/-- C9: write ordering of an extending `write_block`. In a state whose free blocks are
unreachable, the sequence of disk writes is exactly: the payload to the newly allocated
block `b`, then the updated inode to `t`; the disk after only the first write has the same
set of blocks reachable from root as before the operation, `b` not among them, and the
final disk is the one obtained by the two writes, with the payload in `b`. -/
theorem C9_write_ordering (P : Params) (s : State) (req : request) (t : Nat)
    (hF : FreeDisjoint P s)
    (hpath : path_find P s.disk req.path req.username = some t)
    (hsize : req.block = ((read_inode_block s.disk t).size : Int))
    (hreply : (write_block P s req).reply.isSome = true) :
    ∃ hne : s.free.Nonempty,
      (write_block P s req).writes =
        [(s.free.min' hne, Block.data req.buf),
         (t, Block.inode { read_inode_block s.disk t with
            blocks := Function.update (read_inode_block s.disk t).blocks
              (read_inode_block s.disk t).size (s.free.min' hne),
            size := (read_inode_block s.disk t).size + 1 })] ∧
      (write_block P s req).st.disk = apply_writes s.disk (write_block P s req).writes ∧
      (∀ x, Reachable P (apply_writes s.disk ((write_block P s req).writes.take 1)) x ↔
        Reachable P s.disk x) ∧
      ¬ Reachable P (apply_writes s.disk ((write_block P s req).writes.take 1))
        (s.free.min' hne) ∧
      apply_writes s.disk ((write_block P s req).writes.take 1) (s.free.min' hne) =
        Block.data req.buf := by
  obtain ⟨hne, _, _, _, _, heq⟩ := write_block_extend hpath hsize hreply
  have hb : ¬ Reachable P s.disk (s.free.min' hne) := hF _ (Finset.min'_mem s.free hne)
  refine ⟨hne, ?_⟩
  rw [heq]
  refine ⟨rfl, rfl, ?_, ?_, ?_⟩
  · exact write_unreachable_reachable _ hb
  · show ¬ Reachable P (disk_writeblock s.disk (s.free.min' hne) (Block.data req.buf))
      (s.free.min' hne)
    rw [write_unreachable_reachable _ hb]; exact hb
  · show disk_writeblock s.disk (s.free.min' hne) (Block.data req.buf) (s.free.min' hne) =
      Block.data req.buf
    simp [disk_writeblock]

set_option maxRecDepth 100000 in
/-- C9 at the example state: the two writes of alice's extension of `/a`, in order. -/
theorem C9_write_ordering_witness :
    ∃ hne : ex_state.free.Nonempty,
      ((write_block exP ex_state ex_write_extend).writes.map (fun w => w.1)) =
        [ex_state.free.min' hne, 2] ∧
      ∀ x, Reachable exP
          (apply_writes ex_state.disk ((write_block exP ex_state ex_write_extend).writes.take 1))
          x ↔ Reachable exP ex_state.disk x := by
  obtain ⟨hne, h1, _, h3, _⟩ :=
    C9_write_ordering exP ex_state ex_write_extend 2 ex_free_exact.disjoint
      (by decide) (by decide) (by decide)
  exact ⟨hne, by rw [h1]; rfl, h3⟩

/-! ## Claim C5: write then read -/

/-- C5: write-then-read round trip. In every tree-shaped state whose free blocks are
unreachable, if `write_block` replies to a write of block `k` of a file (an overwrite,
`k < size`, or an extension, `k == size`), then a following `read_block` by the same user
of the same path and block index replies with exactly the payload as its data. -/
theorem C5_write_then_read (P : Params) (s : State) (req rreq : request) (hP : P.ok)
    (hT : TreeShaped P s.disk) (hF : FreeDisjoint P s) (hB : ValidBlock P req)
    (hu : rreq.username = req.username) (hp : rreq.path = req.path)
    (hb : rreq.block = req.block)
    (hreply : (write_block P s req).reply.isSome = true) :
    (read_block P (write_block P s req).st rreq).reply =
      some ⟨rreq.header ++ [NUL], some (Block.data req.buf)⟩ := by
  rcases write_block_cases P s req with ⟨h1, _⟩ | ⟨t, hpath, hty, hown, hlt, heq⟩ |
      ⟨t, b, free1, hpath, hty, hown, hsize, hsz, hg, heq⟩
  · rw [h1] at hreply; simp at hreply
  · -- overwrite
    have ht := path_find_reach hpath
    have hcast : castInt (read_inode_block s.disk t).size =
        ((read_inode_block s.disk t).size : Int) :=
      castInt_of_lt _ (by have := hT.size_ok t ht; have := hP.2.1; omega)
    have hk : req.block.toNat < (read_inode_block s.disk t).size := by
      have := hB.1; rw [hcast] at hlt; omega
    have hstep := overwrite_step hT ht hty hk (Block.data req.buf)
    have hq : (read_inode_block s.disk t).blocks req.block.toNat ∈
        used_blocks (read_inode_block s.disk t) := mem_used_blocks.2 ⟨_, hk, rfl⟩
    have hne : t ≠ (read_inode_block s.disk t).blocks req.block.toNat := fun e =>
      hT.used_not_inode ht hq (e ▸ ht)
    have hq0 : (read_inode_block s.disk t).blocks req.block.toNat ≠ 0 := fun e =>
      hT.refs_ne_zero t ht (e ▸ hT.used_refs ht hq)
    rw [heq]
    have hpath1 : path_find P
        (disk_writeblock s.disk ((read_inode_block s.disk t).blocks req.block.toNat)
          (Block.data req.buf)) rreq.path rreq.username = some t := by
      rw [hstep.add_path_find (not_dir_of_file hty), hp, hu]; exact hpath
    have hino : read_inode_block
        (disk_writeblock s.disk ((read_inode_block s.disk t).blocks req.block.toNat)
          (Block.data req.buf)) t = read_inode_block s.disk t :=
      read_inode_write_ne _ _ _ _ hne
    have hread := (read_block_some P
      ⟨disk_writeblock s.disk ((read_inode_block s.disk t).blocks req.block.toNat)
        (Block.data req.buf), s.free⟩ rreq t hpath1).1
    simp only [hino, hb, hu] at hread
    rw [hread ⟨hty, hown, hlt, hq0⟩]
    simp [header_bytes, disk_writeblock]
  · -- extension
    have ht := path_find_reach hpath
    obtain ⟨hbf, _, _, _⟩ := get_new_block_some hg
    have hbr : ¬ Reachable P s.disk b := hF b hbf
    have hstep := extend_step hT ht hty hsz hbr (Block.data req.buf)
    have hbt : b ≠ t := fun e => hbr (e ▸ Or.inl ht)
    have hb0 : b ≠ 0 := fun e => hbr (e ▸ reachable_zero P s.disk)
    have hcast : castInt (read_inode_block s.disk t).size =
        ((read_inode_block s.disk t).size : Int) :=
      castInt_of_lt _ (by have := hP.2.1; omega)
    have hcast1 : castInt ((read_inode_block s.disk t).size + 1) =
        (((read_inode_block s.disk t).size + 1 : Nat) : Int) :=
      castInt_of_lt _ (by have := hP.2.1; omega)
    rw [hcast] at hsize
    have hk : req.block.toNat = (read_inode_block s.disk t).size := by omega
    rw [heq]
    have hpath1 := hstep.add_path_find (not_dir_of_file hty) rreq.username rreq.path
    rw [hp, hu, hpath] at hpath1
    rw [← hp, ← hu] at hpath1
    have hread := (read_block_some P
      ⟨disk_writeblock (disk_writeblock s.disk b (Block.data req.buf)) t
        (Block.inode { read_inode_block s.disk t with
          blocks := Function.update (read_inode_block s.disk t).blocks
            (read_inode_block s.disk t).size b,
          size := (read_inode_block s.disk t).size + 1 }), free1⟩ rreq t hpath1).1
    simp only [read_inode_write_same, hb, hu, hk, hcast1, Function.update_same] at hread
    rw [hread ⟨hty, hown, by omega, hb0⟩]
    simp [header_bytes, disk_writeblock, Function.update_noteq hbt]

set_option maxRecDepth 100000 in
/-- C5 at the example state: alice overwrites block 0 of `/a` and reads it back. -/
theorem C5_write_then_read_witness :
    (write_block exP ex_state ex_write_over).reply.isSome = true ∧
    (read_block exP (write_block exP ex_state ex_write_over).st ex_read).reply =
      some ⟨ex_read.header ++ [NUL], some (Block.data ex_write_over.buf)⟩ :=
  ⟨by decide,
    C5_write_then_read exP ex_state ex_write_over ex_read exP_ok ex_tree
      ex_free_exact.disjoint (by unfold ValidBlock; decide) rfl rfl rfl (by decide)⟩

/-! ## Claim C10: what `sys_create` leaves in the parent directory -/

theorem getLastD_mem {α : Type} (l : List α) (a : α) (h : l ≠ []) : l.getLastD a ∈ l := by
  cases l with
  | nil => exact absurd rfl h
  | cons x xs =>
    rw [List.getLastD_cons]
    induction xs generalizing x with
    | nil => simp
    | cons y ys ih =>
      rw [List.getLastD_cons]
      exact List.mem_cons_of_mem _ (ih y (by simp))

/-- C10: create postcondition. In a tree-shaped state whose free blocks are unreachable,
when `sys_create` replies to a request with parser-valid names for `parent_path/new_name`,
then with `p` the parent inode block: in the resulting state `find_child` on the parent
directory returns for `new_name` a block `nib` that was in the free set before the call
and now holds the inode with type `kind`, owner the user name, size 0 and all blocks
zero; and for every other name `find_child` on the parent returns the same result as
before the call. -/
theorem C10_create_postcondition (P : Params) (s : State) (req : request) (hP : P.ok)
    (hT : TreeShaped P s.disk) (hF : FreeDisjoint P s) (hN : ValidNames P req)
    (hreply : (sys_create P s req).reply.isSome = true) :
    ∃ p nib, path_find P s.disk req.path.dropLast req.username = some p ∧
      nib ∈ s.free ∧
      find_child P (sys_create P s req).st.disk
        (read_inode_block (sys_create P s req).st.disk p) (req.path.getLastD []) = some nib ∧
      (sys_create P s req).st.disk nib = Block.inode (new_inode P req) ∧
      (new_inode P req).type = req.create_type ∧
      cstr (new_inode P req).owner = req.username ∧
      (new_inode P req).size = 0 ∧
      (∀ k, (new_inode P req).blocks k = 0) ∧
      ∀ name, name ≠ req.path.getLastD [] →
        find_child P (sys_create P s req).st.disk
          (read_inode_block (sys_create P s req).st.disk p) name =
        find_child P s.disk (read_inode_block s.disk p) name := by
  obtain ⟨_, hulen, hunul, hpne, hcomp⟩ := hN
  obtain ⟨_, hnlen, hnnul⟩ := hcomp _ (getLastD_mem req.path [] hpne)
  have hname : cstr (new_direntry P (req.path.getLastD []) 0).name = req.path.getLastD [] :=
    cstr_strncpy_term _ _ hnnul hnlen
  have hown : cstr (new_inode P req).owner = req.username :=
    cstr_strncpy_term _ _ hunul hulen
  rcases sys_create_cases P s req with ⟨h1, _⟩ |
      ⟨p, nib, free1, hpath, _, _, hex, hopen, hg, heq⟩ |
      ⟨p, ndp, nib, free1, free2, hpath, _, _, hex, _, _, hg, hg2, heq⟩
  · rw [h1] at hreply; simp at hreply
  · have hp := path_find_reach hpath
    obtain ⟨hi, hj, hpage, h0⟩ := scan_create_open hopen
    obtain ⟨hbf, _, _, hb2⟩ := get_new_block_some hg
    rw [hpage] at h0
    have hlook := create_open_lookup hT hp hi hj h0 (hF nib hbf) hb2 (new_inode P req)
      (new_direntry P (req.path.getLastD []) nib) rfl (req.path.getLastD []) hname
      (scan_create_nomatch hex) (sys_create P s req).st.disk (by rw [heq, hpage])
    exact ⟨p, nib, hpath, hbf, hlook.2.1, hlook.1, rfl, hown, rfl, fun _ => rfl, hlook.2.2⟩
  · have hp := path_find_reach hpath
    obtain ⟨hbf, hf1, _, _⟩ := get_new_block_some hg
    obtain ⟨hbf2, _, _, hb2⟩ := get_new_block_some hg2
    rw [hf1] at hbf2
    have hne : ndp ≠ nib := fun e => (Finset.mem_erase.1 hbf2).1 e.symm
    have hnf : nib ∈ s.free := (Finset.mem_erase.1 hbf2).2
    have hlook := create_newpage_lookup hP hT hp (hF ndp hbf) (hF nib hnf) hne hb2
      (new_inode P req) (new_direntry P (req.path.getLastD []) nib) rfl
      (req.path.getLastD []) hname (scan_create_nomatch hex)
      (sys_create P s req).st.disk (by rw [heq])
    exact ⟨p, nib, hpath, hnf, hlook.2.1, hlook.1, rfl, hown, rfl, fun _ => rfl, hlook.2.2⟩

set_option maxRecDepth 100000 in
/-- C10 at the example state: alice creates `/b`; the lookup of "b" in root then gives a
block that was free, the lookup of "a" still gives block 2. -/
theorem C10_create_postcondition_witness :
    (sys_create exP ex_state ex_create).reply.isSome = true ∧
    ∃ p nib, path_find exP ex_state.disk ex_create.path.dropLast ex_create.username = some p ∧
      nib ∈ ex_state.free ∧
      find_child exP (sys_create exP ex_state ex_create).st.disk
        (read_inode_block (sys_create exP ex_state ex_create).st.disk p) ['b'] = some nib ∧
      find_child exP (sys_create exP ex_state ex_create).st.disk
        (read_inode_block (sys_create exP ex_state ex_create).st.disk p) ['a'] =
        find_child exP ex_state.disk (read_inode_block ex_state.disk p) ['a'] := by
  refine ⟨by decide, ?_⟩
  obtain ⟨p, nib, h1, h2, h3, _, _, _, _, _, h9⟩ :=
    C10_create_postcondition exP ex_state ex_create exP_ok ex_tree ex_free_exact.disjoint
      (by unfold ValidNames; decide) (by decide)
  exact ⟨p, nib, h1, h2, h3, h9 ['a'] (by decide)⟩

/-! ## Directory contents by name: basic facts -/

theorem entries_map_snd (es : Nat → fs_direntry) (js : List Nat) :
    (js.map (fun j => (es j).inode_block)).filter (fun c => c ≠ 0) =
      (((js.map es).filter (fun e => e.inode_block ≠ 0)).map
        (fun e => (cstr e.name, e.inode_block))).map Prod.snd := by
  induction js with
  | nil => rfl
  | cons j js ih =>
    by_cases h : (es j).inode_block = 0
    · simp only [List.map_cons, List.filter_cons, h, ne_eq, not_true_eq_false, decide_False,
        Bool.false_eq_true, if_false]
      exact ih
    · simp only [List.map_cons, List.filter_cons, h, ne_eq, not_false_eq_true, decide_True,
        if_true]
      rw [← ih]

theorem page_children_eq_map (P : Params) (d : Disk) (pg : Nat) :
    page_children P d pg = (page_entries P d pg).map Prod.snd :=
  entries_map_snd _ _

theorem children_eq_map (P : Params) (d : Disk) (ino : fs_inode) :
    children P d ino = (dir_entries P d ino).map Prod.snd := by
  unfold children dir_entries
  induction used_blocks ino with
  | nil => rfl
  | cons a l ih =>
    simp only [List.flatMap_cons, List.map_append]
    rw [ih, page_children_eq_map]

theorem mem_page_entries {P : Params} {d : Disk} {pg : Nat} {x : List Char × Nat} :
    x ∈ page_entries P d pg ↔
      ∃ j, j < P.DEP ∧ (read_dir_block d pg j).inode_block ≠ 0 ∧
        x = (cstr (read_dir_block d pg j).name, (read_dir_block d pg j).inode_block) := by
  unfold page_entries
  simp only [List.mem_map, List.mem_filter, List.mem_range, decide_eq_true_eq]
  constructor
  · rintro ⟨e, ⟨⟨j, hj, rfl⟩, hnz⟩, rfl⟩
    exact ⟨j, hj, hnz, rfl⟩
  · rintro ⟨j, hj, hnz, rfl⟩
    exact ⟨_, ⟨⟨j, hj, rfl⟩, hnz⟩, rfl⟩

theorem mem_dir_entries {P : Params} {d : Disk} {ino : fs_inode} {x : List Char × Nat} :
    x ∈ dir_entries P d ino ↔
      ∃ i, i < ino.size ∧ ∃ j, j < P.DEP ∧
        (read_dir_block d (ino.blocks i) j).inode_block ≠ 0 ∧
        x = (cstr (read_dir_block d (ino.blocks i) j).name,
             (read_dir_block d (ino.blocks i) j).inode_block) := by
  unfold dir_entries
  rw [List.mem_flatMap]
  constructor
  · rintro ⟨pg, hpg, hx⟩
    obtain ⟨i, hi, rfl⟩ := mem_used_blocks.1 hpg
    exact ⟨i, hi, mem_page_entries.1 hx⟩
  · rintro ⟨i, hi, hx⟩
    exact ⟨_, mem_used_blocks.2 ⟨i, hi, rfl⟩, mem_page_entries.2 hx⟩

theorem page_entries_congr {P : Params} {d d1 : Disk} {pg : Nat} (h : d1 pg = d pg) :
    page_entries P d1 pg = page_entries P d pg := by
  unfold page_entries
  rw [read_dir_congr h]

theorem dir_entries_congr {P : Params} {d d1 : Disk} {ino : fs_inode}
    (h : ∀ pg ∈ used_blocks ino, d1 pg = d pg) :
    dir_entries P d1 ino = dir_entries P d ino := by
  unfold dir_entries
  apply List.flatMap_congr
  intro pg hpg
  exact page_entries_congr (h pg hpg)

theorem Agree.entries_eq {P : Params} {d d1 : Disk} {p : Nat} (h : Agree d d1 p) :
    dir_entries P d1 (read_inode_block d1 p) = dir_entries P d (read_inode_block d p) := by
  rw [h.inode]
  exact dir_entries_congr h.2

/-! ## Lookup by name in a list of entries -/

theorem lookup_name_append (name : List Char) (l1 l2 : List (List Char × Nat)) :
    lookup_name name (l1 ++ l2) = (lookup_name name l1).or (lookup_name name l2) := by
  unfold lookup_name
  rw [List.find?_append]
  cases List.find? (fun x => decide (x.1 = name)) l1 <;> simp

theorem lookup_name_none {name : List Char} {l : List (List Char × Nat)} :
    lookup_name name l = none ↔ name ∉ l.map Prod.fst := by
  unfold lookup_name
  simp only [Option.map_eq_none', List.find?_eq_none, decide_eq_true_eq, List.mem_map,
    not_exists, not_and]

theorem lookup_name_mem {name : List Char} {l : List (List Char × Nat)} {b : Nat}
    (h : lookup_name name l = some b) : (name, b) ∈ l := by
  unfold lookup_name at h
  rcases hf : List.find? (fun x => decide (x.1 = name)) l with _ | x
  · rw [hf] at h; simp at h
  · rw [hf] at h
    have h1 := List.find?_some hf
    have h2 := List.mem_of_find?_eq_some hf
    simp only [decide_eq_true_eq] at h1
    simp only [Option.map_some', Option.some.injEq] at h
    have : x = (name, b) := by rw [← h1, ← h]
    rw [← this]; exact h2

theorem lookup_name_of_mem {name : List Char} {l : List (List Char × Nat)} {b : Nat}
    (hnd : (l.map Prod.fst).Nodup) (h : (name, b) ∈ l) : lookup_name name l = some b := by
  induction l with
  | nil => simp at h
  | cons x l ih =>
    simp only [List.map_cons, List.nodup_cons] at hnd
    unfold lookup_name
    rcases List.mem_cons.1 h with e | e
    · subst e
      simp
    · have hne : x.1 ≠ name := by
        intro hx
        apply hnd.1
        rw [hx]
        exact List.mem_map.2 ⟨_, e, rfl⟩
      rw [List.find?_cons_of_neg _ (by simpa using hne)]
      exact ih hnd.2 e

theorem lookup_name_perm {name : List Char} {l l1 : List (List Char × Nat)}
    (hp : List.Perm l l1) (hnd : (l.map Prod.fst).Nodup) :
    lookup_name name l1 = lookup_name name l := by
  have hnd1 : (l1.map Prod.fst).Nodup := (hp.map Prod.fst).nodup_iff.1 hnd
  rcases h : lookup_name name l with _ | b
  · rw [lookup_name_none] at h ⊢
    intro hm
    exact h ((hp.map Prod.fst).mem_iff.2 hm)
  · exact lookup_name_of_mem hnd1 (hp.mem_iff.1 (lookup_name_mem h))

theorem find_in_page_eq_lookup (es : Nat → fs_direntry) (name : List Char) (js : List Nat) :
    find_in_page es name js =
      lookup_name name (((js.map es).filter (fun e => e.inode_block ≠ 0)).map
        (fun e => (cstr e.name, e.inode_block))) := by
  induction js with
  | nil => rfl
  | cons j js ih =>
    unfold find_in_page
    by_cases h : (es j).inode_block = 0
    · rw [if_pos h, ih]
      simp [List.filter_cons, h]
    · rw [if_neg h]
      by_cases hn : cstr (es j).name = name
      · rw [if_pos hn]
        simp [List.filter_cons, h, lookup_name, hn]
      · rw [if_neg hn, ih]
        simp [List.filter_cons, h, lookup_name, hn]

theorem find_in_pages_eq_lookup (P : Params) (d : Disk) (ino : fs_inode) (name : List Char)
    (is : List Nat) :
    find_in_pages P d ino name is =
      lookup_name name ((is.map ino.blocks).flatMap (page_entries P d)) := by
  induction is with
  | nil => rfl
  | cons i is ih =>
    unfold find_in_pages
    simp only [List.map_cons, List.flatMap_cons]
    rw [lookup_name_append, ← ih, find_in_page_eq_lookup]
    unfold page_entries
    cases lookup_name name (((List.range P.DEP).map (read_dir_block d (ino.blocks i))).filter
      (fun e => e.inode_block ≠ 0) |>.map (fun e => (cstr e.name, e.inode_block))) <;> rfl

theorem find_in_pages_lookup (P : Params) (d : Disk) (ino : fs_inode) (name : List Char) :
    find_in_pages P d ino name (List.range ino.size) =
      lookup_name name (dir_entries P d ino) :=
  find_in_pages_eq_lookup P d ino name _

/-! ## The delete scan records the first match -/

theorem scan_delete_page_keep (es : Nat → fs_direntry) (name : List Char) (i block : Nat)
    (js : List Nat) (res : delete_scan_info) (c : Nat) (tb : Option Nat)
    (h : res.found = true) :
    (scan_delete_page es name i block js (res, c, tb)).1 = res ∧
    (scan_delete_page es name i block js (res, c, tb)).2.2 = tb := by
  induction js generalizing c with
  | nil => exact ⟨rfl, rfl⟩
  | cons j js ih =>
    unfold scan_delete_page
    by_cases h0 : (es j).inode_block = 0
    · rw [if_pos h0]; exact ih c
    · rw [if_neg h0, if_neg (by simp [h])]
      exact ih (c + 1)

theorem scan_delete_page_first (es : Nat → fs_direntry) (name : List Char) (i block : Nat)
    (js : List Nat) (res : delete_scan_info) (c : Nat) (h : res.found = false) :
    (find_in_page es name js = none →
      (scan_delete_page es name i block js (res, c, none)).1 = res ∧
      (scan_delete_page es name i block js (res, c, none)).2.2 = none) ∧
    (∀ b, find_in_page es name js = some b →
      (scan_delete_page es name i block js (res, c, none)).1.found = true ∧
      (scan_delete_page es name i block js (res, c, none)).1.inode_block = b ∧
      (scan_delete_page es name i block js (res, c, none)).2.2.isSome = true) := by
  induction js generalizing c with
  | nil =>
    refine ⟨fun _ => ⟨rfl, rfl⟩, ?_⟩
    intro b hb
    simp [find_in_page] at hb
  | cons j js ih =>
    unfold scan_delete_page find_in_page
    by_cases h0 : (es j).inode_block = 0
    · rw [if_pos h0, if_pos h0]; exact ih c
    · rw [if_neg h0, if_neg h0]
      by_cases hn : cstr (es j).name = name
      · rw [if_pos hn, if_pos (by simp [h, hn])]
        have hk := scan_delete_page_keep es name i block js
          { res with found := true, inode_block := (es j).inode_block,
                     parent_blocks_idx := i, dir_block := block, dir_page := es,
                     dir_offset := j } (c + 1) (some j) rfl
        refine ⟨fun hx => by simp at hx, ?_⟩
        intro b hb
        simp only [Option.some.injEq] at hb
        rw [hk.1, hk.2]
        exact ⟨rfl, hb, rfl⟩
      · rw [if_neg hn, if_neg (by simp [hn])]
        exact ih (c + 1)

theorem scan_delete_pages_first {P : Params} {d : Disk} {ino : fs_inode} {name : List Char}
    (is : List Nat) (res : delete_scan_info) (h : res.found = false) :
    (find_in_pages P d ino name is = none → scan_delete_pages P d ino name is res = res) ∧
    (∀ b, find_in_pages P d ino name is = some b →
      (scan_delete_pages P d ino name is res).found = true ∧
      (scan_delete_pages P d ino name is res).inode_block = b) := by
  induction is with
  | nil =>
    refine ⟨fun _ => rfl, ?_⟩
    intro b hb
    simp [find_in_pages] at hb
  | cons i is ih =>
    have hf := scan_delete_page_first (read_dir_block d (ino.blocks i)) name i (ino.blocks i)
      (List.range P.DEP) res 0 h
    unfold scan_delete_pages find_in_pages
    rcases hp : find_in_page (read_dir_block d (ino.blocks i)) name (List.range P.DEP) with _ | b0
    · obtain ⟨h1, h2⟩ := hf.1 hp
      have hcond : ((scan_delete_page (read_dir_block d (ino.blocks i)) name i (ino.blocks i)
          (List.range P.DEP) (res, 0, none)).1.found &&
          (scan_delete_page (read_dir_block d (ino.blocks i)) name i (ino.blocks i)
          (List.range P.DEP) (res, 0, none)).2.2.isSome) = false := by
        rw [h2]; simp
      simp only [hcond, Bool.false_eq_true, if_false]
      rw [h1]
      exact ih
    · obtain ⟨h1, h2, h3⟩ := hf.2 b0 hp
      have hcond : ((scan_delete_page (read_dir_block d (ino.blocks i)) name i (ino.blocks i)
          (List.range P.DEP) (res, 0, none)).1.found &&
          (scan_delete_page (read_dir_block d (ino.blocks i)) name i (ino.blocks i)
          (List.range P.DEP) (res, 0, none)).2.2.isSome) = true := by
        rw [h1, h3]; rfl
      simp only [hcond, if_true]
      refine ⟨fun hx => by simp at hx, ?_⟩
      intro b hb
      simp only [Option.some.injEq] at hb
      exact ⟨h1, by rw [← hb]; exact h2⟩

theorem scan_delete_first {P : Params} {d : Disk} {ino : fs_inode} {name : List Char} :
    (find_in_pages P d ino name (List.range ino.size) = none →
      (scan_directory_for_delete P d ino name).found = false) ∧
    (∀ b, find_in_pages P d ino name (List.range ino.size) = some b →
      (scan_directory_for_delete P d ino name).found = true ∧
      (scan_directory_for_delete P d ino name).inode_block = b) := by
  have h := @scan_delete_pages_first P d ino name (List.range ino.size)
    (⟨false, 0, 0, 0, 0, fun _ => ⟨[], 0⟩, false⟩ : delete_scan_info) rfl
  refine ⟨?_, h.2⟩
  intro hn
  unfold scan_directory_for_delete
  rw [h.1 hn]

theorem scan_delete_found_iff {P : Params} {d : Disk} {ino : fs_inode} {name : List Char} :
    (scan_directory_for_delete P d ino name).found = true ↔
      name ∈ (dir_entries P d ino).map Prod.fst := by
  constructor
  · intro h
    by_contra hn
    have := scan_delete_first.1 ((find_in_pages_lookup P d ino name).trans
      (lookup_name_none.2 hn))
    rw [this] at h
    exact Bool.false_ne_true h
  · intro h
    rcases hl : find_in_pages P d ino name (List.range ino.size) with _ | b
    · rw [find_in_pages_lookup, lookup_name_none] at hl
      exact absurd h hl
    · exact (scan_delete_first.2 b hl).1

theorem scan_delete_entry {P : Params} {d : Disk} {ino : fs_inode} {name : List Char}
    (h : (scan_directory_for_delete P d ino name).found = true) :
    (name, (scan_directory_for_delete P d ino name).inode_block) ∈ dir_entries P d ino := by
  rcases hl : find_in_pages P d ino name (List.range ino.size) with _ | b
  · rw [scan_delete_first.1 hl] at h
    exact absurd h Bool.false_ne_true
  · rw [(scan_delete_first.2 b hl).2]
    rw [find_in_pages_lookup] at hl
    exact lookup_name_mem hl

theorem scan_create_absent {P : Params} {d : Disk} {ino : fs_inode} {name : List Char}
    (h : (scan_directory_for_create P d ino name).exists_ = false) :
    name ∉ (dir_entries P d ino).map Prod.fst := by
  intro hm
  obtain ⟨x, hx, hx1⟩ := List.mem_map.1 hm
  obtain ⟨i, hi, j, hj, hnz, rfl⟩ := mem_dir_entries.1 hx
  exact scan_create_nomatch h i hi j hj hnz hx1

/-! ## No directory lies below itself; path resolution above a changed directory -/

theorem Below.reach {P : Params} {d : Disk} {a b : Nat} (h : Below P d a b)
    (ha : InodeReach P d a) : InodeReach P d b := by
  induction h with
  | step b hty hc => exact InodeReach.child a b ha hty hc
  | trans m b _ hty hc ih => exact InodeReach.child m b ih hty hc

theorem Below.prepend {P : Params} {d : Disk} {a m b : Nat}
    (hty : (read_inode_block d a).type = 'd') (hc : m ∈ children P d (read_inode_block d a))
    (h : Below P d m b) : Below P d a b := by
  induction h with
  | step b hty1 hc1 => exact Below.trans a m b (Below.step a m hty hc) hty1 hc1
  | trans k b _ hty1 hc1 ih => exact Below.trans a k b ih hty1 hc1

theorem Below.last {P : Params} {d : Disk} {a b : Nat} (h : Below P d a b) :
    ∃ m, (m = a ∨ Below P d a m) ∧ (read_inode_block d m).type = 'd' ∧
      b ∈ children P d (read_inode_block d m) := by
  cases h with
  | step _ hty hc => exact ⟨a, Or.inl rfl, hty, hc⟩
  | trans m _ hm hty hc => exact ⟨m, Or.inr hm, hty, hc⟩

theorem TreeShaped.no_cycle {P : Params} {d : Disk} (hT : TreeShaped P d) {x : Nat}
    (hx : InodeReach P d x) : ¬ Below P d x x := by
  induction hx with
  | root =>
    intro h
    obtain ⟨m, _, _, hc⟩ := h.last
    exact zero_not_mem_children hc
  | child p c hp hty hc ih =>
    intro h
    have hcr : InodeReach P d c := InodeReach.child p c hp hty hc
    obtain ⟨m, hm, hmty, hmc⟩ := h.last
    have hmr : InodeReach P d m := by
      rcases hm with e | e
      · rw [e]; exact hcr
      · exact e.reach hcr
    have hpm : p = m :=
      hT.parent_unique hp hmr (children_sub_refs hty hc) (children_sub_refs hmty hmc)
    subst hpm
    rcases hm with e | e
    · subst e
      exact ih (Below.step p p hty hc)
    · exact ih (Below.prepend hty hc e)

theorem path_find_loop_below {P : Params} {d : Disk} {user : List Char}
    (path : List (List Char)) (hne : path ≠ []) {curr t : Nat}
    (h : path_find_loop P d user path curr = some t) : Below P d curr t := by
  induction path generalizing curr with
  | nil => exact absurd rfl hne
  | cons x rest ih =>
    unfold path_find_loop at h
    split at h
    · exact absurd h (by simp)
    · rename_i hcond
      have hty : (read_inode_block d curr).type = 'd' := by
        by_contra hn; exact hcond (Or.inl hn)
      rcases hfc : find_child P d (read_inode_block d curr) x with _ | c
      · rw [hfc] at h; exact absurd h (by simp)
      · rw [hfc] at h
        simp only at h
        have hc := find_child_mem_children hfc
        by_cases hr : rest = []
        · subst hr
          unfold path_find_loop at h
          have := (blockToInt_eq_some h).1
          subst this
          exact Below.step curr _ hty hc
        · exact Below.prepend hty hc (ih hr h)

theorem path_find_loop_stable {P : Params} {d d1 : Disk} (hT : TreeShaped P d) {P0 : Nat}
    (hother : ∀ p, InodeReach P d p → p ≠ P0 → Agree d d1 p) (user : List Char)
    (path : List (List Char)) {curr : Nat} (hc : InodeReach P d curr)
    (h : path_find_loop P d user path curr = some P0) :
    path_find_loop P d1 user path curr = some P0 := by
  induction path generalizing curr with
  | nil => exact h
  | cons x rest ih =>
    have hbelow := path_find_loop_below (x :: rest) (by simp) h
    have hne : curr ≠ P0 := by
      intro e
      subst e
      exact hT.no_cycle hc hbelow
    have hag := hother curr hc hne
    unfold path_find_loop at h ⊢
    rw [hag.inode, find_child_congr x hag.2]
    split at h
    · exact absurd h (by simp)
    · rename_i hcond
      rw [if_neg hcond]
      rcases hfc : find_child P d (read_inode_block d curr) x with _ | c
      · rw [hfc] at h; exact absurd h (by simp)
      · rw [hfc] at h
        simp only at h ⊢
        have hty : (read_inode_block d curr).type = 'd' := by
          by_contra hn; exact hcond (Or.inl hn)
        exact ih (InodeReach.child curr c hc hty (find_child_mem_children hfc)) h

theorem path_find_stable {P : Params} {d d1 : Disk} (hT : TreeShaped P d) {P0 : Nat}
    (hother : ∀ p, InodeReach P d p → p ≠ P0 → Agree d d1 p) (user : List Char)
    (path : List (List Char)) (h : path_find P d path user = some P0) :
    path_find P d1 path user = some P0 := by
  unfold path_find at h ⊢
  by_cases hp : path = []
  · rw [if_pos hp] at h ⊢; exact h
  · rw [if_neg hp] at h ⊢
    exact path_find_loop_stable hT hother user path InodeReach.root h

/-! ## Entries of a page and of a directory under the changes made by create and delete -/

theorem filter_update_perm_entries (f : Nat → fs_direntry) (n j : Nat) (e : fs_direntry)
    (hj : j < n) (hf : (f j).inode_block = 0) (hv : e.inode_block ≠ 0) :
    List.Perm (((List.range n).map (Function.update f j e)).filter (fun x => x.inode_block ≠ 0))
      (e :: ((List.range n).map f).filter (fun x => x.inode_block ≠ 0)) := by
  induction n with
  | zero => omega
  | succ n ih =>
    rw [List.range_succ, List.map_append, List.map_append, List.filter_append,
      List.filter_append]
    by_cases hjn : j = n
    · subst hjn
      have hsame : (List.range j).map (Function.update f j e) = (List.range j).map f := by
        apply List.map_congr_left
        intro a ha
        have : a ≠ j := by have := List.mem_range.1 ha; omega
        simp [Function.update_noteq this]
      rw [hsame]
      simp only [List.map_cons, List.map_nil, Function.update_same]
      have h1 : List.filter (fun x : fs_direntry => decide (x.inode_block ≠ 0)) [e] = [e] := by
        simp [hv]
      have h2 : List.filter (fun x : fs_direntry => decide (x.inode_block ≠ 0)) [f j] = [] := by
        simp [hf]
      rw [h1, h2, List.append_nil]
      exact List.perm_append_singleton e _
    · have hlt : j < n := by omega
      have hlast : Function.update f j e n = f n := Function.update_noteq (Ne.symm hjn) _ _
      simp only [List.map_cons, List.map_nil, hlast]
      exact (ih hlt).append_right _

theorem page_entries_insert {P : Params} {d d1 : Disk} {q j : Nat} {e : fs_direntry}
    (hq : read_dir_block d1 q = Function.update (read_dir_block d q) j e) (hj : j < P.DEP)
    (h0 : (read_dir_block d q j).inode_block = 0) (hv : e.inode_block ≠ 0) :
    List.Perm (page_entries P d1 q) ((cstr e.name, e.inode_block) :: page_entries P d q) := by
  unfold page_entries
  rw [hq]
  exact (filter_update_perm_entries _ _ j e hj h0 hv).map _

theorem page_entries_clear {P : Params} {d d1 : Disk} {q j : Nat} {e : fs_direntry}
    (hq : read_dir_block d1 q = Function.update (read_dir_block d q) j e) (hj : j < P.DEP)
    (h0 : (read_dir_block d q j).inode_block ≠ 0) (hv : e.inode_block = 0) :
    List.Perm (page_entries P d q)
      ((cstr (read_dir_block d q j).name, (read_dir_block d q j).inode_block) ::
        page_entries P d1 q) := by
  have hback : read_dir_block d q =
      Function.update (read_dir_block d1 q) j (read_dir_block d q j) := by
    rw [hq]; simp
  have h1 : (read_dir_block d1 q j).inode_block = 0 := by rw [hq]; simpa using hv
  exact page_entries_insert hback hj h1 h0

theorem page_entries_new_page {P : Params} {d : Disk} {q : Nat} {e : fs_direntry}
    (hP : 0 < P.DEP) (hq : read_dir_block d q = Function.update (zero_page P) 0 e)
    (he : e.inode_block ≠ 0) : page_entries P d q = [(cstr e.name, e.inode_block)] := by
  have hz : ((List.range P.DEP).map (zero_page P)).filter (fun x => x.inode_block ≠ 0) = [] := by
    rw [List.filter_eq_nil_iff]
    intro x hx
    obtain ⟨k, _, rfl⟩ := List.mem_map.1 hx
    simp [zero_page]
  have hp := filter_update_perm_entries (zero_page P) P.DEP 0 e hP (by simp [zero_page]) he
  rw [hz] at hp
  unfold page_entries
  rw [hq, List.perm_singleton.1 hp]
  rfl

theorem flatMap_perm_cons_gen {β : Type} (g g1 : Nat → List β) (q : Nat) (xs : List β)
    (l : List Nat) (hnd : l.Nodup) (hq : q ∈ l) (hg : List.Perm (g1 q) (xs ++ g q))
    (hother : ∀ a ∈ l, a ≠ q → g1 a = g a) :
    List.Perm (l.flatMap g1) (xs ++ l.flatMap g) := by
  induction l with
  | nil => simp at hq
  | cons a l ih =>
    simp only [List.flatMap_cons]
    have hnd1 := (List.nodup_cons.1 hnd)
    by_cases ha : a = q
    · subst ha
      have hrest : l.flatMap g1 = l.flatMap g := by
        apply List.flatMap_congr
        intro b hb
        exact hother b (by simp [hb]) (fun e => hnd1.1 (e ▸ hb))
      rw [hrest, ← List.append_assoc]
      exact hg.append_right _
    · have hq1 : q ∈ l := by
        rcases List.mem_cons.1 hq with e | e
        · exact absurd e.symm ha
        · exact e
      rw [hother a (by simp) ha]
      have := ih hnd1.2 hq1 (fun b hb => hother b (by simp [hb]))
      refine (this.append_left (g a)).trans ?_
      rw [← List.append_assoc, ← List.append_assoc]
      exact List.perm_append_comm.append_right _

theorem TreeShaped.used_nodup {P : Params} {d : Disk} (hT : TreeShaped P d) {p : Nat}
    (hp : InodeReach P d p) (hty : (read_inode_block d p).type = 'd') :
    (used_blocks (read_inode_block d p)).Nodup := by
  have hnd := hT.refs_nodup p hp
  rw [refs_dir hty] at hnd
  exact (List.nodup_append.1 hnd).1

theorem create_open_entry {P : Params} {d : Disk} (hT : TreeShaped P d) {p i j nib : Nat}
    (hp : InodeReach P d p) (hty : (read_inode_block d p).type = 'd')
    (hi : i < (read_inode_block d p).size) (hj : j < P.DEP)
    (h0 : (read_dir_block d ((read_inode_block d p).blocks i) j).inode_block = 0)
    (hnib : ¬ Reachable P d nib) (ni : fs_inode) (e : fs_direntry)
    (he : e.inode_block = nib) :
    AddEntry P d
      (disk_writeblock (disk_writeblock d nib (Block.inode ni))
        ((read_inode_block d p).blocks i)
        (Block.dir (Function.update (read_dir_block d ((read_inode_block d p).blocks i)) j e)))
      p ((read_inode_block d p).blocks i) nib (cstr e.name) := by
  set q := (read_inode_block d p).blocks i with hqdef
  set d1 := disk_writeblock (disk_writeblock d nib (Block.inode ni)) q
        (Block.dir (Function.update (read_dir_block d q) j e)) with hd1
  have hq : q ∈ used_blocks (read_inode_block d p) := mem_used_blocks.2 ⟨i, hi, rfl⟩
  have hqr : Reachable P d q := reachable_of_ref hp (hT.used_refs hp hq)
  have hn0 : nib ≠ 0 := fun e1 => hnib (e1 ▸ reachable_zero P d)
  have hM : ∀ x, x ≠ nib → x ≠ q → d1 x = d x := by
    intro x hx1 hx2
    simp [hd1, disk_writeblock, Function.update_noteq hx1, Function.update_noteq hx2]
  have hpq : p ≠ q := fun e1 => hT.used_not_inode hp hq (e1 ▸ hp)
  have hpn : p ≠ nib := fun e1 => hnib (e1 ▸ Or.inl hp)
  have hino : read_inode_block d1 p = read_inode_block d p := read_inode_congr (hM p hpn hpq)
  have hdirq : read_dir_block d1 q = Function.update (read_dir_block d q) j e :=
    read_dir_write_same _ _ _
  have hins := page_entries_insert (P := P) hdirq hj h0 (by rw [he]; exact hn0)
  rw [he] at hins
  have hold : ∀ a ∈ used_blocks (read_inode_block d p), a ≠ q →
      page_entries P d1 a = page_entries P d a := by
    intro a ha haq
    apply page_entries_congr
    exact hM a (fun e1 => hnib (e1 ▸ reachable_of_ref hp (hT.used_refs hp ha))) haq
  have hlen := (page_children_insert (P := P) hdirq hj h0 (by rw [he]; exact hn0)).length_eq
  refine
    { type0 := by rw [hino], owner0 := by rw [hino], page_mem := by rw [hino]; exact hq,
      old_pages := ?_, entry := hins.mem_iff.2 (by simp), entries := ?_,
      len_old := fun _ => by rw [hlen]; rfl, len_new := fun h => absurd hq h,
      frame := fun x _ h2 h3 => hM x h3 h2 }
  · rw [hino]
    intro a ha haq
    exact ⟨ha, hold a ha haq⟩
  · rw [hino]
    unfold dir_entries
    exact flatMap_perm_cons_gen _ _ q [(cstr e.name, nib)] _ (hT.used_nodup hp hty) hq hins hold

theorem create_newpage_entry {P : Params} {d : Disk} (hP : P.ok) (hT : TreeShaped P d)
    {p ndp nib : Nat} (hp : InodeReach P d p)
    (hndp : ¬ Reachable P d ndp) (hnib : ¬ Reachable P d nib)
    (ni : fs_inode) (e : fs_direntry) (he : e.inode_block = nib) :
    AddEntry P d
      (disk_writeblock
        (disk_writeblock (disk_writeblock d nib (Block.inode ni)) ndp
          (Block.dir (Function.update (zero_page P) 0 e)))
        p (Block.inode { read_inode_block d p with
            blocks := Function.update (read_inode_block d p).blocks
              (read_inode_block d p).size ndp,
            size := (read_inode_block d p).size + 1 }))
      p ndp nib (cstr e.name) := by
  set ino1 : fs_inode := { read_inode_block d p with
            blocks := Function.update (read_inode_block d p).blocks
              (read_inode_block d p).size ndp,
            size := (read_inode_block d p).size + 1 } with hino1
  set d1 := disk_writeblock
        (disk_writeblock (disk_writeblock d nib (Block.inode ni)) ndp
          (Block.dir (Function.update (zero_page P) 0 e)))
        p (Block.inode ino1) with hd1
  have hn0 : nib ≠ 0 := fun e1 => hnib (e1 ▸ reachable_zero P d)
  have hpn : p ≠ nib := fun e1 => hnib (e1 ▸ Or.inl hp)
  have hpd : p ≠ ndp := fun e1 => hndp (e1 ▸ Or.inl hp)
  have hM : ∀ x, x ≠ p → x ≠ ndp → x ≠ nib → d1 x = d x := by
    intro x h1 h2 h3
    simp [hd1, disk_writeblock, Function.update_noteq h1, Function.update_noteq h2,
      Function.update_noteq h3]
  have hino : read_inode_block d1 p = ino1 := read_inode_write_same _ _ _
  have hused : used_blocks ino1 = used_blocks (read_inode_block d p) ++ [ndp] :=
    used_blocks_extend _ _
  have hdir : read_dir_block d1 ndp = Function.update (zero_page P) 0 e := by
    rw [hd1, read_dir_write_ne _ _ _ _ (Ne.symm hpd), read_dir_write_same]
  have hpe : page_entries P d1 ndp = [(cstr e.name, nib)] := by
    rw [page_entries_new_page hP.1 hdir (by rw [he]; exact hn0), he]
  have hold : ∀ a ∈ used_blocks (read_inode_block d p), d1 a = d a := by
    intro a ha
    have har : Reachable P d a := reachable_of_ref hp (hT.used_refs hp ha)
    exact hM a (fun e1 => hT.used_not_inode hp ha (e1 ▸ hp)) (fun e1 => hndp (e1 ▸ har))
      (fun e1 => hnib (e1 ▸ har))
  have hnu : ndp ∉ used_blocks (read_inode_block d p) :=
    fun h => hndp (reachable_of_ref hp (hT.used_refs hp h))
  refine
    { type0 := by rw [hino], owner0 := by rw [hino],
      page_mem := by rw [hino, hused]; simp,
      old_pages := ?_, entry := by rw [hpe]; simp, entries := ?_,
      len_old := fun h => absurd h hnu,
      len_new := fun _ => by rw [page_children_eq_map, hpe]; rfl, frame := hM }
  · rw [hino, hused]
    intro a ha haq
    rcases List.mem_append.1 ha with h | h
    · exact ⟨h, page_entries_congr (hold a h)⟩
    · exact absurd (List.mem_singleton.1 h) haq
  · rw [hino]
    unfold dir_entries
    rw [hused, List.flatMap_append, List.flatMap_singleton, hpe]
    have hc : (used_blocks (read_inode_block d p)).flatMap (page_entries P d1) =
        (used_blocks (read_inode_block d p)).flatMap (page_entries P d) :=
      List.flatMap_congr (fun a ha => page_entries_congr (hold a ha))
    rw [hc]
    exact List.perm_append_singleton _ _

theorem delete_clear_entry {P : Params} {d : Disk} (hT : TreeShaped P d) {p i j T : Nat}
    (hp : InodeReach P d p) (hty : (read_inode_block d p).type = 'd')
    (hi : i < (read_inode_block d p).size) (hj : j < P.DEP)
    (hent : (read_dir_block d ((read_inode_block d p).blocks i) j).inode_block = T)
    (hT0 : T ≠ 0) (e : fs_direntry) (he : e.inode_block = 0)
    (hmany : (page_children P d ((read_inode_block d p).blocks i)).length ≠ 1) :
    DelEntry P d
      (disk_writeblock d ((read_inode_block d p).blocks i)
        (Block.dir (Function.update (read_dir_block d ((read_inode_block d p).blocks i)) j e)))
      p ((read_inode_block d p).blocks i) T
      (cstr (read_dir_block d ((read_inode_block d p).blocks i) j).name) := by
  set q := (read_inode_block d p).blocks i with hqdef
  set d1 := disk_writeblock d q (Block.dir (Function.update (read_dir_block d q) j e)) with hd1
  have hq : q ∈ used_blocks (read_inode_block d p) := mem_used_blocks.2 ⟨i, hi, rfl⟩
  have hM : ∀ x, x ≠ q → d1 x = d x := by
    intro x hx
    simp [hd1, disk_writeblock, Function.update_noteq hx]
  have hpq : p ≠ q := fun e1 => hT.used_not_inode hp hq (e1 ▸ hp)
  have hino : read_inode_block d1 p = read_inode_block d p := read_inode_congr (hM p hpq)
  have hdirq : read_dir_block d1 q = Function.update (read_dir_block d q) j e :=
    read_dir_write_same _ _ _
  have hclr := page_entries_clear (P := P) hdirq hj (by rw [hent]; exact hT0) he
  rw [hent] at hclr
  have hcc := page_children_clear (P := P) hdirq hj (by rw [hent]; exact hT0) he
  refine
    { type0 := by rw [hino], owner0 := by rw [hino], page_mem := hq,
      entry := hclr.mem_iff.2 (by simp), pages := ?_, page_left := ?_, entries := ?_,
      frame := fun x _ h2 => hM x h2 }
  · rw [hino]
    intro a ha
    exact ⟨ha, fun haq => page_entries_congr (hM a haq)⟩
  · intro _ hnil
    rw [hnil] at hcc
    exact hmany (by rw [hcc.length_eq]; rfl)
  · rw [hino]
    unfold dir_entries
    exact flatMap_perm_cons_gen (page_entries P d1) (page_entries P d) q
      [(cstr (read_dir_block d q j).name, T)] _ (hT.used_nodup hp hty) hq hclr
      (fun a _ haq => (page_entries_congr (hM a haq)).symm)

theorem delete_compact_entry {P : Params} {d : Disk} (hT : TreeShaped P d) {p i j T : Nat}
    (hp : InodeReach P d p) (hty : (read_inode_block d p).type = 'd')
    (hi : i < (read_inode_block d p).size) (hj : j < P.DEP)
    (hent : (read_dir_block d ((read_inode_block d p).blocks i) j).inode_block = T)
    (hT0 : T ≠ 0)
    (honly : (page_children P d ((read_inode_block d p).blocks i)).length = 1) :
    DelEntry P d
      (disk_writeblock d p
        (Block.inode { read_inode_block d p with
          blocks := shift_left (read_inode_block d p).size (read_inode_block d p).size i
            (read_inode_block d p).blocks,
          size := (read_inode_block d p).size - 1 }))
      p ((read_inode_block d p).blocks i) T
      (cstr (read_dir_block d ((read_inode_block d p).blocks i) j).name) := by
  set q := (read_inode_block d p).blocks i with hqdef
  set ino1 : fs_inode := { read_inode_block d p with
          blocks := shift_left (read_inode_block d p).size (read_inode_block d p).size i
            (read_inode_block d p).blocks,
          size := (read_inode_block d p).size - 1 } with hino1
  set d1 := disk_writeblock d p (Block.inode ino1) with hd1
  have hq : q ∈ used_blocks (read_inode_block d p) := mem_used_blocks.2 ⟨i, hi, rfl⟩
  have hM : ∀ x, x ≠ p → d1 x = d x := by
    intro x hx
    simp [hd1, disk_writeblock, Function.update_noteq hx]
  have hino : read_inode_block d1 p = ino1 := read_inode_write_same _ _ _
  have hmem : (cstr (read_dir_block d q j).name, T) ∈ page_entries P d q :=
    mem_page_entries.2 ⟨j, hj, by rw [hent]; exact hT0, by rw [hent]⟩
  have hpe : page_entries P d q = [(cstr (read_dir_block d q j).name, T)] := by
    have hlen : (page_entries P d q).length = 1 := by
      rw [page_children_eq_map, List.length_map] at honly
      exact honly
    obtain ⟨a, ha⟩ := List.length_eq_one.1 hlen
    rw [ha] at hmem ⊢
    simp only [List.mem_singleton] at hmem
    rw [hmem]
  have hused : List.Perm (used_blocks (read_inode_block d p)) (q :: used_blocks ino1) :=
    used_blocks_shift _ i hi
  have hnd : (q :: used_blocks ino1).Nodup := hused.nodup_iff.1 (hT.used_nodup hp hty)
  have hold : ∀ a ∈ used_blocks ino1, d1 a = d a := by
    intro a ha
    have ha1 : a ∈ used_blocks (read_inode_block d p) := hused.mem_iff.2 (by simp [ha])
    exact hM a (fun e1 => hT.used_not_inode hp ha1 (e1 ▸ hp))
  refine
    { type0 := by rw [hino], owner0 := by rw [hino], page_mem := hq,
      entry := hmem, pages := ?_, page_left := ?_, entries := ?_,
      frame := fun x h1 _ => hM x h1 }
  · rw [hino]
    intro a ha
    exact ⟨hused.mem_iff.2 (by simp [ha]), fun _ => page_entries_congr (hold a ha)⟩
  · rw [hino]
    intro hin
    exact absurd hin (List.nodup_cons.1 hnd).1
  · rw [hino]
    unfold dir_entries
    have hc : (used_blocks ino1).flatMap (page_entries P d1) =
        (used_blocks ino1).flatMap (page_entries P d) :=
      List.flatMap_congr (fun a ha => page_entries_congr (hold a ha))
    rw [hc]
    have := hused.flatMap_right (page_entries P d)
    rw [List.flatMap_cons, hpe] at this
    exact this

/-! ## Summaries of a replying create and of a replying delete -/

theorem last_name_valid {P : Params} {req : request} (hV : ValidNames P req) (nib : Nat) :
    cstr (new_direntry P (req.path.getLastD []) nib).name = req.path.getLastD [] := by
  obtain ⟨_, _, _, hpne, hcomp⟩ := hV
  obtain ⟨_, hnlen, hnnul⟩ := hcomp _ (getLastD_mem req.path [] hpne)
  exact cstr_strncpy_term _ _ hnnul hnlen

theorem disk_write_same (d : Disk) (b : Nat) (blk : Block) : disk_writeblock d b blk b = blk := by
  simp [disk_writeblock]

theorem disk_write_ne (d : Disk) (b c : Nat) (blk : Block) (h : c ≠ b) :
    disk_writeblock d b blk c = d c := by
  simp [disk_writeblock, Function.update_noteq h]

/-- Summary of a replying `sys_create` on a tree-shaped state whose free blocks are
unreachable: the parent `p`, the page `pg` that received the direntry, the new inode block
`nib`, the blocks `A` taken from the free set, and the writes in order. -/
theorem sys_create_shape (P : Params) (s : State) (req : request) (hP : P.ok)
    (hT : TreeShaped P s.disk) (hF : FreeDisjoint P s) (hK : ValidKind req)
    (hr : (sys_create P s req).reply.isSome = true) :
    ∃ p pg nib A es ino,
      path_find P s.disk req.path.dropLast req.username = some p ∧
      (read_inode_block s.disk p).type = 'd' ∧
      (cstr (read_inode_block s.disk p).owner = req.username ∨
        cstr (read_inode_block s.disk p).owner = []) ∧
      req.path.getLastD [] ∉ (dir_entries P s.disk (read_inode_block s.disk p)).map Prod.fst ∧
      AddStep P s.disk (sys_create P s req).st.disk p A [nib] ∧
      AddEntry P s.disk (sys_create P s req).st.disk p pg nib
        (cstr (new_direntry P (req.path.getLastD []) nib).name) ∧
      (sys_create P s req).st.disk nib = Block.inode (new_inode P req) ∧
      (sys_create P s req).st.disk pg = Block.dir es ∧
      (sys_create P s req).st.disk p = Block.inode ino ∧
      (∃ j, j < P.DEP ∧ es j = new_direntry P (req.path.getLastD []) nib) ∧
      nib ∈ s.free ∧
      ((A = [nib] ∧ pg ∈ used_blocks (read_inode_block s.disk p) ∧
          (sys_create P s req).writes =
            [(nib, Block.inode (new_inode P req)), (pg, Block.dir es)]) ∨
        (A = [pg, nib] ∧ pg ∈ s.free ∧ pg ≠ nib ∧
          ino.size = (read_inode_block s.disk p).size + 1 ∧
          ino.blocks (read_inode_block s.disk p).size = pg ∧
          (sys_create P s req).writes =
            [(nib, Block.inode (new_inode P req)), (pg, Block.dir es),
             (p, Block.inode ino)])) ∧
      (∀ x, x ∈ (sys_create P s req).st.free ↔ x ∈ s.free ∧ x ∉ A) := by
  have hnt : (new_inode P req).type = 'd' ∨ (new_inode P req).type = 'f' := by
    rcases hK with h | h
    · exact Or.inr h
    · exact Or.inl h
  rcases sys_create_cases P s req with ⟨h1, _⟩ |
      ⟨p, nib, free1, hpath, hty, hown, hex, hopen, hg, heq⟩ |
      ⟨p, ndp, nib, free1, free2, hpath, hty, hown, hex, _, hsz, hg, hg2, heq⟩
  · rw [h1] at hr; simp at hr
  · have hp := path_find_reach hpath
    obtain ⟨hi, hj, hpage, h0⟩ := scan_create_open hopen
    obtain ⟨hbf, hf1, _, _⟩ := get_new_block_some hg
    rw [hpage] at h0
    have hq : (read_inode_block s.disk p).blocks
        (scan_directory_for_create P s.disk (read_inode_block s.disk p)
          (req.path.getLastD [])).open_parent_blocks_idx ∈
        used_blocks (read_inode_block s.disk p) := mem_used_blocks.2 ⟨_, hi, rfl⟩
    have hnq : nib ≠ (read_inode_block s.disk p).blocks
        (scan_directory_for_create P s.disk (read_inode_block s.disk p)
          (req.path.getLastD [])).open_parent_blocks_idx :=
      fun e1 => hF nib hbf (e1 ▸ reachable_of_ref hp (hT.used_refs hp hq))
    have hpq : p ≠ (read_inode_block s.disk p).blocks
        (scan_directory_for_create P s.disk (read_inode_block s.disk p)
          (req.path.getLastD [])).open_parent_blocks_idx :=
      fun e1 => hT.used_not_inode hp hq (e1 ▸ hp)
    have hpn : p ≠ nib := fun e1 => hF nib hbf (e1 ▸ Or.inl hp)
    have hpi : ∃ ino, s.disk p = Block.inode ino := by
      rcases hb : s.disk p with ino | es | bs
      · exact ⟨ino, rfl⟩
      · simp [read_inode_block, hb] at hty; exact absurd hty (by decide)
      · simp [read_inode_block, hb] at hty; exact absurd hty (by decide)
    obtain ⟨ino, hino⟩ := hpi
    refine ⟨p, _, nib, [nib], Function.update
        (scan_directory_for_create P s.disk (read_inode_block s.disk p)
          (req.path.getLastD [])).open_dir_page
        (scan_directory_for_create P s.disk (read_inode_block s.disk p)
          (req.path.getLastD [])).open_dir_offset
        (new_direntry P (req.path.getLastD []) nib), ino,
      hpath, hty, hown, scan_create_absent hex, ?_, ?_, ?_, ?_, ?_,
      ⟨_, hj, Function.update_same _ _ _⟩, hbf, Or.inl ⟨rfl, hq, ?_⟩, ?_⟩
    · rw [heq, hpage]
      exact create_open_step hT hp hty hi hj h0 (hF nib hbf) _ hnt rfl _ rfl
    · rw [heq, hpage]
      exact create_open_entry hT hp hty hi hj h0 (hF nib hbf) (new_inode P req)
        (new_direntry P (req.path.getLastD []) nib) rfl
    · rw [heq]
      simp only
      rw [disk_write_ne _ _ _ _ hnq, disk_write_same]
    · rw [heq]
      exact disk_write_same _ _ _
    · rw [heq]
      simp only
      rw [disk_write_ne _ _ _ _ hpq, disk_write_ne _ _ _ _ hpn, hino]
    · rw [heq]
    · rw [heq]; intro x; simp [hf1, Finset.mem_erase]; tauto
  · have hp := path_find_reach hpath
    obtain ⟨hbf, hf1, _, _⟩ := get_new_block_some hg
    obtain ⟨hbf2, hf2, _, _⟩ := get_new_block_some hg2
    rw [hf1] at hbf2
    have hne : ndp ≠ nib := fun e => (Finset.mem_erase.1 hbf2).1 e.symm
    have hnf : nib ∈ s.free := (Finset.mem_erase.1 hbf2).2
    have hpn : p ≠ nib := fun e1 => hF nib hnf (e1 ▸ Or.inl hp)
    have hpd : p ≠ ndp := fun e1 => hF ndp hbf (e1 ▸ Or.inl hp)
    refine ⟨p, ndp, nib, [ndp, nib],
      Function.update (zero_page P) 0 (new_direntry P (req.path.getLastD []) nib),
      { read_inode_block s.disk p with
          blocks := Function.update (read_inode_block s.disk p).blocks
            (read_inode_block s.disk p).size ndp,
          size := (read_inode_block s.disk p).size + 1 },
      hpath, hty, hown, scan_create_absent hex, ?_, ?_, ?_, ?_, ?_,
      ⟨0, hP.1, Function.update_same _ _ _⟩, hnf,
      Or.inr ⟨rfl, hbf, hne, rfl, Function.update_same _ _ _, ?_⟩, ?_⟩
    · rw [heq]
      exact create_newpage_step hP hT hp hty hsz (hF ndp hbf) (hF nib hnf) hne _ hnt rfl _ rfl
    · rw [heq]
      exact create_newpage_entry hP hT hp (hF ndp hbf) (hF nib hnf) (new_inode P req)
        (new_direntry P (req.path.getLastD []) nib) rfl
    · rw [heq]
      simp only
      rw [disk_write_ne _ _ _ _ (Ne.symm hpn), disk_write_ne _ _ _ _ (Ne.symm hne),
        disk_write_same]
    · rw [heq]
      simp only
      rw [disk_write_ne _ _ _ _ (Ne.symm hpd), disk_write_same]
    · rw [heq]
      exact disk_write_same _ _ _
    · rw [heq]
    · rw [heq]; intro x; simp [hf2, hf1, Finset.mem_erase]; tauto

theorem sys_create_writes (P : Params) (s : State) (req : request) :
    apply_writes s.disk (sys_create P s req).writes = (sys_create P s req).st.disk := by
  rcases sys_create_cases P s req with ⟨_, h2, h3, _⟩ |
      ⟨p, nib, free1, _, _, _, _, _, _, heq⟩ |
      ⟨p, ndp, nib, free1, free2, _, _, _, _, _, _, _, _, heq⟩
  · rw [h2, h3]; rfl
  · rw [heq]; rfl
  · rw [heq]; rfl

/-- Summary of a replying `sys_delete` on a tree-shaped state: the parent `p`, the page
`pg` that held the direntry, the target inode block `T` and the blocks `R` returned to the
free set besides the target's own. -/
theorem sys_delete_shape (P : Params) (s : State) (req : request)
    (hT : TreeShaped P s.disk) (hr : (sys_delete P s req).reply.isSome = true) :
    ∃ p pg T R,
      path_find P s.disk req.path.dropLast req.username = some p ∧
      (read_inode_block s.disk p).type = 'd' ∧
      (cstr (read_inode_block s.disk p).owner = req.username ∨
        cstr (read_inode_block s.disk p).owner = []) ∧
      cstr (read_inode_block s.disk T).owner = req.username ∧
      find_in_pages P s.disk (read_inode_block s.disk p) (req.path.getLastD [])
        (List.range (read_inode_block s.disk p).size) = some T ∧
      DelStep P s.disk (sys_delete P s req).st.disk p T R ∧
      DelEntry P s.disk (sys_delete P s req).st.disk p pg T (req.path.getLastD []) ∧
      ((R = [T] ∧ (page_children P s.disk pg).length ≠ 1 ∧
          (read_inode_block (sys_delete P s req).st.disk p).size =
            (read_inode_block s.disk p).size) ∨
        (R = [pg, T] ∧ (page_children P s.disk pg).length = 1 ∧
          (read_inode_block (sys_delete P s req).st.disk p).size + 1 =
            (read_inode_block s.disk p).size)) ∧
      (∀ x, x ∈ (sys_delete P s req).st.free ↔
        x ∈ s.free ∨ x ∈ R ∨ x ∈ refs P s.disk T) := by
  rcases sys_delete_cases P s req with ⟨h1, _⟩ |
      ⟨p, hpath, hty, hown, hfound, htown, hleaf, hcase⟩
  · rw [h1] at hr; simp at hr
  · have hp := path_find_reach hpath
    obtain ⟨⟨hi, hj, hdb, hpage, hent, hT0, hname⟩, honly⟩ := scan_delete_found hfound
    have hfirst : find_in_pages P s.disk (read_inode_block s.disk p) (req.path.getLastD [])
        (List.range (read_inode_block s.disk p).size) =
        some (scan_directory_for_delete P s.disk (read_inode_block s.disk p)
          (req.path.getLastD [])).inode_block := by
      rcases hl : find_in_pages P s.disk (read_inode_block s.disk p) (req.path.getLastD [])
        (List.range (read_inode_block s.disk p).size) with _ | b
      · rw [scan_delete_first.1 hl] at hfound
        exact absurd hfound Bool.false_ne_true
      · rw [(scan_delete_first.2 b hl).2]
    set sc := scan_directory_for_delete P s.disk (read_inode_block s.disk p)
      (req.path.getLastD []) with hsc
    have hTr : InodeReach P s.disk sc.inode_block :=
      InodeReach.child p _ hp hty (by
        rw [hpage, hdb] at hent
        exact mem_children_of_entry hi hj hent hT0)
    have hfree : ∀ (f0 : Finset Nat) (x : Nat),
        x ∈ insert sc.inode_block
          (free_blocks (read_inode_block s.disk sc.inode_block)
            (List.range (read_inode_block s.disk sc.inode_block).size) f0) ↔
        x ∈ f0 ∨ x = sc.inode_block ∨ x ∈ refs P s.disk sc.inode_block := by
      intro f0 x
      rw [Finset.mem_insert, mem_free_blocks]
      have hrefs : (∃ k ∈ List.range (read_inode_block s.disk sc.inode_block).size,
          (read_inode_block s.disk sc.inode_block).blocks k = x ∧ x ≠ 0) ↔
          x ∈ refs P s.disk sc.inode_block := by
        rcases hT.type_ok _ hTr with htd | htf
        · have hs0 := hleaf htd
          rw [refs_dir htd]
          simp [used_blocks, children, hs0]
        · rw [refs_file htf]
          constructor
          · rintro ⟨k, hk, h1, _⟩
            exact mem_used_blocks.2 ⟨k, List.mem_range.1 hk, h1⟩
          · intro hx
            obtain ⟨k, hk, h1⟩ := mem_used_blocks.1 hx
            refine ⟨k, List.mem_range.2 hk, h1, fun e0 => ?_⟩
            subst e0
            exact hT.refs_ne_zero _ hTr (by rw [refs_file htf]; exact hx)
      rw [hrefs]
      constructor
      · rintro (h | h | h)
        · exact Or.inr (Or.inl h)
        · exact Or.inl h
        · exact Or.inr (Or.inr h)
      · rintro (h | h | h)
        · exact Or.inr (Or.inl h)
        · exact Or.inl h
        · exact Or.inr (Or.inr h)
    have hent1 : (read_dir_block s.disk ((read_inode_block s.disk p).blocks
        sc.parent_blocks_idx) sc.dir_offset).inode_block = sc.inode_block := by
      rw [hpage, hdb] at hent; exact hent
    have hname1 : cstr (read_dir_block s.disk ((read_inode_block s.disk p).blocks
        sc.parent_blocks_idx) sc.dir_offset).name = req.path.getLastD [] := by
      rw [hpage, hdb] at hname; exact hname
    rcases hcase with ⟨hno, heq⟩ | ⟨hyes, heq⟩
    · have hmany : (page_children P s.disk ((read_inode_block s.disk p).blocks
          sc.parent_blocks_idx)).length ≠ 1 := by
        rw [honly, hdb] at hno
        simpa using hno
      refine ⟨p, sc.dir_block, sc.inode_block, [sc.inode_block], hpath, hty, hown, htown,
        hfirst, ?_, ?_, Or.inl ⟨rfl, by rw [hdb]; exact hmany, ?_⟩, ?_⟩
      · rw [heq]
        simp only
        rw [hpage, hdb]
        exact delete_clear_step hT hp hty hi hj hent1 hT0 hleaf _ rfl
      · rw [heq]
        simp only
        rw [hpage, hdb]
        have := delete_clear_entry hT hp hty hi hj hent1 hT0 (cleared_direntry
          (read_dir_block s.disk ((read_inode_block s.disk p).blocks sc.parent_blocks_idx)
            sc.dir_offset)) rfl hmany
        rw [hname1] at this
        exact this
      · rw [heq]
        simp only
        rw [read_inode_write_ne]
        rw [hdb]
        exact fun e1 => hT.used_not_inode hp (mem_used_blocks.2 ⟨_, hi, rfl⟩) (e1 ▸ hp)
      · rw [heq]
        intro x
        simp only
        rw [hfree]
        simp
    · have hone : (page_children P s.disk ((read_inode_block s.disk p).blocks
          sc.parent_blocks_idx)).length = 1 := by
        rw [honly, hdb] at hyes
        simpa using hyes
      refine ⟨p, sc.dir_block, sc.inode_block, [sc.dir_block, sc.inode_block], hpath, hty,
        hown, htown, hfirst, ?_, ?_, Or.inr ⟨rfl, by rw [hdb]; exact hone, ?_⟩, ?_⟩
      · rw [heq]
        simp only
        rw [hdb]
        exact delete_compact_step hT hp hty hi hj hent1 hT0 hleaf hone
      · rw [heq]
        simp only
        rw [hdb]
        have := delete_compact_entry hT hp hty hi hj hent1 hT0 hone
        rw [hname1] at this
        exact this
      · rw [heq]
        simp only
        rw [read_inode_write_same]
        simp only
        omega
      · rw [heq]
        intro x
        simp only
        rw [hfree]
        simp only [Finset.mem_insert, List.mem_cons, List.mem_singleton, List.not_mem_nil,
          or_false]
        tauto

/-! ## Claims C11, C12, C13: rejected and rolled-back creates, the first create -/

/-- C11: create of an existing name is rejected. If the parent directory of the request,
whenever it resolves for the requesting user, holds in one of its used pages a non-empty
direntry whose name is the last path component (whatever inode it refers to, whatever the
type or owner of that inode), then `sys_create` sends no reply, writes nothing and leaves
the disk as it was. -/
theorem C11_create_existing_rejected (P : Params) (s : State) (req : request)
    (h : ∀ p, path_find P s.disk req.path.dropLast req.username = some p →
      ∃ i j, i < (read_inode_block s.disk p).size ∧ j < P.DEP ∧
        (read_dir_block s.disk ((read_inode_block s.disk p).blocks i) j).inode_block ≠ 0 ∧
        cstr (read_dir_block s.disk ((read_inode_block s.disk p).blocks i) j).name =
          req.path.getLastD []) :
    (sys_create P s req).reply = none ∧ (sys_create P s req).st.disk = s.disk ∧
    (sys_create P s req).writes = [] := by
  rcases sys_create_cases P s req with ⟨h1, h2, h3, _⟩ |
      ⟨p, nib, free1, hpath, _, _, hex, _⟩ |
      ⟨p, ndp, nib, free1, free2, hpath, _, _, hex, _⟩
  · exact ⟨h1, h2, h3⟩
  · obtain ⟨i, j, hi, hj, hnz, hname⟩ := h p hpath
    exact absurd hname (scan_create_nomatch hex i hi j hj hnz)
  · obtain ⟨i, j, hi, hj, hnz, hname⟩ := h p hpath
    exact absurd hname (scan_create_nomatch hex i hi j hj hnz)

set_option maxRecDepth 100000 in
/-- C11 at the example state: root holds the file "a" of alice in slot 0 of its page, and
`FS_CREATE alice /a f` gets no reply. -/
theorem C11_create_existing_rejected_witness :
    (read_dir_block ex_state.disk ((read_inode_block ex_state.disk 0).blocks 0) 0).inode_block
      ≠ 0 ∧
    cstr (read_dir_block ex_state.disk ((read_inode_block ex_state.disk 0).blocks 0) 0).name =
      ex_create_a.path.getLastD [] ∧
    (sys_create exP ex_state ex_create_a).reply = none ∧
    (sys_create exP ex_state ex_create_a).st.disk = ex_state.disk ∧
    (sys_create exP ex_state ex_create_a).writes = [] :=
  ⟨by decide, by decide,
    C11_create_existing_rejected exP ex_state ex_create_a (fun p hp => by
      have h0 : path_find exP ex_state.disk ex_create_a.path.dropLast ex_create_a.username =
          some 0 := by decide
      rw [h0] at hp
      have hp0 : p = 0 := (Option.some.inj hp).symm
      subst hp0
      exact ⟨0, 0, by decide, by decide, by decide, by decide⟩)⟩

/-- C12: create rolls back on allocation failure. When the parent resolves, the scan of
it reports no empty slot (so that the create, if it gets that far, needs a new directory
page), and the free set holds exactly one block `b` (a block number other than the
`2^32 - 1` that reads as `-1`), then the page allocation succeeds with `b`, the inode
allocation on what is left fails, `b` is put back into the free set, no reply is sent,
nothing is written, and the free set and the disk equal what they were before the call. -/
theorem C12_create_rollback (P : Params) (s : State) (req : request) (p b : Nat)
    (hpath : path_find P s.disk req.path.dropLast req.username = some p)
    (hopen : (scan_directory_for_create P s.disk (read_inode_block s.disk p)
      (req.path.getLastD [])).has_open_entry = false)
    (hfree : s.free = {b}) (hb : b ≠ 4294967295) :
    get_new_block s.free = (some b, ∅) ∧ get_new_block ∅ = (none, ∅) ∧
    insert b (∅ : Finset Nat) = s.free ∧
    (sys_create P s req).reply = none ∧ (sys_create P s req).writes = [] ∧
    (sys_create P s req).st.free = s.free ∧ (sys_create P s req).st.disk = s.disk := by
  have hg1 : get_new_block s.free = (some b, ∅) := by
    rw [hfree]
    unfold get_new_block
    rw [dif_pos (Finset.singleton_nonempty b)]
    simp [Finset.min'_singleton, blockToInt, hb]
  have hg2 : get_new_block ∅ = (none, ∅) := by simp [get_new_block]
  refine ⟨hg1, hg2, by rw [hfree]; rfl, ?_⟩
  rcases sys_create_cases P s req with ⟨h1, h2, h3, h4⟩ |
      ⟨p1, nib, free1, hpath1, _, _, _, hopen1, _⟩ |
      ⟨p1, ndp, nib, free1, free2, _, _, _, _, _, _, hg, hg3, _⟩
  · refine ⟨h1, h3, ?_, h2⟩
    rcases h4 with h4 | h4
    · exact h4
    · rw [h4, hfree]
      exact Finset.erase_eq_of_not_mem (fun hm => hb (Finset.mem_singleton.1 hm).symm)
  · rw [hpath] at hpath1
    have := Option.some.inj hpath1
    subst this
    rw [hopen] at hopen1
    exact absurd hopen1 Bool.false_ne_true
  · rw [hg1] at hg
    have e1 : ndp = b := by
      have := congrArg Prod.fst hg
      simp only [Option.some.injEq] at this
      exact this.symm
    have e2 : free1 = ∅ := (congrArg Prod.snd hg).symm
    rw [e2, hg2] at hg3
    exact absurd (congrArg Prod.fst hg3) (by simp)

set_option maxRecDepth 100000 in
/-- C12 on the fresh file system with the single free block 1: the create of `/a` takes
block 1 for the page, finds no block for the inode, and leaves state and disk as before. -/
theorem C12_create_rollback_witness :
    (scan_directory_for_create exP one_free_state.disk (read_inode_block one_free_state.disk 0)
      (ex_create_a.path.getLastD [])).has_open_entry = false ∧
    one_free_state.free = {1} ∧
    get_new_block one_free_state.free = (some 1, ∅) ∧ get_new_block ∅ = (none, ∅) ∧
    insert 1 (∅ : Finset Nat) = one_free_state.free ∧
    (sys_create exP one_free_state ex_create_a).reply = none ∧
    (sys_create exP one_free_state ex_create_a).writes = [] ∧
    (sys_create exP one_free_state ex_create_a).st.free = one_free_state.free ∧
    (sys_create exP one_free_state ex_create_a).st.disk = one_free_state.disk :=
  ⟨by decide, rfl,
    C12_create_rollback exP one_free_state ex_create_a 0 1 (by decide) (by decide) rfl
      (by decide)⟩

theorem get_new_block_Ico (a n : Nat) (h : a < n) (hn : n ≤ 4294967295) :
    get_new_block (Finset.Ico a n) = (some a, Finset.Ico (a + 1) n) := by
  have hmem : a ∈ Finset.Ico a n := Finset.mem_Ico.2 ⟨le_refl a, h⟩
  have hne : (Finset.Ico a n).Nonempty := ⟨a, hmem⟩
  have hmin : (Finset.Ico a n).min' hne = a :=
    le_antisymm (Finset.min'_le _ a hmem)
      (Finset.le_min' _ _ _ (fun x hx => (Finset.mem_Ico.1 hx).1))
  unfold get_new_block
  rw [dif_pos hne, hmin, blockToInt_of_ne (by omega)]
  congr 1
  ext x
  simp only [Finset.mem_erase, Finset.mem_Ico]
  omega

/-- C13 (amended): block assignment of the first create. From a state whose root inode
(block 0) is a directory with empty owner and size 0 and whose free set is `{1..N-1}`, a
create of a name directly under root is answered with its header and its NUL, block 1
becomes the new directory page of root (`root.blocks[0] = 1`) holding the new direntry in
slot 0, block 2 becomes the new inode, and `root.size` becomes 1: the page is allocated
before the inode. -/
theorem C13_first_create_blocks (P : Params) (s : State) (req : request) (hP : P.ok)
    (hM : 0 < P.MFB) (hN : 3 ≤ P.N)
    (hty : (read_inode_block s.disk 0).type = 'd')
    (hown : cstr (read_inode_block s.disk 0).owner = [])
    (hsize : (read_inode_block s.disk 0).size = 0)
    (hfree : s.free = Finset.Ico 1 P.N) (hpath : req.path.dropLast = []) :
    (sys_create P s req).reply = some ⟨req.header ++ [NUL], none⟩ ∧
    (sys_create P s req).st.disk 1 =
      Block.dir (Function.update (zero_page P) 0 (new_direntry P (req.path.getLastD []) 2)) ∧
    (sys_create P s req).st.disk 2 = Block.inode (new_inode P req) ∧
    (read_inode_block (sys_create P s req).st.disk 0).blocks 0 = 1 ∧
    (read_inode_block (sys_create P s req).st.disk 0).size = 1 ∧
    (sys_create P s req).st.free = Finset.Ico 3 P.N := by
  have hpf : path_find P s.disk req.path.dropLast req.username = some 0 := by
    rw [hpath]; simp [path_find]
  have hscan : scan_directory_for_create P s.disk (read_inode_block s.disk 0)
      (req.path.getLastD []) = ⟨false, false, 0, 0, fun _ => ⟨[], 0⟩⟩ := by
    unfold scan_directory_for_create
    rw [hsize]
    rfl
  have hg1 : get_new_block s.free = (some 1, Finset.Ico 2 P.N) := by
    rw [hfree]; exact get_new_block_Ico 1 P.N (by omega) hP.2.2
  have hg2 : get_new_block (Finset.Ico 2 P.N) = (some 2, Finset.Ico 3 P.N) :=
    get_new_block_Ico 2 P.N (by omega) hP.2.2
  have hcond : ¬ ((read_inode_block s.disk 0).type ≠ 'd' ∨
      (cstr (read_inode_block s.disk 0).owner ≠ req.username ∧
       cstr (read_inode_block s.disk 0).owner ≠ [])) := by
    rintro (h | h)
    · exact h hty
    · exact h.2 hown
  have hsz : ¬ (read_inode_block s.disk 0).size ≥ P.MFB := by omega
  have heq : sys_create P s req =
      ⟨⟨disk_writeblock
          (disk_writeblock (disk_writeblock s.disk 2 (Block.inode (new_inode P req))) 1
            (Block.dir (Function.update (zero_page P) 0
              (new_direntry P (req.path.getLastD []) 2))))
          0 (Block.inode { read_inode_block s.disk 0 with
              blocks := Function.update (read_inode_block s.disk 0).blocks
                (read_inode_block s.disk 0).size 1,
              size := (read_inode_block s.disk 0).size + 1 }), Finset.Ico 3 P.N⟩,
        some ⟨header_bytes req, none⟩,
        [(2, Block.inode (new_inode P req)),
         (1, Block.dir (Function.update (zero_page P) 0
              (new_direntry P (req.path.getLastD []) 2))),
         (0, Block.inode { read_inode_block s.disk 0 with
              blocks := Function.update (read_inode_block s.disk 0).blocks
                (read_inode_block s.disk 0).size 1,
              size := (read_inode_block s.disk 0).size + 1 })]⟩ := by
    unfold sys_create
    simp only [hpf, if_neg hcond, hscan, Bool.false_eq_true, if_false, if_neg hsz, hg1, hg2]
  rw [heq]
  refine ⟨rfl, ?_, ?_, ?_, ?_, rfl⟩
  · simp only
    rw [disk_write_ne _ _ _ _ (by decide), disk_write_same]
  · simp only
    rw [disk_write_ne _ _ _ _ (by decide), disk_write_ne _ _ _ _ (by decide), disk_write_same]
  · simp only
    rw [read_inode_write_same]
    simp only
    rw [hsize, Function.update_same]
  · simp only
    rw [read_inode_write_same]
    simp only [hsize]

set_option maxRecDepth 100000 in
/-- C13, the claim at the fresh file system of the seed scenario: `FS_CREATE alice /a f` is
answered, but the new directory page of root is block 1 (not block 2) and the new file
inode is in block 2, while block 1 holds no inode. -/
theorem C13_counterexample :
    (sys_create exP fresh_state ex_create_a).reply.isSome = true ∧
    (read_inode_block (sys_create exP fresh_state ex_create_a).st.disk 0).blocks 0 = 1 ∧
    (read_inode_block (sys_create exP fresh_state ex_create_a).st.disk 0).blocks 0 ≠ 2 ∧
    (read_inode_block (sys_create exP fresh_state ex_create_a).st.disk 2).type = 'f' ∧
    (read_inode_block (sys_create exP fresh_state ex_create_a).st.disk 1).type ≠ 'f' :=
  ⟨by decide, by decide, by decide, by decide, by decide⟩

set_option maxRecDepth 100000 in
/-- C13 (amended) at the fresh file system of the seed scenario. -/
theorem C13_first_create_blocks_witness :
    (sys_create exP fresh_state ex_create_a).reply =
      some ⟨ex_create_a.header ++ [NUL], none⟩ ∧
    (sys_create exP fresh_state ex_create_a).st.disk 1 =
      Block.dir (Function.update (zero_page exP) 0 (new_direntry exP ['a'] 2)) ∧
    (sys_create exP fresh_state ex_create_a).st.disk 2 = Block.inode (new_inode exP ex_create_a) ∧
    (read_inode_block (sys_create exP fresh_state ex_create_a).st.disk 0).blocks 0 = 1 ∧
    (read_inode_block (sys_create exP fresh_state ex_create_a).st.disk 0).size = 1 ∧
    (sys_create exP fresh_state ex_create_a).st.free = Finset.Ico 3 64 :=
  C13_first_create_blocks exP fresh_state ex_create_a exP_ok (by decide) (by decide)
    (by decide) (by decide) (by decide) rfl (by decide)

/-! ## No dangling reference along the writes of a create -/

theorem inode_of_block {d : Disk} {p : Nat} {ino : fs_inode} (h : d p = Block.inode ino) :
    read_inode_block d p = ino := by
  simp [read_inode_block, h]

theorem NoDangling.write_unreachable {P : Params} {d : Disk} {b : Nat} (blk : Block)
    (hb : ¬ Reachable P d b) (h : NoDangling P d) :
    NoDangling P (disk_writeblock d b blk) := by
  intro p hp1
  have hp : InodeReach P d p := (write_unreachable_inode blk hb p).1 hp1
  have hpb : p ≠ b := fun e => hb (e ▸ Or.inl hp)
  have hino := (write_unreachable_local blk hb hp).1
  obtain ⟨h1, h2⟩ := h p hp
  refine ⟨by rw [disk_write_ne _ _ _ _ hpb]; exact h1, ?_⟩
  rw [hino]
  intro hty pg hpg
  have hne : pg ≠ b := fun e => hb (e ▸ reachable_of_ref hp (used_sub_refs (Or.inl hty) hpg))
  rw [disk_write_ne _ _ _ _ hne]
  exact h2 hty pg hpg

theorem AddEntry.no_dangling {P : Params} {d d1 : Disk} {p pg nib : Nat} {A : List Nat}
    {nm : List Char} (hs : AddStep P d d1 p A [nib]) (he : AddEntry P d d1 p pg nib nm)
    (hty : (read_inode_block d p).type = 'd') (h : NoDangling P d) {ni : fs_inode}
    (h1 : d1 nib = Block.inode ni) (hnt : ni.type = 'd' ∨ ni.type = 'f') (hns : ni.size = 0)
    {es : Nat → fs_direntry} (h2 : d1 pg = Block.dir es)
    {ino : fs_inode} (h3 : d1 p = Block.inode ino) : NoDangling P d1 := by
  have hnib : ¬ Reachable P d nib := hs.fresh nib (hs.sub nib (by simp))
  intro x hx1
  rcases hs.add_reach_inv hx1 with hx | hx
  · by_cases hxp : x = p
    · subst hxp
      have hi1 : read_inode_block d1 x = ino := inode_of_block h3
      have hty1 : ino.type = 'd' := by rw [← hi1, he.type0]; exact hty
      refine ⟨⟨ino, h3, Or.inl hty1⟩, ?_⟩
      intro _ q hq
      by_cases hqp : q = pg
      · subst hqp; exact ⟨es, h2⟩
      · obtain ⟨hq0, _⟩ := he.old_pages q hq hqp
        have hqr : Reachable P d q := reachable_of_ref hx (used_sub_refs (Or.inl hty) hq0)
        rw [he.frame q (fun e => hs.tree.used_not_inode hx hq0 (e ▸ hx)) hqp
          (fun e => hnib (e ▸ hqr))]
        exact (h x hx).2 hty q hq0
    · have hag := hs.other x hx hxp
      obtain ⟨k1, k2⟩ := h x hx
      refine ⟨by rw [hag.1]; exact k1, ?_⟩
      rw [hag.inode]
      intro hty1 q hq
      rw [hag.2 q hq]
      exact k2 hty1 q hq
  · simp only [List.mem_singleton] at hx
    subst hx
    refine ⟨⟨ni, h1, hnt⟩, ?_⟩
    rw [inode_of_block h1]
    intro _ q hq
    simp [used_blocks, hns] at hq

/-! ## Claim C14: the order of the writes of a create -/

set_option maxRecDepth 100000 in
theorem ex_no_dangling : NoDangling exP ex_disk := by
  intro p hp
  rcases ex_inode_reach hp with e | e
  · subst e
    refine ⟨⟨ex_root, rfl, Or.inl rfl⟩, ?_⟩
    intro _ pg hpg
    have hu : used_blocks (read_inode_block ex_disk 0) = [1] := by decide
    rw [hu] at hpg
    simp only [List.mem_singleton] at hpg
    subst hpg
    exact ⟨ex_page, rfl⟩
  · subst e
    refine ⟨⟨ex_file, rfl, Or.inr rfl⟩, ?_⟩
    intro hty
    exact absurd hty (by decide)

/-- C14: create ordering. In a tree-shaped state whose free blocks are unreachable and
whose disk has no dangling reference, every `sys_create` that replies makes its disk
writes in this order: the new inode block `nib` first, then the directory page `pg`
holding the new direntry, and then, exactly when `pg` is a newly allocated page, the
parent inode (now with `blocks[size] = pg` and its size one larger). After every prefix
of that write sequence the disk has no dangling reference: every inode block reachable
from root (so every block a reachable non-empty direntry refers to) holds a written inode
of a valid type, and every page of a reachable directory holds a written page. -/
theorem C14_create_write_order (P : Params) (s : State) (req : request) (hP : P.ok)
    (hT : TreeShaped P s.disk) (hF : FreeDisjoint P s) (hD : NoDangling P s.disk)
    (hK : ValidKind req) (hr : (sys_create P s req).reply.isSome = true) :
    ∃ p pg nib es,
      path_find P s.disk req.path.dropLast req.username = some p ∧ nib ∈ s.free ∧
      (∃ j, j < P.DEP ∧ es j = new_direntry P (req.path.getLastD []) nib) ∧
      ((pg ∈ used_blocks (read_inode_block s.disk p) ∧
          (sys_create P s req).writes =
            [(nib, Block.inode (new_inode P req)), (pg, Block.dir es)]) ∨
        (∃ ino, pg ∈ s.free ∧ ino.size = (read_inode_block s.disk p).size + 1 ∧
          ino.blocks (read_inode_block s.disk p).size = pg ∧
          (sys_create P s req).writes =
            [(nib, Block.inode (new_inode P req)), (pg, Block.dir es),
             (p, Block.inode ino)])) ∧
      ∀ k, NoDangling P (apply_writes s.disk ((sys_create P s req).writes.take k)) := by
  have hnt : (new_inode P req).type = 'd' ∨ (new_inode P req).type = 'f' := by
    rcases hK with h | h
    · exact Or.inr h
    · exact Or.inl h
  obtain ⟨p, pg, nib, A, es, ino, hpath, hty, _, _, hstep, hent, h1, h2, h3, hslot, hnf,
    hcase, _⟩ := sys_create_shape P s req hP hT hF hK hr
  have hfinal : NoDangling P (sys_create P s req).st.disk :=
    hent.no_dangling hstep hty hD h1 hnt rfl h2 h3
  have hall := sys_create_writes P s req
  have hn1 : NoDangling P (disk_writeblock s.disk nib (Block.inode (new_inode P req))) :=
    hD.write_unreachable _ (hF nib hnf)
  refine ⟨p, pg, nib, es, hpath, hnf, hslot, ?_, ?_⟩
  · rcases hcase with ⟨_, hpg, hw⟩ | ⟨_, hpg, _, hs1, hs2, hw⟩
    · exact Or.inl ⟨hpg, hw⟩
    · exact Or.inr ⟨ino, hpg, hs1, hs2, hw⟩
  · intro k
    rcases hcase with ⟨_, _, hw⟩ | ⟨_, hpg, _, _, _, hw⟩
    · rcases k with _ | _ | k
      · rw [hw]; exact hD
      · rw [hw]; exact hn1
      · rw [List.take_of_length_le (by rw [hw]; simp), hall]
        exact hfinal
    · rcases k with _ | _ | _ | k
      · rw [hw]; exact hD
      · rw [hw]; exact hn1
      · rw [hw]
        exact hn1.write_unreachable _
          (fun hre => hF pg hpg ((write_unreachable_reachable _ (hF nib hnf) pg).1 hre))
      · rw [List.take_of_length_le (by rw [hw]; simp), hall]
        exact hfinal

set_option maxRecDepth 100000 in
/-- C14 at the example state: alice creates `/b`; the create replies, writes the inode
block and then the page, and no prefix of the writes leaves a dangling reference. -/
theorem C14_create_write_order_witness :
    (sys_create exP ex_state ex_create).reply.isSome = true ∧
    ∃ p pg nib es,
      path_find exP ex_state.disk ex_create.path.dropLast ex_create.username = some p ∧
      nib ∈ ex_state.free ∧
      (∃ j, j < exP.DEP ∧ es j = new_direntry exP (ex_create.path.getLastD []) nib) ∧
      ((pg ∈ used_blocks (read_inode_block ex_state.disk p) ∧
          (sys_create exP ex_state ex_create).writes =
            [(nib, Block.inode (new_inode exP ex_create)), (pg, Block.dir es)]) ∨
        (∃ ino, pg ∈ ex_state.free ∧ ino.size = (read_inode_block ex_state.disk p).size + 1 ∧
          ino.blocks (read_inode_block ex_state.disk p).size = pg ∧
          (sys_create exP ex_state ex_create).writes =
            [(nib, Block.inode (new_inode exP ex_create)), (pg, Block.dir es),
             (p, Block.inode ino)])) ∧
      ∀ k, NoDangling exP
        (apply_writes ex_state.disk ((sys_create exP ex_state ex_create).writes.take k)) :=
  ⟨by decide,
    C14_create_write_order exP ex_state ex_create exP_ok ex_tree ex_free_exact.disjoint
      ex_no_dangling (by unfold ValidKind; decide) (by decide)⟩

/-! ## Claim C16: the conditions on the target of a delete -/

theorem find_child_scan {P : Params} {d : Disk} {ino : fs_inode} {name : List Char} {t : Nat}
    (h : find_child P d ino name = some t) :
    (scan_directory_for_delete P d ino name).found = true ∧
    (scan_directory_for_delete P d ino name).inode_block = t := by
  unfold find_child at h
  rcases hf : find_in_pages P d ino name (List.range ino.size) with _ | b
  · rw [hf] at h; simp at h
  · rw [hf] at h
    simp only [Option.some_bind] at h
    have := (blockToInt_eq_some h).1
    subst this
    exact scan_delete_first.2 _ hf

/-- C16: delete preconditions on the target. Let the parent path of the request resolve
to `p` and let `find_child` on `p` give the inode block `t` for the last path component
(the name is present; `t` is the target). Then `sys_delete` sends no reply and changes
nothing whenever the owner of the target differs from the user name or the target is a
directory with `size > 0`; and it replies with the request header and its NUL whenever
`p` is a directory owned by the user or by the empty owner, the owner of the target is the
user name, and the target is a file or a directory of size 0. -/
theorem C16_delete_preconditions (P : Params) (s : State) (req : request) (p t : Nat)
    (hpath : path_find P s.disk req.path.dropLast req.username = some p)
    (hfind : find_child P s.disk (read_inode_block s.disk p) (req.path.getLastD []) = some t) :
    ((cstr (read_inode_block s.disk t).owner ≠ req.username ∨
        ((read_inode_block s.disk t).type = 'd' ∧ (read_inode_block s.disk t).size > 0)) →
      (sys_delete P s req).reply = none ∧ (sys_delete P s req).st = s) ∧
    ((read_inode_block s.disk p).type = 'd' →
      (cstr (read_inode_block s.disk p).owner = req.username ∨
        cstr (read_inode_block s.disk p).owner = []) →
      cstr (read_inode_block s.disk t).owner = req.username →
      ((read_inode_block s.disk t).type = 'f' ∨
        ((read_inode_block s.disk t).type = 'd' ∧ (read_inode_block s.disk t).size = 0)) →
      (sys_delete P s req).reply = some ⟨req.header ++ [NUL], none⟩) := by
  obtain ⟨hfound, hblk⟩ := find_child_scan hfind
  constructor
  · intro hbad
    rcases sys_delete_cases P s req with ⟨h1, h2, _⟩ | ⟨p1, hpath1, _, _, _, htown, hleaf, _⟩
    · exact ⟨h1, h2⟩
    · rw [hpath] at hpath1
      have := Option.some.inj hpath1
      subst this
      rw [hblk] at htown hleaf
      rcases hbad with hb | ⟨hb1, hb2⟩
      · exact absurd htown hb
      · have := hleaf hb1
        omega
  · intro hty hown htown hkind
    have hcond : ¬ ((read_inode_block s.disk p).type ≠ 'd' ∨
        (cstr (read_inode_block s.disk p).owner ≠ req.username ∧
         cstr (read_inode_block s.disk p).owner ≠ [])) := by
      rintro (h | ⟨h1, h2⟩)
      · exact h hty
      · rcases hown with h | h
        · exact h1 h
        · exact h2 h
    have hnd : ¬ ((read_inode_block s.disk t).type = 'd' ∧
        (read_inode_block s.disk t).size > 0) := by
      rintro ⟨h1, h2⟩
      rcases hkind with h | ⟨_, h⟩
      · rw [h1] at h; exact absurd h (by decide)
      · omega
    unfold sys_delete
    simp only [hpath, if_neg hcond, hfound, hblk, Bool.not_true, Bool.false_eq_true, if_false,
      htown, ne_eq, not_true_eq_false, if_neg hnd]
    split <;> rfl

set_option maxRecDepth 100000 in
/-- C16 at the example state: alice deletes her file `/a` (block 2) and gets the reply. -/
theorem C16_delete_preconditions_witness :
    path_find exP ex_state.disk ex_delete.path.dropLast ex_delete.username = some 0 ∧
    find_child exP ex_state.disk (read_inode_block ex_state.disk 0)
      (ex_delete.path.getLastD []) = some 2 ∧
    (sys_delete exP ex_state ex_delete).reply = some ⟨ex_delete.header ++ [NUL], none⟩ :=
  ⟨by decide, by decide,
    (C16_delete_preconditions exP ex_state ex_delete 0 2 (by decide) (by decide)).2
      (by decide) (by decide) (by decide) (by decide)⟩

/-! ## Lookups in a directory after an entry was added or removed -/

theorem find_child_lookup (P : Params) (d : Disk) (ino : fs_inode) (name : List Char) :
    find_child P d ino name = (lookup_name name (dir_entries P d ino)).bind blockToInt := by
  unfold find_child
  rw [find_in_pages_lookup]

theorem lookup_name_cons_ne {nm n : List Char} (T : Nat) (l : List (List Char × Nat))
    (h : n ≠ nm) : lookup_name n ((nm, T) :: l) = lookup_name n l := by
  unfold lookup_name
  rw [List.find?_cons_of_neg _ (by simpa using Ne.symm h)]

theorem lookup_after_delete {l l1 : List (List Char × Nat)} {nm : List Char} {T : Nat}
    (hp : List.Perm l ((nm, T) :: l1)) (hnd : (l.map Prod.fst).Nodup) :
    nm ∉ l1.map Prod.fst ∧ ∀ n, n ≠ nm → lookup_name n l1 = lookup_name n l := by
  have hnd1 : (((nm, T) :: l1).map Prod.fst).Nodup := (hp.map Prod.fst).nodup_iff.1 hnd
  simp only [List.map_cons, List.nodup_cons] at hnd1
  refine ⟨hnd1.1, ?_⟩
  intro n hn
  rw [← lookup_name_perm hp hnd, lookup_name_cons_ne T l1 hn]

theorem names_after_delete {l l1 : List (List Char × Nat)} {nm : List Char} {T : Nat}
    (hp : List.Perm l ((nm, T) :: l1)) (hnd : (l.map Prod.fst).Nodup) :
    (l1.map Prod.fst).Nodup := by
  have hnd1 : (((nm, T) :: l1).map Prod.fst).Nodup := (hp.map Prod.fst).nodup_iff.1 hnd
  simp only [List.map_cons, List.nodup_cons] at hnd1
  exact hnd1.2

theorem names_after_create {l l1 : List (List Char × Nat)} {nm : List Char} {T : Nat}
    (hp : List.Perm l1 ((nm, T) :: l)) (hnd : (l.map Prod.fst).Nodup)
    (hnew : nm ∉ l.map Prod.fst) : (l1.map Prod.fst).Nodup := by
  apply (hp.map Prod.fst).nodup_iff.2
  simp only [List.map_cons, List.nodup_cons]
  exact ⟨hnew, hnd⟩

theorem DelStep.target_refs {P : Params} {d d1 : Disk} {p T : Nat} {R : List Nat}
    (h : DelStep P d d1 p T R) : refs P d T = used_blocks (read_inode_block d T) := by
  have hTr : InodeReach P d T := InodeReach.child p T h.reach0 h.type0d h.target
  rcases h.tree.type_ok T hTr with htd | htf
  · rw [refs_dir htd]
    simp [used_blocks, children, h.leaf htd]
  · rw [refs_file htf]

/-! ## Claim C15: what `sys_delete` leaves behind -/

set_option maxRecDepth 100000 in
theorem ex_names_unique : NamesUnique exP ex_disk := by
  intro p hp hty
  rcases ex_inode_reach hp with e | e
  · subst e; decide
  · subst e; exact absurd hty (by decide)

/-- C15: delete postcondition. In a well-formed state with unique names, when
`sys_delete` replies to a request for `parent_path/name`, then with `p` the parent inode
block, `T` the target inode block that `find_child` gave for `name`, and `pg` the page of
`p` holding the target's direntry: afterwards `find_child` on the parent returns `-1` for
`name` and the same result as before for every other name; the free set is the old free
set plus exactly `T`, the target's `blocks[0..size)`, and `pg` if and only if the
target's direntry was the only non-empty entry of `pg`; in that case the size of the
parent has decreased by one, otherwise it is unchanged. -/
theorem C15_delete_postcondition (P : Params) (s : State) (req : request) (hP : P.ok)
    (hW : WellFormed P s) (hU : NamesUnique P s.disk)
    (hr : (sys_delete P s req).reply.isSome = true) :
    ∃ p T pg,
      path_find P s.disk req.path.dropLast req.username = some p ∧
      find_child P s.disk (read_inode_block s.disk p) (req.path.getLastD []) = some T ∧
      pg ∈ used_blocks (read_inode_block s.disk p) ∧
      (req.path.getLastD [], T) ∈ page_entries P s.disk pg ∧
      find_child P (sys_delete P s req).st.disk
        (read_inode_block (sys_delete P s req).st.disk p) (req.path.getLastD []) = none ∧
      (∀ n, n ≠ req.path.getLastD [] →
        find_child P (sys_delete P s req).st.disk
          (read_inode_block (sys_delete P s req).st.disk p) n =
        find_child P s.disk (read_inode_block s.disk p) n) ∧
      (∀ x, x ∈ (sys_delete P s req).st.free ↔
        x ∈ s.free ∨ x = T ∨ x ∈ used_blocks (read_inode_block s.disk T) ∨
        (x = pg ∧ (page_children P s.disk pg).length = 1)) ∧
      ((page_children P s.disk pg).length = 1 →
        (read_inode_block (sys_delete P s req).st.disk p).size + 1 =
          (read_inode_block s.disk p).size) ∧
      ((page_children P s.disk pg).length ≠ 1 →
        (read_inode_block (sys_delete P s req).st.disk p).size =
          (read_inode_block s.disk p).size) := by
  obtain ⟨hT, hB, _⟩ := hW
  obtain ⟨p, pg, T, R, hpath, hty, _, _, hfirst, hstep, hent, hcase, hfree⟩ :=
    sys_delete_shape P s req hT hr
  have hp := path_find_reach hpath
  have hnd := hU p hp hty
  obtain ⟨habs, hsame⟩ := lookup_after_delete hent.entries hnd
  have hTN : T < P.N := hB.2 p hp T (children_sub_refs hty hstep.target)
  have hfc : find_child P s.disk (read_inode_block s.disk p) (req.path.getLastD []) =
      some T := by
    unfold find_child
    rw [hfirst]
    have := hP.2.2
    exact blockToInt_of_ne (by omega)
  refine ⟨p, T, pg, hpath, hfc, hent.page_mem, hent.entry, ?_, ?_, ?_, ?_, ?_⟩
  · rw [find_child_lookup, lookup_name_none.2 habs]
    rfl
  · intro n hn
    rw [find_child_lookup, find_child_lookup, hsame n hn]
  · intro x
    rw [hfree x, hstep.target_refs]
    rcases hcase with ⟨hR, hlen, _⟩ | ⟨hR, hlen, _⟩
    · rw [hR]
      simp only [List.mem_singleton]
      constructor
      · rintro (h | h | h)
        · exact Or.inl h
        · exact Or.inr (Or.inl h)
        · exact Or.inr (Or.inr (Or.inl h))
      · rintro (h | h | h | ⟨_, h⟩)
        · exact Or.inl h
        · exact Or.inr (Or.inl h)
        · exact Or.inr (Or.inr h)
        · exact absurd h hlen
    · rw [hR]
      simp only [List.mem_cons, List.mem_singleton, List.not_mem_nil, or_false]
      constructor
      · rintro (h | (h | h) | h)
        · exact Or.inl h
        · exact Or.inr (Or.inr (Or.inr ⟨h, hlen⟩))
        · exact Or.inr (Or.inl h)
        · exact Or.inr (Or.inr (Or.inl h))
      · rintro (h | h | h | ⟨h, _⟩)
        · exact Or.inl h
        · exact Or.inr (Or.inl (Or.inr h))
        · exact Or.inr (Or.inr h)
        · exact Or.inr (Or.inl (Or.inl h))
  · intro hlen
    rcases hcase with ⟨_, h, _⟩ | ⟨_, _, h⟩
    · exact absurd hlen h
    · exact h
  · intro hlen
    rcases hcase with ⟨_, _, h⟩ | ⟨_, h, _⟩
    · exact h
    · exact absurd h hlen

set_option maxRecDepth 100000 in
/-- C15 at the example state: alice deletes `/a`, the only entry of page 1 of root; the
lookup of "a" then fails and the free set has gained blocks 1, 2 and 3. -/
theorem C15_delete_postcondition_witness :
    (sys_delete exP ex_state ex_delete).reply.isSome = true ∧
    (sys_delete exP ex_state ex_delete).st.free = Finset.Ico 1 64 ∧
    ∃ p T pg,
      path_find exP ex_state.disk ex_delete.path.dropLast ex_delete.username = some p ∧
      find_child exP ex_state.disk (read_inode_block ex_state.disk p) ['a'] = some T ∧
      pg ∈ used_blocks (read_inode_block ex_state.disk p) ∧
      find_child exP (sys_delete exP ex_state ex_delete).st.disk
        (read_inode_block (sys_delete exP ex_state ex_delete).st.disk p) ['a'] = none ∧
      (∀ x, x ∈ (sys_delete exP ex_state ex_delete).st.free ↔
        x ∈ ex_state.free ∨ x = T ∨ x ∈ used_blocks (read_inode_block ex_state.disk T) ∨
        (x = pg ∧ (page_children exP ex_state.disk pg).length = 1)) := by
  refine ⟨by decide, by decide, ?_⟩
  obtain ⟨p, T, pg, h1, h2, h3, _, h5, _, h7, _, _⟩ :=
    C15_delete_postcondition exP ex_state ex_delete exP_ok ex_wf ex_names_unique (by decide)
  exact ⟨p, T, pg, h1, h2, h3, h5, h7⟩

/-! ## Name uniqueness and tightness across a changed directory -/

theorem sys_create_silent {P : Params} {s : State} {req : request}
    (h : ¬ (sys_create P s req).reply.isSome = true) :
    (sys_create P s req).st.disk = s.disk := by
  rcases sys_create_cases P s req with ⟨_, h2, _⟩ |
      ⟨p, nib, free1, _, _, _, _, _, _, heq⟩ |
      ⟨p, ndp, nib, free1, free2, _, _, _, _, _, _, _, _, heq⟩
  · exact h2
  · rw [heq] at h; exact absurd rfl h
  · rw [heq] at h; exact absurd rfl h

theorem sys_delete_silent {P : Params} {s : State} {req : request}
    (h : ¬ (sys_delete P s req).reply.isSome = true) :
    (sys_delete P s req).st = s := by
  rcases sys_delete_cases P s req with ⟨_, h2, _⟩ | ⟨p, _, _, _, _, _, _, hcase⟩
  · exact h2
  · rcases hcase with ⟨_, heq⟩ | ⟨_, heq⟩
    · rw [heq] at h; exact absurd rfl h
    · rw [heq] at h; exact absurd rfl h

/-- Summary of a `write_block` call that changes the disk: the target is a file. -/
theorem write_block_shape (P : Params) (s : State) (req : request) (hP : P.ok)
    (hT : TreeShaped P s.disk) (hF : FreeDisjoint P s) (hB : ValidBlock P req) :
    (write_block P s req).st.disk = s.disk ∨
    (∃ t A, (read_inode_block s.disk t).type = 'f' ∧
      AddStep P s.disk (write_block P s req).st.disk t A []) := by
  rcases write_block_cases P s req with ⟨_, h2, _⟩ | ⟨t, hpath, hty, _, hlt, heq⟩ |
      ⟨t, b, free1, hpath, hty, _, _, hsz, hg, heq⟩
  · exact Or.inl h2
  · right
    have ht := path_find_reach hpath
    have hsize := hT.size_ok t ht
    rw [castInt_of_lt _ (by have := hP.2.1; omega)] at hlt
    have hk : req.block.toNat < (read_inode_block s.disk t).size := by
      have := hB.1; omega
    exact ⟨t, [], hty, by rw [heq]; exact overwrite_step hT ht hty hk _⟩
  · right
    have ht := path_find_reach hpath
    obtain ⟨hbf, _, _, _⟩ := get_new_block_some hg
    exact ⟨t, [b], hty, by rw [heq]; exact extend_step hT ht hty hsz (hF b hbf) _⟩

theorem AddStep.file_dirs {P : Params} {d d1 : Disk} {t : Nat} {A : List Nat}
    (h : AddStep P d d1 t A []) (hf : (read_inode_block d t).type = 'f') {x : Nat}
    (hx : InodeReach P d1 x) (hty : (read_inode_block d1 x).type = 'd') :
    InodeReach P d x ∧ Agree d d1 x := by
  rcases h.add_reach_inv hx with hx0 | hx0
  · refine ⟨hx0, h.other x hx0 ?_⟩
    intro e
    subst e
    rw [h.type0, hf] at hty
    exact absurd hty (by decide)
  · simp at hx0

theorem Agree.agree_tight {P : Params} {d d1 : Disk} {x : Nat} (h : Agree d d1 x)
    (ht : ∀ pg ∈ used_blocks (read_inode_block d x), page_children P d pg ≠ []) :
    ∀ pg ∈ used_blocks (read_inode_block d1 x), page_children P d1 pg ≠ [] := by
  rw [h.inode]
  intro pg hpg
  rw [page_children_congr (h.2 pg hpg)]
  exact ht pg hpg

theorem AddEntry.add_names {P : Params} {d d1 : Disk} {p pg nib : Nat} {A : List Nat}
    {nm : List Char} (hs : AddStep P d d1 p A [nib]) (he : AddEntry P d d1 p pg nib nm)
    (hty : (read_inode_block d p).type = 'd')
    (hnew : nm ∉ (dir_entries P d (read_inode_block d p)).map Prod.fst)
    (hsz : (read_inode_block d1 nib).size = 0) (hU : NamesUnique P d) : NamesUnique P d1 := by
  intro x hx1 hty1
  rcases hs.add_reach_inv hx1 with hx | hx
  · by_cases hxp : x = p
    · subst hxp
      exact names_after_create he.entries (hU x hx hty) hnew
    · have hag := hs.other x hx hxp
      rw [hag.entries_eq]
      rw [hag.inode] at hty1
      exact hU x hx hty1
  · simp only [List.mem_singleton] at hx
    subst hx
    simp [dir_entries, used_blocks, hsz]

theorem AddEntry.add_tight {P : Params} {d d1 : Disk} {p pg nib : Nat} {A : List Nat}
    {nm : List Char} (hs : AddStep P d d1 p A [nib]) (he : AddEntry P d d1 p pg nib nm)
    (hty : (read_inode_block d p).type = 'd')
    (hsz : (read_inode_block d1 nib).size = 0) (hU : Tight P d) : Tight P d1 := by
  intro x hx1 hty1
  rcases hs.add_reach_inv hx1 with hx | hx
  · by_cases hxp : x = p
    · subst hxp
      intro q hq
      by_cases hqp : q = pg
      · subst hqp
        intro hnil
        have hm : nib ∈ page_children P d1 q := by
          rw [page_children_eq_map]
          exact List.mem_map.2 ⟨_, he.entry, rfl⟩
        rw [hnil] at hm
        simp at hm
      · obtain ⟨hq0, hsame⟩ := he.old_pages q hq hqp
        rw [page_children_eq_map, hsame, ← page_children_eq_map]
        exact hU x hx hty q hq0
    · have hag := hs.other x hx hxp
      rw [hag.inode] at hty1
      exact hag.agree_tight (hU x hx hty1)
  · simp only [List.mem_singleton] at hx
    subst hx
    intro q hq
    simp [used_blocks, hsz] at hq

theorem DelEntry.del_names {P : Params} {d d1 : Disk} {p pg T : Nat} {R : List Nat}
    {nm : List Char} (hs : DelStep P d d1 p T R) (he : DelEntry P d d1 p pg T nm)
    (hU : NamesUnique P d) : NamesUnique P d1 := by
  intro x hx1 hty1
  obtain ⟨hx, _⟩ := hs.del_reach_inv hx1
  by_cases hxp : x = p
  · subst hxp
    exact names_after_delete he.entries (hU x hx hs.type0d)
  · have hag := hs.other x hx hxp
    rw [hag.entries_eq]
    rw [hag.inode] at hty1
    exact hU x hx hty1

theorem DelEntry.del_tight {P : Params} {d d1 : Disk} {p pg T : Nat} {R : List Nat}
    {nm : List Char} (hs : DelStep P d d1 p T R) (he : DelEntry P d d1 p pg T nm)
    (hU : Tight P d) : Tight P d1 := by
  intro x hx1 hty1
  obtain ⟨hx, _⟩ := hs.del_reach_inv hx1
  by_cases hxp : x = p
  · subst hxp
    intro q hq
    by_cases hqp : q = pg
    · subst hqp; exact he.page_left hq
    · obtain ⟨hq0, hsame⟩ := he.pages q hq
      rw [page_children_eq_map, hsame hqp, ← page_children_eq_map]
      exact hU x hx hs.type0d q hq0
  · have hag := hs.other x hx hxp
    rw [hag.inode] at hty1
    exact hag.agree_tight (hU x hx hty1)

/-! ## Claims C18, C19, C20: repeated delete, name uniqueness, tightness -/

/-- C18: delete is not repeatable. In a tree-shaped state in which names are unique within
each reachable directory, if `sys_delete` replies to a request, then the same request run
immediately afterwards on the resulting state gets no reply, writes nothing, and leaves
the disk and the free set unchanged. -/
theorem C18_delete_not_repeatable (P : Params) (s : State) (req : request)
    (hT : TreeShaped P s.disk) (hU : NamesUnique P s.disk)
    (hr : (sys_delete P s req).reply.isSome = true) :
    (sys_delete P (sys_delete P s req).st req).reply = none ∧
    (sys_delete P (sys_delete P s req).st req).st = (sys_delete P s req).st ∧
    (sys_delete P (sys_delete P s req).st req).writes = [] := by
  obtain ⟨p, pg, T, R, hpath, hty, _, _, _, hstep, hent, _, _⟩ :=
    sys_delete_shape P s req hT hr
  have hp := path_find_reach hpath
  obtain ⟨habs, _⟩ := lookup_after_delete hent.entries (hU p hp hty)
  have hpath1 := path_find_stable hT hstep.other req.username req.path.dropLast hpath
  rcases sys_delete_cases P (sys_delete P s req).st req with h |
      ⟨p1, hpath2, _, _, hfound, _⟩
  · exact h
  · rw [hpath1] at hpath2
    have := Option.some.inj hpath2
    subst this
    exact absurd (scan_delete_found_iff.1 hfound) habs

set_option maxRecDepth 100000 in
/-- C18 at the example state: alice deletes `/a` twice; the second request is dropped. -/
theorem C18_delete_not_repeatable_witness :
    (sys_delete exP ex_state ex_delete).reply.isSome = true ∧
    (sys_delete exP (sys_delete exP ex_state ex_delete).st ex_delete).reply = none ∧
    (sys_delete exP (sys_delete exP ex_state ex_delete).st ex_delete).st =
      (sys_delete exP ex_state ex_delete).st ∧
    (sys_delete exP (sys_delete exP ex_state ex_delete).st ex_delete).writes = [] :=
  ⟨by decide,
    C18_delete_not_repeatable exP ex_state ex_delete ex_tree ex_names_unique (by decide)⟩

/-- C19: invariant I3 (name uniqueness) is preserved. In a tree-shaped state whose free
blocks are unreachable, if no reachable directory has two non-empty direntries with the
same name, then the same holds for the disk left by `sys_create`, by `sys_delete` and by
`write_block`, for every request the parser accepts (names without NUL within the length
limits, a valid kind, a valid block index), whether the handler replies or not. -/
theorem C19_names_unique_preserved (P : Params) (s : State) (req : request) (hP : P.ok)
    (hT : TreeShaped P s.disk) (hF : FreeDisjoint P s) (hU : NamesUnique P s.disk)
    (hV : ValidNames P req) (hK : ValidKind req) (hB : ValidBlock P req) :
    NamesUnique P (sys_create P s req).st.disk ∧
    NamesUnique P (sys_delete P s req).st.disk ∧
    NamesUnique P (write_block P s req).st.disk := by
  refine ⟨?_, ?_, ?_⟩
  · by_cases hr : (sys_create P s req).reply.isSome = true
    · obtain ⟨p, pg, nib, A, es, ino, _, hty, _, hnew, hstep, hent, h1, _⟩ :=
        sys_create_shape P s req hP hT hF hK hr
      rw [last_name_valid hV] at hent
      exact hent.add_names hstep hty hnew (by rw [inode_of_block h1]; rfl) hU
    · rw [sys_create_silent hr]; exact hU
  · by_cases hr : (sys_delete P s req).reply.isSome = true
    · obtain ⟨p, pg, T, R, _, _, _, _, _, hstep, hent, _, _⟩ :=
        sys_delete_shape P s req hT hr
      exact hent.del_names hstep hU
    · rw [sys_delete_silent hr]; exact hU
  · rcases write_block_shape P s req hP hT hF hB with h | ⟨t, A, hf, hstep⟩
    · rw [h]; exact hU
    · intro x hx1 hty1
      obtain ⟨hx, hag⟩ := hstep.file_dirs hf hx1 hty1
      rw [hag.entries_eq]
      rw [hag.inode] at hty1
      exact hU x hx hty1

set_option maxRecDepth 100000 in
/-- C19 at the example state, for the request of alice naming `/b`. -/
theorem C19_names_unique_preserved_witness :
    NamesUnique exP ex_state.disk ∧
    NamesUnique exP (sys_create exP ex_state ex_create).st.disk ∧
    NamesUnique exP (sys_delete exP ex_state ex_create).st.disk ∧
    NamesUnique exP (write_block exP ex_state ex_create).st.disk :=
  ⟨ex_names_unique,
    C19_names_unique_preserved exP ex_state ex_create exP_ok ex_tree ex_free_exact.disjoint
      ex_names_unique (by unfold ValidNames; decide) (by unfold ValidKind; decide)
      (by unfold ValidBlock; decide)⟩

set_option maxRecDepth 100000 in
theorem ex_tight : Tight exP ex_disk := by
  intro p hp hty
  rcases ex_inode_reach hp with e | e
  · subst e; decide
  · subst e; exact absurd hty (by decide)

/-- C20: directory tightness is preserved. In a tree-shaped state whose free blocks are
unreachable, if every used page `blocks[0..size)` of every reachable directory holds at
least one non-empty direntry, then the same holds for the disk left by `sys_create` and
for the disk left by `sys_delete`, whether the handler replies or not. -/
theorem C20_tightness_preserved (P : Params) (s : State) (req : request) (hP : P.ok)
    (hT : TreeShaped P s.disk) (hF : FreeDisjoint P s) (hU : Tight P s.disk)
    (hK : ValidKind req) :
    Tight P (sys_create P s req).st.disk ∧ Tight P (sys_delete P s req).st.disk := by
  refine ⟨?_, ?_⟩
  · by_cases hr : (sys_create P s req).reply.isSome = true
    · obtain ⟨p, pg, nib, A, es, ino, _, hty, _, _, hstep, hent, h1, _⟩ :=
        sys_create_shape P s req hP hT hF hK hr
      exact hent.add_tight hstep hty (by rw [inode_of_block h1]; rfl) hU
    · rw [sys_create_silent hr]; exact hU
  · by_cases hr : (sys_delete P s req).reply.isSome = true
    · obtain ⟨p, pg, T, R, _, _, _, _, _, hstep, hent, _, _⟩ :=
        sys_delete_shape P s req hT hr
      exact hent.del_tight hstep hU
    · rw [sys_delete_silent hr]; exact hU

set_option maxRecDepth 100000 in
/-- C20 at the example state: after alice creates `/b`, and after alice deletes `/a`
(which empties and removes the only page of root), the directories are tight. -/
theorem C20_tightness_preserved_witness :
    Tight exP ex_state.disk ∧
    (Tight exP (sys_create exP ex_state ex_create).st.disk ∧
      Tight exP (sys_delete exP ex_state ex_create).st.disk) ∧
    (Tight exP (sys_create exP ex_state ex_delete).st.disk ∧
      Tight exP (sys_delete exP ex_state ex_delete).st.disk) :=
  ⟨ex_tight,
    C20_tightness_preserved exP ex_state ex_create exP_ok ex_tree ex_free_exact.disjoint
      ex_tight (by unfold ValidKind; decide),
    C20_tightness_preserved exP ex_state ex_delete exP_ok ex_tree ex_free_exact.disjoint
      ex_tight (by unfold ValidKind; decide)⟩

/-! ## Claim C17: create followed by delete -/

theorem mem_dir_entries_of_page {P : Params} {d : Disk} {ino : fs_inode} {pg : Nat}
    {x : List Char × Nat} (hpg : pg ∈ used_blocks ino) (hx : x ∈ page_entries P d pg) :
    x ∈ dir_entries P d ino :=
  List.mem_flatMap.2 ⟨pg, hpg, hx⟩

set_option maxRecDepth 100000 in
/-- C17, the claim at the example state: `b` is not present in root, alice creates the
file `/b` and deletes it again, both requests are answered, and block 4 (taken for the
inode of `/b`) does not hold what it held before the create: it keeps the inode. -/
theorem C17_counterexample :
    find_child exP ex_state.disk (read_inode_block ex_state.disk 0) ['b'] = none ∧
    (sys_create exP ex_state ex_create).reply.isSome = true ∧
    (sys_delete exP (sys_create exP ex_state ex_create).st ex_delete_b).reply.isSome = true ∧
    (sys_delete exP (sys_create exP ex_state ex_create).st ex_delete_b).st.disk 4 ≠
      ex_state.disk 4 := by
  refine ⟨by decide, by decide, by decide, ?_⟩
  intro h
  have h1 : (read_inode_block
      (sys_delete exP (sys_create exP ex_state ex_create).st ex_delete_b).st.disk 4).type =
      (read_inode_block ex_state.disk 4).type := by rw [read_inode_congr h]
  revert h1
  decide

/-- C17 (amended): create followed by delete. In a tree-shaped state whose free blocks are
unreachable, if `sys_create` replies to a request with parser-valid names and a delete
request of the same user for the same path, run on the resulting state, is answered too,
then with `p` the parent inode block, `nib` the block allocated for the new inode and `pg`
the page that received the new direntry (a page of `p` or a block allocated for it): every
block of the disk other than `p`, `pg` and `nib` holds what it held before the create; and
if the directories were tight before, the free set is the same set as before. -/
theorem C17_create_delete_frame (P : Params) (s : State) (creq dreq : request) (hP : P.ok)
    (hT : TreeShaped P s.disk) (hF : FreeDisjoint P s) (hV : ValidNames P creq)
    (hK : ValidKind creq) (hu : dreq.username = creq.username) (hpth : dreq.path = creq.path)
    (hc : (sys_create P s creq).reply.isSome = true)
    (hd : (sys_delete P (sys_create P s creq).st dreq).reply.isSome = true) :
    ∃ p pg nib,
      path_find P s.disk creq.path.dropLast creq.username = some p ∧ nib ∈ s.free ∧
      (pg ∈ used_blocks (read_inode_block s.disk p) ∨ pg ∈ s.free) ∧
      (∀ x, x ≠ p → x ≠ pg → x ≠ nib →
        (sys_delete P (sys_create P s creq).st dreq).st.disk x = s.disk x) ∧
      (Tight P s.disk → (sys_delete P (sys_create P s creq).st dreq).st.free = s.free) := by
  obtain ⟨p, pg, nib, A, es, ino, hpath, hty, _, hnew, hstep, hent, _, _, _, _, hnf, hcase,
    hfree1⟩ := sys_create_shape P s creq hP hT hF hK hc
  rw [last_name_valid hV] at hent
  have hp := path_find_reach hpath
  obtain ⟨p2, pg2, T2, R2, hpath2, _, _, _, _, hstep2, hent2, hcase2, hfree2⟩ :=
    sys_delete_shape P (sys_create P s creq).st dreq hstep.add_tree_after hd
  rw [hu, hpth] at hpath2
  rw [hpth] at hent2
  rw [path_find_stable hT hstep.other creq.username creq.path.dropLast hpath] at hpath2
  have hpp := Option.some.inj hpath2
  subst hpp
  have hpg : pg2 = pg := by
    by_contra hne
    obtain ⟨h1, h2⟩ := hent.old_pages pg2 hent2.page_mem hne
    have hm := hent2.entry
    rw [h2] at hm
    exact hnew (List.mem_map.2 ⟨_, mem_dir_entries_of_page h1 hm, rfl⟩)
  subst hpg
  have hT2 : T2 = nib := by
    have hm := hent.entries.mem_iff.1 (mem_dir_entries_of_page hent2.page_mem hent2.entry)
    rcases List.mem_cons.1 hm with e | e
    · exact (Prod.mk.inj e).2
    · exact absurd (List.mem_map.2 ⟨_, e, rfl⟩) hnew
  subst hT2
  have hpgs : pg2 ∈ used_blocks (read_inode_block s.disk p) ∨ pg2 ∈ s.free := by
    rcases hcase with ⟨_, h, _⟩ | ⟨_, h, _⟩
    · exact Or.inl h
    · exact Or.inr h
  refine ⟨p, pg2, T2, hpath, hnf, hpgs, ?_, ?_⟩
  · intro x h1 h2 h3
    rw [hent2.frame x h1 h2, hent.frame x h1 h2 h3]
  · intro hTi
    have hrefs : refs P (sys_create P s creq).st.disk T2 = [] := hstep.new_refs T2 (by simp)
    ext x
    rw [hfree2 x, hrefs, hfree1 x]
    rcases hcase with ⟨hA, hold, _⟩ | ⟨hA, hfr, _, _⟩
    · have hlen := hent.len_old hold
      have hne : page_children P s.disk pg2 ≠ [] := hTi p hp hty pg2 hold
      have hpos : 0 < (page_children P s.disk pg2).length := List.length_pos.2 hne
      rcases hcase2 with ⟨hR, _, _⟩ | ⟨_, h1, _⟩
      · rw [hR, hA]
        simp only [List.mem_singleton, List.not_mem_nil, or_false]
        constructor
        · rintro (⟨h, _⟩ | h)
          · exact h
          · rw [h]; exact hnf
        · intro h
          by_cases e : x = T2
          · exact Or.inr e
          · exact Or.inl ⟨h, e⟩
      · omega
    · have hnu : pg2 ∉ used_blocks (read_inode_block s.disk p) :=
        fun h => hF pg2 hfr (reachable_of_ref hp (hT.used_refs hp h))
      have hlen := hent.len_new hnu
      rcases hcase2 with ⟨_, h1, _⟩ | ⟨hR, _, _⟩
      · exact absurd hlen h1
      · rw [hR, hA]
        simp only [List.mem_cons, List.mem_singleton, List.not_mem_nil, or_false, not_or]
        constructor
        · rintro (⟨h, _⟩ | h | h)
          · exact h
          · rw [h]; exact hfr
          · rw [h]; exact hnf
        · intro h
          by_cases e1 : x = pg2
          · exact Or.inr (Or.inl e1)
          · by_cases e2 : x = T2
            · exact Or.inr (Or.inr e2)
            · exact Or.inl ⟨h, e1, e2⟩

set_option maxRecDepth 100000 in
/-- C17 (amended) at the example state: alice creates `/b` and deletes it again. -/
theorem C17_create_delete_frame_witness :
    (sys_create exP ex_state ex_create).reply.isSome = true ∧
    (sys_delete exP (sys_create exP ex_state ex_create).st ex_delete_b).reply.isSome = true ∧
    Tight exP ex_state.disk ∧
    ∃ p pg nib,
      path_find exP ex_state.disk ex_create.path.dropLast ex_create.username = some p ∧
      nib ∈ ex_state.free ∧
      (pg ∈ used_blocks (read_inode_block ex_state.disk p) ∨ pg ∈ ex_state.free) ∧
      (∀ x, x ≠ p → x ≠ pg → x ≠ nib →
        (sys_delete exP (sys_create exP ex_state ex_create).st ex_delete_b).st.disk x =
          ex_state.disk x) ∧
      (Tight exP ex_state.disk →
        (sys_delete exP (sys_create exP ex_state ex_create).st ex_delete_b).st.free =
          ex_state.free) :=
  ⟨by decide, by decide, ex_tight,
    C17_create_delete_frame exP ex_state ex_create ex_delete_b exP_ok ex_tree
      ex_free_exact.disjoint (by unfold ValidNames; decide) (by unfold ValidKind; decide)
      rfl rfl (by decide) (by decide)⟩

/-! ## Claims C21 and C28: the allocator, rejected operations -/

/-- C21: the allocator. On a free set of block numbers of a disk (none of them the number
`2^32 - 1`, which the `int` result reads as `-1`): if the set is not empty,
`get_new_block` returns its smallest element `b` and leaves the set without exactly `b`;
if the set is empty it returns the failure value and leaves the set empty. -/
theorem C21_allocator (free : Finset Nat) (h : 4294967295 ∉ free) :
    (free.Nonempty → ∃ b, b ∈ free ∧ (∀ x ∈ free, b ≤ x) ∧
      get_new_block free = (some b, free.erase b) ∧
      ∀ x, x ∈ (get_new_block free).2 ↔ x ∈ free ∧ x ≠ b) ∧
    (free = ∅ → get_new_block free = (none, ∅)) := by
  constructor
  · intro hne
    have hg := get_new_block_isSome h hne
    refine ⟨free.min' hne, Finset.min'_mem free hne, fun x hx => Finset.min'_le free x hx,
      hg, ?_⟩
    intro x
    rw [hg, Finset.mem_erase]
    exact ⟨fun hx => ⟨hx.2, hx.1⟩, fun hx => ⟨hx.2, hx.1⟩⟩
  · intro he
    subst he
    exact get_new_block_empty (by simp)

set_option maxRecDepth 100000 in
/-- C21 at the free set of the example state: block 4 is handed out, `{5..63}` is left. -/
theorem C21_allocator_witness :
    get_new_block ex_state.free = (some 4, Finset.Ico 5 64) ∧
    ((∅ : Finset Nat) = ∅ → get_new_block (∅ : Finset Nat) = (none, ∅)) := by
  have h := C21_allocator ex_state.free (by decide)
  refine ⟨?_, (C21_allocator ∅ (by decide)).2⟩
  obtain ⟨b, hb, hmin, hg, _⟩ := h.1 (by decide)
  have h4 : (4 : Nat) ∈ ex_state.free := by decide
  have hb4 : b = 4 := by
    have h1 := hmin 4 h4
    have h2 : 4 ≤ b := by
      have : b ∈ Finset.Ico 4 64 := hb
      exact (Finset.mem_Ico.1 this).1
    omega
  subst hb4
  rw [hg]
  congr 1

/-- C28: atomicity of rejected operations. In every state whose free set holds block
numbers of a disk only (not the number `2^32 - 1`) and for every request: if `write_block`
sends no reply, then it made no write and the disk and the free set are as before the
call; the same holds for `sys_create` and for `sys_delete`. -/
theorem C28_rejected_atomic (P : Params) (s : State) (req : request)
    (h : 4294967295 ∉ s.free) :
    ((write_block P s req).reply.isSome = false →
      (write_block P s req).writes = [] ∧ (write_block P s req).st.disk = s.disk ∧
      (write_block P s req).st.free = s.free) ∧
    ((sys_create P s req).reply.isSome = false →
      (sys_create P s req).writes = [] ∧ (sys_create P s req).st.disk = s.disk ∧
      (sys_create P s req).st.free = s.free) ∧
    ((sys_delete P s req).reply.isSome = false →
      (sys_delete P s req).writes = [] ∧ (sys_delete P s req).st.disk = s.disk ∧
      (sys_delete P s req).st.free = s.free) := by
  have hfree : ∀ f : Finset Nat, (f = s.free ∨ f = s.free.erase 4294967295) → f = s.free := by
    intro f hf
    rcases hf with e | e
    · exact e
    · rw [e]; exact Finset.erase_eq_of_not_mem h
  refine ⟨?_, ?_, ?_⟩
  · intro hr
    rcases write_block_cases P s req with ⟨_, h2, h3, h4⟩ | ⟨t, _, _, _, _, heq⟩ |
        ⟨t, b, free1, _, _, _, _, _, _, heq⟩
    · exact ⟨h3, h2, hfree _ h4⟩
    · rw [heq] at hr; exact absurd hr (by simp)
    · rw [heq] at hr; exact absurd hr (by simp)
  · intro hr
    rcases sys_create_cases P s req with ⟨_, h2, h3, h4⟩ |
        ⟨p, nib, free1, _, _, _, _, _, _, heq⟩ |
        ⟨p, ndp, nib, free1, free2, _, _, _, _, _, _, _, _, heq⟩
    · exact ⟨h3, h2, hfree _ h4⟩
    · rw [heq] at hr; exact absurd hr (by simp)
    · rw [heq] at hr; exact absurd hr (by simp)
  · intro hr
    rcases sys_delete_cases P s req with ⟨_, h2, h3⟩ | ⟨p, _, _, _, _, _, _, hcase⟩
    · exact ⟨h3, by rw [h2], by rw [h2]⟩
    · rcases hcase with ⟨_, heq⟩ | ⟨_, heq⟩
      · rw [heq] at hr; exact absurd hr (by simp)
      · rw [heq] at hr; exact absurd hr (by simp)

set_option maxRecDepth 100000 in
/-- C28 at the example state: a write to the missing `/b`, a create of the existing `/a`
and a delete of the missing `/b` get no reply and change nothing. -/
theorem C28_rejected_atomic_witness :
    ((write_block exP ex_state ex_create).reply.isSome = false ∧
      (write_block exP ex_state ex_create).writes = [] ∧
      (write_block exP ex_state ex_create).st.disk = ex_state.disk ∧
      (write_block exP ex_state ex_create).st.free = ex_state.free) ∧
    ((sys_create exP ex_state ex_create_a).reply.isSome = false ∧
      (sys_create exP ex_state ex_create_a).writes = [] ∧
      (sys_create exP ex_state ex_create_a).st.disk = ex_state.disk ∧
      (sys_create exP ex_state ex_create_a).st.free = ex_state.free) ∧
    ((sys_delete exP ex_state ex_delete_b).reply.isSome = false ∧
      (sys_delete exP ex_state ex_delete_b).writes = [] ∧
      (sys_delete exP ex_state ex_delete_b).st.disk = ex_state.disk ∧
      (sys_delete exP ex_state ex_delete_b).st.free = ex_state.free) :=
  ⟨⟨by decide, (C28_rejected_atomic exP ex_state ex_create (by decide)).1 (by decide)⟩,
    ⟨by decide, (C28_rejected_atomic exP ex_state ex_create_a (by decide)).2.1 (by decide)⟩,
    ⟨by decide, (C28_rejected_atomic exP ex_state ex_delete_b (by decide)).2.2 (by decide)⟩⟩

/-! ## The create scan records the first empty slot -/

theorem scan_create_page_keep (es : Nat → fs_direntry) (name : List Char) (i : Nat)
    (js : List Nat) (res : create_scan_info)
    (hno : ∀ j ∈ js, (es j).inode_block ≠ 0 → cstr (es j).name ≠ name)
    (hopen : res.has_open_entry = true) : scan_create_page es name i js res = res := by
  induction js with
  | nil => rfl
  | cons j js ih =>
    have hno1 : ∀ k ∈ js, (es k).inode_block ≠ 0 → cstr (es k).name ≠ name :=
      fun k hk => hno k (by simp [hk])
    unfold scan_create_page
    by_cases h0 : (es j).inode_block = 0
    · rw [if_pos h0, if_pos hopen]; exact ih hno1
    · rw [if_neg h0, if_neg (hno j (by simp) h0)]; exact ih hno1

theorem scan_create_page_first (es : Nat → fs_direntry) (name : List Char) (i : Nat)
    (js : List Nat) (hs : js.Pairwise (fun a b => a < b)) (res : create_scan_info)
    (hno : ∀ j ∈ js, (es j).inode_block ≠ 0 → cstr (es j).name ≠ name)
    (hopen : res.has_open_entry = false) :
    ((∀ j ∈ js, (es j).inode_block ≠ 0) → scan_create_page es name i js res = res) ∧
    ((∃ j ∈ js, (es j).inode_block = 0) →
      (scan_create_page es name i js res).exists_ = res.exists_ ∧
      (scan_create_page es name i js res).has_open_entry = true ∧
      (scan_create_page es name i js res).open_parent_blocks_idx = i ∧
      (scan_create_page es name i js res).open_dir_page = es ∧
      (scan_create_page es name i js res).open_dir_offset ∈ js ∧
      (es (scan_create_page es name i js res).open_dir_offset).inode_block = 0 ∧
      ∀ j ∈ js, (es j).inode_block = 0 →
        (scan_create_page es name i js res).open_dir_offset ≤ j) := by
  induction js with
  | nil =>
    refine ⟨fun _ => rfl, ?_⟩
    rintro ⟨j, hj, _⟩
    simp at hj
  | cons j js ih =>
    have hno1 : ∀ k ∈ js, (es k).inode_block ≠ 0 → cstr (es k).name ≠ name :=
      fun k hk => hno k (by simp [hk])
    obtain ⟨hlt, hs1⟩ := List.pairwise_cons.1 hs
    unfold scan_create_page
    by_cases h0 : (es j).inode_block = 0
    · rw [if_pos h0, if_neg (by rw [hopen]; simp)]
      rw [scan_create_page_keep es name i js _ hno1 rfl]
      refine ⟨fun hall => absurd h0 (hall j (by simp)), ?_⟩
      intro _
      refine ⟨rfl, rfl, rfl, rfl, by simp, h0, ?_⟩
      intro k hk _
      rcases List.mem_cons.1 hk with e | e
      · rw [e]
      · exact Nat.le_of_lt (hlt k e)
    · rw [if_neg h0, if_neg (hno j (by simp) h0)]
      obtain ⟨ih1, ih2⟩ := ih hs1 hno1
      refine ⟨fun hall => ih1 (fun k hk => hall k (by simp [hk])), ?_⟩
      rintro ⟨k, hk, hk0⟩
      have hk1 : k ∈ js := by
        rcases List.mem_cons.1 hk with e | e
        · rw [e] at hk0; exact absurd hk0 h0
        · exact e
      obtain ⟨a1, a2, a3, a4, a5, a6, a7⟩ := ih2 ⟨k, hk1, hk0⟩
      refine ⟨a1, a2, a3, a4, by simp [a5], a6, ?_⟩
      intro m hm hm0
      rcases List.mem_cons.1 hm with e | e
      · rw [e] at hm0; exact absurd hm0 h0
      · exact a7 m e hm0

theorem scan_create_pages_keep_aux {P : Params} {d : Disk} {ino : fs_inode}
    {name : List Char} (is : List Nat) (res : create_scan_info)
    (hno : ∀ i ∈ is, ∀ j, j < P.DEP → (read_dir_block d (ino.blocks i) j).inode_block ≠ 0 →
      cstr (read_dir_block d (ino.blocks i) j).name ≠ name)
    (hex : res.exists_ = false) (hopen : res.has_open_entry = true) :
    scan_create_pages P d ino name is res = res := by
  induction is with
  | nil => rfl
  | cons i is ih =>
    unfold scan_create_pages
    have hk := scan_create_page_keep (read_dir_block d (ino.blocks i)) name i
      (List.range P.DEP) res (fun j hj => hno i (by simp) j (List.mem_range.1 hj)) hopen
    simp only [hk, hex, Bool.false_eq_true, if_false]
    exact ih (fun k hk1 => hno k (by simp [hk1]))

/-- The first empty slot of the used pages `is` of a directory: what the create scan
records when the name is in none of them. -/
theorem scan_create_pages_first {P : Params} {d : Disk} {ino : fs_inode} {name : List Char}
    (is : List Nat) (hs : is.Pairwise (fun a b => a < b)) (res : create_scan_info)
    (hno : ∀ i ∈ is, ∀ j, j < P.DEP → (read_dir_block d (ino.blocks i) j).inode_block ≠ 0 →
      cstr (read_dir_block d (ino.blocks i) j).name ≠ name)
    (hex : res.exists_ = false) (hopen : res.has_open_entry = false) :
    (scan_create_pages P d ino name is res).exists_ = false ∧
    ((∀ i ∈ is, ∀ j, j < P.DEP → (read_dir_block d (ino.blocks i) j).inode_block ≠ 0) →
      (scan_create_pages P d ino name is res).has_open_entry = false) ∧
    ((∃ i ∈ is, ∃ j, j < P.DEP ∧ (read_dir_block d (ino.blocks i) j).inode_block = 0) →
      (scan_create_pages P d ino name is res).has_open_entry = true ∧
      (scan_create_pages P d ino name is res).open_parent_blocks_idx ∈ is ∧
      (scan_create_pages P d ino name is res).open_dir_offset < P.DEP ∧
      (scan_create_pages P d ino name is res).open_dir_page =
        read_dir_block d (ino.blocks
          (scan_create_pages P d ino name is res).open_parent_blocks_idx) ∧
      (read_dir_block d (ino.blocks
          (scan_create_pages P d ino name is res).open_parent_blocks_idx)
        (scan_create_pages P d ino name is res).open_dir_offset).inode_block = 0 ∧
      ∀ i ∈ is, ∀ j, j < P.DEP → (read_dir_block d (ino.blocks i) j).inode_block = 0 →
        (scan_create_pages P d ino name is res).open_parent_blocks_idx < i ∨
        ((scan_create_pages P d ino name is res).open_parent_blocks_idx = i ∧
          (scan_create_pages P d ino name is res).open_dir_offset ≤ j)) := by
  induction is generalizing res with
  | nil =>
    refine ⟨hex, fun _ => hopen, ?_⟩
    rintro ⟨i, hi, _⟩
    simp at hi
  | cons i is ih =>
    obtain ⟨hlt, hs1⟩ := List.pairwise_cons.1 hs
    have hnoi : ∀ j ∈ List.range P.DEP,
        (read_dir_block d (ino.blocks i) j).inode_block ≠ 0 →
        cstr (read_dir_block d (ino.blocks i) j).name ≠ name :=
      fun j hj => hno i (by simp) j (List.mem_range.1 hj)
    have hno1 : ∀ k ∈ is, ∀ j, j < P.DEP →
        (read_dir_block d (ino.blocks k) j).inode_block ≠ 0 →
        cstr (read_dir_block d (ino.blocks k) j).name ≠ name :=
      fun k hk => hno k (by simp [hk])
    obtain ⟨hp1, hp2⟩ := scan_create_page_first (read_dir_block d (ino.blocks i)) name i
      (List.range P.DEP) (List.pairwise_lt_range P.DEP) res hnoi hopen
    unfold scan_create_pages
    by_cases hfull : ∀ j ∈ List.range P.DEP, (read_dir_block d (ino.blocks i) j).inode_block ≠ 0
    · have hres1 := hp1 hfull
      simp only [hres1, hex, Bool.false_eq_true, if_false]
      obtain ⟨q1, q2, q3⟩ := ih hs1 res hno1 hex hopen
      refine ⟨q1, fun hall => q2 (fun k hk => hall k (by simp [hk])), ?_⟩
      rintro ⟨k, hk, j, hj, hj0⟩
      have hk1 : k ∈ is := by
        rcases List.mem_cons.1 hk with e | e
        · rw [e] at hj0; exact absurd hj0 (hfull j (List.mem_range.2 hj))
        · exact e
      obtain ⟨a1, a2, a3, a4, a5, a6⟩ := q3 ⟨k, hk1, j, hj, hj0⟩
      refine ⟨a1, by simp [a2], a3, a4, a5, ?_⟩
      intro m hm j1 hj1 hm0
      rcases List.mem_cons.1 hm with e | e
      · rw [e] at hm0; exact absurd hm0 (hfull j1 (List.mem_range.2 hj1))
      · exact a6 m e j1 hj1 hm0
    · push_neg at hfull
      obtain ⟨j0, hj0, hj00⟩ := hfull
      obtain ⟨b1, b2, b3, b4, b5, b6, b7⟩ := hp2 ⟨j0, hj0, hj00⟩
      have hex1 : (scan_create_page (read_dir_block d (ino.blocks i)) name i
          (List.range P.DEP) res).exists_ = false := by rw [b1]; exact hex
      simp only [hex1, Bool.false_eq_true, if_false]
      have hkeep := scan_create_pages_keep_aux is _ hno1 hex1 b2
      rw [hkeep]
      refine ⟨hex1, fun hall => absurd hj00 (hall i (by simp) j0 (List.mem_range.1 hj0)), ?_⟩
      intro _
      refine ⟨b2, by simp [b3], List.mem_range.1 b5, by rw [b3]; exact b4, by rw [b3]; exact b6,
        ?_⟩
      intro m hm j1 hj1 hm0
      rw [b3]
      rcases List.mem_cons.1 hm with e | e
      · right
        refine ⟨e.symm, ?_⟩
        rw [e] at hm0
        exact b7 j1 (List.mem_range.2 hj1) hm0
      · left; exact hlt m e

theorem used_blocks_shift_erase (ino : fs_inode) (idx : Nat) (hidx : idx < ino.size) :
    used_blocks { ino with blocks := shift_left ino.size ino.size idx ino.blocks,
                           size := ino.size - 1 } = (used_blocks ino).eraseIdx idx := by
  rw [shift_left_eq _ _ _ _ (by omega)]
  apply List.ext_getElem?
  intro k
  simp only [used_blocks]
  rw [List.getElem?_eraseIdx]
  by_cases hk : k < ino.size - 1
  · have h1 : ((List.range (ino.size - 1)).map (fun k => if idx ≤ k ∧ k + 1 < ino.size then
        ino.blocks (k + 1) else ino.blocks k))[k]? =
        some (if idx ≤ k ∧ k + 1 < ino.size then ino.blocks (k + 1) else ino.blocks k) := by
      rw [List.getElem?_map, List.getElem?_range hk]; rfl
    rw [h1]
    by_cases hki : k < idx
    · rw [if_pos hki, if_neg (by omega), List.getElem?_map, List.getElem?_range (by omega)]
      rfl
    · rw [if_neg hki, if_pos (by omega), List.getElem?_map, List.getElem?_range (by omega)]
      rfl
  · have h1 : ((List.range (ino.size - 1)).map (fun k => if idx ≤ k ∧ k + 1 < ino.size then
        ino.blocks (k + 1) else ino.blocks k))[k]? = none := by
      rw [List.getElem?_eq_none_iff]; simp; omega
    rw [h1, if_neg (by omega)]
    symm
    rw [List.getElem?_eq_none_iff]; simp; omega

/-! ## Claims C26 and C27: the slot chosen by create, the compaction done by delete -/

/-- C26: slot choice of `scan_directory_for_create`. For every directory inode `ino` and
every name carried by no non-empty direntry of its used pages, the scan reports
`exists = false`; it reports no open slot if and only if every slot of every used page is
occupied; and when it reports an open slot, that slot `(i, j)` is an empty slot of a used
page, it is the smallest empty slot in the order by page index and then offset, and the
snapshot is the content of page `blocks[i]`. When `sys_create` replies after the scan of
the parent `p` reported an open slot (tree-shaped state, free blocks unreachable), its
writes are the new inode block and the page `blocks[i]` of the parent, every other block
of the disk is as before, and in particular the parent inode block is unchanged. -/
theorem C26_scan_slot_choice (P : Params) (s : State) (req : request) (ino : fs_inode)
    (name : List Char) :
    ((∀ i, i < ino.size → ∀ j, j < P.DEP →
        (read_dir_block s.disk (ino.blocks i) j).inode_block ≠ 0 →
        cstr (read_dir_block s.disk (ino.blocks i) j).name ≠ name) →
      (scan_directory_for_create P s.disk ino name).exists_ = false ∧
      ((scan_directory_for_create P s.disk ino name).has_open_entry = false ↔
        ∀ i, i < ino.size → ∀ j, j < P.DEP →
          (read_dir_block s.disk (ino.blocks i) j).inode_block ≠ 0) ∧
      ((scan_directory_for_create P s.disk ino name).has_open_entry = true →
        (scan_directory_for_create P s.disk ino name).open_parent_blocks_idx < ino.size ∧
        (scan_directory_for_create P s.disk ino name).open_dir_offset < P.DEP ∧
        (scan_directory_for_create P s.disk ino name).open_dir_page =
          read_dir_block s.disk (ino.blocks
            (scan_directory_for_create P s.disk ino name).open_parent_blocks_idx) ∧
        (read_dir_block s.disk (ino.blocks
            (scan_directory_for_create P s.disk ino name).open_parent_blocks_idx)
          (scan_directory_for_create P s.disk ino name).open_dir_offset).inode_block = 0 ∧
        ∀ i, i < ino.size → ∀ j, j < P.DEP →
          (read_dir_block s.disk (ino.blocks i) j).inode_block = 0 →
          (scan_directory_for_create P s.disk ino name).open_parent_blocks_idx < i ∨
          ((scan_directory_for_create P s.disk ino name).open_parent_blocks_idx = i ∧
            (scan_directory_for_create P s.disk ino name).open_dir_offset ≤ j))) ∧
    (TreeShaped P s.disk → FreeDisjoint P s →
      ∀ p, path_find P s.disk req.path.dropLast req.username = some p →
        (sys_create P s req).reply.isSome = true →
        (scan_directory_for_create P s.disk (read_inode_block s.disk p)
          (req.path.getLastD [])).has_open_entry = true →
        ∃ nib es, nib ∈ s.free ∧
          (sys_create P s req).writes =
            [(nib, Block.inode (new_inode P req)),
             ((read_inode_block s.disk p).blocks
                (scan_directory_for_create P s.disk (read_inode_block s.disk p)
                  (req.path.getLastD [])).open_parent_blocks_idx, Block.dir es)] ∧
          (∀ x, x ≠ nib →
            x ≠ (read_inode_block s.disk p).blocks
              (scan_directory_for_create P s.disk (read_inode_block s.disk p)
                (req.path.getLastD [])).open_parent_blocks_idx →
            (sys_create P s req).st.disk x = s.disk x) ∧
          (sys_create P s req).st.disk p = s.disk p) := by
  constructor
  · intro hno
    have hno1 : ∀ i ∈ List.range ino.size, ∀ j, j < P.DEP →
        (read_dir_block s.disk (ino.blocks i) j).inode_block ≠ 0 →
        cstr (read_dir_block s.disk (ino.blocks i) j).name ≠ name :=
      fun i hi => hno i (List.mem_range.1 hi)
    obtain ⟨h1, h2, h3⟩ := scan_create_pages_first (List.range ino.size)
      (List.pairwise_lt_range ino.size)
      (⟨false, false, 0, 0, fun _ => ⟨[], 0⟩⟩ : create_scan_info) hno1 rfl rfl
    have hcases : (∀ i ∈ List.range ino.size, ∀ j, j < P.DEP →
        (read_dir_block s.disk (ino.blocks i) j).inode_block ≠ 0) ∨
        (∃ i ∈ List.range ino.size, ∃ j, j < P.DEP ∧
          (read_dir_block s.disk (ino.blocks i) j).inode_block = 0) := by
      by_cases hc : ∃ i ∈ List.range ino.size, ∃ j, j < P.DEP ∧
          (read_dir_block s.disk (ino.blocks i) j).inode_block = 0
      · exact Or.inr hc
      · left
        intro i hi j hj h0
        exact hc ⟨i, hi, j, hj, h0⟩
    unfold scan_directory_for_create
    refine ⟨h1, ?_, ?_⟩
    · constructor
      · intro hopen i hi j hj h0
        rcases hcases with hc | hc
        · exact hc i (List.mem_range.2 hi) j hj h0
        · rw [(h3 hc).1] at hopen
          exact absurd hopen (by simp)
      · intro hall
        exact h2 (fun i hi => hall i (List.mem_range.1 hi))
    · intro hopen
      rcases hcases with hc | hc
      · rw [h2 hc] at hopen
        exact absurd hopen (by simp)
      · obtain ⟨_, a2, a3, a4, a5, a6⟩ := h3 hc
        exact ⟨List.mem_range.1 a2, a3, a4, a5,
          fun i hi => a6 i (List.mem_range.2 hi)⟩
  · intro hT hF p hpath hr hopen
    rcases sys_create_cases P s req with ⟨h1, _⟩ |
        ⟨p1, nib, free1, hpath1, hty, _, _, _, hg, heq⟩ |
        ⟨p1, ndp, nib, free1, free2, hpath1, _, _, _, hopen1, _⟩
    · rw [h1] at hr; exact absurd hr (by simp)
    · rw [hpath] at hpath1
      have hpp := Option.some.inj hpath1
      subst hpp
      have hp := path_find_reach hpath
      obtain ⟨hi, _, _, _⟩ := scan_create_open hopen
      obtain ⟨hbf, _, _, _⟩ := get_new_block_some hg
      have hq : (read_inode_block s.disk p).blocks
          (scan_directory_for_create P s.disk (read_inode_block s.disk p)
            (req.path.getLastD [])).open_parent_blocks_idx ∈
          used_blocks (read_inode_block s.disk p) := mem_used_blocks.2 ⟨_, hi, rfl⟩
      have hpq : p ≠ (read_inode_block s.disk p).blocks
          (scan_directory_for_create P s.disk (read_inode_block s.disk p)
            (req.path.getLastD [])).open_parent_blocks_idx :=
        fun e1 => hT.used_not_inode hp hq (e1 ▸ hp)
      have hpn : p ≠ nib := fun e1 => hF nib hbf (e1 ▸ Or.inl hp)
      have hframe : ∀ x, x ≠ nib →
          x ≠ (read_inode_block s.disk p).blocks
            (scan_directory_for_create P s.disk (read_inode_block s.disk p)
              (req.path.getLastD [])).open_parent_blocks_idx →
          (sys_create P s req).st.disk x = s.disk x := by
        intro x h1 h2
        rw [heq]
        simp only
        rw [disk_write_ne _ _ _ _ h2, disk_write_ne _ _ _ _ h1]
      exact ⟨nib, _, hbf, by rw [heq], hframe, hframe p hpn hpq⟩
    · rw [hpath] at hpath1
      have hpp := Option.some.inj hpath1
      subst hpp
      rw [hopen] at hopen1
      exact absurd hopen1 (by simp)

set_option maxRecDepth 100000 in
/-- C26 at the example state: "b" is not in root, the first empty slot of root is slot 1
of page 0, and the create of `/b` writes block 4 and page block 1 only. -/
theorem C26_scan_slot_choice_witness :
    (scan_directory_for_create exP ex_state.disk (read_inode_block ex_state.disk 0)
      ['b']).exists_ = false ∧
    (scan_directory_for_create exP ex_state.disk (read_inode_block ex_state.disk 0)
      ['b']).has_open_entry = true ∧
    (scan_directory_for_create exP ex_state.disk (read_inode_block ex_state.disk 0)
      ['b']).open_parent_blocks_idx = 0 ∧
    (scan_directory_for_create exP ex_state.disk (read_inode_block ex_state.disk 0)
      ['b']).open_dir_offset = 1 ∧
    (sys_create exP ex_state ex_create).st.disk 0 = ex_state.disk 0 :=
  ⟨((C26_scan_slot_choice exP ex_state ex_create (read_inode_block ex_state.disk 0)
      ['b']).1 (by decide)).1, by decide, by decide, by decide,
    by
      obtain ⟨_, _, _, _, _, h⟩ :=
        (C26_scan_slot_choice exP ex_state ex_create (read_inode_block ex_state.disk 0)
          ['b']).2 ex_tree ex_free_exact.disjoint 0 (by decide) (by decide) (by decide)
      exact h⟩

/-- C27: delete compaction. When `sys_delete` replies and the direntry it found, in the
page at index `i` of the parent `p` (of size `s`), is the only non-empty entry of that
page, then its only write is the parent inode, written back with size `s - 1`, with
`blocks[k]` unchanged for `k < i` and `blocks[k]` the old `blocks[k + 1]` for
`i ≤ k < s - 1` (the old `blocks[0..s)` with the element at index `i` removed, the others
in their order), and with type and owner unchanged. -/
theorem C27_delete_compaction (P : Params) (s : State) (req : request) (p : Nat)
    (hpath : path_find P s.disk req.path.dropLast req.username = some p)
    (hr : (sys_delete P s req).reply.isSome = true)
    (honly : (page_children P s.disk ((read_inode_block s.disk p).blocks
      (scan_directory_for_delete P s.disk (read_inode_block s.disk p)
        (req.path.getLastD [])).parent_blocks_idx)).length = 1) :
    ∃ ino1,
      (sys_delete P s req).writes = [(p, Block.inode ino1)] ∧
      read_inode_block (sys_delete P s req).st.disk p = ino1 ∧
      (scan_directory_for_delete P s.disk (read_inode_block s.disk p)
        (req.path.getLastD [])).parent_blocks_idx < (read_inode_block s.disk p).size ∧
      ino1.size = (read_inode_block s.disk p).size - 1 ∧
      (∀ k, k < (scan_directory_for_delete P s.disk (read_inode_block s.disk p)
          (req.path.getLastD [])).parent_blocks_idx →
        ino1.blocks k = (read_inode_block s.disk p).blocks k) ∧
      (∀ k, (scan_directory_for_delete P s.disk (read_inode_block s.disk p)
          (req.path.getLastD [])).parent_blocks_idx ≤ k →
        k + 1 < (read_inode_block s.disk p).size →
        ino1.blocks k = (read_inode_block s.disk p).blocks (k + 1)) ∧
      used_blocks ino1 = (used_blocks (read_inode_block s.disk p)).eraseIdx
        (scan_directory_for_delete P s.disk (read_inode_block s.disk p)
          (req.path.getLastD [])).parent_blocks_idx ∧
      ino1.type = (read_inode_block s.disk p).type ∧
      ino1.owner = (read_inode_block s.disk p).owner := by
  rcases sys_delete_cases P s req with ⟨h1, _⟩ | ⟨p1, hpath1, _, _, hfound, _, _, hcase⟩
  · rw [h1] at hr; exact absurd hr (by simp)
  · rw [hpath] at hpath1
    have hpp := Option.some.inj hpath1
    subst hpp
    obtain ⟨⟨hi, _, hdb, _⟩, hone⟩ := scan_delete_found hfound
    have hyes : (scan_directory_for_delete P s.disk (read_inode_block s.disk p)
        (req.path.getLastD [])).only_entry = true := by
      rw [hone, hdb]; simpa using honly
    rcases hcase with ⟨hno, _⟩ | ⟨_, heq⟩
    · rw [hyes] at hno; exact absurd hno (by simp)
    · have hsh := shift_left_eq (read_inode_block s.disk p).size
        (read_inode_block s.disk p).size
        (scan_directory_for_delete P s.disk (read_inode_block s.disk p)
          (req.path.getLastD [])).parent_blocks_idx (read_inode_block s.disk p).blocks
        (by omega)
      refine ⟨_, by rw [heq], by rw [heq]; exact read_inode_write_same _ _ _, hi, rfl, ?_, ?_,
        used_blocks_shift_erase _ _ hi, rfl, rfl⟩
      · intro k hk
        simp only
        rw [hsh]
        simp only
        rw [if_neg (by omega)]
      · intro k hk1 hk2
        simp only
        rw [hsh]
        simp only
        rw [if_pos ⟨hk1, hk2⟩]

set_option maxRecDepth 100000 in
/-- C27 at the example state: alice deletes `/a`, the only entry of the only page of root;
root is written back with size 0. -/
theorem C27_delete_compaction_witness :
    (sys_delete exP ex_state ex_delete).reply.isSome = true ∧
    ∃ ino1,
      (sys_delete exP ex_state ex_delete).writes = [(0, Block.inode ino1)] ∧
      ino1.size = 0 ∧ used_blocks ino1 = [] ∧ ino1.type = 'd' := by
  refine ⟨by decide, ?_⟩
  obtain ⟨ino1, h1, _, _, h4, _, _, h7, h8, _⟩ :=
    C27_delete_compaction exP ex_state ex_delete 0 (by decide) (by decide) (by decide)
  refine ⟨ino1, h1, ?_, ?_, ?_⟩
  · rw [h4]; decide
  · rw [h7]; decide
  · rw [h8]; decide

/-! ## Claim C22: what the path resolver computes -/

theorem path_find_loop_resolve {P : Params} {d : Disk} (hP : P.ok) (hB : Bounded P d)
    (user : List Char) (path : List (List Char)) {curr : Nat} (hc : InodeReach P d curr)
    (hlt : curr < P.N) :
    path_find_loop P d user path curr = resolve_from P d user path curr := by
  induction path generalizing curr with
  | nil =>
    unfold path_find_loop resolve_from
    have := hP.2.2
    exact blockToInt_of_ne (by omega)
  | cons c rest ih =>
    unfold path_find_loop resolve_from
    by_cases hok : (read_inode_block d curr).type = 'd' ∧
        (cstr (read_inode_block d curr).owner = user ∨ cstr (read_inode_block d curr).owner = [])
    · have hcond : ¬ ((read_inode_block d curr).type ≠ 'd' ∨
          (cstr (read_inode_block d curr).owner ≠ user ∧
           cstr (read_inode_block d curr).owner ≠ [])) := by
        rintro (h | ⟨h1, h2⟩)
        · exact h hok.1
        · rcases hok.2 with h | h
          · exact h1 h
          · exact h2 h
      rw [if_neg hcond, if_pos hok, find_child_lookup]
      rcases hl : lookup_name c (dir_entries P d (read_inode_block d curr)) with _ | b
      · rfl
      · have hmem : b ∈ children P d (read_inode_block d curr) := by
          rw [children_eq_map]
          exact List.mem_map.2 ⟨_, lookup_name_mem hl, rfl⟩
        have hbN : b < P.N := hB.2 curr hc b (children_sub_refs hok.1 hmem)
        have hb : blockToInt b = some b := by
          have := hP.2.2
          exact blockToInt_of_ne (by omega)
        simp only [Option.some_bind, hb]
        exact ih (InodeReach.child curr b hc hok.1 hmem) hbN
    · have hcond : (read_inode_block d curr).type ≠ 'd' ∨
          (cstr (read_inode_block d curr).owner ≠ user ∧
           cstr (read_inode_block d curr).owner ≠ []) := by
        by_contra hn
        push_neg at hn
        apply hok
        refine ⟨hn.1, ?_⟩
        by_cases hu : cstr (read_inode_block d curr).owner = user
        · exact Or.inl hu
        · exact Or.inr (hn.2 hu)
      rw [if_pos hcond, if_neg hok]

/-- C22: path resolver semantics. On a disk whose referenced block numbers are below `N`:
`path_find` on the empty component list returns block 0; on components `c1..cn` it returns
what the resolver of the specification returns: `-1` as soon as the inode reached is not a
directory, or has an owner that is neither the user nor the empty string, or has no
non-empty direntry named by the next component, and otherwise the block reached by
applying `find_child` successively from block 0. `find_child` returns the `inode_block` of
the first non-empty direntry, in page order and then slot order, whose name is the
component (as an `int`). With no component left the block is returned without a look at
the inode it holds, so type and owner of the final inode are not checked. -/
theorem C22_path_resolver (P : Params) (d : Disk) (hP : P.ok) (hB : Bounded P d)
    (user : List Char) (path : List (List Char)) :
    path_find P d [] user = some 0 ∧
    path_find P d path user = resolve_spec P d path user ∧
    (∀ ino name, find_child P d ino name =
      (lookup_name name (dir_entries P d ino)).bind blockToInt) ∧
    (∀ d1 : Disk, ∀ t, path_find P d path user = some t → path ≠ [] →
      (∀ x, x ≠ t → d1 x = d x) → TreeShaped P d → path_find P d1 path user = some t) := by
  refine ⟨by simp [path_find], ?_, fun ino name => find_child_lookup P d ino name, ?_⟩
  · unfold path_find resolve_spec
    by_cases hp : path = []
    · rw [if_pos hp, hp]; rfl
    · rw [if_neg hp]
      exact path_find_loop_resolve hP hB user path InodeReach.root hB.1
  · intro d1 t ht _ hsame hT
    refine @path_find_stable P d d1 hT t ?_ user path ht
    intro q hq hqt
    refine ⟨hsame q hqt, ?_⟩
    intro pg hpg
    apply hsame
    intro e
    subst e
    exact hT.used_not_inode hq hpg (path_find_reach ht)

set_option maxRecDepth 100000 in
/-- C22 at the example disk: `/a` resolves for alice to block 2, the first (and only)
direntry of root named "a". -/
theorem C22_path_resolver_witness :
    path_find exP ex_disk [] alice = some 0 ∧
    path_find exP ex_disk [['a']] alice = resolve_spec exP ex_disk [['a']] alice ∧
    resolve_spec exP ex_disk [['a']] alice = some 2 ∧
    resolve_spec exP ex_disk [['b']] alice = none := by
  obtain ⟨h1, h2, _, _⟩ := C22_path_resolver exP ex_disk exP_ok ex_bounded alice [['a']]
  exact ⟨h1, h2, by decide, by decide⟩

/-! ## Summaries of create and delete with the parent inode -/

/-- Summary of a replying `sys_create` with what becomes of the parent inode: unchanged
when an old page received the direntry, extended by the new page otherwise. -/
theorem sys_create_shape_ext (P : Params) (s : State) (req : request) (hP : P.ok)
    (hT : TreeShaped P s.disk) (hF : FreeDisjoint P s) (hK : ValidKind req)
    (hr : (sys_create P s req).reply.isSome = true) :
    ∃ p pg nib A es ino,
      path_find P s.disk req.path.dropLast req.username = some p ∧
      (read_inode_block s.disk p).type = 'd' ∧
      (cstr (read_inode_block s.disk p).owner = req.username ∨
        cstr (read_inode_block s.disk p).owner = []) ∧
      req.path.getLastD [] ∉ (dir_entries P s.disk (read_inode_block s.disk p)).map Prod.fst ∧
      AddStep P s.disk (sys_create P s req).st.disk p A [nib] ∧
      AddEntry P s.disk (sys_create P s req).st.disk p pg nib
        (cstr (new_direntry P (req.path.getLastD []) nib).name) ∧
      (sys_create P s req).st.disk nib = Block.inode (new_inode P req) ∧
      (sys_create P s req).st.disk pg = Block.dir es ∧
      (sys_create P s req).st.disk p = Block.inode ino ∧
      (∃ j, j < P.DEP ∧ es j = new_direntry P (req.path.getLastD []) nib) ∧
      nib ∈ s.free ∧
      ((A = [nib] ∧ pg ∈ used_blocks (read_inode_block s.disk p) ∧
          (sys_create P s req).st.disk p = s.disk p) ∨
        (A = [pg, nib] ∧ pg ∈ s.free ∧ pg ≠ nib ∧
          ino = { read_inode_block s.disk p with
            blocks := Function.update (read_inode_block s.disk p).blocks
              (read_inode_block s.disk p).size pg,
            size := (read_inode_block s.disk p).size + 1 })) ∧
      (∀ x, x ∈ (sys_create P s req).st.free ↔ x ∈ s.free ∧ x ∉ A) := by
  have hnt : (new_inode P req).type = 'd' ∨ (new_inode P req).type = 'f' := by
    rcases hK with h | h
    · exact Or.inr h
    · exact Or.inl h
  rcases sys_create_cases P s req with ⟨h1, _⟩ |
      ⟨p, nib, free1, hpath, hty, hown, hex, hopen, hg, heq⟩ |
      ⟨p, ndp, nib, free1, free2, hpath, hty, hown, hex, _, hsz, hg, hg2, heq⟩
  · rw [h1] at hr; simp at hr
  · have hp := path_find_reach hpath
    obtain ⟨hi, hj, hpage, h0⟩ := scan_create_open hopen
    obtain ⟨hbf, hf1, _, _⟩ := get_new_block_some hg
    rw [hpage] at h0
    have hq : (read_inode_block s.disk p).blocks
        (scan_directory_for_create P s.disk (read_inode_block s.disk p)
          (req.path.getLastD [])).open_parent_blocks_idx ∈
        used_blocks (read_inode_block s.disk p) := mem_used_blocks.2 ⟨_, hi, rfl⟩
    have hnq : nib ≠ (read_inode_block s.disk p).blocks
        (scan_directory_for_create P s.disk (read_inode_block s.disk p)
          (req.path.getLastD [])).open_parent_blocks_idx :=
      fun e1 => hF nib hbf (e1 ▸ reachable_of_ref hp (hT.used_refs hp hq))
    have hpq : p ≠ (read_inode_block s.disk p).blocks
        (scan_directory_for_create P s.disk (read_inode_block s.disk p)
          (req.path.getLastD [])).open_parent_blocks_idx :=
      fun e1 => hT.used_not_inode hp hq (e1 ▸ hp)
    have hpn : p ≠ nib := fun e1 => hF nib hbf (e1 ▸ Or.inl hp)
    have hpi : ∃ ino, s.disk p = Block.inode ino := by
      rcases hb : s.disk p with ino | es | bs
      · exact ⟨ino, rfl⟩
      · simp [read_inode_block, hb] at hty; exact absurd hty (by decide)
      · simp [read_inode_block, hb] at hty; exact absurd hty (by decide)
    obtain ⟨ino, hino⟩ := hpi
    refine ⟨p, _, nib, [nib], Function.update
        (scan_directory_for_create P s.disk (read_inode_block s.disk p)
          (req.path.getLastD [])).open_dir_page
        (scan_directory_for_create P s.disk (read_inode_block s.disk p)
          (req.path.getLastD [])).open_dir_offset
        (new_direntry P (req.path.getLastD []) nib), ino,
      hpath, hty, hown, scan_create_absent hex, ?_, ?_, ?_, ?_, ?_,
      ⟨_, hj, Function.update_same _ _ _⟩, hbf, Or.inl ⟨rfl, hq, ?_⟩, ?_⟩
    · rw [heq, hpage]
      exact create_open_step hT hp hty hi hj h0 (hF nib hbf) _ hnt rfl _ rfl
    · rw [heq, hpage]
      exact create_open_entry hT hp hty hi hj h0 (hF nib hbf) (new_inode P req)
        (new_direntry P (req.path.getLastD []) nib) rfl
    · rw [heq]
      simp only
      rw [disk_write_ne _ _ _ _ hnq, disk_write_same]
    · rw [heq]
      exact disk_write_same _ _ _
    · rw [heq]
      simp only
      rw [disk_write_ne _ _ _ _ hpq, disk_write_ne _ _ _ _ hpn, hino]
    · rw [heq]
      simp only
      rw [disk_write_ne _ _ _ _ hpq, disk_write_ne _ _ _ _ hpn]
    · rw [heq]; intro x; simp [hf1, Finset.mem_erase]; tauto
  · have hp := path_find_reach hpath
    obtain ⟨hbf, hf1, _, _⟩ := get_new_block_some hg
    obtain ⟨hbf2, hf2, _, _⟩ := get_new_block_some hg2
    rw [hf1] at hbf2
    have hne : ndp ≠ nib := fun e => (Finset.mem_erase.1 hbf2).1 e.symm
    have hnf : nib ∈ s.free := (Finset.mem_erase.1 hbf2).2
    have hpn : p ≠ nib := fun e1 => hF nib hnf (e1 ▸ Or.inl hp)
    have hpd : p ≠ ndp := fun e1 => hF ndp hbf (e1 ▸ Or.inl hp)
    refine ⟨p, ndp, nib, [ndp, nib],
      Function.update (zero_page P) 0 (new_direntry P (req.path.getLastD []) nib),
      { read_inode_block s.disk p with
          blocks := Function.update (read_inode_block s.disk p).blocks
            (read_inode_block s.disk p).size ndp,
          size := (read_inode_block s.disk p).size + 1 },
      hpath, hty, hown, scan_create_absent hex, ?_, ?_, ?_, ?_, ?_,
      ⟨0, hP.1, Function.update_same _ _ _⟩, hnf,
      Or.inr ⟨rfl, hbf, hne, rfl⟩, ?_⟩
    · rw [heq]
      exact create_newpage_step hP hT hp hty hsz (hF ndp hbf) (hF nib hnf) hne _ hnt rfl _ rfl
    · rw [heq]
      exact create_newpage_entry hP hT hp (hF ndp hbf) (hF nib hnf) (new_inode P req)
        (new_direntry P (req.path.getLastD []) nib) rfl
    · rw [heq]
      simp only
      rw [disk_write_ne _ _ _ _ (Ne.symm hpn), disk_write_ne _ _ _ _ (Ne.symm hne),
        disk_write_same]
    · rw [heq]
      simp only
      rw [disk_write_ne _ _ _ _ (Ne.symm hpd), disk_write_same]
    · rw [heq]
      exact disk_write_same _ _ _
    · rw [heq]; intro x; simp [hf2, hf1, Finset.mem_erase]; tauto


/-- Summary of a replying `sys_delete` with what becomes of the parent inode: unchanged
when the page keeps an entry, without the page (the later pages shifted down) otherwise. -/
theorem sys_delete_shape_ext (P : Params) (s : State) (req : request)
    (hT : TreeShaped P s.disk) (hr : (sys_delete P s req).reply.isSome = true) :
    ∃ p pg T R,
      path_find P s.disk req.path.dropLast req.username = some p ∧
      (read_inode_block s.disk p).type = 'd' ∧
      (cstr (read_inode_block s.disk p).owner = req.username ∨
        cstr (read_inode_block s.disk p).owner = []) ∧
      cstr (read_inode_block s.disk T).owner = req.username ∧
      find_in_pages P s.disk (read_inode_block s.disk p) (req.path.getLastD [])
        (List.range (read_inode_block s.disk p).size) = some T ∧
      DelStep P s.disk (sys_delete P s req).st.disk p T R ∧
      DelEntry P s.disk (sys_delete P s req).st.disk p pg T (req.path.getLastD []) ∧
      ((R = [T] ∧ (page_children P s.disk pg).length ≠ 1 ∧
          (sys_delete P s req).st.disk p = s.disk p) ∨
        (R = [pg, T] ∧ (page_children P s.disk pg).length = 1 ∧
          ∃ idx, idx < (read_inode_block s.disk p).size ∧
            (read_inode_block s.disk p).blocks idx = pg ∧
            read_inode_block (sys_delete P s req).st.disk p =
              { read_inode_block s.disk p with
                blocks := shift_left (read_inode_block s.disk p).size
                  (read_inode_block s.disk p).size idx (read_inode_block s.disk p).blocks,
                size := (read_inode_block s.disk p).size - 1 })) ∧
      (∀ x, x ∈ (sys_delete P s req).st.free ↔
        x ∈ s.free ∨ x ∈ R ∨ x ∈ refs P s.disk T) := by
  rcases sys_delete_cases P s req with ⟨h1, _⟩ |
      ⟨p, hpath, hty, hown, hfound, htown, hleaf, hcase⟩
  · rw [h1] at hr; simp at hr
  · have hp := path_find_reach hpath
    obtain ⟨⟨hi, hj, hdb, hpage, hent, hT0, hname⟩, honly⟩ := scan_delete_found hfound
    have hfirst : find_in_pages P s.disk (read_inode_block s.disk p) (req.path.getLastD [])
        (List.range (read_inode_block s.disk p).size) =
        some (scan_directory_for_delete P s.disk (read_inode_block s.disk p)
          (req.path.getLastD [])).inode_block := by
      rcases hl : find_in_pages P s.disk (read_inode_block s.disk p) (req.path.getLastD [])
        (List.range (read_inode_block s.disk p).size) with _ | b
      · rw [scan_delete_first.1 hl] at hfound
        exact absurd hfound Bool.false_ne_true
      · rw [(scan_delete_first.2 b hl).2]
    set sc := scan_directory_for_delete P s.disk (read_inode_block s.disk p)
      (req.path.getLastD []) with hsc
    have hTr : InodeReach P s.disk sc.inode_block :=
      InodeReach.child p _ hp hty (by
        rw [hpage, hdb] at hent
        exact mem_children_of_entry hi hj hent hT0)
    have hfree : ∀ (f0 : Finset Nat) (x : Nat),
        x ∈ insert sc.inode_block
          (free_blocks (read_inode_block s.disk sc.inode_block)
            (List.range (read_inode_block s.disk sc.inode_block).size) f0) ↔
        x ∈ f0 ∨ x = sc.inode_block ∨ x ∈ refs P s.disk sc.inode_block := by
      intro f0 x
      rw [Finset.mem_insert, mem_free_blocks]
      have hrefs : (∃ k ∈ List.range (read_inode_block s.disk sc.inode_block).size,
          (read_inode_block s.disk sc.inode_block).blocks k = x ∧ x ≠ 0) ↔
          x ∈ refs P s.disk sc.inode_block := by
        rcases hT.type_ok _ hTr with htd | htf
        · have hs0 := hleaf htd
          rw [refs_dir htd]
          simp [used_blocks, children, hs0]
        · rw [refs_file htf]
          constructor
          · rintro ⟨k, hk, h1, _⟩
            exact mem_used_blocks.2 ⟨k, List.mem_range.1 hk, h1⟩
          · intro hx
            obtain ⟨k, hk, h1⟩ := mem_used_blocks.1 hx
            refine ⟨k, List.mem_range.2 hk, h1, fun e0 => ?_⟩
            subst e0
            exact hT.refs_ne_zero _ hTr (by rw [refs_file htf]; exact hx)
      rw [hrefs]
      constructor
      · rintro (h | h | h)
        · exact Or.inr (Or.inl h)
        · exact Or.inl h
        · exact Or.inr (Or.inr h)
      · rintro (h | h | h)
        · exact Or.inr (Or.inl h)
        · exact Or.inl h
        · exact Or.inr (Or.inr h)
    have hent1 : (read_dir_block s.disk ((read_inode_block s.disk p).blocks
        sc.parent_blocks_idx) sc.dir_offset).inode_block = sc.inode_block := by
      rw [hpage, hdb] at hent; exact hent
    have hname1 : cstr (read_dir_block s.disk ((read_inode_block s.disk p).blocks
        sc.parent_blocks_idx) sc.dir_offset).name = req.path.getLastD [] := by
      rw [hpage, hdb] at hname; exact hname
    rcases hcase with ⟨hno, heq⟩ | ⟨hyes, heq⟩
    · have hmany : (page_children P s.disk ((read_inode_block s.disk p).blocks
          sc.parent_blocks_idx)).length ≠ 1 := by
        rw [honly, hdb] at hno
        simpa using hno
      refine ⟨p, sc.dir_block, sc.inode_block, [sc.inode_block], hpath, hty, hown, htown,
        hfirst, ?_, ?_, Or.inl ⟨rfl, by rw [hdb]; exact hmany, ?_⟩, ?_⟩
      · rw [heq]
        simp only
        rw [hpage, hdb]
        exact delete_clear_step hT hp hty hi hj hent1 hT0 hleaf _ rfl
      · rw [heq]
        simp only
        rw [hpage, hdb]
        have := delete_clear_entry hT hp hty hi hj hent1 hT0 (cleared_direntry
          (read_dir_block s.disk ((read_inode_block s.disk p).blocks sc.parent_blocks_idx)
            sc.dir_offset)) rfl hmany
        rw [hname1] at this
        exact this
      · rw [heq]
        simp only
        rw [disk_write_ne]
        rw [hdb]
        exact fun e1 => hT.used_not_inode hp (mem_used_blocks.2 ⟨_, hi, rfl⟩) (e1 ▸ hp)
      · rw [heq]
        intro x
        simp only
        rw [hfree]
        simp
    · have hone : (page_children P s.disk ((read_inode_block s.disk p).blocks
          sc.parent_blocks_idx)).length = 1 := by
        rw [honly, hdb] at hyes
        simpa using hyes
      refine ⟨p, sc.dir_block, sc.inode_block, [sc.dir_block, sc.inode_block], hpath, hty,
        hown, htown, hfirst, ?_, ?_, Or.inr ⟨rfl, by rw [hdb]; exact hone, ?_⟩, ?_⟩
      · rw [heq]
        simp only
        rw [hdb]
        exact delete_compact_step hT hp hty hi hj hent1 hT0 hleaf hone
      · rw [heq]
        simp only
        rw [hdb]
        have := delete_compact_entry hT hp hty hi hj hent1 hT0 hone
        rw [hname1] at this
        exact this
      · refine ⟨sc.parent_blocks_idx, hi, hdb.symm, ?_⟩
        rw [heq]
        simp only
        rw [read_inode_write_same]
      · rw [heq]
        intro x
        simp only
        rw [hfree]
        simp only [Finset.mem_insert, List.mem_cons, List.mem_singleton, List.not_mem_nil,
          or_false]
        tauto

/-! ## Claim C30: create followed by delete, logically -/

theorem eraseIdx_append_last {α : Type} (l : List α) (a : α) :
    (l ++ [a]).eraseIdx l.length = l := by
  rw [List.eraseIdx_append_of_length_le (le_refl _)]
  simp

theorem sys_delete_replies {P : Params} {s : State} {req : request} {p : Nat}
    (hpath : path_find P s.disk req.path.dropLast req.username = some p)
    (hty : (read_inode_block s.disk p).type = 'd')
    (hown : cstr (read_inode_block s.disk p).owner = req.username ∨
      cstr (read_inode_block s.disk p).owner = [])
    (hfound : (scan_directory_for_delete P s.disk (read_inode_block s.disk p)
      (req.path.getLastD [])).found = true)
    (htown : cstr (read_inode_block s.disk (scan_directory_for_delete P s.disk
      (read_inode_block s.disk p) (req.path.getLastD [])).inode_block).owner = req.username)
    (hsz : (read_inode_block s.disk (scan_directory_for_delete P s.disk
      (read_inode_block s.disk p) (req.path.getLastD [])).inode_block).size = 0) :
    (sys_delete P s req).reply.isSome = true := by
  have hcond : ¬ ((read_inode_block s.disk p).type ≠ 'd' ∨
      (cstr (read_inode_block s.disk p).owner ≠ req.username ∧
       cstr (read_inode_block s.disk p).owner ≠ [])) := by
    rintro (h | ⟨h1, h2⟩)
    · exact h hty
    · rcases hown with h | h
      · exact h1 h
      · exact h2 h
  have hnd : ¬ ((read_inode_block s.disk (scan_directory_for_delete P s.disk
      (read_inode_block s.disk p) (req.path.getLastD [])).inode_block).type = 'd' ∧
      (read_inode_block s.disk (scan_directory_for_delete P s.disk
      (read_inode_block s.disk p) (req.path.getLastD [])).inode_block).size > 0) := by
    rintro ⟨_, h2⟩
    omega
  unfold sys_delete
  simp only [hpath, if_neg hcond, hfound, Bool.not_true, Bool.false_eq_true, if_false,
    htown, ne_eq, not_true_eq_false, if_neg hnd]
  split <;> rfl

/-- C30: logical create/delete round trip. In a tree-shaped state whose free blocks are
unreachable, with unique names and tight directories, if `sys_create` replies to a request
with parser-valid names and kind, then a delete request of the same user for the same path,
run on the resulting state, is answered too, and the final state has the free set of the
original state, the same reachable blocks, and the parent directory `p` has its original
size, its original used pages `blocks[0..size)` in their order, and for every name the
`find_child` result of the original state. -/
theorem C30_logical_round_trip (P : Params) (s : State) (creq dreq : request) (hP : P.ok)
    (hT : TreeShaped P s.disk) (hF : FreeDisjoint P s) (hU : NamesUnique P s.disk)
    (hTi : Tight P s.disk) (hV : ValidNames P creq) (hK : ValidKind creq)
    (hu : dreq.username = creq.username) (hpth : dreq.path = creq.path)
    (hc : (sys_create P s creq).reply.isSome = true) :
    (sys_delete P (sys_create P s creq).st dreq).reply.isSome = true ∧
    ∃ p, path_find P s.disk creq.path.dropLast creq.username = some p ∧
      (sys_delete P (sys_create P s creq).st dreq).st.free = s.free ∧
      (∀ b, Reachable P (sys_delete P (sys_create P s creq).st dreq).st.disk b ↔
        Reachable P s.disk b) ∧
      (read_inode_block (sys_delete P (sys_create P s creq).st dreq).st.disk p).size =
        (read_inode_block s.disk p).size ∧
      used_blocks (read_inode_block (sys_delete P (sys_create P s creq).st dreq).st.disk p) =
        used_blocks (read_inode_block s.disk p) ∧
      ∀ n, find_child P (sys_delete P (sys_create P s creq).st dreq).st.disk
          (read_inode_block (sys_delete P (sys_create P s creq).st dreq).st.disk p) n =
        find_child P s.disk (read_inode_block s.disk p) n := by
  obtain ⟨p, pg, nib, A, es, ino, hpath, hty, hown, hnew, hstep, hent, hnb, _, h3, _, hnf, hcase,
    hfree1⟩ := sys_create_shape_ext P s creq hP hT hF hK hc
  rw [last_name_valid hV] at hent
  have hp := path_find_reach hpath
  have hd : (sys_delete P (sys_create P s creq).st dreq).reply.isSome = true := by
    have hpath1 : path_find P (sys_create P s creq).st.disk dreq.path.dropLast dreq.username
        = some p := by
      rw [hu, hpth]
      exact path_find_stable hT hstep.other creq.username creq.path.dropLast hpath
    have hnd1 := names_after_create hent.entries (hU p hp hty) hnew
    have hin : (creq.path.getLastD [], nib) ∈
        dir_entries P (sys_create P s creq).st.disk
          (read_inode_block (sys_create P s creq).st.disk p) :=
      hent.entries.mem_iff.2 (List.mem_cons_self _ _)
    have hfound : (scan_directory_for_delete P (sys_create P s creq).st.disk
        (read_inode_block (sys_create P s creq).st.disk p)
        (dreq.path.getLastD [])).found = true := by
      rw [hpth]
      exact scan_delete_found_iff.2 (List.mem_map.2 ⟨_, hin, rfl⟩)
    have hib : (scan_directory_for_delete P (sys_create P s creq).st.disk
        (read_inode_block (sys_create P s creq).st.disk p)
        (dreq.path.getLastD [])).inode_block = nib := by
      have h1 := lookup_name_of_mem hnd1 (scan_delete_entry hfound)
      rw [hpth] at h1
      have h2 := lookup_name_of_mem hnd1 hin
      rw [h1] at h2
      rw [hpth]
      exact Option.some.inj h2
    have hino : read_inode_block (sys_create P s creq).st.disk nib = new_inode P creq :=
      inode_of_block hnb
    refine sys_delete_replies hpath1 (hent.type0.trans hty) ?_ hfound ?_ ?_
    · rw [hent.owner0, hu]
      exact hown
    · rw [hib, hino, hu]
      exact cstr_strncpy_term _ _ hV.2.2.1 hV.2.1
    · rw [hib, hino]
      rfl
  refine ⟨hd, ?_⟩
  obtain ⟨p2, pg2, T2, R2, hpath2, _, _, _, _, hstep2, hent2, hcase2, hfree2⟩ :=
    sys_delete_shape_ext P (sys_create P s creq).st dreq hstep.add_tree_after hd
  rw [hu, hpth] at hpath2
  rw [hpth] at hent2
  rw [path_find_stable hT hstep.other creq.username creq.path.dropLast hpath] at hpath2
  have hpp := Option.some.inj hpath2
  subst hpp
  have hpg : pg2 = pg := by
    by_contra hne
    obtain ⟨h1, h2⟩ := hent.old_pages pg2 hent2.page_mem hne
    have hm := hent2.entry
    rw [h2] at hm
    exact hnew (List.mem_map.2 ⟨_, mem_dir_entries_of_page h1 hm, rfl⟩)
  subst hpg
  have hT2 : T2 = nib := by
    have hm := hent.entries.mem_iff.1 (mem_dir_entries_of_page hent2.page_mem hent2.entry)
    rcases List.mem_cons.1 hm with e | e
    · exact (Prod.mk.inj e).2
    · exact absurd (List.mem_map.2 ⟨_, e, rfl⟩) hnew
  subst hT2
  have hrefs : refs P (sys_create P s creq).st.disk T2 = [] := hstep.new_refs T2 (by simp)
  -- the blocks given back are the blocks taken, and the parent inode is as before
  have hkey : (∀ b, b ∈ R2 ↔ b ∈ A) ∧ (∀ a ∈ A, a ∈ s.free) ∧
      (read_inode_block (sys_delete P (sys_create P s creq).st dreq).st.disk p).size =
        (read_inode_block s.disk p).size ∧
      used_blocks (read_inode_block (sys_delete P (sys_create P s creq).st dreq).st.disk p) =
        used_blocks (read_inode_block s.disk p) := by
    rcases hcase with ⟨hA, hold, hdp⟩ | ⟨hA, hfr, _, hino⟩
    · have hlen := hent.len_old hold
      have hne : page_children P s.disk pg2 ≠ [] := hTi p hp hty pg2 hold
      have hpos : 0 < (page_children P s.disk pg2).length := List.length_pos.2 hne
      rcases hcase2 with ⟨hR, _, hd2⟩ | ⟨_, h1, _⟩
      · have hi : read_inode_block (sys_delete P (sys_create P s creq).st dreq).st.disk p =
            read_inode_block s.disk p := read_inode_congr (hd2.trans hdp)
        refine ⟨fun b => by rw [hR, hA], ?_, by rw [hi], by rw [hi]⟩
        intro a ha
        rw [hA] at ha
        rw [List.mem_singleton.1 ha]
        exact hnf
      · omega
    · have hnu : pg2 ∉ used_blocks (read_inode_block s.disk p) :=
        fun h => hF pg2 hfr (reachable_of_ref hp (hT.used_refs hp h))
      have hlen := hent.len_new hnu
      rcases hcase2 with ⟨_, h1, _⟩ | ⟨hR, _, idx, hidx, hblk, hd2⟩
      · exact absurd hlen h1
      · have hi1 : read_inode_block (sys_create P s creq).st.disk p = ino := inode_of_block h3
        rw [hi1] at hidx hblk hd2
        have hused1 : used_blocks ino = used_blocks (read_inode_block s.disk p) ++ [pg2] := by
          rw [hino]; exact used_blocks_extend _ _
        have hsz1 : ino.size = (read_inode_block s.disk p).size + 1 := by rw [hino]
        have hidx_eq : idx = (read_inode_block s.disk p).size := by
          by_contra hne
          have hlt : idx < (read_inode_block s.disk p).size := by omega
          apply hnu
          refine mem_used_blocks.2 ⟨idx, hlt, ?_⟩
          rw [← hblk, hino]
          simp only
          rw [Function.update_noteq (by omega)]
        have hused2 := used_blocks_shift_erase ino idx hidx
        refine ⟨fun b => by rw [hR, hA], ?_, ?_, ?_⟩
        · intro a ha
          rw [hA] at ha
          simp only [List.mem_cons, List.mem_singleton, List.not_mem_nil, or_false] at ha
          rcases ha with e | e
          · rw [e]; exact hfr
          · rw [e]; exact hnf
        · rw [hd2]
          simp only
          omega
        · rw [hd2, hused2, hused1, hidx_eq]
          have hl : (used_blocks (read_inode_block s.disk p)).length =
              (read_inode_block s.disk p).size := by simp [used_blocks]
          rw [← hl]
          exact eraseIdx_append_last _ _
  obtain ⟨hRA, hAfree, hsize, hused⟩ := hkey
  refine ⟨p, hpath, ?_, ?_, hsize, hused, ?_⟩
  · ext x
    rw [hfree2 x, hrefs, hfree1 x, hRA x]
    simp only [List.not_mem_nil, or_false]
    constructor
    · rintro (⟨h, _⟩ | h)
      · exact h
      · exact hAfree x h
    · intro h
      by_cases e : x ∈ A
      · exact Or.inr e
      · exact Or.inl ⟨h, e⟩
  · intro b
    rw [hstep2.del_reachable_iff b, hstep.add_reachable_iff b, hrefs, hRA b]
    simp only [List.not_mem_nil, not_false_eq_true, and_true]
    constructor
    · rintro ⟨h | h, hn⟩
      · exact h
      · exact absurd h hn
    · intro h
      exact ⟨Or.inl h, fun ha => hstep.fresh b ha h⟩
  · intro n
    have hperm : List.Perm
        (dir_entries P (sys_delete P (sys_create P s creq).st dreq).st.disk
          (read_inode_block (sys_delete P (sys_create P s creq).st dreq).st.disk p))
        (dir_entries P s.disk (read_inode_block s.disk p)) :=
      (List.Perm.cons_inv (hent2.entries.symm.trans hent.entries))
    rw [find_child_lookup, find_child_lookup,
      lookup_name_perm hperm.symm (hU p hp hty)]

set_option maxRecDepth 100000 in
/-- C30 at the example state: alice creates `/b` and deletes it again; free set and root
directory are as before. -/
theorem C30_logical_round_trip_witness :
    (sys_create exP ex_state ex_create).reply.isSome = true ∧
    (sys_delete exP (sys_create exP ex_state ex_create).st ex_delete_b).reply.isSome = true ∧
    ∃ p, path_find exP ex_state.disk ex_create.path.dropLast ex_create.username = some p ∧
      (sys_delete exP (sys_create exP ex_state ex_create).st ex_delete_b).st.free =
        ex_state.free ∧
      (∀ b, Reachable exP (sys_delete exP (sys_create exP ex_state ex_create).st
          ex_delete_b).st.disk b ↔ Reachable exP ex_state.disk b) ∧
      (read_inode_block (sys_delete exP (sys_create exP ex_state ex_create).st
          ex_delete_b).st.disk p).size = (read_inode_block ex_state.disk p).size ∧
      used_blocks (read_inode_block (sys_delete exP (sys_create exP ex_state ex_create).st
          ex_delete_b).st.disk p) = used_blocks (read_inode_block ex_state.disk p) ∧
      ∀ n, find_child exP (sys_delete exP (sys_create exP ex_state ex_create).st
            ex_delete_b).st.disk
          (read_inode_block (sys_delete exP (sys_create exP ex_state ex_create).st
            ex_delete_b).st.disk p) n =
        find_child exP ex_state.disk (read_inode_block ex_state.disk p) n :=
  ⟨by decide,
    C30_logical_round_trip exP ex_state ex_create ex_delete_b exP_ok ex_tree
      ex_free_exact.disjoint ex_names_unique ex_tight (by unfold ValidNames; decide)
      (by unfold ValidKind; decide) rfl rfl (by decide)⟩

/-! ## Claim C29: a request touches only what its user owns -/

theorem write_block_owned (P : Params) (s : State) (req : request) (hP : P.ok)
    (hT : TreeShaped P s.disk) (hB : ValidBlock P req) (x : Nat)
    (hx : (write_block P s req).st.disk x ≠ s.disk x) :
    x ∈ s.free ∨ Owns P s.disk req.username x := by
  rcases write_block_cases P s req with ⟨_, h2, _⟩ | ⟨t, hpath, _, hown, hlt, heq⟩ |
      ⟨t, b, free1, hpath, _, hown, _, _, hg, heq⟩
  · rw [h2] at hx; exact absurd rfl hx
  · right
    have ht := path_find_reach hpath
    have hsize := hT.size_ok t ht
    rw [castInt_of_lt _ (by have := hP.2.1; omega)] at hlt
    have hk : req.block.toNat < (read_inode_block s.disk t).size := by
      have := hB.1; omega
    refine ⟨t, ht, Or.inl hown, Or.inr ?_⟩
    by_contra hn
    apply hx
    rw [heq]
    simp only
    rw [disk_write_ne]
    exact fun e => hn (e ▸ mem_used_blocks.2 ⟨_, hk, rfl⟩)
  · have ht := path_find_reach hpath
    obtain ⟨hbf, _, _, _⟩ := get_new_block_some hg
    by_cases hxb : x = b
    · left; rw [hxb]; exact hbf
    · right
      refine ⟨t, ht, Or.inl hown, Or.inl ?_⟩
      by_contra hn
      apply hx
      rw [heq]
      simp only
      rw [disk_write_ne _ _ _ _ hn, disk_write_ne _ _ _ _ hxb]

theorem sys_create_owned (P : Params) (s : State) (req : request) (hP : P.ok)
    (hT : TreeShaped P s.disk) (hF : FreeDisjoint P s) (hK : ValidKind req) (x : Nat)
    (hx : (sys_create P s req).st.disk x ≠ s.disk x) :
    x ∈ s.free ∨ Owns P s.disk req.username x := by
  by_cases hr : (sys_create P s req).reply.isSome = true
  · obtain ⟨p, pg, nib, A, es, ino, hpath, _, hown, _, _, hent, _, _, _, _, hnf, hcase, _⟩ :=
      sys_create_shape P s req hP hT hF hK hr
    have hp := path_find_reach hpath
    by_cases h1 : x = nib
    · left; rw [h1]; exact hnf
    · by_cases h2 : x = pg
      · rcases hcase with ⟨_, h, _⟩ | ⟨_, h, _⟩
        · right; exact ⟨p, hp, hown, Or.inr (h2 ▸ h)⟩
        · left; rw [h2]; exact h
      · by_cases h3 : x = p
        · right; exact ⟨p, hp, hown, Or.inl h3⟩
        · exact absurd (hent.frame x h3 h2 h1) hx
  · rw [sys_create_silent hr] at hx; exact absurd rfl hx

theorem sys_delete_owned (P : Params) (s : State) (req : request)
    (hT : TreeShaped P s.disk) (x : Nat)
    (hx : (sys_delete P s req).st.disk x ≠ s.disk x) : Owns P s.disk req.username x := by
  by_cases hr : (sys_delete P s req).reply.isSome = true
  · obtain ⟨p, pg, T, R, hpath, _, hown, _, _, _, hent, _, _⟩ :=
      sys_delete_shape P s req hT hr
    have hp := path_find_reach hpath
    by_cases h2 : x = pg
    · exact ⟨p, hp, hown, Or.inr (h2 ▸ hent.page_mem)⟩
    · by_cases h3 : x = p
      · exact ⟨p, hp, hown, Or.inl h3⟩
      · exact absurd (hent.frame x h3 h2) hx
  · rw [sys_delete_silent hr] at hx; exact absurd rfl hx

theorem dispatch_owned (P : Params) (s : State) (req : request) (hP : P.ok)
    (hT : TreeShaped P s.disk) (hF : FreeDisjoint P s) (hB : ValidBlock P req)
    (hK : ValidKind req) (x : Nat) (hx : (dispatch P s req).st.disk x ≠ s.disk x) :
    x ∈ s.free ∨ Owns P s.disk req.username x := by
  unfold dispatch at hx
  cases hty : req.type <;> rw [hty] at hx <;> simp only at hx
  · rw [read_block_st] at hx; exact absurd rfl hx
  · exact write_block_owned P s req hP hT hB x hx
  · exact sys_create_owned P s req hP hT hF hK x hx
  · exact Or.inr (sys_delete_owned P s req hT x hx)

/-- C29: user isolation. In a tree-shaped state whose free blocks are unreachable, for
every request the parser accepts, issued by user `u` and run by the dispatch of
`handle_request`: every block that holds something else afterwards was a free block or
belongs to a reachable inode owned by `u` or by the empty owner (it is that inode's block
or one of its `blocks[0..size)`); and every reachable inode `v` whose owner is a non-empty
name other than `u` holds the same content as before, as does every data block or
directory page in its `blocks[0..size)`. -/
theorem C29_user_isolation (P : Params) (s : State) (req : request) (hP : P.ok)
    (hT : TreeShaped P s.disk) (hF : FreeDisjoint P s) (hB : ValidBlock P req)
    (hK : ValidKind req) :
    (∀ x, (dispatch P s req).st.disk x ≠ s.disk x →
      x ∈ s.free ∨ Owns P s.disk req.username x) ∧
    (∀ v, InodeReach P s.disk v →
      cstr (read_inode_block s.disk v).owner ≠ req.username →
      cstr (read_inode_block s.disk v).owner ≠ [] →
      (dispatch P s req).st.disk v = s.disk v ∧
      ∀ b ∈ used_blocks (read_inode_block s.disk v),
        (dispatch P s req).st.disk b = s.disk b) := by
  refine ⟨dispatch_owned P s req hP hT hF hB hK, ?_⟩
  intro v hv hne1 hne2
  have hnot : ∀ q, InodeReach P s.disk q →
      (cstr (read_inode_block s.disk q).owner = req.username ∨
        cstr (read_inode_block s.disk q).owner = []) → q ≠ v := by
    intro q _ hown e
    subst e
    rcases hown with h | h
    · exact hne1 h
    · exact hne2 h
  constructor
  · by_contra hx
    rcases dispatch_owned P s req hP hT hF hB hK v hx with h | ⟨q, hq, hown, h | h⟩
    · exact hF v h (Or.inl hv)
    · exact hnot q hq hown h.symm
    · exact hT.used_not_inode hq h hv
  · intro b hb
    by_contra hx
    rcases dispatch_owned P s req hP hT hF hB hK b hx with h | ⟨q, hq, hown, h | h⟩
    · exact hF b h (reachable_of_ref hv (hT.used_refs hv hb))
    · exact hT.used_not_inode hv hb (h ▸ hq)
    · exact hT.used_disjoint hq hv (hnot q hq hown) h hb

set_option maxRecDepth 100000 in
/-- C29 at the example state: bob creates `/c` in root, and bob tries to write the file
of alice; the inode of alice's file `/a` (block 2) and its data block 3 stay as they
are. -/
theorem C29_user_isolation_witness :
    (dispatch exP ex_state ex_create_bob).reply.isSome = true ∧
    cstr (read_inode_block ex_state.disk 2).owner = alice ∧
    ((dispatch exP ex_state ex_create_bob).st.disk 2 = ex_state.disk 2 ∧
      ∀ b ∈ used_blocks (read_inode_block ex_state.disk 2),
        (dispatch exP ex_state ex_create_bob).st.disk b = ex_state.disk b) ∧
    ((dispatch exP ex_state ex_write_bob).st.disk 2 = ex_state.disk 2 ∧
      ∀ b ∈ used_blocks (read_inode_block ex_state.disk 2),
        (dispatch exP ex_state ex_write_bob).st.disk b = ex_state.disk b) :=
  ⟨by decide, by decide,
    (C29_user_isolation exP ex_state ex_create_bob exP_ok ex_tree ex_free_exact.disjoint
      (by unfold ValidBlock; decide) (by unfold ValidKind; decide)).2 2 ex_reach_file
      (by decide) (by decide),
    (C29_user_isolation exP ex_state ex_write_bob exP_ok ex_tree ex_free_exact.disjoint
      (by unfold ValidBlock; decide) (by unfold ValidKind; decide)).2 2 ex_reach_file
      (by decide) (by decide)⟩

/-! ## Cutting a char sequence at a separator -/

theorem split_on_cons (sep c : Char) (cs : List Char) :
    split_on sep (c :: cs) =
      if c = sep then [] :: split_on sep cs
      else (c :: (split_on sep cs).headD []) :: (split_on sep cs).tail := by
  rw [split_on]

theorem split_on_ne_nil (sep : Char) (l : List Char) : split_on sep l ≠ [] := by
  cases l with
  | nil => simp [split_on]
  | cons c cs =>
    rw [split_on_cons]
    split <;> simp

theorem split_on_cons_eq (sep : Char) (l : List Char) :
    split_on sep l = (split_on sep l).headD [] :: (split_on sep l).tail := by
  rcases h : split_on sep l with _ | ⟨t, ts⟩
  · exact absurd h (split_on_ne_nil sep l)
  · rfl

theorem split_on_of_not_mem (sep : Char) (l : List Char) (h : sep ∉ l) :
    split_on sep l = [l] := by
  induction l with
  | nil => rfl
  | cons c cs ih =>
    have hc : c ≠ sep := fun e => h (by simp [e])
    have hcs : sep ∉ cs := fun e => h (by simp [e])
    rw [split_on_cons, if_neg hc, ih hcs]
    rfl

theorem split_on_append (sep : Char) (a b : List Char) (h : sep ∉ a) :
    split_on sep (a ++ sep :: b) = a :: split_on sep b := by
  induction a with
  | nil =>
    simp only [List.nil_append]
    rw [split_on_cons, if_pos rfl]
  | cons c cs ih =>
    have hc : c ≠ sep := fun e => h (by simp [e])
    have hcs : sep ∉ cs := fun e => h (by simp [e])
    simp only [List.cons_append]
    rw [split_on_cons, if_neg hc, ih hcs]
    rfl

theorem split_on_length_of_mem (sep : Char) (l : List Char) (h : sep ∈ l) :
    2 ≤ (split_on sep l).length := by
  induction l with
  | nil => simp at h
  | cons c cs ih =>
    rw [split_on_cons]
    by_cases hc : c = sep
    · rw [if_pos hc]
      have := split_on_ne_nil sep cs
      have hpos : 0 < (split_on sep cs).length := List.length_pos.2 this
      simp only [List.length_cons]
      omega
    · rw [if_neg hc]
      have hcs : sep ∈ cs := by
        rcases List.mem_cons.1 h with e | e
        · exact absurd e.symm hc
        · exact e
      have := ih hcs
      simp only [List.length_cons, List.length_tail]
      omega

theorem split_on_singleton {sep : Char} {l t : List Char} (h : split_on sep l = [t]) :
    sep ∉ l ∧ t = l := by
  have hn : sep ∉ l := by
    intro hm
    have := split_on_length_of_mem sep l hm
    rw [h] at this
    simp at this
  rw [split_on_of_not_mem sep l hn] at h
  exact ⟨hn, (List.cons.inj h).1.symm⟩

theorem split_on_not_mem (sep : Char) (l : List Char) : ∀ t ∈ split_on sep l, sep ∉ t := by
  induction l with
  | nil =>
    intro t ht
    simp only [split_on, List.mem_singleton] at ht
    rw [ht]; simp
  | cons c cs ih =>
    intro t ht
    rw [split_on_cons] at ht
    by_cases hc : c = sep
    · rw [if_pos hc] at ht
      rcases List.mem_cons.1 ht with e | e
      · rw [e]; simp
      · exact ih t e
    · rw [if_neg hc] at ht
      rw [split_on_cons_eq sep cs] at ih
      rcases List.mem_cons.1 ht with e | e
      · rw [e]
        intro hm
        rcases List.mem_cons.1 hm with e1 | e1
        · exact hc e1.symm
        · exact ih _ (by simp) e1
      · exact ih t (List.mem_cons_of_mem _ e)

theorem split_on_last_nil (sep : Char) (l : List Char)
    (h : (split_on sep l).getLast? = some []) : l = [] ∨ l.getLast? = some sep := by
  induction l with
  | nil => exact Or.inl rfl
  | cons c cs ih =>
    right
    rw [split_on_cons] at h
    by_cases hc : c = sep
    · rw [if_pos hc] at h
      rw [split_on_cons_eq sep cs, List.getLast?_cons_cons] at h
      rw [← split_on_cons_eq sep cs] at h
      rcases ih h with e | e
      · rw [e, hc]; rfl
      · rcases cs with _ | ⟨x, xs⟩
        · simp at e
        · rw [List.getLast?_cons_cons]; exact e
    · rw [if_neg hc] at h
      rcases hcs : split_on sep cs with _ | ⟨t, ts⟩
      · exact absurd hcs (split_on_ne_nil sep cs)
      · rw [hcs] at h ih
        simp only [List.headD_cons, List.tail_cons] at h
        rcases ts with _ | ⟨t2, ts2⟩
        · simp at h
        · rw [List.getLast?_cons_cons] at h ih
          rcases ih h with e | e
          · rw [e] at hcs
            simp [split_on] at hcs
          · rcases cs with _ | ⟨x, xs⟩
            · simp at e
            · rw [List.getLast?_cons_cons]; exact e

/-! ## The loop of `split_path_ss` in closed form -/

theorem getline_steps_nil (step : List Char) :
    getline_steps step [] = if step = [] then [] else [step] := by
  unfold getline_steps
  simp only [split_on, List.headD_cons, List.tail_cons, List.append_nil,
    List.getLast?_singleton, Option.some.injEq, List.dropLast_single]

theorem getline_steps_slash (step cs : List Char) :
    getline_steps step ('/' :: cs) = step :: getline_steps [] cs := by
  unfold getline_steps
  rw [split_on_cons, if_pos rfl]
  simp only [List.headD_cons, List.tail_cons, List.append_nil, List.nil_append]
  rw [← split_on_cons_eq]
  rcases h : split_on '/' cs with _ | ⟨t, ts⟩
  · exact absurd h (split_on_ne_nil _ _)
  · rw [List.getLast?_cons_cons, List.dropLast_cons₂]
    split <;> rfl

theorem getline_steps_other (step cs : List Char) (c : Char) (hc : c ≠ '/') :
    getline_steps step (c :: cs) = getline_steps (step ++ [c]) cs := by
  unfold getline_steps
  rw [split_on_cons, if_neg hc]
  simp only [List.headD_cons, List.tail_cons, List.append_assoc, List.singleton_append]

theorem split_loop_eq (MFN : Nat) (cs step : List Char) (d : List (List Char)) :
    ((∀ t ∈ getline_steps step cs, t ≠ [] ∧ t.length ≤ MFN) →
      split_loop MFN cs step d = d ++ getline_steps step cs) ∧
    (¬ (∀ t ∈ getline_steps step cs, t ≠ [] ∧ t.length ≤ MFN) →
      split_loop MFN cs step d = []) := by
  induction cs generalizing step d with
  | nil =>
    rw [getline_steps_nil]
    unfold split_loop
    by_cases hs : step = []
    · rw [if_pos hs, if_pos hs]
      refine ⟨fun _ => by simp, fun h => absurd (by simp) h⟩
    · rw [if_neg hs, if_neg hs]
      by_cases hl : step.length > MFN
      · rw [if_pos hl]
        refine ⟨fun h => ?_, fun _ => rfl⟩
        have := (h step (by simp)).2
        omega
      · rw [if_neg hl]
        refine ⟨fun _ => rfl, fun h => absurd ?_ h⟩
        intro t ht
        rw [List.mem_singleton.1 ht]
        exact ⟨hs, by omega⟩
  | cons c cs ih =>
    unfold split_loop
    by_cases hc : c = '/'
    · subst hc
      rw [if_pos rfl, getline_steps_slash]
      by_cases hbad : step = [] ∨ step.length > MFN
      · rw [if_pos hbad]
        refine ⟨fun h => ?_, fun _ => rfl⟩
        have h1 := h step (by simp)
        rcases hbad with e | e
        · exact absurd e h1.1
        · omega
      · rw [if_neg hbad]
        push_neg at hbad
        obtain ⟨ih1, ih2⟩ := ih [] (d ++ [step])
        constructor
        · intro h
          rw [ih1 (fun t ht => h t (List.mem_cons_of_mem _ ht))]
          simp
        · intro h
          apply ih2
          intro hall
          apply h
          intro t ht
          rcases List.mem_cons.1 ht with e | e
          · rw [e]; exact ⟨hbad.1, hbad.2⟩
          · exact hall t e
    · rw [if_neg hc, getline_steps_other step cs c hc]
      exact ih (step ++ [c]) d

/-! ## What the parser accepts -/

theorem split_on_length (sep : Char) (l : List Char) :
    (split_on sep l).length = l.count sep + 1 := by
  induction l with
  | nil => rfl
  | cons c cs ih =>
    rw [split_on_cons]
    by_cases hc : c = sep
    · rw [if_pos hc, List.length_cons, ih, hc, List.count_cons_self]
    · rw [if_neg hc, List.count_cons_of_ne (Ne.symm hc)]
      have hpos : 0 < (split_on sep cs).length := List.length_pos.2 (split_on_ne_nil sep cs)
      simp only [List.length_cons, List.length_tail]
      omega

theorem getline_steps_eq_split (cs : List Char) (h : ∀ c ∈ split_on '/' cs, c ≠ []) :
    getline_steps [] cs = split_on '/' cs := by
  unfold getline_steps
  simp only [List.nil_append]
  rw [← split_on_cons_eq]
  rw [if_neg]
  intro hl
  exact h [] (List.mem_of_getLast?_eq_some hl) rfl

theorem getLast?_cons_ne_nil {α : Type} (a : α) (l : List α) (h : l ≠ []) :
    (a :: l).getLast? = l.getLast? := by
  cases l with
  | nil => exact absurd rfl h
  | cons b t => exact List.getLast?_cons_cons

/-- The paths `split_path_ss` turns into a non-empty deque, and the deque. -/
theorem split_path_ok (P : Params) (p : List Char) :
    (∀ path, split_path_ss P p = some path → path ≠ [] →
      p.head? = some '/' ∧ 2 ≤ p.length ∧ p.length ≤ P.MPN ∧ p.getLast? ≠ some '/' ∧
      (∀ c ∈ split_on '/' p.tail, c ≠ [] ∧ c.length ≤ P.MFN) ∧
      path = split_on '/' p.tail) ∧
    (p.head? = some '/' → p.length ≤ P.MPN → p.getLast? ≠ some '/' →
      (∀ c ∈ split_on '/' p.tail, c ≠ [] ∧ c.length ≤ P.MFN) →
      split_path_ss P p = some (split_on '/' p.tail) ∧ split_on '/' p.tail ≠ []) := by
  constructor
  · intro path hsp hne
    unfold split_path_ss at hsp
    by_cases h0 : p = []
    · rw [if_pos h0] at hsp; exact absurd hsp (by simp)
    rw [if_neg h0] at hsp
    by_cases h1 : p.head? ≠ some '/'
    · rw [if_pos h1] at hsp; exact absurd (Option.some.inj hsp).symm hne
    rw [if_neg h1] at hsp
    by_cases h2 : p.length > 1 ∧ p.getLast? = some '/'
    · rw [if_pos h2] at hsp; exact absurd (Option.some.inj hsp).symm hne
    rw [if_neg h2] at hsp
    by_cases h3 : p.length > P.MPN
    · rw [if_pos h3] at hsp; exact absurd (Option.some.inj hsp).symm hne
    rw [if_neg h3] at hsp
    have hpath := (Option.some.inj hsp).symm
    push_neg at h1
    obtain ⟨e1, e2⟩ := split_loop_eq P.MFN p.tail [] []
    by_cases hall : ∀ t ∈ getline_steps [] p.tail, t ≠ [] ∧ t.length ≤ P.MFN
    · rw [e1 hall, List.nil_append] at hpath
      rcases p with _ | ⟨c, cs⟩
      · exact absurd rfl h0
      simp only [List.tail_cons] at hpath hall ⊢
      have hlast : ((split_on '/' cs).headD [] :: (split_on '/' cs).tail).getLast? ≠
          some [] := by
        intro hl
        rw [← split_on_cons_eq] at hl
        rcases split_on_last_nil '/' cs hl with e | e
        · rw [e, getline_steps_nil] at hpath
          exact hne hpath
        · apply h2
          have hcs : cs ≠ [] := by
            intro e0; rw [e0] at e; simp at e
          refine ⟨?_, by rw [getLast?_cons_ne_nil c cs hcs]; exact e⟩
          have := List.length_pos.2 hcs
          simp only [List.length_cons]
          omega
      have hgs : getline_steps [] cs = split_on '/' cs := by
        unfold getline_steps
        simp only [List.nil_append]
        rw [if_neg hlast, ← split_on_cons_eq]
      rw [hgs] at hpath hall
      have hcs : cs ≠ [] := by
        intro e0
        rw [e0] at hall
        exact (hall [] (by simp [split_on])).1 rfl
      have hlen : 2 ≤ (c :: cs).length := by
        have := List.length_pos.2 hcs
        simp only [List.length_cons]
        omega
      refine ⟨h1, hlen, by omega, ?_, hall, hpath⟩
      intro hl
      exact h2 ⟨by omega, hl⟩
    · rw [e2 hall] at hpath
      exact absurd hpath hne
  · intro h1 h3 h4 hall
    have h0 : p ≠ [] := by
      intro e; rw [e] at h1; simp at h1
    have hgs := getline_steps_eq_split p.tail (fun c hc => (hall c hc).1)
    unfold split_path_ss
    rw [if_neg h0, if_neg (by simpa using h1), if_neg (fun h => h4 h.2), if_neg (by omega)]
    have := (split_loop_eq P.MFN p.tail [] []).1 (by rw [hgs]; exact hall)
    rw [this, hgs, List.nil_append]
    exact ⟨rfl, split_on_ne_nil _ _⟩

theorem has_space_false_iff (s : List Char) : has_space s = false ↔ ∀ c ∈ s, isspace c = false := by
  unfold has_space
  rw [List.any_eq_false]
  simp

theorem space_not_mem_of_has_space {s : List Char} (h : has_space s = false) : ' ' ∉ s := by
  intro hm
  have := (has_space_false_iff s).1 h ' ' hm
  exact absurd this (by decide)

theorem has_space_of_mem {s : List Char} (h : ' ' ∈ s) : has_space s = true := by
  unfold has_space
  rw [List.any_eq_true]
  exact ⟨' ', h, by decide⟩

theorem space_not_mem_block {x : List Char} (h : block_field x = true) : ' ' ∉ x := by
  intro hm
  cases x with
  | nil => simp at hm
  | cons c r =>
    simp only [block_field, Bool.or_eq_true, Bool.and_eq_true, decide_eq_true_eq,
      List.all_eq_true, List.isEmpty_iff] at h
    rcases List.mem_cons.1 hm with e | e
    · rcases h with ⟨h1, _⟩ | ⟨h1, _⟩
      · rw [← e] at h1; revert h1; decide
      · rw [← e] at h1; revert h1; decide
    · rcases h with ⟨_, h2⟩ | ⟨_, h2⟩
      · have := h2 ' ' e
        revert this; decide
      · rw [h2] at e; simp at e

theorem space_not_mem_kind {x : List Char} (h : kind_field x = true) : ' ' ∉ x := by
  simp only [kind_field, decide_eq_true_eq] at h
  rcases h with e | e <;> rw [e] <;> decide

theorem pathOK_iff (P : Params) (p : List Char) :
    PathOK P p ↔ has_space p = false ∧ ∃ path, split_path_ss P p = some path ∧ path ≠ [] := by
  constructor
  · rintro ⟨h1, _, h3, h4, h5, h6⟩
    obtain ⟨a, b⟩ := (split_path_ok P p).2 h1 h3 h4 h6
    exact ⟨h5, _, a, b⟩
  · rintro ⟨h5, path, hp, hne⟩
    obtain ⟨h1, h2, h3, h4, h6, _⟩ := (split_path_ok P p).1 path hp hne
    exact ⟨h1, h2, h3, h4, h5, h6⟩

theorem path_field_of_ok {P : Params} {p : List Char} (h : PathOK P p) : path_field p = true := by
  simp only [path_field, decide_eq_true_eq]
  exact ⟨h.1, h.2.1⟩

theorem regex_match4_none_of_head {cmd c0 : List Char} {last : List Char → Bool}
    {h : List Char} {rest : List (List Char)} (hs : split_on ' ' h = c0 :: rest)
    (hne : c0 ≠ cmd) : regex_match4 cmd last h = none := by
  unfold regex_match4
  rw [hs]
  split
  · rename_i c u p x heq
    have : c0 = c := (List.cons.inj heq).1
    rw [if_neg]
    rintro ⟨e, _⟩
    exact hne (this.trans e)
  · rfl

theorem regex_match3_none_of_head {cmd c0 : List Char} {h : List Char}
    {rest : List (List Char)} (hs : split_on ' ' h = c0 :: rest) (hne : c0 ≠ cmd) :
    regex_match3 cmd h = none := by
  unfold regex_match3
  rw [hs]
  split
  · rename_i c u p heq
    have : c0 = c := (List.cons.inj heq).1
    rw [if_neg]
    rintro ⟨e, _⟩
    exact hne (this.trans e)
  · rfl

theorem regex_match4_none_of_length {cmd : List Char} {last : List Char → Bool}
    {h : List Char} (hl : (split_on ' ' h).length ≠ 4) : regex_match4 cmd last h = none := by
  unfold regex_match4
  split
  · rename_i c u p x heq
    rw [heq] at hl
    exact absurd rfl hl
  · rfl

theorem regex_match3_none_of_length {cmd : List Char} {h : List Char}
    (hl : (split_on ' ' h).length ≠ 3) : regex_match3 cmd h = none := by
  unfold regex_match3
  split
  · rename_i c u p heq
    rw [heq] at hl
    exact absurd rfl hl
  · rfl

theorem split_two_length (p x : List Char) (hp : ' ' ∈ p) :
    3 ≤ (split_on ' ' (p ++ ' ' :: x)).length := by
  rw [split_on_length, List.count_append, List.count_cons_self]
  have := List.count_pos_iff.2 hp
  omega

theorem regex_match4_header (cmd u p x : List Char) (last : List Char → Bool)
    (hc : ' ' ∉ cmd) (hu : ' ' ∉ u) (hx : ' ' ∉ x) (hune : u ≠ []) (hlast : last x = true) :
    regex_match4 cmd last (header4 cmd u p x) =
      if ' ' ∉ p ∧ path_field p = true then some ⟨u, p, x⟩ else none := by
  have hs : split_on ' ' (header4 cmd u p x) = cmd :: u :: split_on ' ' (p ++ ' ' :: x) := by
    unfold header4
    rw [split_on_append _ _ _ hc, split_on_append _ _ _ hu]
  by_cases hp : ' ' ∈ p
  · rw [if_neg (fun h => h.1 hp)]
    apply regex_match4_none_of_length
    rw [hs]
    have := split_two_length p x hp
    simp only [List.length_cons]
    omega
  · rw [split_on_append _ _ _ hp, split_on_of_not_mem _ _ hx] at hs
    unfold regex_match4
    rw [hs]
    simp only [true_and, hune, ne_eq, not_false_eq_true, hlast, and_true, hp]

theorem regex_match3_header (cmd u p : List Char) (hc : ' ' ∉ cmd) (hu : ' ' ∉ u)
    (hune : u ≠ []) :
    regex_match3 cmd (header3 cmd u p) =
      if ' ' ∉ p ∧ path_field p = true then some ⟨u, p, []⟩ else none := by
  have hs : split_on ' ' (header3 cmd u p) = cmd :: u :: split_on ' ' p := by
    unfold header3
    rw [split_on_append _ _ _ hc, split_on_append _ _ _ hu]
  by_cases hp : ' ' ∈ p
  · rw [if_neg (fun h => h.1 hp)]
    apply regex_match3_none_of_length
    rw [hs]
    have := split_on_length_of_mem ' ' p hp
    simp only [List.length_cons]
    omega
  · rw [split_on_of_not_mem _ _ hp] at hs
    unfold regex_match3
    rw [hs]
    simp only [true_and, hune, ne_eq, not_false_eq_true, hp]

theorem split_head_header4 (cmd u p x : List Char) (hc : ' ' ∉ cmd) :
    split_on ' ' (header4 cmd u p x) = cmd :: split_on ' ' (u ++ ' ' :: (p ++ ' ' :: x)) := by
  unfold header4
  rw [split_on_append _ _ _ hc]

theorem split_head_header3 (cmd u p : List Char) (hc : ' ' ∉ cmd) :
    split_on ' ' (header3 cmd u p) = cmd :: split_on ' ' (u ++ ' ' :: p) := by
  unfold header3
  rw [split_on_append _ _ _ hc]

theorem fill_user_and_path_iff (P : Params) (m : smatch) (out : request) (hu : UserOK P m.m2) :
    (fill_user_and_path P m out).isSome = true ↔ PathOK P m.m3 := by
  obtain ⟨h1, h2, h3⟩ := hu
  have hc : ¬ (m.m2 = [] ∨ m.m2.length > P.MUN ∨ has_space m.m2 = true) := by
    rintro (h | h | h)
    · exact h1 h
    · omega
    · rw [h3] at h; exact absurd h (by simp)
  unfold fill_user_and_path
  rw [if_neg hc, pathOK_iff]
  by_cases hs : has_space m.m3 = true
  · rw [if_pos hs]
    simp [hs]
  · rw [if_neg hs]
    have hs1 : has_space m.m3 = false := by simpa using hs
    rcases hsp : split_path_ss P m.m3 with _ | path
    · simp
    · by_cases hne : path = []
      · simp [hne]
      · simp [hne, hs1]

theorem fill_user_and_path_path {P : Params} {m : smatch} {out o : request}
    (h : fill_user_and_path P m out = some o) : o.path ≠ [] := by
  unfold fill_user_and_path at h
  split at h
  · exact absurd h (by simp)
  · split at h
    · exact absurd h (by simp)
    · split at h
      · exact absurd h (by simp)
      · split at h
        · exact absurd h (by simp)
        · rename_i hne
          rw [← Option.some.inj h]
          exact hne

theorem fill_block_path {P : Params} {m : smatch} {out o : request}
    (h : fill_block P m out = some o) : o.path = out.path := by
  unfold fill_block at h
  split at h
  · exact absurd h (by simp)
  · simp only at h
    split at h
    · exact absurd h (by simp)
    · rw [← Option.some.inj h]

theorem fill_block_ok (P : Params) (m : smatch) (out : request) (hP : P.ok)
    (hx : decimal m.m4 < P.MFB) :
    fill_block P m out = some { out with block := (decimal m.m4 : Int) } := by
  have hM := hP.2.1
  have hst : stoll m.m4 = some (decimal m.m4) := by
    unfold stoll
    rw [if_pos (by omega)]
  have hcast : castInt (decimal m.m4) = (decimal m.m4 : Int) :=
    castInt_of_lt _ (by omega)
  unfold fill_block
  rw [hst]
  simp only [hcast]
  rw [if_neg]
  rintro (h | h)
  · omega
  · have : ((decimal m.m4 : Int) % 4294967296).toNat = decimal m.m4 := by omega
    omega

/-! ## `parse_request` on headers given field by field -/

theorem parse_request_path {P : Params} {header : List Char} {req : request}
    (h : parse_request P header = some req) : req.path ≠ [] := by
  unfold parse_request at h
  split at h
  · split at h
    · exact absurd h (by simp)
    · rename_i o1 h1
      split at h
      · exact absurd h (by simp)
      · rename_i o2 h2
        rw [← Option.some.inj h]
        simp only
        rw [fill_block_path h2]
        exact fill_user_and_path_path h1
  · split at h
    · split at h
      · exact absurd h (by simp)
      · rename_i o1 h1
        split at h
        · exact absurd h (by simp)
        · rename_i o2 h2
          rw [← Option.some.inj h]
          simp only
          rw [fill_block_path h2]
          exact fill_user_and_path_path h1
    · split at h
      · split at h
        · exact absurd h (by simp)
        · rename_i o1 h1
          rw [← Option.some.inj h]
          simp only
          exact fill_user_and_path_path h1
      · split at h
        · split at h
          · exact absurd h (by simp)
          · rename_i o1 h1
            rw [← Option.some.inj h]
            simp only
            exact fill_user_and_path_path h1
        · exact absurd h (by simp)

theorem not_ok_of_no_match {P : Params} {p : List Char}
    (hc : ¬ (' ' ∉ p ∧ path_field p = true)) : ¬ PathOK P p := by
  intro hok
  exact hc ⟨space_not_mem_of_has_space hok.2.2.2.2.1, path_field_of_ok hok⟩

theorem block_tail_isSome (P : Params) (hP : P.ok) (m : smatch) (out : request) (header : List Char)
    (hu : UserOK P m.m2) (hx : decimal m.m4 < P.MFB) :
    (match fill_user_and_path P m out with
      | none => none
      | some out1 =>
        match fill_block P m out1 with
        | none => none
        | some out2 => some { out2 with header := header }).isSome = true ↔ PathOK P m.m3 := by
  rw [← fill_user_and_path_iff P m out hu]
  cases hf : fill_user_and_path P m out with
  | none => simp
  | some o1 =>
    simp only
    rw [fill_block_ok P m o1 hP hx]
    simp

theorem parse_read_header (P : Params) (hP : P.ok) (u p x : List Char) (hu : UserOK P u)
    (hx : BlockOK P x) :
    (parse_request P (header4 kw_read u p x)).isSome = true ↔ PathOK P p := by
  have hsu := space_not_mem_of_has_space hu.2.2
  have hre := regex_match4_header kw_read u p x block_field (by decide) hsu
    (space_not_mem_block hx.1) hu.1 hx.1
  have hhead := split_head_header4 kw_read u p x (by decide)
  by_cases hc : ' ' ∉ p ∧ path_field p = true
  · rw [if_pos hc] at hre
    unfold parse_request
    simp only [read_re, hre]
    exact block_tail_isSome P hP ⟨u, p, x⟩ _ _ hu hx.2
  · rw [if_neg hc] at hre
    have h2 : write_re (header4 kw_read u p x) = none :=
      regex_match4_none_of_head hhead (by decide)
    have h3 : create_re (header4 kw_read u p x) = none :=
      regex_match4_none_of_head hhead (by decide)
    have h4 : delete_re (header4 kw_read u p x) = none :=
      regex_match3_none_of_head hhead (by decide)
    have hn : parse_request P (header4 kw_read u p x) = none := by
      unfold parse_request
      simp only [h2, h3, h4]
      simp only [read_re, hre]
    rw [hn]
    constructor
    · intro h; exact absurd h (by simp)
    · intro h; exact absurd h (not_ok_of_no_match hc)

theorem parse_write_header (P : Params) (hP : P.ok) (u p x : List Char) (hu : UserOK P u)
    (hx : BlockOK P x) :
    (parse_request P (header4 kw_write u p x)).isSome = true ↔ PathOK P p := by
  have hsu := space_not_mem_of_has_space hu.2.2
  have hre := regex_match4_header kw_write u p x block_field (by decide) hsu
    (space_not_mem_block hx.1) hu.1 hx.1
  have hhead := split_head_header4 kw_write u p x (by decide)
  have h1 : read_re (header4 kw_write u p x) = none :=
    regex_match4_none_of_head hhead (by decide)
  by_cases hc : ' ' ∉ p ∧ path_field p = true
  · rw [if_pos hc] at hre
    unfold parse_request
    simp only [h1]
    simp only [write_re, hre]
    exact block_tail_isSome P hP ⟨u, p, x⟩ _ _ hu hx.2
  · rw [if_neg hc] at hre
    have h3 : create_re (header4 kw_write u p x) = none :=
      regex_match4_none_of_head hhead (by decide)
    have h4 : delete_re (header4 kw_write u p x) = none :=
      regex_match3_none_of_head hhead (by decide)
    have hn : parse_request P (header4 kw_write u p x) = none := by
      unfold parse_request
      simp only [h1, h3, h4]
      simp only [write_re, hre]
    rw [hn]
    constructor
    · intro h; exact absurd h (by simp)
    · intro h; exact absurd h (not_ok_of_no_match hc)

theorem parse_create_header (P : Params) (u p x : List Char) (hu : UserOK P u)
    (hx : kind_field x = true) :
    (parse_request P (header4 kw_create u p x)).isSome = true ↔ PathOK P p := by
  have hsu := space_not_mem_of_has_space hu.2.2
  have hre := regex_match4_header kw_create u p x kind_field (by decide) hsu
    (space_not_mem_kind hx) hu.1 hx
  have hhead := split_head_header4 kw_create u p x (by decide)
  have h1 : read_re (header4 kw_create u p x) = none :=
    regex_match4_none_of_head hhead (by decide)
  have h2 : write_re (header4 kw_create u p x) = none :=
    regex_match4_none_of_head hhead (by decide)
  by_cases hc : ' ' ∉ p ∧ path_field p = true
  · rw [if_pos hc] at hre
    unfold parse_request
    simp only [h1, h2]
    simp only [create_re, hre]
    rw [← fill_user_and_path_iff P ⟨u, p, x⟩
      { blank_request with type := request_t.FS_CREATE } hu]
    cases hf : fill_user_and_path P ⟨u, p, x⟩
      { blank_request with type := request_t.FS_CREATE } with
    | none => simp
    | some o1 => simp
  · rw [if_neg hc] at hre
    have h4 : delete_re (header4 kw_create u p x) = none :=
      regex_match3_none_of_head hhead (by decide)
    have hn : parse_request P (header4 kw_create u p x) = none := by
      unfold parse_request
      simp only [h1, h2, h4]
      simp only [create_re, hre]
    rw [hn]
    constructor
    · intro h; exact absurd h (by simp)
    · intro h; exact absurd h (not_ok_of_no_match hc)

theorem parse_delete_header (P : Params) (u p : List Char) (hu : UserOK P u) :
    (parse_request P (header3 kw_delete u p)).isSome = true ↔ PathOK P p := by
  have hsu := space_not_mem_of_has_space hu.2.2
  have hre := regex_match3_header kw_delete u p (by decide) hsu hu.1
  have hhead := split_head_header3 kw_delete u p (by decide)
  have h1 : read_re (header3 kw_delete u p) = none :=
    regex_match4_none_of_head hhead (by decide)
  have h2 : write_re (header3 kw_delete u p) = none :=
    regex_match4_none_of_head hhead (by decide)
  have h3 : create_re (header3 kw_delete u p) = none :=
    regex_match4_none_of_head hhead (by decide)
  by_cases hc : ' ' ∉ p ∧ path_field p = true
  · rw [if_pos hc] at hre
    unfold parse_request
    simp only [h1, h2, h3]
    simp only [delete_re, hre]
    rw [← fill_user_and_path_iff P ⟨u, p, []⟩
      { blank_request with type := request_t.FS_DELETE } hu]
    cases hf : fill_user_and_path P ⟨u, p, []⟩
      { blank_request with type := request_t.FS_DELETE } with
    | none => simp
    | some o1 => simp
  · rw [if_neg hc] at hre
    have hn : parse_request P (header3 kw_delete u p) = none := by
      unfold parse_request
      simp only [h1, h2, h3]
      simp only [delete_re, hre]
    rw [hn]
    constructor
    · intro h; exact absurd h (by simp)
    · intro h; exact absurd h (not_ok_of_no_match hc)

/-! ## C23: the block field of read and write headers -/

set_option maxRecDepth 100000 in
/-- C23, the code at a header the claim says is rejected: `FS_READBLOCK alice /a 4294967296`
has a block field without leading zeros whose value 4294967296 is at least `MFB`, and
`parse_request` accepts it, with block index 0 in the parsed request: `fill_block` narrows
the `long long` of `std::stoll` to the `int` field before it checks the range. This holds
for all parameters that admit the user name `alice` and the path `/a`. -/
theorem C23_block_wraps (P : Params) (hu : UserOK P alice) (hp : PathOK P ['/', 'a'])
    (h0 : 0 < P.MFB) (h1 : P.MFB ≤ 4294967296) :
    block_field ['4', '2', '9', '4', '9', '6', '7', '2', '9', '6'] = true ∧
    P.MFB ≤ decimal ['4', '2', '9', '4', '9', '6', '7', '2', '9', '6'] ∧
    (parse_request P hdr_wrap).map (fun r => r.block) = some 0 := by
  have hd : decimal ['4', '2', '9', '4', '9', '6', '7', '2', '9', '6'] = 4294967296 := by
    decide
  have hre : read_re hdr_wrap
      = some ⟨alice, ['/', 'a'], ['4', '2', '9', '4', '9', '6', '7', '2', '9', '6']⟩ := by
    unfold hdr_wrap read_re
    rw [regex_match4_header kw_read alice ['/', 'a']
      ['4', '2', '9', '4', '9', '6', '7', '2', '9', '6'] block_field (by decide) (by decide)
      (by decide) (by decide) (by decide)]
    exact if_pos (by decide)
  refine ⟨by decide, by rw [hd]; exact h1, ?_⟩
  have hf := (fill_user_and_path_iff P
    ⟨alice, ['/', 'a'], ['4', '2', '9', '4', '9', '6', '7', '2', '9', '6']⟩
    { blank_request with type := request_t.FS_READBLOCK } hu).2 hp
  obtain ⟨o1, ho1⟩ := Option.isSome_iff_exists.1 hf
  have hb : fill_block P ⟨alice, ['/', 'a'], ['4', '2', '9', '4', '9', '6', '7', '2', '9', '6']⟩ o1
      = some { o1 with block := 0 } := by
    have hst : stoll ['4', '2', '9', '4', '9', '6', '7', '2', '9', '6'] = some 4294967296 := by
      decide
    have hc : castInt 4294967296 = 0 := by decide
    unfold fill_block
    simp only [hst, hc]
    rw [if_neg]
    rintro (h | h)
    · omega
    · simp at h
      omega
  unfold parse_request
  simp only [hre, ho1, hb]
  rfl

set_option maxRecDepth 100000 in
/-- C23 at the example parameters (`MFB = 16`): the header
`FS_READBLOCK alice /a 4294967296` is accepted with block index 0. -/
theorem C23_block_wraps_witness :
    exP.MFB ≤ decimal ['4', '2', '9', '4', '9', '6', '7', '2', '9', '6'] ∧
    (parse_request exP hdr_wrap).map (fun r => r.block) = some 0 :=
  (C23_block_wraps exP (by unfold UserOK; decide) (by unfold PathOK; decide) (by decide)
    (by decide)).2

/-! ## C24: the path field -/

/-- C24 (path validation): for a valid user field, and a valid block field or kind field
where the command has one, `parse_request` accepts the header `FS_READBLOCK u p x`,
`FS_WRITEBLOCK u p x`, `FS_CREATE u p x` or `FS_DELETE u p` if and only if the path field `p`
begins with `/`, has length between 2 and `MPN`, does not end with `/`, holds no whitespace
character, and has no empty component and no component longer than `MFN`. The bare path `/`
does not meet these conditions, and every request `parse_request` returns has at least one
path component. -/
theorem C24_path_validation (P : Params) (hP : P.ok) (u p : List Char) (hu : UserOK P u) :
    (∀ x, BlockOK P x →
      ((parse_request P (header4 kw_read u p x)).isSome = true ↔ PathOK P p)) ∧
    (∀ x, BlockOK P x →
      ((parse_request P (header4 kw_write u p x)).isSome = true ↔ PathOK P p)) ∧
    (∀ x, kind_field x = true →
      ((parse_request P (header4 kw_create u p x)).isSome = true ↔ PathOK P p)) ∧
    ((parse_request P (header3 kw_delete u p)).isSome = true ↔ PathOK P p) ∧
    ¬ PathOK P ['/'] ∧
    (∀ header req, parse_request P header = some req → req.path ≠ []) := by
  refine ⟨fun x hx => parse_read_header P hP u p x hu hx,
    fun x hx => parse_write_header P hP u p x hu hx,
    fun x hx => parse_create_header P u p x hu hx,
    parse_delete_header P u p hu, ?_, fun header req h => parse_request_path h⟩
  intro h
  have := h.2.1
  simp at this

set_option maxRecDepth 100000 in
/-- C24 at the example parameters and the user `alice`: `FS_DELETE alice /a` is accepted,
and `FS_DELETE alice /a/`, `FS_DELETE alice /` and `FS_DELETE alice //a` are rejected. -/
theorem C24_path_validation_witness :
    exP.ok ∧ UserOK exP alice ∧
    (parse_request exP (header3 kw_delete alice ['/', 'a'])).isSome = true ∧
    (parse_request exP (header3 kw_delete alice ['/', 'a', '/'])).isSome = false ∧
    (parse_request exP (header3 kw_delete alice ['/'])).isSome = false ∧
    (parse_request exP (header3 kw_delete alice ['/', '/', 'a'])).isSome = false := by
  have hu : UserOK exP alice := by unfold UserOK; decide
  refine ⟨exP_ok, hu,
    (C24_path_validation exP exP_ok alice ['/', 'a'] hu).2.2.2.1.2
      (by unfold PathOK; decide),
    by decide, by decide, by decide⟩

/-! ## C31: the components of a path, put together again -/

theorem split_on_flatMap (sep : Char) (l : List Char) :
    (split_on sep l).flatMap (fun c => sep :: c) = sep :: l := by
  induction l with
  | nil => rfl
  | cons c cs ih =>
    rw [split_on_cons]
    by_cases hc : c = sep
    · rw [if_pos hc, List.flatMap_cons, ih, hc]
      rfl
    · rw [if_neg hc]
      rw [split_on_cons_eq sep cs, List.flatMap_cons] at ih
      rw [List.flatMap_cons]
      simp only [List.cons_append, List.cons.injEq, true_and] at ih ⊢
      exact ih

/-- C31: path splitting round trip. For every path for which `split_path_ss` returns a
non-empty component list `[c1, ..., cn]`, the string `"/" + c1 + "/" + ... + "/" + cn` is
the input path, and no component holds a `/`. -/
theorem C31_split_round_trip (P : Params) (p : List Char) (path : List (List Char))
    (h : split_path_ss P p = some path) (hne : path ≠ []) :
    path.flatMap (fun c => '/' :: c) = p ∧ ∀ c ∈ path, '/' ∉ c := by
  obtain ⟨h1, _, _, _, _, hp⟩ := (split_path_ok P p).1 path h hne
  subst hp
  refine ⟨?_, split_on_not_mem '/' p.tail⟩
  rw [split_on_flatMap]
  cases p with
  | nil => simp at h1
  | cons a t =>
    simp only [List.head?_cons, Option.some.injEq] at h1
    rw [h1]
    rfl

set_option maxRecDepth 100000 in
/-- C31 at the path `/a/bc`: the components are `a` and `bc`, and `/a/bc` is put together
from them again. -/
theorem C31_split_round_trip_witness :
    split_path_ss exP ['/', 'a', '/', 'b', 'c'] = some [['a'], ['b', 'c']] ∧
    ([['a'], ['b', 'c']].flatMap (fun c => '/' :: c) = ['/', 'a', '/', 'b', 'c'] ∧
      ∀ c ∈ [['a'], ['b', 'c']], '/' ∉ c) :=
  ⟨by decide,
    C31_split_round_trip exP ['/', 'a', '/', 'b', 'c'] [['a'], ['b', 'c']] (by decide)
      (by decide)⟩

end NFS
